import Mathlib

/-!
# Energy evaluation of `neofaunus` (`src/energy.h`)

A shallow embedding of the energy terms of `Faunus::Energy` and of the
`Hamiltonian` that sums them, followed by theorems about them.

Conventions of the embedding.

* `double` is an exact ordered ring or field `R`; the transcendental functions
  of `<cmath>` and the constant `pc::pi` are supplied by a `Numerics R` record.
  No value is ever NaN, so the `std::isnan` early exits of the source are never
  taken and are left out.
* A term is bound to a simulation state through a reference (`Tspace&`).  The
  energy functions take the current contents of that state as the argument
  `spc`.  The only other state a term can reach is the one behind
  `PolicyIonIon::old`; it is looked up in `mem`, a map from references to states.
* A member function that changes its object returns the changed object.
* `assert`, a throwing `.at()` and a read outside a vector end the call with a
  `Fault`.
* `#pragma omp parallel for reduction` loops are run in iteration order.
* A configuration is a `Json` value.  An exception ends the call with a `Fault`
  that carries the text of `what()`; the lines that a constructor writes to
  `std::cerr` are returned with its result.
-/

set_option linter.unusedSectionVars false

namespace Faunus

/-! ## Collaborating types (declared in headers that are not part of `src/`) -/

/-- How a call can end without a result. -/
inductive Fault where
  /-- An `assert` does not hold. -/
  | assertion
  /-- A range-checked access (`std::vector::at`) throws `std::out_of_range`. -/
  | out_of_range
  /-- An unchecked access (`operator[]`, iterator dereference) outside the container. -/
  | undefined_read
  /-- A `std::runtime_error` with its message. -/
  | runtime_error (what : String)
  /-- An exception of the json library (`json::out_of_range`, `json::type_error`,
  `json::invalid_iterator`) with its message. -/
  | json_exception (what : String)
deriving DecidableEq, Repr

/-- Equality of results is decidable when equality of faults and of values is. -/
instance instDecidableEqExcept {ε α : Type} [DecidableEq ε] [DecidableEq α] :
    DecidableEq (Except ε α)
  | .ok a, .ok b => if h : a = b then isTrue (by rw [h]) else isFalse (fun e => h (by cases e; rfl))
  | .error a, .error b =>
    if h : a = b then isTrue (by rw [h]) else isFalse (fun e => h (by cases e; rfl))
  | .ok _, .error _ => isFalse (fun e => by cases e)
  | .error _, .ok _ => isFalse (fun e => by cases e)

/-- Modelled from the spec: `Point` of core.h, three coordinates. -/
structure Point (R : Type) where
  x : R
  y : R
  z : R
deriving DecidableEq, Repr

namespace Point

variable {R : Type}

/-- Eigen `a.dot(b)`. -/
def dot [Add R] [Mul R] (a b : Point R) : R := a.x * b.x + a.y * b.y + a.z * b.z

/-- Eigen `a + b`. -/
def add [Add R] (a b : Point R) : Point R := ⟨a.x + b.x, a.y + b.y, a.z + b.z⟩

/-- Eigen `a - b`. -/
def sub [Sub R] (a b : Point R) : Point R := ⟨a.x - b.x, a.y - b.y, a.z - b.z⟩

/-- Eigen `c * a` for a scalar `c`. -/
def smul [Mul R] (c : R) (a : Point R) : Point R := ⟨c * a.x, c * a.y, c * a.z⟩

/-- Eigen `a.cwiseProduct(b)`. -/
def cwiseProduct [Mul R] (a b : Point R) : Point R := ⟨a.x * b.x, a.y * b.y, a.z * b.z⟩

/-- Eigen `a.squaredNorm()`. -/
def squaredNorm [Add R] [Mul R] (a : Point R) : R := a.dot a

/-- Eigen `a.maxCoeff()`. -/
def maxCoeff [Max R] (a : Point R) : R := max (max a.x a.y) a.z

/-- The point `(0,0,0)`. -/
def zero [Zero R] : Point R := ⟨0, 0, 0⟩

end Point

/-- Modelled from the spec: a particle descriptor, with the members the energy
terms read (`pos`, `charge`, `id`). -/
structure Particle (R : Type) where
  pos : Point R
  charge : R
  id : Nat
deriving DecidableEq, Repr

/-- Modelled from the spec: a group is a contiguous range of the particle vector
"forming one molecule or container of independent atoms".  `first` is the offset of
`begin()` in `Space::p`, `size` the number of active particles (`end()` is
`begin() + size`), `id` the molecule type, `atomic` tells a container of single
atoms from a molecule, `cm` is the mass centre. -/
structure Group (R : Type) where
  first : Nat
  size : Nat
  id : Nat
  atomic : Bool
  cm : Point R
deriving DecidableEq, Repr

/-- Modelled from the spec: the simulation container (`spc.geo`), "periodic-boundary
aware": squared distance, displacement vector, volume and box side lengths. -/
structure Geometry (R : Type) where
  sqdist : Point R → Point R → R
  vdist : Point R → Point R → Point R
  getVolume : R
  getLength : Point R

/-- Modelled from the spec: the simulation state, a particle vector `p`, the group
vector `groups` and the container `geo`. -/
structure Space (R : Type) where
  p : List (Particle R)
  groups : List (Group R)
  geo : Geometry R

/-- A reference to a simulation state (`Tspace&`, `Tspace*`). -/
abbrev SpaceRef := Nat

/-- A reference to an element of `Space::groups`: its position in the vector (what
`&g - &spc.groups.front()` computes) together with the group it refers to. -/
abbrev GroupRef (R : Type) := Nat × Group R

namespace Space

variable {R : Type}

/-- The particles `g.begin() .. g.end()` of a group. -/
def particles (spc : Space R) (g : Group R) : List (Particle R) :=
  (spc.p.drop g.first).take g.size

/-- References to all groups, in vector order (`spc.groups.begin() .. end()`). -/
def groupRefs (spc : Space R) : List (GroupRef R) := spc.groups.enum

/-- The unchecked `spc.groups[k]`. -/
def groupAt (spc : Space R) (k : Nat) : Except Fault (GroupRef R) :=
  match spc.groups[k]? with
  | some g => .ok (k, g)
  | none => .error Fault.undefined_read

/-- The unchecked dereference of the iterator `spc.p.begin() + k`. -/
def particleAt (spc : Space R) (k : Nat) : Except Fault (Particle R) :=
  match spc.p[k]? with
  | some a => .ok a
  | none => .error Fault.undefined_read

end Space

/-- Modelled from the spec: `GroupChange`, "`index` (identifies which group),
`allAtoms: bool` (whole group moved), `atomIndices`" (offsets from the group's
`begin()`); the source names them `index`, `all`, `atoms`. -/
structure Change.data where
  index : Nat
  all : Bool
  atoms : List Nat
deriving DecidableEq, Repr

/-- Modelled from the spec: the Change descriptor, `all`, `volumeChanged` (`dV` in
the source) and `groups`. -/
structure Change where
  dV : Bool
  all : Bool
  groups : List Change.data
deriving DecidableEq, Repr

namespace Change

/-- Modelled from the spec: "Empty Change (`all=false`, `volumeChanged=false`,
`groups=[]`) signals nothing changed". -/
def empty (c : Change) : Bool := !c.all && !c.dV && c.groups.isEmpty

/-- Modelled from the spec: the indices of the groups named by the Change ("`moved`
(from the Change)"), in the order of `groups`. -/
def touchedGroupIndex (c : Change) : List Nat := c.groups.map (fun d => d.index)

end Change

/-- Modelled from the spec: `PairMatrix<double>` of core.h, the "square matrix indexed
by (group index, group index), symmetric": read with `m(i,j)`, written with
`set(i,j,v)`, which stores `v` at `(i,j)` and at `(j,i)`. -/
structure PairMatrix (R : Type) where
  m : Nat → Nat → R

namespace PairMatrix

variable {R : Type}

/-- The call `m(i,j)`. -/
def get (c : PairMatrix R) (i j : Nat) : R := c.m i j

/-- The call `m.set(i,j,v)`. -/
def set (c : PairMatrix R) (i j : Nat) (v : R) : PairMatrix R :=
  ⟨fun a b => if (a = i ∧ b = j) ∨ (a = j ∧ b = i) then v else c.m a b⟩

end PairMatrix

/-- The functions of `<cmath>` and the constant `pc::pi` used by the energy terms. -/
structure Numerics (R : Type) where
  pi : R
  cos : R → R
  sin : R → R
  exp : R → R
  log : R → R
  sqrt : R → R

/-! ## `Energybase` -/

/-- The enumeration `Energybase::keys`. -/
inductive keys where
  | OLD
  | NEW
  | NONE
deriving DecidableEq, Repr

/-- The data members of `Energybase`. -/
structure Energybase where
  key : keys
  name : String
  cite : String
deriving DecidableEq, Repr

/-! ## `Nonbonded` and `NonbondedCached` -/

/-- The data members of `Nonbonded<Tspace,Tpairpot>`.  `Rc2_g2g` is the squared
group-to-group cutoff, `⊤` for `pc::infty`; `pairpot` takes two particles and their
displacement vector. -/
structure Nonbonded (R : Type) extends Energybase where
  g2gcnt : Nat
  g2gskip : Nat
  Rc2_g2g : WithTop R
  spc : SpaceRef
  pairpot : Particle R → Particle R → Point R → R

/-- The data members of `NonbondedCached<Tspace,Tpairpot>`: those of its base and
the energy matrix `cache`. -/
structure NonbondedCached (R : Type) extends Nonbonded R where
  cache : PairMatrix R

section NonbondedTerms

variable {R : Type} [LinearOrderedCommRing R]

/-- The loop `for (x : xs) u += f(x)`, where evaluating `f` may change the term;
`acc` holds `u` and the term. -/
def sumOver {σ α : Type} (f : α → σ → R × σ) (xs : List α) (acc : R × σ) : R × σ :=
  xs.foldl (fun a x => (a.1 + (f x a.2).1, (f x a.2).2)) acc

/-- The same loop when `f` can end in a fault. -/
def sumOverM {σ α : Type} (f : α → σ → Except Fault (R × σ)) (xs : List α)
    (acc : R × σ) : Except Fault (R × σ) :=
  xs.foldlM (fun a x => (f x a.2).map (fun r => (a.1 + r.1, r.2))) acc

/-- The loop `for (i = begin; i != end; ++i) for (j = i; ++j != end;) u += f(*i,*j)`. -/
def sumPairs {α : Type} (f : α → α → R) : List α → R → R
  | [], u => u
  | a :: rest, u => sumPairs f rest (rest.foldl (fun v b => v + f a b) u)

namespace Nonbonded

/-- `Nonbonded::cut`: true if the group to group interaction can be skipped.  Counts
the call in `g2gcnt` and the skip in `g2gskip`. -/
def cut (spc : Space R) (g1 g2 : Group R) (nb : Nonbonded R) : Bool × Nonbonded R :=
  let nb1 := { nb with g2gcnt := nb.g2gcnt + 1 }
  if ((spc.geo.sqdist g1.cm g2.cm : R) : WithTop R) < nb.Rc2_g2g then (false, nb1)
  else (true, { nb1 with g2gskip := nb1.g2gskip + 1 })

/-- `Nonbonded::i2i`: the pair potential of two particles at their displacement. -/
def i2i (spc : Space R) (pairpot : Particle R → Particle R → Point R → R)
    (a b : Particle R) : R :=
  pairpot a b (spc.geo.vdist a.pos b.pos)

/-- `Nonbonded::g_internal`: every pair of particles of the group, once. -/
def g_internal (spc : Space R) (pairpot : Particle R → Particle R → Point R → R)
    (g : Group R) : R :=
  sumPairs (i2i spc pairpot) (spc.particles g) 0

/-- `Nonbonded::g2g`, the base version of the virtual function. -/
def g2g (spc : Space R) (g1 g2 : Group R) (nb : Nonbonded R) : R × Nonbonded R :=
  let c := cut spc g1 g2 nb
  if c.1 then (0, c.2)
  else
    ((spc.particles g1).foldl
      (fun u i => (spc.particles g2).foldl (fun v j => v + i2i spc nb.pairpot i j) u) 0, c.2)

/-- `std::lower_bound` on a random-access range: the number of elements of `xs`
skipped.  `count` halves in every round, so `fuel = count` rounds are enough. -/
def lower_bound_loop (xs : List Nat) (val : Nat) : Nat → Nat → Nat → Nat
  | 0, first, _ => first
  | fuel + 1, first, count =>
    if count = 0 then first
    else
      let step := count / 2
      let it := first + step
      if xs.getD it 0 < val then lower_bound_loop xs val fuel (it + 1) (count - (step + 1))
      else lower_bound_loop xs val fuel first step

/-- `std::binary_search(xs.begin(), xs.end(), val)`: `lower_bound`, then a test of
the element found. -/
def binary_search (xs : List Nat) (val : Nat) : Bool :=
  let first := lower_bound_loop xs val xs.length 0 xs.length
  decide (first ≠ xs.length) && !decide (val < xs.getD first 0)

/-- The loop of `energy` for `change.dV` (`internal g` is `g.atomic`) and for
`change.all` (`internal g` is true): every later group, then the internal energy. -/
def allLoop {σ : Type} (spc : Space R) (pairpot : Particle R → Particle R → Point R → R)
    (g2g : GroupRef R → GroupRef R → σ → R × σ) (internal : Group R → Bool) :
    List (GroupRef R) → R × σ → R × σ
  | [], acc => acc
  | i :: rest, acc =>
    let acc1 := sumOver (fun j => g2g i j) rest acc
    let acc2 := if internal i.2 then (acc1.1 + g_internal spc pairpot i.2, acc1.2) else acc1
    allLoop spc pairpot g2g internal rest acc2

/-- One round of the loop `for (j = spc.p.begin(); j != spc.p.end(); ++j)` of the
single-atom branch: `if (i != j) u += i2i(*i, *j)`, for the particle `j.2` at offset
`j.1`. -/
def oneAtomStep (spc : Space R) (pairpot : Particle R → Particle R → Point R → R) (i : Nat)
    (u : R) (j : Nat × Particle R) : Except Fault R :=
  if i ≠ j.1 then (spc.particleAt i).map (fun a => u + i2i spc pairpot a j.2) else .ok u

/-- The branch of `energy` for exactly one moved atom: the particle
`spc.groups[d.index].begin() + d.atoms[0]` against every other particle of `spc.p`. -/
def oneAtom (spc : Space R) (pairpot : Particle R → Particle R → Point R → R)
    (d : Change.data) : Except Fault R :=
  (spc.groupAt d.index).bind fun g =>
    spc.p.enum.foldlM (oneAtomStep spc pairpot (g.2.first + d.atoms.getD 0 0)) 0

/-- The branch of `energy` for one group moved as a whole: every other group against
it, then its internal energy. -/
def oneGroup {σ : Type} (spc : Space R) (pairpot : Particle R → Particle R → Point R → R)
    (g2g : GroupRef R → GroupRef R → σ → R × σ) (d : Change.data) (s : σ) :
    Except Fault (R × σ) :=
  (spc.groupAt d.index).map fun g =>
    let acc := sumOver (fun i => g2g i g) (spc.groupRefs.filter (fun i => i.1 ≠ d.index)) (0, s)
    (acc.1 + g_internal spc pairpot g.2, acc.2)

/-- One `u += g2g(spc.groups[i], spc.groups[j])` of the general branch. -/
def g2gAt {σ : Type} (spc : Space R) (g2g : GroupRef R → GroupRef R → σ → R × σ)
    (i j : Nat) (s : σ) : Except Fault (R × σ) :=
  (spc.groupAt i).bind fun gi => (spc.groupAt j).map fun gj => g2g gi gj s

/-- The loop `moved<->moved` of the general branch. -/
def movedMoved {σ : Type} (spc : Space R) (g2g : GroupRef R → GroupRef R → σ → R × σ) :
    List Nat → R × σ → Except Fault (R × σ)
  | [], acc => .ok acc
  | i :: rest, acc =>
    (sumOverM (fun j => g2gAt spc g2g i j) rest acc).bind (movedMoved spc g2g rest)

/-- The general branch of `energy`: `moved` are the indices named by the Change,
`fixed` the indices `0 .. groups.size()-1` that `binary_search` does not find in
`moved`. -/
def general {σ : Type} (spc : Space R) (g2g : GroupRef R → GroupRef R → σ → R × σ)
    (change : Change) (s : σ) : Except Fault (R × σ) :=
  let moved := change.touchedGroupIndex
  let fixed := (List.range spc.groups.length).filter (fun i => !binary_search moved i)
  (movedMoved spc g2g moved (0, s)).bind fun acc =>
    moved.foldlM (fun a i => sumOverM (fun j => g2gAt spc g2g i j) fixed a) acc

/-- The body of `Nonbonded::energy`, shared by `Nonbonded` and `NonbondedCached`
through the virtual `g2g`. -/
def energyWith {σ : Type} (spc : Space R) (pairpot : Particle R → Particle R → Point R → R)
    (g2g : GroupRef R → GroupRef R → σ → R × σ) (change : Change) (s : σ) :
    Except Fault (R × σ) :=
  if change.empty then .ok (0, s)
  else if change.dV then
    .ok (allLoop spc pairpot g2g (fun g => g.atomic) spc.groupRefs (0, s))
  else if change.all then
    .ok (allLoop spc pairpot g2g (fun _ => true) spc.groupRefs (0, s))
  else
    match change.groups with
    | [d] =>
      if d.atoms.length = 1 then (oneAtom spc pairpot d).map (fun u => (u, s))
      else if d.all then oneGroup spc pairpot g2g d s
      else general spc g2g change s
    | _ => general spc g2g change s

/-- `Nonbonded::energy`. -/
def energy (spc : Space R) (change : Change) (nb : Nonbonded R) :
    Except Fault (R × Nonbonded R) :=
  energyWith spc nb.pairpot (fun g1 g2 s => g2g spc g1.2 g2.2 s) change nb

end Nonbonded

namespace NonbondedCached

/-- `NonbondedCached::g2g`: for the trial system the base `g2g` is evaluated and
stored in the cache; the cached value is returned. -/
def g2g (spc : Space R) (g1 g2 : GroupRef R) (nc : NonbondedCached R) :
    R × NonbondedCached R :=
  let i := g1.1
  let j := g2.1
  if nc.key = keys.NEW then
    let r := Nonbonded.g2g spc g1.2 g2.2 nc.toNonbonded
    let nc1 : NonbondedCached R := { toNonbonded := r.2, cache := nc.cache.set i j r.1 }
    (nc1.cache.get i j, nc1)
  else (nc.cache.get i j, nc)

/-- `NonbondedCached::energy`, inherited from `Nonbonded` with the overridden `g2g`. -/
def energy (spc : Space R) (change : Change) (nc : NonbondedCached R) :
    Except Fault (R × NonbondedCached R) :=
  Nonbonded.energyWith spc nc.pairpot (g2g spc) change nc

/-- `NonbondedCached::sync`: copy the energy matrix from `other`. -/
def sync (nc other : NonbondedCached R) (_change : Change) : NonbondedCached R :=
  { nc with cache := other.cache }

end NonbondedCached

end NonbondedTerms

/-! ## Reciprocal-space electrostatics: `EwaldData`, `PolicyIonIon`, `Ewald` -/

/-- A `std::complex<double>`. -/
@[ext]
structure Tcomplex (R : Type) where
  re : R
  im : R
deriving DecidableEq, Repr

namespace Tcomplex

variable {R : Type}

/-- The value `Tcomplex(0,0)`. -/
def zero [Zero R] : Tcomplex R := ⟨0, 0⟩

/-- The sum `a + b`. -/
def add [Add R] (a b : Tcomplex R) : Tcomplex R := ⟨a.re + b.re, a.im + b.im⟩

/-- The difference `a - b`. -/
def sub [Sub R] (a b : Tcomplex R) : Tcomplex R := ⟨a.re - b.re, a.im - b.im⟩

/-- The product `c * a` of a real and a complex number. -/
def smul [Mul R] (c : R) (a : Tcomplex R) : Tcomplex R := ⟨c * a.re, c * a.im⟩

/-- The squared magnitude `std::norm(a)`. -/
def norm [Add R] [Mul R] (a : Tcomplex R) : R := a.re * a.re + a.im * a.im

end Tcomplex

/-- The data members of `EwaldData`.  `kVectors` holds the columns of the 3 x n
matrix, `Aks` the entries of the vector.  `kcc` is an `int`; the arithmetic that
`update` does with it is reduced to 32 bits where it can leave the range of `int`
(see `int32`). -/
structure EwaldData (R : Type) where
  Qion : List (Tcomplex R)
  Qdip : List (Tcomplex R)
  kVectors : List (Point R)
  Aks : List R
  alpha : R
  alpha2 : R
  rc : R
  kc : R
  kc2 : R
  check_k2_zero : R
  lB : R
  const_inf : R
  eps_surf : R
  ionion : Bool
  iondipole : Bool
  dipoledipole : Bool
  spherical_sum : Bool
  ipbc : Bool
  kcc : Int
  kVectorsInUse : Nat
  L : Point R

/-- The call `v.resize(n)` of a `std::vector`: the first `n` elements are kept, new
elements are value-initialised. -/
def resize {α : Type} (zero : α) (n : Nat) (v : List α) : List α :=
  v.take n ++ List.replicate (n - v.length) zero

/-- The value of an expression of type `int` whose mathematical value is `x`: the
32-bit two's complement number that agrees with `x` modulo `2^32`.  It is `x` itself
for `-2^31 <= x < 2^31`; beyond that range it is what the multiplication and addition
of the usual hardware leave after an overflow. -/
def int32 (x : Int) : Int := (x + 2 ^ 31) % 2 ^ 32 - 2 ^ 31

/-- The integers `lo, lo+1, .., hi` of a loop `for (int k = lo; k <= hi; k++)`. -/
def intsFromTo (lo hi : Int) : List Int :=
  (List.range (hi + 1 - lo).toNat).map (fun n => lo + (n : Int))

/-- The dereference of the pointer `PolicyIonIon::old` and its companions. -/
structure PolicyIonIon where
  spc : SpaceRef
  old : Option SpaceRef
deriving DecidableEq, Repr

/-- The data members of `Ewald<Tspace,Policy>`. -/
structure Ewald (R : Type) extends Energybase where
  data : EwaldData R
  policy : PolicyIonIon
  spc : SpaceRef

section EwaldTerms

variable {R : Type} [LinearOrderedField R]

namespace EwaldData

/-- What the loops of `update` carry from one iteration to the next. -/
structure Sweep (R : Type) where
  kVectors : List (Point R)
  Aks : List R
  kVectorsInUse : Nat
  factor : R

/-- The body of the innermost loop of `update` for the triple `(kx, ky, kz)`.  The
`int` products `kx*kx`, `ky*ky`, `kz*kz` stay in the range of `int` for every
`kcc < 46341`, far beyond `kcc = 644`, where `kVectorsLength` overflows first. -/
def visit (M : Numerics R) (d : EwaldData R) (kx ky kz : Int) (w : Sweep R) : Sweep R :=
  let dkx2 : R := ((kx * kx : Int) : R)
  let dky2 : R := ((ky * ky : Int) : R)
  let dkz2 : R := ((kz * kz : Int) : R)
  let kv : Point R :=
    Point.smul (2 * M.pi) ⟨(kx : R) / d.L.x, (ky : R) / d.L.y, (kz : R) / d.L.z⟩
  let k2 := kv.dot kv
  if k2 < d.check_k2_zero then w
  else if d.spherical_sum && decide (dkx2 / d.kc2 + dky2 / d.kc2 + dkz2 / d.kc2 > 1) then w
  else
    { w with
      kVectors := w.kVectors.set w.kVectorsInUse kv
      Aks := w.Aks.set w.kVectorsInUse (w.factor * M.exp (-k2 / (4 * d.alpha2)) / k2)
      kVectorsInUse := w.kVectorsInUse + 1 }

/-- `EwaldData::update`: store the box and regenerate the k-vectors and their
weights.  `kVectorsLength` is an `int`: the product is reduced to 32 bits (reducing
the final value is the same as reducing after every operation), so it is
`(2 kcc + 1)^3 - 1` up to `kcc = 644` and overflows from `kcc = 645`.  A negative
`kVectorsLength` is refused by the `resize` of the matrix. -/
def update (M : Numerics R) (box : Point R) (d0 : EwaldData R) : Except Fault (EwaldData R) :=
  let d1 : EwaldData R := { d0 with L := box }
  let d : EwaldData R :=
    { d1 with check_k2_zero := (1 / 10) * (2 * M.pi / d1.L.maxCoeff) ^ 2 }
  let kVectorsLength : Int :=
    int32 ((2 * d.kcc + 1) * (2 * d.kcc + 1) * (2 * d.kcc + 1) - 1)
  if kVectorsLength = 0 then
    .ok { d with
      kVectors := [⟨1, 0, 0⟩]
      Aks := [0]
      kVectorsInUse := 1
      Qion := resize Tcomplex.zero 1 d.Qion
      Qdip := resize Tcomplex.zero 1 d.Qdip }
  else if kVectorsLength < 0 then .error Fault.assertion
  else
    let startValue : Int := 1 - (if d.ipbc then 1 else 0)
    let w0 : Sweep R :=
      { kVectors := List.replicate kVectorsLength.toNat Point.zero
        Aks := List.replicate kVectorsLength.toNat 0
        kVectorsInUse := 0
        factor := 1 }
    let w := (intsFromTo 0 d.kcc).foldl
      (fun w kx =>
        let w1 : Sweep R := if kx > 0 then { w with factor := 2 } else w
        (intsFromTo (-d.kcc * startValue) d.kcc).foldl
          (fun w2 ky =>
            (intsFromTo (-d.kcc * startValue) d.kcc).foldl
              (fun w3 kz => visit M d kx ky kz w3) w2) w1) w0
    .ok { d with
      kVectors := w.kVectors
      Aks := w.Aks
      kVectorsInUse := w.kVectorsInUse
      Qion := resize Tcomplex.zero w.kVectorsInUse d.Qion
      Qdip := resize Tcomplex.zero w.kVectorsInUse d.Qdip }

end EwaldData

namespace PolicyIonIon

/-- The contribution `i.charge * Tcomplex(cos(dot), sin(dot))` of the particle `i` to
the structure factor of the vector `kv`, where `dot = kv.dot(i.pos)`. -/
def phase (M : Numerics R) (kv : Point R) (i : Particle R) : Tcomplex R :=
  Tcomplex.smul i.charge ⟨M.cos (kv.dot i.pos), M.sin (kv.dot i.pos)⟩

/-- The structure factor that `updateComplex(data)` computes for the vector `kv`:
starting from `Q(0,0)`, the contribution of every particle is added. -/
def structureFactor (M : Numerics R) (kv : Point R) (p : List (Particle R)) : Tcomplex R :=
  p.foldl (fun Q i => Q.add (phase M kv i)) Tcomplex.zero

/-- The body of the loop over `k` of `updateComplex(data)`. -/
def updateComplexAt (M : Numerics R) (spc : Space R) (d : EwaldData R) (k : Nat) :
    Except Fault (EwaldData R) :=
  match d.kVectors[k]? with
  | none => .error Fault.undefined_read
  | some kv =>
    if k < d.Qion.length then .ok { d with Qion := d.Qion.set k (structureFactor M kv spc.p) }
    else .error Fault.out_of_range

/-- `PolicyIonIon::updateComplex(data)`: update all k vectors. -/
def updateComplex (M : Numerics R) (spc : Space R) (data : EwaldData R) :
    Except Fault (EwaldData R) :=
  (List.range data.kVectorsInUse).foldlM (updateComplexAt M spc) data

/-- The loop over `i = ibeg .. iend` (both included) of the second `updateComplex`. -/
def shift (M : Numerics R) (spc old : Space R) (q : Point R) :
    List Nat → Tcomplex R → Except Fault (Tcomplex R)
  | [], Q => .ok Q
  | i :: rest, Q =>
    match spc.p[i]?, old.p[i]? with
    | some a, some b =>
      shift M spc old q rest ((Q.add (phase M q a)).sub (phase M q b))
    | _, _ => .error Fault.undefined_read

/-- The body of the loop over `k` of `updateComplex(data, begin, end)`. -/
def updateComplexRangeAt (M : Numerics R) (spc old : Space R) (ibeg iend : Nat)
    (d : EwaldData R) (k : Nat) : Except Fault (EwaldData R) :=
  match d.Qion[k]? with
  | none => .error Fault.out_of_range
  | some Q =>
    match d.kVectors[k]? with
    | none => .error Fault.undefined_read
    | some q =>
      (shift M spc old q (List.range' ibeg (iend + 1 - ibeg)) Q).map
        (fun Q1 => { d with Qion := d.Qion.set k Q1 })

/-- `PolicyIonIon::updateComplex(data, begin, end)`: optimized update of the particles
`ibeg .. iend`, the offsets of `begin` and `end` in the particle vector.  `old` is
the state behind the pointer `old`, if it is set. -/
def updateComplexRange (M : Numerics R) (spc : Space R) (old : Option (Space R))
    (data : EwaldData R) (ibeg iend : Nat) : Except Fault (EwaldData R) :=
  match old with
  | none => .error Fault.assertion
  | some o =>
    if spc.p.length ≠ o.p.length then .error Fault.assertion
    else (List.range data.kVectorsInUse).foldlM (updateComplexRangeAt M spc o ibeg iend) data

/-- `PolicyIonIon::selfEnergy`. -/
def selfEnergy (M : Numerics R) (spc : Space R) (d : EwaldData R) : R :=
  let E : R := spc.p.foldl (fun E i => E + i.charge * i.charge) 0;
  -d.alpha * E / M.sqrt M.pi * d.lB

/-- `PolicyIonIon::surfaceEnergy`. -/
def surfaceEnergy (M : Numerics R) (spc : Space R) (d : EwaldData R) : R :=
  if d.const_inf < 1 / 2 then 0
  else
    let qr := spc.p.foldl (fun qr i => qr.add (Point.smul i.charge i.pos)) Point.zero
    d.const_inf * 2 * M.pi / ((2 * d.eps_surf + 1) * spc.geo.getVolume) * qr.dot qr * d.lB

/-- `PolicyIonIon::reciprocalEnergy`.  `d.Aks[k]` is unchecked. -/
def reciprocalEnergy (M : Numerics R) (spc : Space R) (d : EwaldData R) : Except Fault R :=
  (d.Qion.enum.foldlM
    (fun (E : R) (kQ : Nat × Tcomplex R) =>
      match d.Aks[kQ.1]? with
      | some A => Except.ok (E + A * kQ.2.norm)
      | none => Except.error Fault.undefined_read) 0).map
    (fun E => 2 * M.pi / spc.geo.getVolume * E * d.lB)

end PolicyIonIon

namespace Ewald

/-- The constructor `Ewald(j, spc)`, after `data = j` has read the configuration into
`d0`: generate the k-vectors for the box of `spc`, then all structure factors. -/
def construct (M : Numerics R) (d0 : EwaldData R) (ref : SpaceRef) (spc : Space R) :
    Except Fault (Ewald R) :=
  (EwaldData.update M spc.geo.getLength d0).bind fun d1 =>
    (PolicyIonIon.updateComplex M spc d1).map fun d2 =>
      { key := keys.NONE, name := "ewald", cite := "", data := d2,
        policy := { spc := ref, old := none }, spc := ref }

/-- The update of the structure factors that `energy` makes when `key == NEW`. -/
def refresh (M : Numerics R) (mem : SpaceRef → Space R) (spc : Space R) (change : Change)
    (e : Ewald R) : Except Fault (EwaldData R) :=
  if change.all || change.dV then PolicyIonIon.updateComplex M spc e.data
  else
    match change.groups with
    | [d] =>
      (spc.groupAt d.index).bind fun g =>
        if d.atoms.length = 1 then
          PolicyIonIon.updateComplexRange M spc (e.policy.old.map mem) e.data
            (g.2.first + d.atoms.getD 0 0) (g.2.first + d.atoms.getD 0 0)
        else
          PolicyIonIon.updateComplexRange M spc (e.policy.old.map mem) e.data
            g.2.first (g.2.first + g.2.size)
    | _ => PolicyIonIon.updateComplex M spc e.data

/-- `Ewald::energy`. -/
def energy (M : Numerics R) (mem : SpaceRef → Space R) (spc : Space R) (change : Change)
    (e : Ewald R) : Except Fault (R × Ewald R) :=
  if change.empty then .ok (0, e)
  else
    (if e.key = keys.NEW then refresh M mem spc change e else .ok e.data).bind fun data =>
      (PolicyIonIon.reciprocalEnergy M spc data).map fun rec =>
        (PolicyIonIon.selfEnergy M spc data + PolicyIonIon.surfaceEnergy M spc data + rec,
          { e with data := data })

/-- `Ewald::sync`, once the `dynamic_cast` of the peer has succeeded. -/
def sync (e other : Ewald R) (_change : Change) : Ewald R :=
  let policy : PolicyIonIon :=
    if other.key = keys.OLD then { e.policy with old := some other.spc } else e.policy
  { e with policy := policy, data := other.data }

end Ewald

end EwaldTerms

/-! ## `Isobaric`, `ExternalPotential`, `Confine`, `Bonded`, `Penalty` -/

/-- The data members of `Isobaric<Tspace>`; `P` is the pressure in units of kT. -/
structure Isobaric (R : Type) extends Energybase where
  spc : SpaceRef
  P : R

/-- The data members of `ExternalPotential<Tspace>`; `func` is the energy of a single
particle, `none` for the null `std::function`. -/
structure ExternalPotential (R : Type) extends Energybase where
  -- `names` is the member `_names` of the source
  spc : SpaceRef
  molids : List Nat
  func : Option (Particle R → R)
  names : List String

/-- The enumeration `Confine::Variant`. -/
inductive Variant where
  | sphere
  | cylinder
  | cuboid
  | none
deriving DecidableEq, Repr

/-- The data members of `Confine<Tspace>`, those inherited from `ExternalPotential`
included, except `func`: the constructor installs a closure over the members of this
same object, which `Confine.func` below evaluates. -/
structure Confine (R : Type) extends Energybase where
  spc : SpaceRef
  molids : List Nat
  names : List String
  type : Variant
  origo : Point R
  dir : Point R
  low : Point R
  high : Point R
  radius : R
  k : R
  scale : Bool

/-- Modelled from the spec: `Potential::BondData` of potentials.h, of which the energy
terms use the member function `energy(spc.p, spc.geo.distanceFunc)`; `index` are the
particles it joins. -/
structure BondData (R : Type) where
  index : List Nat
  energy : List (Particle R) → Geometry R → R

/-- The data members of `Bonded<Tspace>`.  `intra` is the `std::map` from group index
to the bonds inside that group, as its (key, value) pairs in key order. -/
structure Bonded (R : Type) extends Energybase where
  spc : SpaceRef
  inter : List (BondData R)
  intra : List (Nat × List (BondData R))

/-- The data members of `Penalty<Tspace>` that `energy` uses: the reaction coordinate
`rc`, applied to the state, and what the term has written to `std::cout`. -/
structure Penalty (R : Type) extends Energybase where
  spc : SpaceRef
  rc : Space R → List R
  cout : List String

section OtherTerms

variable {R : Type} [LinearOrderedField R]

namespace Isobaric

/-- `Isobaric::energy`. -/
def energy (M : Numerics R) (spc : Space R) (change : Change) (t : Isobaric R) : R :=
  if change.dV || change.all then
    let V := spc.geo.getVolume
    let N : Nat := spc.groups.foldl
      (fun N g => if g.size ≠ 0 then (if g.atomic then N + g.size else N + 1) else N) 0
    t.P * V - ((N : R) + 1) * M.log V
  else 0

end Isobaric

namespace ExternalPotential

/-- `ExternalPotential::_energy`: the external potential on the particles of a group
whose molecule type is in `molids`. -/
def _energy (spc : Space R) (molids : List Nat) (func : Particle R → R) (g : Group R) : R :=
  if molids.contains g.id then (spc.particles g).foldl (fun u p => u + func p) 0 else 0

/-- The loop of `energy` over the groups named by the Change. -/
def named (spc : Space R) (molids : List Nat) (func : Particle R → R) :
    List Change.data → R → Except Fault R
  | [], u => .ok u
  | d :: rest, u =>
    match spc.groups[d.index]? with
    | none => .error Fault.out_of_range
    | some g =>
      if d.all then named spc molids func rest (u + _energy spc molids func g)
      else if molids.contains g.id then
        (d.atoms.foldlM
          (fun (v : R) i => (spc.particleAt (g.first + i)).map (fun a => v + func a)) u).bind
          (named spc molids func rest)
      else named spc molids func rest u

/-- `ExternalPotential::energy`. -/
def energy (spc : Space R) (change : Change) (t : ExternalPotential R) : Except Fault R :=
  match t.func with
  | none => .error Fault.assertion
  | some func =>
    if change.dV || change.all then
      .ok (spc.groups.foldl (fun u g => u + _energy spc t.molids func g) 0)
    else named spc t.molids func change.groups 0

end ExternalPotential

namespace Confine

/-- The closure that the constructor `Confine(j, spc)` stores in `func`. -/
def func (c : Confine R) : Option (Particle R → R) :=
  match c.type with
  | Variant.sphere | Variant.cylinder =>
    some fun p =>
      let d2 := ((c.origo.sub p.pos).cwiseProduct c.dir).squaredNorm - c.radius * c.radius
      if d2 > 0 then (1 / 2) * c.k * d2 else 0
  | Variant.cuboid =>
    some fun p =>
      let side : R → R → R := fun u x => if x > 0 then u + x * x else u
      let d := c.low.sub p.pos
      let u1 := side (side (side 0 d.x) d.y) d.z
      let e := p.pos.sub c.high
      (1 / 2) * c.k * side (side (side u1 e.x) e.y) e.z
  | Variant.none => Option.none

/-- The base-class part of a `Confine` object. -/
def toExternalPotential (c : Confine R) : ExternalPotential R :=
  { toEnergybase := c.toEnergybase, spc := c.spc, molids := c.molids, func := c.func,
    names := c.names }

/-- `Confine::energy`, inherited from `ExternalPotential`. -/
def energy (spc : Space R) (change : Change) (c : Confine R) : Except Fault R :=
  ExternalPotential.energy spc change c.toExternalPotential

end Confine

namespace Bonded

/-- `Bonded::sum`. -/
def sum (spc : Space R) (v : List (BondData R)) : R :=
  v.foldl (fun u b => u + b.energy spc.p spc.geo) 0

/-- The access `intra[i]` of the `std::map`: the bonds stored under `i`, and the map,
to which an empty entry is added when `i` is not a key of it. -/
def intraAt (i : Nat) : List (Nat × List (BondData R)) →
    List (BondData R) × List (Nat × List (BondData R))
  | [] => ([], [(i, [])])
  | e :: rest =>
    if e.1 = i then (e.2, e :: rest)
    else if i < e.1 then ([], (i, []) :: e :: rest)
    else ((intraAt i rest).1, e :: (intraAt i rest).2)

/-- `Bonded::energy`. -/
def energy (spc : Space R) (c : Change) (t : Bonded R) : R × Bonded R :=
  if c.empty then (0, t)
  else
    let u := sum spc t.inter
    if c.all || c.dV then (t.intra.foldl (fun u i => u + sum spc i.2) u, t)
    else
      c.groups.foldl
        (fun (a : R × Bonded R) d =>
          (a.1 + sum spc (intraAt d.index a.2.intra).1,
            { a.2 with intra := (intraAt d.index a.2.intra).2 })) (u, t)

end Bonded

namespace Penalty

/-- `Penalty::energy`: evaluates the reaction coordinate, reports the key on
`std::cout` and returns zero. -/
def energy (spc : Space R) (change : Change) (t : Penalty R) : R × Penalty R :=
  if change.empty then (0, t)
  else
    let _coord := t.rc spc
    let t1 : Penalty R := if t.key = keys.NEW then { t with cout := t.cout ++ ["trial state"] } else t
    let t2 : Penalty R := if t1.key = keys.OLD then { t1 with cout := t1.cout ++ ["old state"] } else t1
    (0, t2)

end Penalty

/-! ## `Hamiltonian` -/

/-- An element of `BasePointerVector<Energybase>`: an energy term of one of the
classes derived from `Energybase`. -/
inductive Term (R : Type) where
  | nonbonded (t : Nonbonded R)
  | nonbondedCached (t : NonbondedCached R)
  | bonded (t : Bonded R)
  | ewald (t : Ewald R)
  | isobaric (t : Isobaric R)
  | confine (t : Confine R)
  | penalty (t : Penalty R)

/-- The data members of `Hamiltonian<Tspace>`: those of `Energybase` and the vector
`vec` of energy terms. -/
structure Hamiltonian (R : Type) extends Energybase where
  vec : List (Term R)

namespace Term

/-- The assignment `i->key = key`. -/
def setKey (key : keys) : Term R → Term R
  | nonbonded t => nonbonded { t with key := key }
  | nonbondedCached t => nonbondedCached { t with key := key }
  | bonded t => bonded { t with key := key }
  | ewald t => ewald { t with key := key }
  | isobaric t => isobaric { t with key := key }
  | confine t => confine { t with key := key }
  | penalty t => penalty { t with key := key }

/-- The member `key` of a term. -/
def key : Term R → keys
  | nonbonded t => t.key
  | nonbondedCached t => t.key
  | bonded t => t.key
  | ewald t => t.key
  | isobaric t => t.key
  | confine t => t.key
  | penalty t => t.key

/-- The virtual call `i->energy(change)`. -/
def energy (M : Numerics R) (mem : SpaceRef → Space R) (spc : Space R) (change : Change) :
    Term R → Except Fault (R × Term R)
  | nonbonded t => (Nonbonded.energy spc change t).map fun r => (r.1, nonbonded r.2)
  | nonbondedCached t =>
    (NonbondedCached.energy spc change t).map fun r => (r.1, nonbondedCached r.2)
  | bonded t => .ok ((Bonded.energy spc change t).1, bonded (Bonded.energy spc change t).2)
  | ewald t => (Ewald.energy M mem spc change t).map fun r => (r.1, ewald r.2)
  | isobaric t => .ok (Isobaric.energy M spc change t, isobaric t)
  | confine t => (Confine.energy spc change t).map fun u => (u, confine t)
  | penalty t => .ok ((Penalty.energy spc change t).1, penalty (Penalty.energy spc change t).2)

end Term

namespace Hamiltonian

/-- The loop of `Hamiltonian::energy`: `i->key = key; du += i->energy(change);` for
every term in vector order.  Returns `du` and the terms as the calls leave them. -/
def energyLoop (M : Numerics R) (mem : SpaceRef → Space R) (spc : Space R) (change : Change)
    (key : keys) : List (Term R) → R → Except Fault (R × List (Term R))
  | [], du => .ok (du, [])
  | i :: rest, du =>
    (Term.energy M mem spc change (i.setKey key)).bind fun r =>
      (energyLoop M mem spc change key rest (du + r.1)).map fun s => (s.1, r.2 :: s.2)

/-- `Hamiltonian::energy`: energy due to changes. -/
def energy (M : Numerics R) (mem : SpaceRef → Space R) (spc : Space R) (change : Change)
    (h : Hamiltonian R) : Except Fault (R × Hamiltonian R) :=
  (energyLoop M mem spc change h.key h.vec 0).map fun r => (r.1, { h with vec := r.2 })

end Hamiltonian

end OtherTerms

/-! ## Definitions used to state the theorems -/

section Sums

variable {R : Type} [LinearOrderedCommRing R]

/-- The sum of `f a b` over the pairs of elements of a list, `a` before `b`: each
unordered pair of positions once. -/
def pairsSum {α : Type} (f : α → α → R) : List α → R
  | [] => 0
  | a :: rest => (rest.map (f a)).sum + pairsSum f rest

/-- The sum of `f a b` over every `a` of the first list and every `b` of the second. -/
def crossSum {α β : Type} (f : α → β → R) (A : List α) (B : List β) : R :=
  (A.map (fun a => (B.map (f a)).sum)).sum

/-- The value of the base `Nonbonded::g2g` for two groups: zero if `cut` skips the
pair, otherwise the pair potential summed over every particle of the first group with
every particle of the second. -/
def Nonbonded.pairEnergy (spc : Space R) (Rc2_g2g : WithTop R)
    (pairpot : Particle R → Particle R → Point R → R) (g1 g2 : Group R) : R :=
  if ((spc.geo.sqdist g1.cm g2.cm : R) : WithTop R) < Rc2_g2g then
    crossSum (Nonbonded.i2i spc pairpot) (spc.particles g1) (spc.particles g2)
  else 0

/-- The groups `gs` cover the particles `s .. n-1` without gap or overlap, in vector
order. -/
def tiles : List (Group R) → Nat → Nat → Prop
  | [], s, n => s = n
  | g :: gs, s, n => g.first = s ∧ tiles gs (s + g.size) n

/-- Every particle of the particle vector is an active particle of exactly one group,
the groups following one another in vector order. -/
def Space.Tiled (spc : Space R) : Prop := tiles spc.groups 0 spc.p.length

end Sums

section Statements

variable {R : Type} [LinearOrderedField R]

/-- The empty Change: `all = false`, `dV = false`, no groups. -/
def Change.none : Change := { dV := false, all := false, groups := [] }

/-- The sizes that `EwaldData::update` leaves: the vectors in use are columns of
`kVectors`, there is a structure factor for each of them and a weight for every
structure factor. -/
def EwaldData.Sized (d : EwaldData R) : Prop :=
  d.kVectorsInUse ≤ d.kVectors.length ∧ d.kVectorsInUse ≤ d.Qion.length ∧
    d.Qion.length ≤ d.Aks.length

/-- A term whose single-particle potential `func` is set, as every constructor of
`Confine` leaves it; the other terms have no such member. -/
def Term.funcSet : Term R → Prop
  | Term.confine t => t.type ≠ Variant.none
  | _ => True

end Statements

/-! ## Concrete states on which the model is run -/

section Concrete

/-- Stand-ins for the functions of `<cmath>` on the rationals. -/
def qNumerics : Numerics ℚ :=
  { pi := 22 / 7, cos := fun x => 1 - x * x / 2, sin := fun x => x, exp := fun x => 1 + x,
    log := fun x => x - 1, sqrt := fun x => (x + 1) / 2 }

/-- A cubic box of side 10 without periodic images. -/
def qBox : Geometry ℚ :=
  { sqdist := fun a b => (a.sub b).squaredNorm, vdist := fun a b => a.sub b,
    getVolume := 1000, getLength := ⟨10, 10, 10⟩ }

/-- Two atomic groups of one unit charge each. -/
def qSpace : Space ℚ :=
  { p := [⟨⟨0, 0, 0⟩, 1, 0⟩, ⟨⟨3, 0, 0⟩, -1, 0⟩],
    groups := [⟨0, 1, 0, true, ⟨0, 0, 0⟩⟩, ⟨1, 1, 0, true, ⟨3, 0, 0⟩⟩],
    geo := qBox }

/-- A pair potential: the product of the charges times the squared distance. -/
def qPairpot : Particle ℚ → Particle ℚ → Point ℚ → ℚ :=
  fun a b r => a.charge * b.charge * r.squaredNorm

/-- A `Nonbonded` term with the default cutoff. -/
def qNonbonded : Nonbonded ℚ :=
  { key := keys.NONE, name := "nonbonded", cite := "", g2gcnt := 0, g2gskip := 0,
    Rc2_g2g := ⊤, spc := 0, pairpot := qPairpot }

/-- A `NonbondedCached` term with an all-zero energy matrix. -/
def qNonbondedCached : NonbondedCached ℚ :=
  { toNonbonded := { qNonbonded with name := "nonbondedEM" }, cache := ⟨fun _ _ => 0⟩ }

/-- A `Nonbonded` term with the group-group cutoff 1 (`Rc2_g2g = 1`). -/
def qNonbondedCut : Nonbonded ℚ :=
  { key := keys.NONE, name := "nonbonded", cite := "", g2gcnt := 0, g2gskip := 0,
    Rc2_g2g := ((1 : ℚ) : WithTop ℚ), spc := 0, pairpot := qPairpot }

/-- The energy matrix that holds the base `g2g` of the two groups of `qSpace`. -/
def qCacheOfSpace : PairMatrix ℚ :=
  ⟨fun a b => if (a = 0 ∧ b = 1) ∨ (a = 1 ∧ b = 0) then -9 else 0⟩

/-- The trial-state `NonbondedCached` term, its energy matrix consistent with `qSpace`. -/
def qConsistentNew : NonbondedCached ℚ :=
  { toNonbonded := { qNonbonded with name := "nonbondedEM", key := keys.NEW },
    cache := qCacheOfSpace }

/-- The reference-state `NonbondedCached` term, its energy matrix consistent with
`qSpace`. -/
def qConsistentOld : NonbondedCached ℚ :=
  { toNonbonded := { qNonbonded with name := "nonbondedEM", key := keys.OLD },
    cache := qCacheOfSpace }

/-- The `NonbondedCached` term tagged as the trial state. -/
def qCachedNew : NonbondedCached ℚ :=
  { toNonbonded := { qNonbonded with name := "nonbondedEM", key := keys.NEW },
    cache := ⟨fun _ _ => 0⟩ }

/-- The `NonbondedCached` term tagged as the reference state. -/
def qCachedOld : NonbondedCached ℚ :=
  { toNonbonded := { qNonbonded with name := "nonbondedEM", key := keys.OLD },
    cache := ⟨fun _ _ => 0⟩ }

/-- Ewald parameters as read from a configuration, before `update`. -/
def qEwaldData : EwaldData ℚ :=
  { Qion := [], Qdip := [], kVectors := [], Aks := [], alpha := 1, alpha2 := 1, rc := 5,
    kc := 1, kc2 := 1, check_k2_zero := 0, lB := 7, const_inf := 0, eps_surf := 0,
    ionion := false, iondipole := false, dipoledipole := false, spherical_sum := true,
    ipbc := false, kcc := 1, kVectorsInUse := 0, L := ⟨0, 0, 0⟩ }

/-- The state `qSpace` after the single atom of group 0 has moved to `(1,0,0)`. -/
def qSpaceMoved : Space ℚ :=
  { p := [⟨⟨1, 0, 0⟩, 1, 0⟩, ⟨⟨3, 0, 0⟩, -1, 0⟩],
    groups := [⟨0, 1, 0, true, ⟨0, 0, 0⟩⟩, ⟨1, 1, 0, true, ⟨3, 0, 0⟩⟩],
    geo := qBox }

/-- The state `qSpace` after the whole of group 1, the last group, has moved to
`(4,0,0)`. -/
def qSpaceLast : Space ℚ :=
  { p := [⟨⟨0, 0, 0⟩, 1, 0⟩, ⟨⟨4, 0, 0⟩, -1, 0⟩],
    groups := [⟨0, 1, 0, true, ⟨0, 0, 0⟩⟩, ⟨1, 1, 0, true, ⟨4, 0, 0⟩⟩],
    geo := qBox }

/-- A cubic box of side 20 without periodic images. -/
def qBoxScaled : Geometry ℚ :=
  { sqdist := fun a b => (a.sub b).squaredNorm, vdist := fun a b => a.sub b,
    getVolume := 8000, getLength := ⟨20, 20, 20⟩ }

/-- The state `qSpace` after a volume move to a box of side 20. -/
def qSpaceScaled : Space ℚ :=
  { p := [⟨⟨0, 0, 0⟩, 1, 0⟩, ⟨⟨6, 0, 0⟩, -1, 0⟩],
    groups := [⟨0, 1, 0, true, ⟨0, 0, 0⟩⟩, ⟨1, 1, 0, true, ⟨6, 0, 0⟩⟩],
    geo := qBoxScaled }

/-- The reference state `qSpace` behind reference 0, the trial state `qSpaceMoved`
behind every other reference. -/
def qMem : SpaceRef → Space ℚ := fun r => if r = 0 then qSpace else qSpaceMoved

/-- Ewald data with the single vector `(1,0,0)` and the structure factor of the
reference state `qSpace`. -/
def qEwaldDataOne : EwaldData ℚ :=
  { Qion := [PolicyIonIon.structureFactor qNumerics ⟨1, 0, 0⟩ qSpace.p], Qdip := [⟨0, 0⟩],
    kVectors := [⟨1, 0, 0⟩], Aks := [0], alpha := 1, alpha2 := 1, rc := 5,
    kc := 0, kc2 := 0, check_k2_zero := 0, lB := 7, const_inf := 0, eps_surf := 0,
    ionion := false, iondipole := false, dipoledipole := false, spherical_sum := true,
    ipbc := false, kcc := 0, kVectorsInUse := 1, L := ⟨10, 10, 10⟩ }

/-- The trial-state `Ewald` term: key `NEW`, bound to reference 1, with the
back-reference to the reference state 0. -/
def qEwaldNew : Ewald ℚ :=
  { key := keys.NEW, name := "ewald", cite := "", data := qEwaldDataOne,
    policy := { spc := 1, old := some 0 }, spc := 1 }

/-- An `Ewald` term holding `qEwaldData`. -/
def qEwald : Ewald ℚ :=
  { key := keys.NONE, name := "ewald", cite := "", data := qEwaldData,
    policy := { spc := 0, old := none }, spc := 0 }

/-- A spherical `Confine` term acting on molecule type 0. -/
def qConfine : Confine ℚ :=
  { key := keys.NONE, name := "confine", cite := "", spc := 0, molids := [0], names := ["salt"],
    type := Variant.sphere, origo := ⟨0, 0, 0⟩, dir := ⟨1, 1, 1⟩, low := ⟨0, 0, 0⟩,
    high := ⟨0, 0, 0⟩, radius := 2, k := 1, scale := false }

/-- A `Bonded` term without bonds. -/
def qBonded : Bonded ℚ :=
  { key := keys.NONE, name := "bonded", cite := "", spc := 0, inter := [],
    intra := [(0, []), (1, [])] }

/-- An `Isobaric` term. -/
def qIsobaric : Isobaric ℚ :=
  { key := keys.NONE, name := "isobaric", cite := "", spc := 0, P := 1 }

/-- A `Penalty` term. -/
def qPenalty : Penalty ℚ :=
  { key := keys.NONE, name := "penalty", cite := "", spc := 0, rc := fun _ => [0], cout := [] }

/-- A Hamiltonian with one term of every kind. -/
def qHamiltonian : Hamiltonian ℚ :=
  { key := keys.NEW, name := "hamiltonian", cite := "",
    vec := [Term.nonbonded qNonbonded, Term.nonbondedCached qNonbondedCached,
      Term.bonded qBonded, Term.ewald qEwald, Term.isobaric qIsobaric, Term.confine qConfine,
      Term.penalty qPenalty] }

end Concrete

/-! ## `sync` of the terms and of the `Hamiltonian` -/

section Sync

variable {R : Type} [LinearOrderedField R]

/-- `Penalty::sync`, once the `dynamic_cast` of the peer has succeeded: reports on
`std::cout` whether the move was rejected or accepted. -/
def Penalty.sync (t other : Penalty R) (_change : Change) : Penalty R :=
  let t1 : Penalty R :=
    if other.key = keys.OLD then { t with cout := t.cout ++ ["move was rejected"] } else t
  if other.key = keys.NEW then { t1 with cout := t1.cout ++ ["move was accepted"] } else t1

/-- The virtual call `this->sync(basePtr, change)`.  `Nonbonded`, `Bonded`, `Isobaric`
and `Confine` inherit `Energybase::sync`, which does nothing; `NonbondedCached`,
`Ewald` and `Penalty` downcast the peer to their own class and `assert` the result. -/
def Term.sync (change : Change) : Term R → Term R → Except Fault (Term R)
  | Term.nonbonded a, _ => .ok (Term.nonbonded a)
  | Term.nonbondedCached a, Term.nonbondedCached b =>
    .ok (Term.nonbondedCached (a.sync b change))
  | Term.nonbondedCached _, _ => .error Fault.assertion
  | Term.bonded a, _ => .ok (Term.bonded a)
  | Term.ewald a, Term.ewald b => .ok (Term.ewald (a.sync b change))
  | Term.ewald _, _ => .error Fault.assertion
  | Term.isobaric a, _ => .ok (Term.isobaric a)
  | Term.confine a, _ => .ok (Term.confine a)
  | Term.penalty a, Term.penalty b => .ok (Term.penalty (a.sync b change))
  | Term.penalty _, _ => .error Fault.assertion

namespace Hamiltonian

/-- The loop `for (i = 0; i < size(); i++) vec[i]->sync(other.vec[i].get(), change)`;
it runs after the sizes have been compared. -/
def syncLoop (change : Change) : List (Term R) → List (Term R) → Except Fault (List (Term R))
  | [], _ => .ok []
  | _ :: _, [] => .error Fault.undefined_read
  | t :: ts, o :: os =>
    (Term.sync change t o).bind fun t1 => (syncLoop change ts os).map fun r => t1 :: r

/-- `Hamiltonian::sync`. -/
def sync (h other : Hamiltonian R) (change : Change) : Except Fault (Hamiltonian R) :=
  if other.vec.length ≠ h.vec.length then .error Fault.assertion
  else (syncLoop change h.vec other.vec).map fun v => { h with vec := v }

end Hamiltonian

end Sync


/-! ## The configuration: `json` -/

/-- The part of the `json` class that the constructors and `to_json` use: a value is
null, a boolean, a number, a string, an array, or an object, whose entries are listed
in the order in which an iterator visits them (the order of the keys). -/
inductive Json (R : Type) where
  | null
  | boolean (b : Bool)
  | number (x : R)
  | string (s : String)
  | array (a : List (Json R))
  | object (m : List (String × Json R))

namespace Json

variable {R : Type}

/-- The name of the type of a value, as the exceptions of the library print it. -/
def type_name : Json R → String
  | null => "null"
  | boolean _ => "boolean"
  | number _ => "number"
  | string _ => "string"
  | array _ => "array"
  | object _ => "object"

/-- The entry stored under `key`, if there is one. -/
def lookup (key : String) : List (String × Json R) → Option (Json R)
  | [] => none
  | e :: rest => if e.1 = key then some e.2 else lookup key rest

/-- The member function `is_object`. -/
def is_object : Json R → Bool
  | object _ => true
  | _ => false

/-- The member function `count(key)`: 1 if the value is an object with the key, else 0. -/
def count (j : Json R) (key : String) : Nat :=
  match j with
  | object m => if (lookup key m).isSome then 1 else 0
  | _ => 0

/-- The member function `at(key)`: throws if the value is no object or has no such key. -/
def atKey (j : Json R) (key : String) : Except Fault (Json R) :=
  match j with
  | object m =>
    match lookup key m with
    | some v => .ok v
    | none =>
      .error (Fault.json_exception
        ("[json.exception.out_of_range.403] key '" ++ key ++ "' not found"))
  | _ =>
    .error (Fault.json_exception
      ("[json.exception.type_error.304] cannot use at() with " ++ j.type_name))

/-- The member function `value(key, dflt)` for a result type with the conversion
`conv`: `dflt` if the key is absent; throws if the value is no object. -/
def value {α : Type} (conv : Json R → Except Fault α) (j : Json R) (key : String)
    (dflt : α) : Except Fault α :=
  match j with
  | object m =>
    match lookup key m with
    | some v => conv v
    | none => .ok dflt
  | _ =>
    .error (Fault.json_exception
      ("[json.exception.type_error.306] cannot use value() with " ++ j.type_name))

/-- The unchecked access `j[key]` of a constant object, used after `count(key) == 1`. -/
def getKey (j : Json R) (key : String) : Except Fault (Json R) :=
  match j with
  | object m =>
    match lookup key m with
    | some v => .ok v
    | none => .error Fault.undefined_read
  | _ => .error Fault.undefined_read

/-- The conversion to `double`. -/
def getNumber : Json R → Except Fault R
  | number x => .ok x
  | j =>
    .error (Fault.json_exception
      ("[json.exception.type_error.302] type must be number, but is " ++ j.type_name))

/-- The conversion to `bool`. -/
def getBool : Json R → Except Fault Bool
  | boolean b => .ok b
  | j =>
    .error (Fault.json_exception
      ("[json.exception.type_error.302] type must be boolean, but is " ++ j.type_name))

/-- The conversion to `std::string`. -/
def getString : Json R → Except Fault String
  | string s => .ok s
  | j =>
    .error (Fault.json_exception
      ("[json.exception.type_error.302] type must be string, but is " ++ j.type_name))

/-- The conversion to a `std::vector` with the element conversion `conv`. -/
def getVector {α : Type} (conv : Json R → Except Fault α) : Json R → Except Fault (List α)
  | array a => a.mapM conv
  | j =>
    .error (Fault.json_exception
      ("[json.exception.type_error.302] type must be array, but is " ++ j.type_name))

/-- The comparison `j == "text"` with a string literal. -/
def isString (j : Json R) (text : String) : Bool :=
  match j with
  | string s => decide (s = text)
  | _ => false

/-- The values that a range-based `for` over `j` visits: the elements of an array,
the values of an object, nothing for null, the value itself otherwise. -/
def items : Json R → List (Json R)
  | array a => a
  | object m => m.map Prod.snd
  | null => []
  | j => [j]

end Json

/-- The text `e.what()` of a fault that a handler `catch (std::exception &e)` catches;
`none` for a failed assertion and for undefined behaviour, which no handler catches.
The text of a `std::out_of_range` thrown by a container is chosen by the standard
library and is written `out_of_range` here. -/
def Fault.what : Fault → Option String
  | Fault.assertion => none
  | Fault.undefined_read => none
  | Fault.out_of_range => some "out_of_range"
  | Fault.runtime_error w => some w
  | Fault.json_exception w => some w


/-! ## The constructors of the terms and of the `Hamiltonian` -/

/-- Modelled from the spec: the functions and constants of the headers outside `src/`
that the constructors call.  `lB` is `pc::lB`, the Bjerrum length for a relative
dielectric constant; `mM`, `Pa`, `atm` and `kJmol` are the unit literals `1.0_mM`,
`1.0_Pa`, `1.0_atm` and `1.0_kJmol`; `ceil` is `std::ceil`; `pairpot` reads the pair
potential selected by the name of the entry; `names2ids` resolves molecule names in
`molecules<Tpvec>`; `bonds` is `molecules<Tpvec>.at(id).bonds`; `bondlist` reads a bond
vector; `value_inf` reads a number, allowing infinity; `point` reads a `Point`;
`massCenterSeparation` constructs the reaction coordinate of that name. -/
structure Setup (R : Type) where
  lB : R → R
  mM : R
  Pa : R
  atm : R
  kJmol : R
  ceil : R → Int
  pairpot : String → Json R → Except Fault (Particle R → Particle R → Point R → R)
  names2ids : List String → Except Fault (List Nat)
  bonds : Nat → Except Fault (List (BondData R))
  bondlist : Json R → Except Fault (List (BondData R))
  value_inf : Json R → String → Except Fault R
  point : Json R → Except Fault (Point R)
  massCenterSeparation : Json R → Space R → Except Fault (Space R → List R)

/-- Modelled from the spec: `BondData::shift` of potentials.h, which adds the offset
to every particle index of the bond. -/
def BondData.shift {R : Type} (offset : Nat) (b : BondData R) : BondData R :=
  { b with index := b.index.map (fun i => i + offset) }

section Constructors

variable {R : Type} [LinearOrderedField R]

namespace EwaldData

/-- A default-initialised `EwaldData`: empty vectors and `kVectorsInUse = 0`.  The
other members have no initialiser; they are zero and false here, and each of them that
the term reads is assigned by `from_json` or `update` before. -/
def fresh : EwaldData R :=
  { Qion := [], Qdip := [], kVectors := [], Aks := [], alpha := 0, alpha2 := 0, rc := 0,
    kc := 0, kc2 := 0, check_k2_zero := 0, lB := 0, const_inf := 0, eps_surf := 0,
    ionion := false, iondipole := false, dipoledipole := false, spherical_sum := false,
    ipbc := false, kcc := 0, kVectorsInUse := 0, L := Point.zero }

/-- The function `from_json(j, d)` for `EwaldData`. -/
def from_json (S : Setup R) (j : Json R) (d : EwaldData R) : Except Fault (EwaldData R) :=
  ((j.atKey "alpha").bind Json.getNumber).bind fun alpha =>
    ((j.atKey "cutoff").bind Json.getNumber).bind fun rc =>
      ((j.atKey "cutoffK").bind Json.getNumber).bind fun kc =>
        (j.value Json.getBool "ipbc" false).bind fun ipbc =>
          (j.value Json.getBool "spherical_sum" true).bind fun spherical_sum =>
            ((j.atKey "epsr").bind Json.getNumber).bind fun epsr =>
              (j.value Json.getNumber "epss" 0).map fun eps_surf =>
                { d with
                  alpha := alpha
                  alpha2 := alpha * alpha
                  rc := rc
                  kc := kc
                  kc2 := kc * kc
                  kcc := S.ceil kc
                  ipbc := ipbc
                  spherical_sum := spherical_sum
                  lB := S.lB epsr
                  eps_surf := eps_surf
                  const_inf := if eps_surf < 1 then 0 else 1 }

/-- The function `to_json(j, d)` for `EwaldData`, applied to a null `j`: the object
with the eight keys that it assigns, in key order. -/
def to_json (d : EwaldData R) : Json R :=
  Json.object
    [("alpha", Json.number d.alpha), ("cutoff", Json.number d.rc),
      ("cutoffk", Json.number d.kc), ("epss", Json.number d.eps_surf),
      ("ipbc", Json.boolean d.ipbc), ("lB", Json.number d.lB),
      ("spherical_sum", Json.boolean d.spherical_sum),
      ("wavefunctions", Json.number (d.kVectorsInUse : R))]

end EwaldData

/-- The constructor `Ewald(j, spc)`: `data = j`, then `update` and `updateComplex`. -/
def Ewald.fromConfig (S : Setup R) (M : Numerics R) (j : Json R) (ref : SpaceRef)
    (spc : Space R) : Except Fault (Ewald R) :=
  (EwaldData.from_json S j EwaldData.fresh).bind fun d0 => Ewald.construct M d0 ref spc

/-- The constructor `Nonbonded(j, spc)` for the pair potential selected by the name
`entry` of the configuration entry. -/
def Nonbonded.construct (S : Setup R) (entry : String) (j : Json R) (ref : SpaceRef) :
    Except Fault (Nonbonded R) :=
  (S.pairpot entry j).bind fun pairpot =>
    (j.value (fun v => v.getNumber.map fun x => ((x : R) : WithTop R)) "cutoff_g2g" ⊤).map
      fun c =>
        { key := keys.NONE, name := "nonbonded", cite := "", g2gcnt := 0, g2gskip := 0,
          Rc2_g2g := WithTop.map (fun x => x ^ 2) c, spc := ref, pairpot := pairpot }

/-- The constructor `Isobaric(j, spc)`. -/
def Isobaric.construct (S : Setup R) (j : Json R) (ref : SpaceRef) : Except Fault (Isobaric R) :=
  let done : R → Isobaric R := fun P =>
    { key := keys.NONE, name := "isobaric", cite := "Frenkel & Smith 2nd Ed (Eq. 5.4.13)",
      spc := ref, P := P }
  (j.value Json.getNumber "P/mM" 0).bind fun a =>
    if a * S.mM < 1 / 10 ^ 10 then
      (j.value Json.getNumber "P/Pa" 0).bind fun b =>
        if b * S.Pa < 1 / 10 ^ 10 then
          ((j.atKey "P/atm").bind Json.getNumber).map fun c => done (c * S.atm)
        else .ok (done (b * S.Pa))
    else .ok (done (a * S.mM))

/-- The constructor `ExternalPotential(j, spc)`.  `molids` is a `std::set`: the
identifiers without repetition, in ascending order. -/
def ExternalPotential.construct (S : Setup R) (j : Json R) (ref : SpaceRef) :
    Except Fault (ExternalPotential R) :=
  ((j.atKey "molecules").bind (Json.getVector Json.getString)).bind fun names =>
    (S.names2ids names).bind fun ids =>
      let molids := (ids.dedup).insertionSort (fun a b => a ≤ b)
      if molids.isEmpty || decide (molids.length ≠ names.length) then
        .error (Fault.runtime_error ("external" ++ ": molecule list is empty"))
      else
        .ok { key := keys.NONE, name := "external", cite := "", spc := ref, molids := molids,
              func := none, names := names }

/-- The lookup `m.at(name)` in the map from names to `Variant`. -/
def Confine.variantOf (name : String) : Except Fault Variant :=
  if name = "sphere" then .ok Variant.sphere
  else if name = "cylinder" then .ok Variant.cylinder
  else if name = "cuboid" then .ok Variant.cuboid
  else .error Fault.out_of_range

/-- The constructor `Confine(j, spc)`.  `low`, `high` and `radius` have no
initialiser; where the constructor does not assign them they are zero here.  The
trigger that the constructor registers with the space for `scale` is not part of the
term. -/
def Confine.construct (S : Setup R) (j : Json R) (ref : SpaceRef) : Except Fault (Confine R) :=
  (ExternalPotential.construct S j ref).bind fun base =>
    (S.value_inf j "k").bind fun k0 =>
      (((j.atKey "type").bind Json.getString).bind Confine.variantOf).bind fun type =>
        let c0 : Confine R :=
          { key := base.key, name := "confine", cite := base.cite, spc := ref,
            molids := base.molids, names := base.names, type := type, origo := ⟨0, 0, 0⟩,
            dir := ⟨1, 1, 1⟩, low := Point.zero, high := Point.zero, radius := 0,
            k := k0 * S.kJmol, scale := false }
        match type with
        | Variant.sphere | Variant.cylinder =>
          ((j.atKey "radius").bind Json.getNumber).bind fun radius =>
            (j.value S.point "origo" c0.origo).bind fun origo =>
              (j.value Json.getBool "scale" c0.scale).map fun scale =>
                { c0 with
                  radius := radius
                  origo := origo
                  scale := scale
                  dir := if type = Variant.cylinder then ⟨1, 1, 0⟩ else c0.dir }
        | Variant.cuboid =>
          ((j.atKey "low").bind S.point).bind fun low =>
            ((j.atKey "high").bind S.point).map fun high =>
              { c0 with low := low, high := high }
        | Variant.none => .ok c0

/-- The member function `Bonded::update`: for every group the bonds of its molecule,
shifted to the first particle of the group, stored under the index of the group. -/
def Bonded.update (S : Setup R) (spc : Space R) :
    Except Fault (List (Nat × List (BondData R))) :=
  spc.groups.enum.mapM fun ig =>
    (S.bonds ig.2.id).map fun bs => (ig.1, bs.map (BondData.shift ig.2.first))

/-- The constructor `Bonded(j, spc)`. -/
def Bonded.construct (S : Setup R) (j : Json R) (ref : SpaceRef) (spc : Space R) :
    Except Fault (Bonded R) :=
  (Bonded.update S spc).bind fun intra =>
    (if j.is_object && decide (j.count "bondlist" = 1) then
      (j.getKey "bondlist").bind S.bondlist
    else .ok []).map fun inter =>
      { key := keys.NONE, name := "bonded", cite := "", spc := ref, inter := inter,
        intra := intra }

/-- The constructor `Penalty(j, spc)`.  The two tables `histo` and `penalty` that it
sizes from `binwidth` are not read by `energy` and are not kept. -/
def Penalty.construct (S : Setup R) (j : Json R) (ref : SpaceRef) (spc : Space R) :
    Except Fault (Penalty R) :=
  ((j.atKey "type").bind Json.getString).bind fun type =>
    (if type = "cm" then (S.massCenterSeparation j spc).map some else .ok none).bind fun rc =>
      match rc with
      | none =>
        .error (Fault.runtime_error ("penalty" ++ ": unknown type'" ++ type ++ "'"))
      | some rc =>
        (j.value (Json.getVector Json.getNumber) "binwidth" [1, 1]).map fun _bw =>
          { key := keys.NONE, name := "penalty", cite := "", spc := ref, rc := rc, cout := [] }

namespace Hamiltonian

/-- One statement `if (it.key() == name) push_back<T>(it.value(), spc)`. -/
def pushIf (key name : String) (ctor : Except Fault (Term R)) (vec : List (Term R)) :
    Except Fault (List (Term R)) :=
  if key = name then ctor.map fun t => vec ++ [t] else .ok vec

/-- `Hamiltonian::addEwald`: adds an instance of reciprocal space Ewald energies, if
appropriate. -/
def addEwald (S : Setup R) (M : Numerics R) (ref : SpaceRef) (spc : Space R) (j : Json R)
    (vec : List (Term R)) : Except Fault (List (Term R)) :=
  if j.count "coulomb" = 1 then
    (j.getKey "coulomb").bind fun c =>
      (c.atKey "type").bind fun t =>
        if t.isString "ewald" then
          (Ewald.fromConfig S M c ref spc).map fun e => vec ++ [Term.ewald e]
        else .ok vec
  else .ok vec

/-- The statements of the `try` block of the constructor before the test for an
unknown entry: the terms selected by the name of the entry, then `addEwald`.  The
entry `sasa` is compiled only with `ENABLE_POWERSASA` and is left out. -/
def addTerms (S : Setup R) (M : Numerics R) (ref : SpaceRef) (spc : Space R)
    (key : String) (value : Json R) (vec : List (Term R)) : Except Fault (List (Term R)) :=
  (pushIf key "nonbonded_coulomblj"
    ((Nonbonded.construct S key value ref).map Term.nonbonded) vec).bind fun v1 =>
  (pushIf key "nonbonded_coulombhs"
    ((Nonbonded.construct S key value ref).map Term.nonbonded) v1).bind fun v2 =>
  (pushIf key "nonbonded_coulombwca"
    ((Nonbonded.construct S key value ref).map Term.nonbonded) v2).bind fun v3 =>
  (pushIf key "nonbonded_pmwca"
    ((Nonbonded.construct S key value ref).map Term.nonbonded) v3).bind fun v4 =>
  (pushIf key "bonded" ((Bonded.construct S value ref spc).map Term.bonded) v4).bind fun v5 =>
  (pushIf key "confine" ((Confine.construct S value ref).map Term.confine) v5).bind fun v6 =>
  (pushIf key "isobaric" ((Isobaric.construct S value ref).map Term.isobaric) v6).bind fun v7 =>
  (pushIf key "penalty" ((Penalty.construct S value ref spc).map Term.penalty) v7).bind fun v8 =>
  addEwald S M ref spc value v8

/-- The text of the `std::runtime_error` that the handler of the constructor throws. -/
def errorText (key what : String) : String :=
  "Error adding energy '" ++ key ++ "': " ++ what

/-- The text of the warning that the constructor writes to `std::cerr`. -/
def warningText (key : String) : String :=
  "warning: ignoring unknown energy '" ++ key ++ "'"

/-- The body of the inner loop of the constructor for the entry `it`: the `try` block
with its handler.  The state is the vector of terms and the lines written to
`std::cerr`; `oldsize` is the size of the vector when the loop over the entries of the
object began. -/
def addEntry (S : Setup R) (M : Numerics R) (ref : SpaceRef) (spc : Space R) (oldsize : Nat)
    (st : List (Term R) × List String) (it : String × Json R) :
    Except Fault (List (Term R) × List String) :=
  match addTerms S M ref spc it.1 it.2 st.1 with
  | .ok vec =>
    .ok (vec, if vec.length = oldsize then st.2 ++ [warningText it.1] else st.2)
  | .error f =>
    match f.what with
    | some w => .error (Fault.runtime_error (errorText it.1 w))
    | none => .error f

/-- The body of the outer loop of the constructor for the element `m` of the list
`energy`.  For an `m` that is no object the iterator has no key: `it.key()` throws
in the `try` block and again in its handler. -/
def addObject (S : Setup R) (M : Numerics R) (ref : SpaceRef) (spc : Space R)
    (st : List (Term R) × List String) (m : Json R) :
    Except Fault (List (Term R) × List String) :=
  match m with
  | Json.object entries => entries.foldlM (addEntry S M ref spc st.1.length) st
  | Json.null => .ok st
  | Json.array [] => .ok st
  | _ =>
    .error (Fault.json_exception
      "[json.exception.invalid_iterator.207] cannot use key() for non-object iterators")

/-- The constructor `Hamiltonian(spc, j)`: the Hamiltonian and the lines written to
`std::cerr`. -/
def construct (S : Setup R) (M : Numerics R) (ref : SpaceRef) (spc : Space R) (j : Json R) :
    Except Fault (Hamiltonian R × List String) :=
  (j.atKey "energy").bind fun je =>
    (je.items.foldlM (addObject S M ref spc) ([], [])).map fun st =>
      ({ key := keys.NONE, name := "hamiltonian", cite := "", vec := st.1 }, st.2)

end Hamiltonian

end Constructors


/-! ## Further definitions used to state the theorems -/

section Kinds

variable {R : Type}

/-- The class of an energy term. -/
inductive Term.Kind where
  | nonbonded
  | nonbondedCached
  | bonded
  | ewald
  | isobaric
  | confine
  | penalty
deriving DecidableEq, Repr

/-- The class of which the term is an object. -/
def Term.kind : Term R → Term.Kind
  | Term.nonbonded _ => Term.Kind.nonbonded
  | Term.nonbondedCached _ => Term.Kind.nonbondedCached
  | Term.bonded _ => Term.Kind.bonded
  | Term.ewald _ => Term.Kind.ewald
  | Term.isobaric _ => Term.Kind.isobaric
  | Term.confine _ => Term.Kind.confine
  | Term.penalty _ => Term.Kind.penalty

/-- The classes that override `sync` and downcast the peer in it. -/
def Term.Kind.downcasts : Term.Kind → Bool
  | Term.Kind.nonbondedCached => true
  | Term.Kind.ewald => true
  | Term.Kind.penalty => true
  | _ => false

end Kinds

section EwaldFormulas

variable {R : Type} [LinearOrderedField R]

/-- The reciprocal energy in the words of the specification:
`(2 pi / V) * lB * sum_k Aks[k] * |Qion[k]|^2`. -/
def Ewald.reciprocalFormula (M : Numerics R) (spc : Space R) (d : EwaldData R) : R :=
  2 * M.pi / spc.geo.getVolume * d.lB *
    ((d.Aks.zip d.Qion).map (fun a => a.1 * (a.2.re ^ 2 + a.2.im ^ 2))).sum

/-- The self energy in the words of the specification:
`-alpha * lB * (sum_i q_i^2) / sqrt(pi)`. -/
def Ewald.selfFormula (M : Numerics R) (spc : Space R) (d : EwaldData R) : R :=
  -d.alpha * d.lB * (spc.p.map (fun i => i.charge ^ 2)).sum / M.sqrt M.pi

/-- The vector `sum_i q_i r_i`. -/
def Ewald.dipoleMoment (spc : Space R) : Point R :=
  ⟨(spc.p.map (fun i => i.charge * i.pos.x)).sum, (spc.p.map (fun i => i.charge * i.pos.y)).sum,
    (spc.p.map (fun i => i.charge * i.pos.z)).sum⟩

/-- The surface energy in the words of the specification: zero when `eps_surf < 1`,
otherwise `2 pi lB |sum_i q_i r_i|^2 / ((2 eps_surf + 1) V)`. -/
def Ewald.surfaceFormula (M : Numerics R) (spc : Space R) (d : EwaldData R) : R :=
  if d.eps_surf < 1 then 0
  else
    2 * M.pi * d.lB * (Ewald.dipoleMoment spc).squaredNorm /
      ((2 * d.eps_surf + 1) * spc.geo.getVolume)

/-- The Changes for which `Ewald::energy` recomputes every structure factor from the
current particles: `all`, `dV`, or a number of named groups other than one. -/
def Change.fullUpdate (c : Change) : Prop :=
  c.all = true ∨ c.dV = true ∨ c.groups.length ≠ 1

end EwaldFormulas

section ConfigurationStatements

variable {R : Type}

/-- The names of configuration entries for which the constructor of the Hamiltonian
adds a term. -/
def Hamiltonian.termNames : List String :=
  ["nonbonded_coulomblj", "nonbonded_coulombhs", "nonbonded_coulombwca", "nonbonded_pmwca",
    "bonded", "confine", "isobaric", "penalty"]

/-- The keys that `from_json` requires of an ewald block. -/
def EwaldData.requiredKeys : List String := ["alpha", "cutoff", "cutoffK", "epsr"]

/-- The configuration `{"energy": [m_1, .., m_n]}`. -/
def Hamiltonian.config (ms : List (Json R)) : Json R :=
  Json.object [("energy", Json.array ms)]

end ConfigurationStatements

section GroupIndices

variable {R : Type} [LinearOrderedCommRing R]

/-- The group with index `i`; an empty group for an index outside the group vector. -/
def Space.groupOr (spc : Space R) (i : Nat) : Group R :=
  spc.groups.getD i ⟨0, 0, 0, false, Point.zero⟩

end GroupIndices


/-! ## Further concrete states -/

section ConcreteMore

/-- A Hamiltonian with the terms `[Bonded, Isobaric]`. -/
def qHamiltonianBI : Hamiltonian ℚ :=
  { key := keys.NEW, name := "hamiltonian", cite := "",
    vec := [Term.bonded qBonded, Term.isobaric qIsobaric] }

/-- A Hamiltonian with the terms `[Isobaric, Bonded]`. -/
def qHamiltonianIB : Hamiltonian ℚ :=
  { key := keys.OLD, name := "hamiltonian", cite := "",
    vec := [Term.isobaric qIsobaric, Term.bonded qBonded] }

end ConcreteMore

section ConcreteEwald

/-- The data `qEwaldDataOne` with the weight 1 for its single vector. -/
def qEwaldDataWeighted : EwaldData ℚ :=
  { qEwaldDataOne with Aks := [1] }

/-- The trial-state `Ewald` term on `qEwaldDataWeighted`. -/
def qEwaldNewWeighted : Ewald ℚ :=
  { key := keys.NEW, name := "ewald", cite := "", data := qEwaldDataWeighted,
    policy := { spc := 1, old := some 0 }, spc := 1 }

/-- The Change that names atom 0 of group 0. -/
def qChangeAtom : Change :=
  { dV := false, all := false, groups := [{ index := 0, all := false, atoms := [0] }] }

end ConcreteEwald

section ConcreteConfiguration

/-- Stand-ins for the collaborators of the constructors: one molecule type `salt`
with identifier 0 and no bonds; a name that is not known resolves to no identifier. -/
def qSetup : Setup ℚ :=
  { lB := fun epsr => 560 / epsr, mM := 1 / 1000, Pa := 1 / 100000, atm := 1, kJmol := 2 / 5,
    ceil := fun x => ⌈x⌉,
    pairpot := fun _ _ => .ok qPairpot,
    names2ids := fun names => .ok (names.filterMap fun n => if n = "salt" then some 0 else none),
    bonds := fun _ => .ok [],
    bondlist := fun _ => .ok [],
    value_inf := fun j key => (j.atKey key).bind Json.getNumber,
    point := fun j =>
      match j with
      | Json.array [Json.number x, Json.number y, Json.number z] => .ok ⟨x, y, z⟩
      | _ => .error (Fault.json_exception "type must be array, but is not"),
    massCenterSeparation := fun _ _ => .ok fun _ => [0] }

/-- A valid ewald block: `alpha`, `cutoff`, `cutoffK` and `epsr`. -/
def qEwaldConfig : Json ℚ :=
  Json.object
    [("alpha", Json.number 1), ("cutoff", Json.number 5), ("cutoffK", Json.number 1),
      ("epsr", Json.number 80)]

/-- The data that `from_json` reads from `qEwaldConfig`. -/
def qEwaldRead : EwaldData ℚ :=
  { (EwaldData.fresh : EwaldData ℚ) with
    alpha := 1
    alpha2 := 1 * 1
    rc := 5
    kc := 1
    kc2 := 1 * 1
    kcc := qSetup.ceil 1
    ipbc := false
    spherical_sum := true
    lB := qSetup.lB 80
    eps_surf := 0
    const_inf := 0 }

end ConcreteConfiguration

section ConcretePairs

/-- Two groups of two particles each, on a line. -/
def qSpacePairs : Space ℚ :=
  { p := [⟨⟨0, 0, 0⟩, 1, 0⟩, ⟨⟨1, 0, 0⟩, 1, 0⟩, ⟨⟨5, 0, 0⟩, -1, 0⟩, ⟨⟨6, 0, 0⟩, -1, 0⟩],
    groups := [⟨0, 2, 0, false, ⟨1 / 2, 0, 0⟩⟩, ⟨2, 2, 0, false, ⟨11 / 2, 0, 0⟩⟩],
    geo := qBox }

/-- The state `qSpacePairs` after the second atom of group 0 has moved from `(1,0,0)`
to `(2,0,0)` and the first atom of group 1 from `(5,0,0)` to `(4,0,0)`: the distance
between the two atoms of each group has changed from 1 to 2. -/
def qSpacePairsBent : Space ℚ :=
  { p := [⟨⟨0, 0, 0⟩, 1, 0⟩, ⟨⟨2, 0, 0⟩, 1, 0⟩, ⟨⟨4, 0, 0⟩, -1, 0⟩, ⟨⟨6, 0, 0⟩, -1, 0⟩],
    groups := [⟨0, 2, 0, false, ⟨1, 0, 0⟩⟩, ⟨2, 2, 0, false, ⟨5, 0, 0⟩⟩],
    geo := qBox }

/-- The Change that names the groups 0 and 1, in this order. -/
def qChangeBoth : Change :=
  { dV := false, all := false,
    groups := [{ index := 0, all := false, atoms := [1] }, { index := 1, all := false, atoms := [0] }] }

end ConcretePairs


/-! ## Definitions used to state the theorems on the branches of `Nonbonded::energy` -/

section BranchStatements

variable {R : Type} [LinearOrderedCommRing R]

/-- The index vector `fixed` ("index of static groups") that the general branch of
`Nonbonded::energy` computes: the indices `0 .. groups.size()-1` that
`std::binary_search` does not find in `moved`. -/
def Nonbonded.fixed (spc : Space R) (change : Change) : List Nat :=
  (List.range spc.groups.length).filter
    (fun i => !Nonbonded.binary_search change.touchedGroupIndex i)

/-- Two results of an energy evaluation agree: the same fault, or the same energy
with terms that are related by `rel`. -/
def Agree {σ τ : Type} (rel : σ → τ → Prop) :
    Except Fault (R × σ) → Except Fault (R × τ) → Prop
  | .ok a, .ok b => a.1 = b.1 ∧ rel a.2 b.2
  | .error e, .error f => e = f
  | _, _ => False

end BranchStatements

/-! ## Definitions used to state the theorem on `EwaldData::update` -/

section KVectorStatements

variable {R : Type} [LinearOrderedField R]

namespace EwaldData

/-- The vector `2 pi (kx/Lx, ky/Ly, kz/Lz)` of the integer triple `t` in the box `box`. -/
def kVectorOf (M : Numerics R) (box : Point R) (t : Int × Int × Int) : Point R :=
  Point.smul (2 * M.pi) ⟨(t.1 : R) / box.x, (t.2.1 : R) / box.y, (t.2.2 : R) / box.z⟩

/-- The weight `f exp(-k^2/(4 alpha^2)) / k^2` of the triple `t`, where `k^2` is the
squared length of its vector, `f = 1` for `kx = 0` and `f = 2` for `kx > 0`. -/
def weightOf (M : Numerics R) (alpha : R) (box : Point R) (t : Int × Int × Int) : R :=
  (if t.1 > 0 then 2 else 1) *
    M.exp (-(kVectorOf M box t).squaredNorm / (4 * alpha ^ 2)) / (kVectorOf M box t).squaredNorm

/-- The integer triples whose vector is to be stored: `0 <= kx <= kcc`,
`-kcc <= ky, kz <= kcc`, not the zero triple and, for a spherical sum,
`kx^2 + ky^2 + kz^2 <= kc^2`. -/
def Admitted (d : EwaldData R) (t : Int × Int × Int) : Prop :=
  (0 ≤ t.1 ∧ t.1 ≤ d.kcc) ∧ (-d.kcc ≤ t.2.1 ∧ t.2.1 ≤ d.kcc) ∧
    (-d.kcc ≤ t.2.2 ∧ t.2.2 ≤ d.kcc) ∧ t ≠ (0, 0, 0) ∧
    (d.spherical_sum = true → ((t.1 ^ 2 + t.2.1 ^ 2 + t.2.2 ^ 2 : Int) : R) ≤ d.kc ^ 2)

/-- The triples `(kx, ky, kz)` that the two inner loops of `update` visit for one `kx`
when `ipbc` is not set, in the order of the loops. -/
def plane (kcc kx : Int) : List (Int × Int × Int) :=
  (intsFromTo (-kcc) kcc).flatMap fun ky => (intsFromTo (-kcc) kcc).map fun kz => (kx, ky, kz)

/-- The triples that the loops of `update` visit when `ipbc` is not set, in the order
of the loops. -/
def triples (kcc : Int) : List (Int × Int × Int) :=
  (intsFromTo 0 kcc).flatMap (plane kcc)

/-- The two tests of the innermost loop of `update`: true if neither of them skips
the triple. -/
def keeps (M : Numerics R) (d : EwaldData R) (t : Int × Int × Int) : Bool :=
  !decide ((kVectorOf M d.L t).dot (kVectorOf M d.L t) < d.check_k2_zero) &&
    !(d.spherical_sum &&
      decide (((t.1 * t.1 : Int) : R) / d.kc2 + ((t.2.1 * t.2.1 : Int) : R) / d.kc2 +
        ((t.2.2 * t.2.2 : Int) : R) / d.kc2 > 1))

/-- The vector and the weight that the innermost loop of `update` stores for the
triple `t` while `factor` is `f`. -/
def entryOf (M : Numerics R) (d : EwaldData R) (f : R) (t : Int × Int × Int) : Point R × R :=
  (kVectorOf M d.L t,
    f * M.exp (-((kVectorOf M d.L t).dot (kVectorOf M d.L t)) / (4 * d.alpha2)) /
      (kVectorOf M d.L t).dot (kVectorOf M d.L t))

/-- The sweep holds the entries `S`, in this order, in front of vectors of length `N`
that are zero behind them. -/
def Holds (N : Nat) (S : List (Point R × R)) (w : Sweep R) : Prop :=
  w.kVectors = S.map Prod.fst ++ List.replicate (N - S.length) Point.zero ∧
    w.Aks = S.map Prod.snd ++ List.replicate (N - S.length) 0 ∧
    w.kVectorsInUse = S.length

end EwaldData

end KVectorStatements

section KVectorBox

variable {R : Type} [LinearOrderedField R]

/-- The data after the first two statements of `update`: the box is stored and the
threshold of the zero test is set. -/
def EwaldData.boxed (M : Numerics R) (box : Point R) (d0 : EwaldData R) : EwaldData R :=
  { d0 with L := box, check_k2_zero := (1 / 10) * (2 * M.pi / box.maxCoeff) ^ 2 }

end KVectorBox


/-! ## Concrete states for the branches of `Nonbonded::energy` -/

section ConcreteBranches

/-- The Change that names the groups 1 and 0, in this order. -/
def qChangeDescending : Change :=
  { dV := false, all := false,
    groups := [{ index := 1, all := false, atoms := [0] }, { index := 0, all := false, atoms := [0] }] }

/-- A `Nonbonded` term with the group-group cutoff 3 (`Rc2_g2g = 9`). -/
def qNonbondedCut3 : Nonbonded ℚ :=
  { key := keys.NONE, name := "nonbonded", cite := "", g2gcnt := 0, g2gskip := 0,
    Rc2_g2g := ((9 : ℚ) : WithTop ℚ), spc := 0, pairpot := qPairpot }

end ConcreteBranches

section ConcreteEwaldRange

/-- The state `qSpace` after the atom of group 0 has moved to `(1,0,0)` and the atom of
group 1 to `(4,0,0)`. -/
def qSpaceBoth : Space ℚ :=
  { p := [⟨⟨1, 0, 0⟩, 1, 0⟩, ⟨⟨4, 0, 0⟩, -1, 0⟩],
    groups := [⟨0, 1, 0, true, ⟨1, 0, 0⟩⟩, ⟨1, 1, 0, true, ⟨4, 0, 0⟩⟩],
    geo := qBox }

/-- The Change that names group 0 as a whole. -/
def qChangeGroup0 : Change :=
  { dV := false, all := false, groups := [{ index := 0, all := true, atoms := [] }] }

/-- The Change that names group 1, the last group, as a whole. -/
def qChangeGroup1 : Change :=
  { dV := false, all := false, groups := [{ index := 1, all := true, atoms := [] }] }

end ConcreteEwaldRange


/-! ## Definitions used to state the theorems on `Isobaric`, `Bonded` and `Confine` -/

section IsobaricStatements

variable {R : Type}

/-- What a group adds to the number `N` of the isobaric term: nothing if it is empty,
its size if it is atomic, one if it is a molecule. -/
def Isobaric.count (g : Group R) : Nat :=
  if g.size = 0 then 0 else if g.atomic then g.size else 1

end IsobaricStatements

section ConfineStatements

variable {R : Type} [LinearOrderedField R]

namespace Confine

/-- The squared distance `|origo - p|^2` of the statement; for the cylinder the z
component is ignored. -/
def dist2 (c : Confine R) (p : Point R) : R :=
  match c.type with
  | Variant.cylinder => (c.origo.x - p.x) ^ 2 + (c.origo.y - p.y) ^ 2
  | _ => (c.origo.x - p.x) ^ 2 + (c.origo.y - p.y) ^ 2 + (c.origo.z - p.z) ^ 2

/-- The single-particle energy of the statement at the position `p`: for sphere and
cylinder `k/2 (|origo - p|^2 - radius^2)` outside the radius and 0 otherwise, for the
cuboid `k/2` times the sum over the axes of `max(0, low - p)^2 + max(0, p - high)^2`. -/
def formula (c : Confine R) (p : Point R) : R :=
  match c.type with
  | Variant.sphere | Variant.cylinder =>
    if c.dist2 p > c.radius ^ 2 then c.k / 2 * (c.dist2 p - c.radius ^ 2) else 0
  | Variant.cuboid =>
    c.k / 2 *
      ((max 0 (c.low.x - p.x)) ^ 2 + (max 0 (p.x - c.high.x)) ^ 2 +
        ((max 0 (c.low.y - p.y)) ^ 2 + (max 0 (p.y - c.high.y)) ^ 2) +
        ((max 0 (c.low.z - p.z)) ^ 2 + (max 0 (p.z - c.high.z)) ^ 2))
  | Variant.none => 0

/-- The position `p` is inside or on the boundary of the confining region. -/
def Inside (c : Confine R) (p : Point R) : Prop :=
  match c.type with
  | Variant.sphere | Variant.cylinder => c.dist2 p ≤ c.radius ^ 2
  | Variant.cuboid =>
    (c.low.x ≤ p.x ∧ p.x ≤ c.high.x) ∧ (c.low.y ≤ p.y ∧ p.y ≤ c.high.y) ∧
      (c.low.z ≤ p.z ∧ p.z ≤ c.high.z)
  | Variant.none => False

end Confine

end ConfineStatements

section BondedStatements

variable {R : Type} [LinearOrderedField R]

namespace Bonded

/-- The value stored under the key `i` in the (key, value) pairs `m` of a map, no
bonds if there is no such key. -/
def bondsAt (m : List (Nat × List (BondData R))) (i : Nat) : List (BondData R) :=
  match m.find? (fun e => e.1 = i) with
  | some e => e.2
  | none => []

/-- The intra-molecular bonds of the group with index `i`, as the term holds them. -/
def intraOf (t : Bonded R) (i : Nat) : List (BondData R) := bondsAt t.intra i

/-- The invariant of the `std::map` `intra`: its keys are in strictly ascending order,
so that no key occurs twice. -/
def Keyed (t : Bonded R) : Prop := (t.intra.map Prod.fst).Pairwise (fun a b => a < b)

end Bonded

end BondedStatements

/-! ## Definitions used to state the theorem on the allocation of `EwaldData::update` -/

section KVectorAllocation

variable {R : Type} [LinearOrderedField R]

namespace EwaldData

/-- The local `startValue` of `update`: `1 - int(ipbc)`. -/
def startValue (d : EwaldData R) : Int := 1 - (if d.ipbc then 1 else 0)

/-- The triples `(kx, ky, kz)` that the two inner loops of `update` visit for one `kx`
when they run from `lo` to `hi`, in the order of the loops. -/
def planeFrom (lo hi kx : Int) : List (Int × Int × Int) :=
  (intsFromTo lo hi).flatMap fun ky => (intsFromTo lo hi).map fun kz => (kx, ky, kz)

/-- The triples that the three loops of `update` visit, in the order of the loops:
`kx` from 0 and `ky`, `kz` from `-kcc*startValue`, all up to `kcc`. -/
def visited (d : EwaldData R) : List (Int × Int × Int) :=
  (intsFromTo 0 d.kcc).flatMap (planeFrom (-d.kcc * d.startValue) d.kcc)

/-- The triples for which `update` stores a vector and a weight: those visited that
neither test of the innermost loop skips. -/
def stored (M : Numerics R) (d : EwaldData R) : List (Int × Int × Int) :=
  (visited d).filter (keeps M d)

/-- The allocated length `kVectorsLength` of `update`, `(2 kcc + 1)^3 - 1`. -/
def kVectorsLength (d : EwaldData R) : Int :=
  (2 * d.kcc + 1) * (2 * d.kcc + 1) * (2 * d.kcc + 1) - 1

end EwaldData

end KVectorAllocation


/-! ## Concrete states for the theorems on `Ewald`, `Bonded` and `Confine` -/

section ConcreteEwaldOld

/-- The reference `Ewald` term: key `OLD`, bound to reference 0, holding the structure
factor of the reference state `qSpace`. -/
def qEwaldOld : Ewald ℚ :=
  { key := keys.OLD, name := "ewald", cite := "", data := qEwaldDataOne,
    policy := { spc := 0, old := none }, spc := 0 }

end ConcreteEwaldOld

section ConcreteConfine

/-- A `confine` block for a cylinder of radius 2 around the z axis acting on the
molecule `salt`, with the spring constant 5 kJ/mol. -/
def qConfineConfig : Json ℚ :=
  Json.object
    [("k", Json.number 5), ("molecules", Json.array [Json.string "salt"]),
      ("radius", Json.number 2), ("type", Json.string "cylinder")]

/-- The term that the constructor of `Confine` builds from `qConfineConfig`. -/
def qConfineRead : Confine ℚ :=
  { key := keys.NONE, name := "confine", cite := "", spc := 0, molids := [0],
    names := ["salt"], type := Variant.cylinder, origo := ⟨0, 0, 0⟩, dir := ⟨1, 1, 0⟩,
    low := Point.zero, high := Point.zero, radius := 2, k := 5 * qSetup.kJmol, scale := false }

end ConcreteConfine

section ConcreteBonded

/-- A `Bonded` term with one intra-molecular bond of energy 1 in group 0 and one of
energy 10 in group 1, and no inter-molecular bond. -/
def qBondedOne : Bonded ℚ :=
  { key := keys.NONE, name := "bonded", cite := "", spc := 0, inter := [],
    intra := [(0, [{ index := [0, 0], energy := fun _ _ => 1 }]),
      (1, [{ index := [1, 1], energy := fun _ _ => 10 }])] }

/-- A Change whose group list names group 1 and group 0, each once. -/
def qChangeEach : Change :=
  { dV := false, all := false, groups := [⟨1, true, []⟩, ⟨0, true, []⟩] }

end ConcreteBonded

section ConcreteCutoff

/-- A valid ewald block with the k-space cutoff 1/2 and the default spherical sum. -/
def qEwaldConfigHalf : Json ℚ :=
  Json.object
    [("alpha", Json.number 1), ("cutoff", Json.number 5), ("cutoffK", Json.number (1 / 2)),
      ("epsr", Json.number 80)]

/-- The data that `from_json` reads from `qEwaldConfigHalf`: `kc = 1/2`, `kc2 = 1/4`
and `kcc = ceil(1/2) = 1`. -/
def qEwaldReadHalf : EwaldData ℚ :=
  { (EwaldData.fresh : EwaldData ℚ) with
    alpha := 1
    alpha2 := 1 * 1
    rc := 5
    kc := 1 / 2
    kc2 := 1 / 2 * (1 / 2)
    kcc := 1
    ipbc := false
    spherical_sum := true
    lB := qSetup.lB 80
    eps_surf := 0
    const_inf := 0 }

/-- The data of `qEwaldData` with the k-space cutoff 645, the first for which
`(2 kcc + 1)^3 - 1 = 2151685170` is beyond the range of `int`. -/
def qEwaldDataWide : EwaldData ℚ :=
  { qEwaldData with kc := 645, kc2 := 645 * 645, kcc := 645 }

/-- The data of `qEwaldData` for periodic images by mirroring: `ipbc` set, no
spherical sum. -/
def qEwaldDataIpbc : EwaldData ℚ :=
  { qEwaldData with ipbc := true, spherical_sum := false }

end ConcreteCutoff


/-! ## Theorems -/

section ListSums

variable {R : Type} [LinearOrderedCommRing R]

theorem sum_map_single_diff {α : Type} (f : α → R) (new old : List α) (k : Nat) (x y : α)
    (hlen : new.length = old.length) (hdiff : ∀ i, i ≠ k → new[i]? = old[i]?)
    (hx : new[k]? = some x) (hy : old[k]? = some y) :
    (new.map f).sum = (old.map f).sum + f x - f y := by
  induction new generalizing old k with
  | nil => simp at hx
  | cons a new ih =>
    cases old with
    | nil => simp at hy
    | cons b old =>
      cases k with
      | zero =>
        simp only [List.getElem?_cons_zero, Option.some.injEq] at hx hy
        have h1 : new = old := List.ext_getElem? fun n => by
          have := hdiff (n + 1) (by omega)
          simpa using this
        subst hx hy h1
        simp only [List.map_cons, List.sum_cons]
        ring
      | succ k =>
        have h0 := hdiff 0 (by omega)
        simp only [List.getElem?_cons_zero, Option.some.injEq] at h0
        simp only [List.getElem?_cons_succ] at hx hy
        have h1 := ih old k (by simpa using hlen)
          (fun i hi => by
            have := hdiff (i + 1) (by omega)
            simpa using this) hx hy
        subst h0
        simp only [List.map_cons, List.sum_cons, h1]
        ring

end ListSums

theorem funcSet_setKey {R : Type} (key : keys) (t : Term R) (hf : t.funcSet) :
    (t.setKey key).funcSet := by
  cases t <;> simp_all [Term.funcSet, Term.setKey]

section HamiltonianTheorems

variable {R : Type} [LinearOrderedField R]

theorem energyLoop_eq_mapM (M : Numerics R) (mem : SpaceRef → Space R) (spc : Space R)
    (change : Change) (key : keys) (ts : List (Term R)) (du : R) :
    Hamiltonian.energyLoop M mem spc change key ts du =
      (ts.mapM (fun t => Term.energy M mem spc change (t.setKey key))).map
        (fun rs => (du + (rs.map Prod.fst).sum, rs.map Prod.snd)) := by
  induction ts generalizing du with
  | nil =>
    rw [List.mapM_nil]
    simp [Hamiltonian.energyLoop, Except.map, pure, Except.pure]
  | cons t ts ih =>
    simp only [Hamiltonian.energyLoop, List.mapM_cons, ih]
    cases Term.energy M mem spc change (t.setKey key) with
    | error e => rfl
    | ok r =>
      simp only [Except.bind, bind, Except.map]
      cases List.mapM (fun t => Term.energy M mem spc change (t.setKey key)) ts with
      | error e => rfl
      | ok rs => simp [pure, Except.pure, add_assoc]

/-- C1. `Hamiltonian::energy` sets the key of every term to the key of the
Hamiltonian, evaluates `energy(change)` of the terms in vector order, and returns the
sum of the values (and the terms as the calls leave them); a fault of a term ends the
call.  This holds for every Change, so also for one with `all == true`, where it is
the sum of the full energies of the terms. -/
theorem C1_hamiltonian_energy_is_sum (M : Numerics R) (mem : SpaceRef → Space R)
    (spc : Space R) (change : Change) (h : Hamiltonian R) :
    Hamiltonian.energy M mem spc change h =
      (h.vec.mapM (fun t => Term.energy M mem spc change (t.setKey h.key))).map
        (fun rs => ((rs.map Prod.fst).sum, { h with vec := rs.map Prod.snd })) := by
  unfold Hamiltonian.energy
  rw [energyLoop_eq_mapM]
  cases List.mapM (fun t => Term.energy M mem spc change (t.setKey h.key)) h.vec with
  | error e => rfl
  | ok rs => simp [Except.map]

theorem term_energy_none (M : Numerics R) (mem : SpaceRef → Space R) (spc : Space R)
    (t : Term R) (hf : t.funcSet) :
    Term.energy M mem spc Change.none t = .ok (0, t) := by
  cases t with
  | nonbonded t =>
    simp [Term.energy, Nonbonded.energy, Nonbonded.energyWith, Change.none, Change.empty,
      Except.map]
  | nonbondedCached t =>
    simp [Term.energy, NonbondedCached.energy, Nonbonded.energyWith, Change.none, Change.empty,
      Except.map]
  | bonded t => simp [Term.energy, Bonded.energy, Change.none, Change.empty]
  | ewald t => simp [Term.energy, Ewald.energy, Change.none, Change.empty, Except.map]
  | isobaric t => simp [Term.energy, Isobaric.energy, Change.none]
  | confine t =>
    have h1 : t.type ≠ Variant.none := hf
    cases ht : t.type with
    | none => exact absurd ht h1
    | sphere =>
      simp [Term.energy, Confine.energy, ExternalPotential.energy, Confine.toExternalPotential,
        Confine.func, ht, Change.none, ExternalPotential.named, Except.map]
    | cylinder =>
      simp [Term.energy, Confine.energy, ExternalPotential.energy, Confine.toExternalPotential,
        Confine.func, ht, Change.none, ExternalPotential.named, Except.map]
    | cuboid =>
      simp [Term.energy, Confine.energy, ExternalPotential.energy, Confine.toExternalPotential,
        Confine.func, ht, Change.none, ExternalPotential.named, Except.map]
  | penalty t => simp [Term.energy, Penalty.energy, Change.none, Change.empty]

theorem energyLoop_none (M : Numerics R) (mem : SpaceRef → Space R) (spc : Space R)
    (key : keys) (ts : List (Term R)) (hf : ∀ t ∈ ts, t.funcSet) (du : R) :
    Hamiltonian.energyLoop M mem spc Change.none key ts du =
      .ok (du, ts.map (Term.setKey key)) := by
  induction ts generalizing du with
  | nil => rfl
  | cons t ts ih =>
    have h1 := term_energy_none M mem spc (t.setKey key)
      (funcSet_setKey key t (hf t (List.mem_cons_self t ts)))
    have h2 := ih (fun u hu => hf u (List.mem_cons_of_mem t hu)) du
    simp [Hamiltonian.energyLoop, h1, h2, Except.bind, Except.map]

/-- C2. For a term of any kind (`Nonbonded`, `NonbondedCached`, `Bonded`, `Ewald`,
`Isobaric`, `Confine`, `Penalty`), any key and any state, `energy` of the empty Change
returns exactly 0 and leaves the whole term as it was - so the energy matrix of a
`NonbondedCached` and the data of an `Ewald` term are unchanged; and
`Hamiltonian::energy` of the empty Change is 0, its terms unchanged but for the key
they are given.  (Every `Confine` term has its `func` set, as its constructor leaves
it.) -/
theorem C2_empty_change_is_zero (M : Numerics R) (mem : SpaceRef → Space R) (spc : Space R)
    (h : Hamiltonian R) (hf : ∀ t ∈ h.vec, t.funcSet) :
    (∀ t ∈ h.vec, ∀ key : keys,
      Term.energy M mem spc Change.none (t.setKey key) = .ok (0, t.setKey key)) ∧
    Hamiltonian.energy M mem spc Change.none h =
      .ok (0, { h with vec := h.vec.map (Term.setKey h.key) }) := by
  refine ⟨fun t ht key => term_energy_none M mem spc _ (funcSet_setKey key t (hf t ht)), ?_⟩
  simp [Hamiltonian.energy, energyLoop_none M mem spc h.key h.vec hf, Except.map]

/-- C2 on a Hamiltonian with one term of every kind. -/
theorem C2_empty_change_is_zero_witness :
    (∀ t ∈ qHamiltonian.vec, t.funcSet) ∧
    ((∀ t ∈ qHamiltonian.vec, ∀ key : keys,
      Term.energy qNumerics (fun _ => qSpace) qSpace Change.none (t.setKey key) =
        .ok (0, t.setKey key)) ∧
    Hamiltonian.energy qNumerics (fun _ => qSpace) qSpace Change.none qHamiltonian =
      .ok (0, { qHamiltonian with vec := qHamiltonian.vec.map (Term.setKey qHamiltonian.key) })) :=
  have hf : ∀ t ∈ qHamiltonian.vec, t.funcSet := by
    simp [qHamiltonian, Term.funcSet, qConfine]
  ⟨hf, C2_empty_change_is_zero qNumerics (fun _ => qSpace) qSpace qHamiltonian hf⟩

end HamiltonianTheorems

section CacheTheorems

variable {R : Type} [LinearOrderedCommRing R]

theorem cached_g2g_not_new (spc : Space R) (g1 g2 : GroupRef R) (nc : NonbondedCached R)
    (hk : nc.key ≠ keys.NEW) :
    NonbondedCached.g2g spc g1 g2 nc = (nc.cache.get g1.1 g2.1, nc) := by
  simp [NonbondedCached.g2g, hk]

theorem sumOver_frame {σ α : Type} (f : α → σ → R × σ) (s : σ) (hf : ∀ x, (f x s).2 = s)
    (xs : List α) (u : R) : (sumOver f xs (u, s)).2 = s := by
  induction xs generalizing u with
  | nil => rfl
  | cons x xs ih =>
    simp only [sumOver, List.foldl_cons, hf]
    exact ih _

theorem sumOverM_frame {σ α : Type} (f : α → σ → Except Fault (R × σ)) (s : σ)
    (hf : ∀ x r, f x s = .ok r → r.2 = s) (xs : List α) (u : R) (r : R × σ)
    (h : sumOverM f xs (u, s) = .ok r) : r.2 = s := by
  induction xs generalizing u with
  | nil =>
    simp only [sumOverM, List.foldlM_nil, pure, Except.pure, Except.ok.injEq] at h
    rw [← h]
  | cons x xs ih =>
    simp only [sumOverM, List.foldlM_cons, bind, Except.bind] at h
    cases hx : f x s with
    | error e => simp [hx, Except.map] at h
    | ok r1 =>
      have h1 := hf x r1 hx
      simp only [hx, Except.map] at h
      rw [h1] at h
      exact ih _ h

theorem allLoop_frame {σ : Type} (spc : Space R)
    (pairpot : Particle R → Particle R → Point R → R)
    (g2g : GroupRef R → GroupRef R → σ → R × σ) (internal : Group R → Bool) (s : σ)
    (hg : ∀ a b, (g2g a b s).2 = s) (gs : List (GroupRef R)) (u : R) :
    (Nonbonded.allLoop spc pairpot g2g internal gs (u, s)).2 = s := by
  induction gs generalizing u with
  | nil => rfl
  | cons i rest ih =>
    have h1 : ∀ v, sumOver (fun j => g2g i j) rest (v, s) =
        ((sumOver (fun j => g2g i j) rest (v, s)).1, s) := fun v =>
      Prod.ext rfl (sumOver_frame (fun j => g2g i j) s (fun x => hg i x) rest v)
    simp only [Nonbonded.allLoop]
    rw [h1]
    split <;> exact ih _

theorem g2gAt_frame {σ : Type} (spc : Space R) (g2g : GroupRef R → GroupRef R → σ → R × σ)
    (s : σ) (hg : ∀ a b, (g2g a b s).2 = s) (i j : Nat) (r : R × σ)
    (h : Nonbonded.g2gAt spc g2g i j s = .ok r) : r.2 = s := by
  unfold Nonbonded.g2gAt at h
  cases hi : spc.groupAt i with
  | error e => simp [hi, Except.bind] at h
  | ok gi =>
    cases hj : spc.groupAt j with
    | error e => simp [hi, hj, Except.bind, Except.map] at h
    | ok gj =>
      simp only [hi, hj, Except.bind, Except.map, Except.ok.injEq] at h
      rw [← h]
      exact hg gi gj

theorem movedMoved_frame {σ : Type} (spc : Space R)
    (g2g : GroupRef R → GroupRef R → σ → R × σ) (s : σ) (hg : ∀ a b, (g2g a b s).2 = s)
    (moved : List Nat) (u : R) (r : R × σ)
    (h : Nonbonded.movedMoved spc g2g moved (u, s) = .ok r) : r.2 = s := by
  induction moved generalizing u with
  | nil =>
    simp only [Nonbonded.movedMoved, Except.ok.injEq] at h
    rw [← h]
  | cons i rest ih =>
    simp only [Nonbonded.movedMoved] at h
    cases h1 : sumOverM (fun j => Nonbonded.g2gAt spc g2g i j) rest (u, s) with
    | error e => simp [h1, Except.bind] at h
    | ok r1 =>
      have h2 := sumOverM_frame (fun j => Nonbonded.g2gAt spc g2g i j) s
        (fun x r hx => g2gAt_frame spc g2g s hg i x r hx) rest u r1 h1
      simp only [h1, Except.bind] at h
      have h3 : r1 = (r1.1, s) := Prod.ext rfl h2
      rw [h3] at h
      exact ih _ h

theorem movedFixed_frame {σ : Type} (spc : Space R)
    (g2g : GroupRef R → GroupRef R → σ → R × σ) (s : σ) (hg : ∀ a b, (g2g a b s).2 = s)
    (fixed moved : List Nat) (u : R) (r : R × σ)
    (h : moved.foldlM (fun a i => sumOverM (fun j => Nonbonded.g2gAt spc g2g i j) fixed a)
      (u, s) = .ok r) : r.2 = s := by
  induction moved generalizing u with
  | nil =>
    simp only [List.foldlM_nil, pure, Except.pure, Except.ok.injEq] at h
    rw [← h]
  | cons i rest ih =>
    simp only [List.foldlM_cons, bind, Except.bind] at h
    cases h1 : sumOverM (fun j => Nonbonded.g2gAt spc g2g i j) fixed (u, s) with
    | error e => simp [h1] at h
    | ok r1 =>
      have h2 := sumOverM_frame (fun j => Nonbonded.g2gAt spc g2g i j) s
        (fun x r hx => g2gAt_frame spc g2g s hg i x r hx) fixed u r1 h1
      simp only [h1] at h
      have h3 : r1 = (r1.1, s) := Prod.ext rfl h2
      rw [h3] at h
      exact ih _ h

theorem general_frame {σ : Type} (spc : Space R) (g2g : GroupRef R → GroupRef R → σ → R × σ)
    (s : σ) (hg : ∀ a b, (g2g a b s).2 = s) (change : Change) (r : R × σ)
    (h : Nonbonded.general spc g2g change s = .ok r) : r.2 = s := by
  simp only [Nonbonded.general] at h
  cases h1 : Nonbonded.movedMoved spc g2g change.touchedGroupIndex (0, s) with
  | error e => simp [h1, Except.bind] at h
  | ok r1 =>
    have h2 := movedMoved_frame spc g2g s hg _ 0 r1 h1
    simp only [h1, Except.bind] at h
    have h3 : r1 = (r1.1, s) := Prod.ext rfl h2
    rw [h3] at h
    exact movedFixed_frame spc g2g s hg _ _ _ r h

theorem energyWith_frame {σ : Type} (spc : Space R)
    (pairpot : Particle R → Particle R → Point R → R)
    (g2g : GroupRef R → GroupRef R → σ → R × σ) (s : σ) (hg : ∀ a b, (g2g a b s).2 = s)
    (change : Change) (r : R × σ)
    (h : Nonbonded.energyWith spc pairpot g2g change s = .ok r) : r.2 = s := by
  unfold Nonbonded.energyWith at h
  by_cases he : change.empty = true
  · simp only [he, if_true, Bool.false_eq_true, if_false, Except.ok.injEq] at h
    rw [← h]
  simp only [he, if_false, Bool.false_eq_true] at h
  by_cases hv : change.dV = true
  · simp only [hv, if_true, Bool.false_eq_true, if_false, Except.ok.injEq] at h
    rw [← h]
    exact allLoop_frame spc pairpot g2g _ s hg _ 0
  simp only [hv, if_false, Bool.false_eq_true] at h
  by_cases ha : change.all = true
  · simp only [ha, if_true, Bool.false_eq_true, if_false, Except.ok.injEq] at h
    rw [← h]
    exact allLoop_frame spc pairpot g2g _ s hg _ 0
  simp only [ha, if_false, Bool.false_eq_true] at h
  cases hgs : change.groups with
  | nil =>
    simp only [hgs] at h
    exact general_frame spc g2g s hg _ r h
  | cons d ds =>
    cases ds with
    | cons d2 ds2 =>
      simp only [hgs] at h
      exact general_frame spc g2g s hg _ r h
    | nil =>
      simp only [hgs] at h
      by_cases h1 : d.atoms.length = 1
      · simp only [h1, if_true, Bool.false_eq_true, if_false, Bool.false_eq_true] at h
        cases h2 : Nonbonded.oneAtom spc pairpot d with
        | error e => simp [h2, Except.map] at h
        | ok v =>
          simp only [h2, Except.map, Except.ok.injEq] at h
          rw [← h]
      · simp only [h1, if_false, Bool.false_eq_true] at h
        by_cases h3 : d.all = true
        · simp only [h3, if_true, Bool.false_eq_true, if_false, Bool.false_eq_true] at h
          unfold Nonbonded.oneGroup at h
          cases h4 : spc.groupAt d.index with
          | error e => simp [h4, Except.map] at h
          | ok g =>
            simp only [h4, Except.map, Except.ok.injEq] at h
            rw [← h]
            exact sumOver_frame _ s (fun x => hg x g) _ 0
        · simp only [h3, if_false, Bool.false_eq_true] at h
          exact general_frame spc g2g s hg _ r h

/-- C9. `NonbondedCached::g2g` for the groups at positions `i` and `j`: with
`key == NEW` it returns the value of the base `Nonbonded::g2g` for the pair, the cache
then holds that value at `(i,j)` and `(j,i)`, and every other entry of the cache is as
before; with `key == OLD` it returns the stored `cache(i,j)` and changes nothing, not
even the call counters of the base class, which is never called. -/
theorem C9_cached_g2g (spc : Space R) (g1 g2 : GroupRef R) (nc : NonbondedCached R) :
    (nc.key = keys.NEW →
      (NonbondedCached.g2g spc g1 g2 nc).1 = (Nonbonded.g2g spc g1.2 g2.2 nc.toNonbonded).1 ∧
      (NonbondedCached.g2g spc g1 g2 nc).2.cache.get g1.1 g2.1 =
        (Nonbonded.g2g spc g1.2 g2.2 nc.toNonbonded).1 ∧
      (NonbondedCached.g2g spc g1 g2 nc).2.cache.get g2.1 g1.1 =
        (Nonbonded.g2g spc g1.2 g2.2 nc.toNonbonded).1 ∧
      ∀ a b : Nat, ¬((a = g1.1 ∧ b = g2.1) ∨ (a = g2.1 ∧ b = g1.1)) →
        (NonbondedCached.g2g spc g1 g2 nc).2.cache.get a b = nc.cache.get a b) ∧
    (nc.key = keys.OLD →
      NonbondedCached.g2g spc g1 g2 nc = (nc.cache.get g1.1 g2.1, nc)) := by
  constructor
  · intro hk
    simp only [NonbondedCached.g2g, hk, if_true, PairMatrix.get, PairMatrix.set]
    refine ⟨by simp, by simp, by simp, ?_⟩
    intro a b hab
    simp [hab]
  · intro hk
    exact cached_g2g_not_new spc g1 g2 nc (by rw [hk]; decide)

/-- C9 on the two groups of `qSpace`, for the trial and for the reference instance. -/
theorem C9_cached_g2g_witness :
    (qCachedNew.key = keys.NEW ∧
      (NonbondedCached.g2g qSpace (0, ⟨0, 1, 0, true, ⟨0, 0, 0⟩⟩) (1, ⟨1, 1, 0, true, ⟨3, 0, 0⟩⟩)
        qCachedNew).2.cache.get 0 1 =
      (Nonbonded.g2g qSpace ⟨0, 1, 0, true, ⟨0, 0, 0⟩⟩ ⟨1, 1, 0, true, ⟨3, 0, 0⟩⟩
        qCachedNew.toNonbonded).1 ∧
      (NonbondedCached.g2g qSpace (0, ⟨0, 1, 0, true, ⟨0, 0, 0⟩⟩) (1, ⟨1, 1, 0, true, ⟨3, 0, 0⟩⟩)
        qCachedNew).2.cache.get 2 3 = qCachedNew.cache.get 2 3) ∧
    (qCachedOld.key = keys.OLD ∧
      NonbondedCached.g2g qSpace (0, ⟨0, 1, 0, true, ⟨0, 0, 0⟩⟩) (1, ⟨1, 1, 0, true, ⟨3, 0, 0⟩⟩)
        qCachedOld = (qCachedOld.cache.get 0 1, qCachedOld)) :=
  ⟨⟨rfl, ((C9_cached_g2g qSpace (0, ⟨0, 1, 0, true, ⟨0, 0, 0⟩⟩) (1, ⟨1, 1, 0, true, ⟨3, 0, 0⟩⟩)
      qCachedNew).1 rfl).2.1,
    ((C9_cached_g2g qSpace (0, ⟨0, 1, 0, true, ⟨0, 0, 0⟩⟩) (1, ⟨1, 1, 0, true, ⟨3, 0, 0⟩⟩)
      qCachedNew).1 rfl).2.2.2 2 3 (by decide)⟩,
   ⟨rfl, (C9_cached_g2g qSpace (0, ⟨0, 1, 0, true, ⟨0, 0, 0⟩⟩) (1, ⟨1, 1, 0, true, ⟨3, 0, 0⟩⟩)
      qCachedOld).2 rfl⟩⟩

/-- C10. `NonbondedCached::energy` evaluated with key `OLD` or `NONE` leaves every
entry of the energy matrix as it was, for every Change and every state: whenever the
call returns, the whole term is unchanged. -/
theorem C10_cache_untouched_unless_new (spc : Space R) (change : Change)
    (nc : NonbondedCached R) (hk : nc.key = keys.OLD ∨ nc.key = keys.NONE)
    (r : R × NonbondedCached R) (h : NonbondedCached.energy spc change nc = .ok r) :
    r.2 = nc ∧ ∀ i j : Nat, r.2.cache.get i j = nc.cache.get i j := by
  have hk1 : nc.key ≠ keys.NEW := by
    rcases hk with hk | hk <;> rw [hk] <;> decide
  have h1 : r.2 = nc :=
    energyWith_frame spc nc.pairpot (NonbondedCached.g2g spc) nc
      (fun a b => by rw [cached_g2g_not_new spc a b nc hk1]) change r h
  exact ⟨h1, fun i j => by rw [h1]⟩

/-- C10 on `qSpace`, for a full evaluation (`all == true`) by the reference instance. -/
theorem C10_cache_untouched_unless_new_witness :
    (qCachedOld.key = keys.OLD ∨ qCachedOld.key = keys.NONE) ∧
    NonbondedCached.energy qSpace { dV := false, all := true, groups := [] } qCachedOld =
      .ok (0, qCachedOld) ∧
    ∀ i j : Nat, (0, qCachedOld).2.cache.get i j = qCachedOld.cache.get i j :=
  have h : NonbondedCached.energy qSpace { dV := false, all := true, groups := [] } qCachedOld =
      .ok (0, qCachedOld) := by
    simp [NonbondedCached.energy, Nonbonded.energyWith, Change.empty, Nonbonded.allLoop,
      Space.groupRefs, qSpace, sumOver, NonbondedCached.g2g, qCachedOld, PairMatrix.get,
      Nonbonded.g_internal, Space.particles, sumPairs, List.enum, List.enumFrom]
  ⟨Or.inl rfl, h,
    (C10_cache_untouched_unless_new qSpace { dV := false, all := true, groups := [] } qCachedOld
      (Or.inl rfl) (0, qCachedOld) h).2⟩

end CacheTheorems

section EwaldTheorems

variable {R : Type} [LinearOrderedField R]

theorem Tcomplex.add_re (a b : Tcomplex R) : (a.add b).re = a.re + b.re := rfl

theorem Tcomplex.add_im (a b : Tcomplex R) : (a.add b).im = a.im + b.im := rfl

theorem Tcomplex.sub_re (a b : Tcomplex R) : (a.sub b).re = a.re - b.re := rfl

theorem Tcomplex.sub_im (a b : Tcomplex R) : (a.sub b).im = a.im - b.im := rfl

theorem foldl_phase_re (M : Numerics R) (kv : Point R) (l : List (Particle R)) (Q0 : Tcomplex R) :
    (l.foldl (fun Q i => Q.add (PolicyIonIon.phase M kv i)) Q0).re =
      Q0.re + (l.map (fun i => (PolicyIonIon.phase M kv i).re)).sum := by
  induction l generalizing Q0 with
  | nil => simp
  | cons a l ih =>
    simp only [List.foldl_cons, List.map_cons, List.sum_cons]
    rw [ih, Tcomplex.add_re, add_assoc]

theorem foldl_phase_im (M : Numerics R) (kv : Point R) (l : List (Particle R)) (Q0 : Tcomplex R) :
    (l.foldl (fun Q i => Q.add (PolicyIonIon.phase M kv i)) Q0).im =
      Q0.im + (l.map (fun i => (PolicyIonIon.phase M kv i).im)).sum := by
  induction l generalizing Q0 with
  | nil => simp
  | cons a l ih =>
    simp only [List.foldl_cons, List.map_cons, List.sum_cons]
    rw [ih, Tcomplex.add_im, add_assoc]

theorem structureFactor_single_diff (M : Numerics R) (kv : Point R)
    (new old : List (Particle R)) (k : Nat) (x y : Particle R)
    (hlen : new.length = old.length) (hdiff : ∀ i, i ≠ k → new[i]? = old[i]?)
    (hx : new[k]? = some x) (hy : old[k]? = some y) :
    ((PolicyIonIon.structureFactor M kv old).add (PolicyIonIon.phase M kv x)).sub
      (PolicyIonIon.phase M kv y) = PolicyIonIon.structureFactor M kv new := by
  apply Tcomplex.ext
  · rw [Tcomplex.sub_re, Tcomplex.add_re]
    unfold PolicyIonIon.structureFactor
    rw [foldl_phase_re, foldl_phase_re,
      sum_map_single_diff (fun i => (PolicyIonIon.phase M kv i).re) new old k x y hlen hdiff hx hy]
    ring
  · rw [Tcomplex.sub_im, Tcomplex.add_im]
    unfold PolicyIonIon.structureFactor
    rw [foldl_phase_im, foldl_phase_im,
      sum_map_single_diff (fun i => (PolicyIonIon.phase M kv i).im) new old k x y hlen hdiff hx hy]
    ring

theorem updateComplex_loop_spec (M : Numerics R) (spc : Space R) (ks : List Nat)
    (d : EwaldData R) (hk : ∀ k ∈ ks, k < d.kVectors.length ∧ k < d.Qion.length) :
    ∃ Q, ks.foldlM (PolicyIonIon.updateComplexAt M spc) d = .ok { d with Qion := Q } ∧
      Q.length = d.Qion.length ∧
      (∀ k ∈ ks, ∀ kv, d.kVectors[k]? = some kv →
        Q[k]? = some (PolicyIonIon.structureFactor M kv spc.p)) ∧
      (∀ k, k ∉ ks → Q[k]? = d.Qion[k]?) := by
  induction ks generalizing d with
  | nil => exact ⟨d.Qion, rfl, rfl, fun k hk => absurd hk (List.not_mem_nil k), fun _ _ => rfl⟩
  | cons k ks ih =>
    obtain ⟨hk1, hk2⟩ := hk k (List.mem_cons_self k ks)
    obtain ⟨kv, hkv⟩ : ∃ kv, d.kVectors[k]? = some kv :=
      ⟨_, List.getElem?_eq_getElem hk1⟩
    have hstep : PolicyIonIon.updateComplexAt M spc d k =
        .ok { d with Qion := d.Qion.set k (PolicyIonIon.structureFactor M kv spc.p) } := by
      simp [PolicyIonIon.updateComplexAt, hkv, hk2]
    obtain ⟨Q, h1, h3, h4, h5⟩ :=
      ih { d with Qion := d.Qion.set k (PolicyIonIon.structureFactor M kv spc.p) }
        (fun k1 hk1 => by
          have := hk k1 (List.mem_cons_of_mem k hk1)
          simpa using this)
    refine ⟨Q, ?_, ?_, ?_, ?_⟩
    · simp only [List.foldlM_cons, hstep, bind, Except.bind]
      exact h1
    · simpa using h3
    · intro k1 hk1 kv1 hkv1
      by_cases hmem : k1 ∈ ks
      · exact h4 k1 hmem kv1 hkv1
      · have hk1k : k1 = k := by
          rcases List.mem_cons.mp hk1 with h | h
          · exact h
          · exact absurd h hmem
        subst hk1k
        rw [h5 k1 hmem]
        rw [hkv] at hkv1
        simp only [Option.some.injEq] at hkv1
        subst hkv1
        simp [hk2]
    · intro k1 hk1
      have hne : k ≠ k1 := fun h => hk1 (h ▸ List.mem_cons_self k ks)
      have hnm : k1 ∉ ks := fun h => hk1 (List.mem_cons_of_mem k h)
      rw [h5 k1 hnm]
      simp [List.getElem?_set_ne hne]

theorem updateComplexRange_loop_single (M : Numerics R) (spc old : Space R) (i : Nat)
    (x y : Particle R) (hlen : spc.p.length = old.p.length)
    (hdiff : ∀ n, n ≠ i → spc.p[n]? = old.p[n]?) (hx : spc.p[i]? = some x)
    (hy : old.p[i]? = some y) (ks : List Nat) (hnd : ks.Nodup) (d : EwaldData R)
    (hk : ∀ k ∈ ks, k < d.kVectors.length ∧ k < d.Qion.length)
    (hQ : ∀ k ∈ ks, ∀ kv, d.kVectors[k]? = some kv →
      d.Qion[k]? = some (PolicyIonIon.structureFactor M kv old.p)) :
    ks.foldlM (PolicyIonIon.updateComplexRangeAt M spc old i i) d =
      ks.foldlM (PolicyIonIon.updateComplexAt M spc) d := by
  induction ks generalizing d with
  | nil => rfl
  | cons k ks ih =>
    obtain ⟨hk1, hk2⟩ := hk k (List.mem_cons_self k ks)
    obtain ⟨kv, hkv⟩ : ∃ kv, d.kVectors[k]? = some kv :=
      ⟨_, List.getElem?_eq_getElem hk1⟩
    have hq := hQ k (List.mem_cons_self k ks) kv hkv
    have hfull : PolicyIonIon.updateComplexAt M spc d k =
        .ok { d with Qion := d.Qion.set k (PolicyIonIon.structureFactor M kv spc.p) } := by
      simp [PolicyIonIon.updateComplexAt, hkv, hk2]
    have hinc : PolicyIonIon.updateComplexRangeAt M spc old i i d k =
        .ok { d with Qion := d.Qion.set k (PolicyIonIon.structureFactor M kv spc.p) } := by
      have hr : List.range' i (i + 1 - i) = [i] := by simp
      simp only [PolicyIonIon.updateComplexRangeAt, hq, hkv, hr, PolicyIonIon.shift, hx, hy,
        Except.map, structureFactor_single_diff M kv spc.p old.p i x y hlen hdiff hx hy]
    simp only [List.foldlM_cons, hfull, hinc, bind, Except.bind]
    have hnd1 := (List.nodup_cons.mp hnd)
    apply ih hnd1.2
    · intro k1 hk1
      have := hk k1 (List.mem_cons_of_mem k hk1)
      simpa using this
    · intro k1 hk1 kv1 hkv1
      have hne : k ≠ k1 := fun h => hnd1.1 (h ▸ hk1)
      have := hQ k1 (List.mem_cons_of_mem k hk1) kv1 hkv1
      simpa [List.getElem?_set_ne hne] using this

theorem reciprocalEnergy_loop_ok (Aks : List R) (l : List (Tcomplex R)) (n : Nat) (E : R)
    (h : n + l.length ≤ Aks.length) :
    ∃ v, (l.enumFrom n).foldlM
      (fun (E : R) (kQ : Nat × Tcomplex R) =>
        match Aks[kQ.1]? with
        | some A => Except.ok (E + A * kQ.2.norm)
        | none => Except.error Fault.undefined_read) E = .ok v := by
  induction l generalizing n E with
  | nil => exact ⟨E, rfl⟩
  | cons a l ih =>
    have h1 : n < Aks.length := by simp at h; omega
    simp only [List.enumFrom_cons, List.foldlM_cons, List.getElem?_eq_getElem h1, bind,
      Except.bind]
    exact ih (n + 1) _ (by simp at h; omega)

theorem reciprocalEnergy_ok (M : Numerics R) (spc : Space R) (d : EwaldData R)
    (h : d.Qion.length ≤ d.Aks.length) :
    ∃ v, PolicyIonIon.reciprocalEnergy M spc d = .ok v := by
  obtain ⟨v, hv⟩ := reciprocalEnergy_loop_ok d.Aks d.Qion 0 0 (by simpa using h)
  refine ⟨2 * M.pi / spc.geo.getVolume * v * d.lB, ?_⟩
  simp only [PolicyIonIon.reciprocalEnergy, List.enum, hv, Except.map]

/-- C6. Incremental single-atom update of the structure factors.  Let the term
tagged `NEW` hold, for every stored vector `k`, the structure factor of the `OLD`
state (the state behind its back-reference), and let the trial state `spc` differ from
the `OLD` state only in the particle `a` of group `g`.  Then `Ewald::energy` of the Change
naming that atom returns, and its data are exactly those that the full
`updateComplex(data)` produces: every `Qion[k]` is the sum over the particles of the
trial state of `q_i (cos(k.r_i), sin(k.r_i))`. -/
theorem C6_ewald_single_atom_update (M : Numerics R) (mem : SpaceRef → Space R)
    (spc : Space R) (e : Ewald R) (ro : SpaceRef) (g a : Nat) (grp : Group R) (b : Bool)
    (hkey : e.key = keys.NEW) (hold : e.policy.old = some ro) (hsz : e.data.Sized)
    (hgrp : spc.groups[g]? = some grp) (ha : a < grp.size)
    (hin : grp.first + grp.size ≤ spc.p.length)
    (hlen : spc.p.length = (mem ro).p.length)
    (hdiff : ∀ n, n ≠ grp.first + a → spc.p[n]? = (mem ro).p[n]?)
    (hQ : ∀ k kv, k < e.data.kVectorsInUse → e.data.kVectors[k]? = some kv →
      e.data.Qion[k]? = some (PolicyIonIon.structureFactor M kv (mem ro).p)) :
    ∃ u d1,
      Ewald.energy M mem spc
        { dV := false, all := false, groups := [{ index := g, all := b, atoms := [a] }] } e =
        .ok (u, { e with data := d1 }) ∧
      PolicyIonIon.updateComplex M spc e.data = .ok d1 ∧
      ∀ k kv, k < e.data.kVectorsInUse → e.data.kVectors[k]? = some kv →
        d1.Qion[k]? = some (PolicyIonIon.structureFactor M kv spc.p) := by
  obtain ⟨hs1, hs2, hs3⟩ := hsz
  have hi : grp.first + a < spc.p.length := by omega
  have hx : spc.p[grp.first + a]? = some (spc.p[grp.first + a]) := List.getElem?_eq_getElem hi
  have hi2 : grp.first + a < (mem ro).p.length := by omega
  have hy : (mem ro).p[grp.first + a]? = some ((mem ro).p[grp.first + a]) :=
    List.getElem?_eq_getElem hi2
  have hks : ∀ k ∈ List.range e.data.kVectorsInUse,
      k < e.data.kVectors.length ∧ k < e.data.Qion.length := fun k hk => by
    have := List.mem_range.mp hk
    omega
  obtain ⟨Q, h1, h3, h4, _⟩ :=
    updateComplex_loop_spec M spc (List.range e.data.kVectorsInUse) e.data hks
  have hinc := updateComplexRange_loop_single M spc (mem ro) (grp.first + a) _ _ hlen hdiff hx hy
    (List.range e.data.kVectorsInUse) (List.nodup_range _) e.data hks
    (fun k hk kv hkv => hQ k kv (List.mem_range.mp hk) hkv)
  have hAks : ({ e.data with Qion := Q } : EwaldData R).Qion.length ≤
      ({ e.data with Qion := Q } : EwaldData R).Aks.length := by
    show Q.length ≤ e.data.Aks.length
    rw [h3]
    exact hs3
  obtain ⟨v, hv⟩ := reciprocalEnergy_ok M spc { e.data with Qion := Q } hAks
  refine ⟨PolicyIonIon.selfEnergy M spc { e.data with Qion := Q } +
      PolicyIonIon.surfaceEnergy M spc { e.data with Qion := Q } + v,
    { e.data with Qion := Q }, ?_,
    h1, fun k kv hk hkv => h4 k (List.mem_range.mpr hk) kv hkv⟩
  simp only [Ewald.energy, Change.empty, hkey, Ewald.refresh, Space.groupAt, hgrp, hold,
    PolicyIonIon.updateComplexRange, Option.map, hlen, hinc, h1, hv, Except.bind, Except.map,
    List.length_singleton, List.getD_cons_zero, if_true, Bool.or_self, Bool.false_eq_true,
    if_false, ne_eq, not_true_eq_false, List.isEmpty_cons, Bool.not_false, Bool.and_false]

/-- C6 on the trial state `qSpaceMoved`, in which atom 0 of group 0 of `qSpace` has
moved. -/
theorem C6_ewald_single_atom_update_witness :
    qEwaldNew.key = keys.NEW ∧ qEwaldNew.policy.old = some 0 ∧
    ∃ u d1,
      Ewald.energy qNumerics qMem qSpaceMoved
        { dV := false, all := false, groups := [{ index := 0, all := false, atoms := [0] }] }
        qEwaldNew = .ok (u, { qEwaldNew with data := d1 }) ∧
      PolicyIonIon.updateComplex qNumerics qSpaceMoved qEwaldNew.data = .ok d1 ∧
      ∀ k kv, k < qEwaldNew.data.kVectorsInUse → qEwaldNew.data.kVectors[k]? = some kv →
        d1.Qion[k]? = some (PolicyIonIon.structureFactor qNumerics kv qSpaceMoved.p) :=
  ⟨rfl, rfl,
    C6_ewald_single_atom_update qNumerics qMem qSpaceMoved qEwaldNew 0 0 0
      ⟨0, 1, 0, true, ⟨0, 0, 0⟩⟩ false rfl rfl
      (by simp [EwaldData.Sized, qEwaldNew, qEwaldDataOne])
      (by simp [qSpaceMoved]) (by decide) (by simp [qSpaceMoved])
      (by simp [qSpaceMoved, qMem, qSpace])
      (by
        intro n hn
        cases n with
        | zero => exact absurd rfl hn
        | succ n => simp [qSpaceMoved, qMem, qSpace])
      (by
        intro k kv hk hkv
        have hk0 : k = 0 := by
          simp [qEwaldNew, qEwaldDataOne] at hk
          exact hk
        subst hk0
        simp [qEwaldNew, qEwaldDataOne] at hkv
        subst hkv
        simp [qEwaldNew, qEwaldDataOne, qMem])⟩

/-- C7, evaluated.  Whole-group update for group 0 of `qSpace` (not the last group):
the loop also visits particle 1, which is unchanged, and the result is that of the
full recomputation.  Whole-group update for group 1, the last group: the loop
`i <= iend` reads `p[2]` of a particle vector of length 2. -/
theorem C7_whole_group_update_reads_past_last_group :
    (∃ u d1,
      Ewald.energy qNumerics qMem qSpaceMoved
        { dV := false, all := false, groups := [{ index := 0, all := true, atoms := [] }] }
        qEwaldNew = .ok (u, { qEwaldNew with data := d1 }) ∧
      PolicyIonIon.updateComplex qNumerics qSpaceMoved qEwaldNew.data = .ok d1) ∧
    qSpaceLast.p.length = 2 ∧
    Ewald.energy qNumerics qMem qSpaceLast
      { dV := false, all := false, groups := [{ index := 1, all := true, atoms := [] }] }
      qEwaldNew = .error Fault.undefined_read := by
  refine ⟨?_, rfl, ?_⟩
  · simp [Ewald.energy, Change.empty, qEwaldNew, Ewald.refresh, Space.groupAt, qSpaceMoved,
      PolicyIonIon.updateComplexRange, qMem, qSpace, PolicyIonIon.updateComplexRangeAt,
      qEwaldDataOne, PolicyIonIon.shift, List.range'_succ, Except.bind, Except.map,
      List.range_succ, PolicyIonIon.updateComplex, PolicyIonIon.updateComplexAt,
      PolicyIonIon.reciprocalEnergy, List.enum, List.enumFrom,
      PolicyIonIon.structureFactor, PolicyIonIon.phase, Tcomplex.add, Tcomplex.sub,
      Tcomplex.smul, Tcomplex.zero, qNumerics, Point.dot, bind, pure, Except.pure]
    norm_num
  · simp [Ewald.energy, Change.empty, qEwaldNew, Ewald.refresh, Space.groupAt, qSpaceLast,
      PolicyIonIon.updateComplexRange, qMem, qSpace, PolicyIonIon.updateComplexRangeAt,
      qEwaldDataOne, PolicyIonIon.shift, List.range'_succ, Except.bind, Except.map, bind,
      List.range_succ]

set_option maxRecDepth 100000 in
set_option maxHeartbeats 4000000 in
theorem update_box_10 (d : EwaldData ℚ) (hkcc : d.kcc = 1) (hkc2 : d.kc2 = 1)
    (ha : d.alpha2 = 1) (hs : d.spherical_sum = true) (hi : d.ipbc = false) :
    ∃ d2, EwaldData.update qNumerics ⟨10, 10, 10⟩ d = .ok d2 ∧ d2.L = ⟨10, 10, 10⟩ ∧
      d2.kVectors = [⟨0, -22 / 35, 0⟩, ⟨0, 0, -22 / 35⟩, ⟨0, 0, 22 / 35⟩,
        ⟨0, 22 / 35, 0⟩, ⟨22 / 35, 0, 0⟩] ++ List.replicate 21 Point.zero ∧
      d2.Aks = [276 / 121, 276 / 121, 276 / 121, 276 / 121, 552 / 121] ++ List.replicate 21 0 ∧
      d2.kVectorsInUse = 5 ∧ d2.Qion.length = 5 := by
  simp [EwaldData.update, int32, qNumerics, hkcc, hkc2, ha, hs, hi, intsFromTo, List.range,
    List.range.loop, EwaldData.visit, Point.maxCoeff, Point.smul, Point.dot, resize, Point.zero]
  norm_num
  omega

set_option maxRecDepth 100000 in
set_option maxHeartbeats 4000000 in
theorem update_box_20 (d : EwaldData ℚ) (hkcc : d.kcc = 1) (hkc2 : d.kc2 = 1)
    (ha : d.alpha2 = 1) (hs : d.spherical_sum = true) (hi : d.ipbc = false) :
    ∃ d2, EwaldData.update qNumerics ⟨20, 20, 20⟩ d = .ok d2 ∧ d2.L = ⟨20, 20, 20⟩ ∧
      d2.kVectors = [⟨0, -11 / 35, 0⟩, ⟨0, 0, -11 / 35⟩, ⟨0, 0, 11 / 35⟩,
        ⟨0, 11 / 35, 0⟩, ⟨11 / 35, 0, 0⟩] ++ List.replicate 21 Point.zero ∧
      d2.Aks = [4779 / 484, 4779 / 484, 4779 / 484, 4779 / 484, 4779 / 242] ++
        List.replicate 21 0 := by
  simp [EwaldData.update, int32, qNumerics, hkcc, hkc2, ha, hs, hi, intsFromTo, List.range,
    List.range.loop, EwaldData.visit, Point.maxCoeff, Point.smul, Point.dot, resize, Point.zero]
  norm_num

/-- C8, evaluated.  An `Ewald` term is constructed on `qSpace`, whose box has side 10;
after a volume move to a box of side 20 its `energy` is evaluated with key `NEW` and
`dV == true`.  The call returns, and the stored box is still the box of side 10,
with the k-vectors and weights of that box: `EwaldData::update` for the current box
gives other vectors and other weights. -/
theorem C8_volume_change_keeps_stale_k_vectors :
    ∃ e u e1 d2,
      Ewald.construct qNumerics qEwaldData 1 qSpace = .ok e ∧
      Ewald.energy qNumerics qMem qSpaceScaled { dV := true, all := false, groups := [] }
        { e with key := keys.NEW } = .ok (u, e1) ∧
      qSpaceScaled.geo.getLength = ⟨20, 20, 20⟩ ∧ e1.data.L = ⟨10, 10, 10⟩ ∧
      e1.data.kVectors = e.data.kVectors ∧ e1.data.Aks = e.data.Aks ∧
      EwaldData.update qNumerics qSpaceScaled.geo.getLength e1.data = .ok d2 ∧
      d2.L = ⟨20, 20, 20⟩ ∧ d2.kVectors ≠ e1.data.kVectors ∧ d2.Aks ≠ e1.data.Aks := by
  obtain ⟨dA, hA, hAL, hAk, hAa, hAn, hAq⟩ := update_box_10 qEwaldData rfl rfl rfl rfl rfl
  have hAfix : dA.kcc = 1 ∧ dA.kc2 = 1 ∧ dA.alpha2 = 1 ∧ dA.spherical_sum = true ∧
      dA.ipbc = false := by
    have h := hA
    simp only [EwaldData.update] at h
    split at h
    · simp only [Except.ok.injEq] at h
      subst h
      exact ⟨rfl, rfl, rfl, rfl, rfl⟩
    · split at h
      · simp at h
      · simp only [Except.ok.injEq] at h
        subst h
        exact ⟨rfl, rfl, rfl, rfl, rfl⟩
  have hsizeA : ∀ k ∈ List.range dA.kVectorsInUse,
      k < dA.kVectors.length ∧ k < dA.Qion.length := fun k hk => by
    have h1 := List.mem_range.mp hk
    rw [hAk, hAq]
    simp
    omega
  obtain ⟨QC, hC, hCq, _, _⟩ :=
    updateComplex_loop_spec qNumerics qSpace (List.range dA.kVectorsInUse) dA hsizeA
  have hsizeC : ∀ k ∈ List.range dA.kVectorsInUse,
      k < dA.kVectors.length ∧ k < QC.length := fun k hk => by
    rw [hCq]
    exact hsizeA k hk
  obtain ⟨QE, hE, hEq, _, _⟩ :=
    updateComplex_loop_spec qNumerics qSpaceScaled (List.range dA.kVectorsInUse)
      { dA with Qion := QC } hsizeC
  have hrec : QE.length ≤ dA.Aks.length := by
    rw [hEq]
    show QC.length ≤ dA.Aks.length
    rw [hCq, hAq, hAa]
    simp
  obtain ⟨v, hv⟩ := reciprocalEnergy_ok qNumerics qSpaceScaled { dA with Qion := QE } hrec
  obtain ⟨d2, h2, h2L, h2k, h2a⟩ := update_box_20 { dA with Qion := QE }
    hAfix.1 hAfix.2.1 hAfix.2.2.1 hAfix.2.2.2.1 hAfix.2.2.2.2
  refine ⟨
    { key := keys.NONE, name := "ewald", cite := "", data := { dA with Qion := QC },
      policy := { spc := 1, old := none }, spc := 1 },
    PolicyIonIon.selfEnergy qNumerics qSpaceScaled { dA with Qion := QE } +
      PolicyIonIon.surfaceEnergy qNumerics qSpaceScaled { dA with Qion := QE } + v,
    { key := keys.NEW, name := "ewald", cite := "", data := { dA with Qion := QE },
      policy := { spc := 1, old := none }, spc := 1 },
    d2, ?_, ?_, rfl, hAL, rfl, rfl, h2, h2L, ?_, ?_⟩
  · have hA1 : EwaldData.update qNumerics qSpace.geo.getLength qEwaldData = .ok dA := hA
    have hC1 : PolicyIonIon.updateComplex qNumerics qSpace dA = .ok { dA with Qion := QC } := hC
    simp only [Ewald.construct, hA1, hC1, Except.bind, Except.map]
  · have hE1 : PolicyIonIon.updateComplex qNumerics qSpaceScaled { dA with Qion := QC } =
        .ok { dA with Qion := QE } := hE
    simp [Ewald.energy, Change.empty, Ewald.refresh, hE1, hv, Except.bind, Except.map]
  · show d2.kVectors ≠ dA.kVectors
    rw [h2k, hAk]
    simp
    norm_num
  · show d2.Aks ≠ dA.Aks
    rw [h2a, hAa]
    simp
    norm_num

end EwaldTheorems

section NonbondedTheorems

variable {R : Type} [LinearOrderedCommRing R]

theorem foldl_add_eq_sum {α : Type} (f : α → R) (l : List α) (u : R) :
    l.foldl (fun v b => v + f b) u = u + (l.map f).sum := by
  induction l generalizing u with
  | nil => simp
  | cons a l ih => simp [ih, add_assoc]

theorem sumPairs_eq {α : Type} (f : α → α → R) (l : List α) (u : R) :
    sumPairs f l u = u + pairsSum f l := by
  induction l generalizing u with
  | nil => simp [sumPairs, pairsSum]
  | cons a l ih => simp [sumPairs, pairsSum, ih, foldl_add_eq_sum, add_assoc]

theorem foldl_foldl_eq_crossSum {α β : Type} (f : α → β → R) (A : List α) (B : List β) (u : R) :
    A.foldl (fun u i => B.foldl (fun v j => v + f i j) u) u = u + crossSum f A B := by
  induction A generalizing u with
  | nil => simp [crossSum]
  | cons a A ih =>
    simp only [List.foldl_cons, ih, foldl_add_eq_sum, crossSum, List.map_cons, List.sum_cons]
    ring

theorem crossSum_nil_left {α β : Type} (f : α → β → R) (B : List β) : crossSum f [] B = 0 := rfl

theorem crossSum_cons_left {α β : Type} (f : α → β → R) (a : α) (A : List α) (B : List β) :
    crossSum f (a :: A) B = (B.map (f a)).sum + crossSum f A B := by
  simp [crossSum]

theorem crossSum_append_left {α β : Type} (f : α → β → R) (A1 A2 : List α) (B : List β) :
    crossSum f (A1 ++ A2) B = crossSum f A1 B + crossSum f A2 B := by
  simp [crossSum]

theorem crossSum_nil_right {α β : Type} (f : α → β → R) (A : List α) : crossSum f A [] = 0 := by
  induction A with
  | nil => rfl
  | cons a A ih => simp [crossSum_cons_left, ih]

theorem crossSum_cons_right {α β : Type} (f : α → β → R) (A : List α) (b : β) (B : List β) :
    crossSum f A (b :: B) = (A.map (fun a => f a b)).sum + crossSum f A B := by
  induction A with
  | nil => simp [crossSum]
  | cons a A ih =>
    simp only [crossSum_cons_left, ih, List.map_cons, List.sum_cons]
    ring

theorem crossSum_append_right {α β : Type} (f : α → β → R) (A : List α) (B1 B2 : List β) :
    crossSum f A (B1 ++ B2) = crossSum f A B1 + crossSum f A B2 := by
  induction A with
  | nil => simp [crossSum]
  | cons a A ih =>
    simp only [crossSum_cons_left, ih, List.map_append, List.sum_append]
    ring

theorem crossSum_swap {α β : Type} (f : α → β → R) (A : List α) (B : List β) :
    crossSum f A B = crossSum (fun b a => f a b) B A := by
  induction A with
  | nil => simp [crossSum_nil_right, crossSum]
  | cons a A ih => rw [crossSum_cons_left, crossSum_cons_right, ih]

theorem pairsSum_append {α : Type} (f : α → α → R) (A B : List α) :
    pairsSum f (A ++ B) = pairsSum f A + crossSum f A B + pairsSum f B := by
  induction A with
  | nil => simp [pairsSum, crossSum]
  | cons a A ih =>
    rw [List.cons_append]
    simp only [pairsSum]
    rw [ih, crossSum_cons_left, List.map_append, List.sum_append]
    ring

theorem pairsSum_congr {α : Type} (f g : α → α → R) (l : List α)
    (h : ∀ a ∈ l, ∀ b ∈ l, f a b = g a b) : pairsSum f l = pairsSum g l := by
  induction l with
  | nil => rfl
  | cons a l ih =>
    simp only [pairsSum]
    rw [ih (fun x hx y hy => h x (List.mem_cons_of_mem a hx) y (List.mem_cons_of_mem a hy))]
    congr 1
    exact congrArg List.sum (List.map_congr_left fun b hb =>
      h a (List.mem_cons_self a l) b (List.mem_cons_of_mem a hb))

theorem crossSum_congr {α β : Type} (f g : α → β → R) (A : List α) (B : List β)
    (h : ∀ a ∈ A, ∀ b ∈ B, f a b = g a b) : crossSum f A B = crossSum g A B := by
  unfold crossSum
  exact congrArg List.sum (List.map_congr_left fun a ha =>
    congrArg List.sum (List.map_congr_left fun b hb => h a ha b hb))

theorem pairsSum_map {α β : Type} (f : β → β → R) (h : α → β) (l : List α) :
    pairsSum (fun a b => f (h a) (h b)) l = pairsSum f (l.map h) := by
  induction l with
  | nil => rfl
  | cons a l ih => simp [pairsSum, ih, List.map_map, Function.comp_def]

theorem g2g_fst (spc : Space R) (g1 g2 : Group R) (nb : Nonbonded R) :
    (Nonbonded.g2g spc g1 g2 nb).1 = Nonbonded.pairEnergy spc nb.Rc2_g2g nb.pairpot g1 g2 := by
  unfold Nonbonded.g2g Nonbonded.cut Nonbonded.pairEnergy
  by_cases h : ((spc.geo.sqdist g1.cm g2.cm : R) : WithTop R) < nb.Rc2_g2g
  · simp [h, foldl_foldl_eq_crossSum]
  · simp [h]

theorem g2g_snd (spc : Space R) (g1 g2 : Group R) (nb : Nonbonded R) :
    (Nonbonded.g2g spc g1 g2 nb).2.Rc2_g2g = nb.Rc2_g2g ∧
      (Nonbonded.g2g spc g1 g2 nb).2.pairpot = nb.pairpot := by
  unfold Nonbonded.g2g Nonbonded.cut
  by_cases h : ((spc.geo.sqdist g1.cm g2.cm : R) : WithTop R) < nb.Rc2_g2g
  · simp [h]
  · simp [h]

theorem sumOver_value {σ α : Type} (f : α → σ → R × σ) (inv : σ → Prop) (val : α → R)
    (hf : ∀ x s, inv s → (f x s).1 = val x ∧ inv (f x s).2) (xs : List α) (u : R) (s : σ)
    (hs : inv s) :
    (sumOver f xs (u, s)).1 = u + (xs.map val).sum ∧ inv (sumOver f xs (u, s)).2 := by
  induction xs generalizing u s with
  | nil => simpa [sumOver] using hs
  | cons x xs ih =>
    obtain ⟨h1, h2⟩ := hf x s hs
    have h3 := ih (u + (f x s).1) (f x s).2 h2
    simp only [sumOver, List.foldl_cons] at h3 ⊢
    refine ⟨?_, h3.2⟩
    rw [h3.1, h1, List.map_cons, List.sum_cons, add_assoc]

theorem allLoop_value {σ : Type} (spc : Space R)
    (pairpot : Particle R → Particle R → Point R → R)
    (g2g : GroupRef R → GroupRef R → σ → R × σ) (internal : Group R → Bool)
    (inv : σ → Prop) (G : GroupRef R → GroupRef R → R)
    (hg : ∀ i j s, inv s → (g2g i j s).1 = G i j ∧ inv (g2g i j s).2)
    (gs : List (GroupRef R)) (u : R) (s : σ) (hs : inv s) :
    (Nonbonded.allLoop spc pairpot g2g internal gs (u, s)).1 =
        u + pairsSum G gs +
          ((gs.filter (fun i => internal i.2)).map
            (fun i => Nonbonded.g_internal spc pairpot i.2)).sum ∧
      inv (Nonbonded.allLoop spc pairpot g2g internal gs (u, s)).2 := by
  induction gs generalizing u s with
  | nil => simpa [Nonbonded.allLoop, pairsSum] using hs
  | cons i rest ih =>
    obtain ⟨h1, h2⟩ := sumOver_value (fun j => g2g i j) inv (G i) (fun x s hs => hg i x s hs)
      rest u s hs
    simp only [Nonbonded.allLoop]
    by_cases hi : internal i.2 = true
    · obtain ⟨h3, h4⟩ := ih ((sumOver (fun j => g2g i j) rest (u, s)).1 +
        Nonbonded.g_internal spc pairpot i.2) (sumOver (fun j => g2g i j) rest (u, s)).2 h2
      simp only [hi, if_true, List.filter_cons, List.map_cons, List.sum_cons, pairsSum]
      refine ⟨?_, h4⟩
      rw [h3, h1]
      ring
    · obtain ⟨h3, h4⟩ := ih (sumOver (fun j => g2g i j) rest (u, s)).1
        (sumOver (fun j => g2g i j) rest (u, s)).2 h2
      simp only [hi, if_false, List.filter_cons, pairsSum, Bool.false_eq_true]
      refine ⟨?_, h4⟩
      rw [h3, h1]
      ring

theorem enum_map_snd_eq {α : Type} (l : List α) (n : Nat) : (l.enumFrom n).map Prod.snd = l := by
  induction l generalizing n with
  | nil => rfl
  | cons a l ih => simp [List.enumFrom_cons, ih]

theorem enum_map_on_snd {α β : Type} (f : α → β) (l : List α) (n : Nat) :
    (l.enumFrom n).map (fun i => f i.2) = l.map f := by
  induction l generalizing n with
  | nil => rfl
  | cons a l ih => simp [List.enumFrom_cons, ih]

/-- The value of a full evaluation (`all == true`, `dV == false`): `g2g` over the
unordered pairs of groups plus `g_internal` of every group. -/
theorem energy_all_value (spc : Space R) (nb : Nonbonded R) :
    ∃ nb1, Nonbonded.energy spc { dV := false, all := true, groups := [] } nb =
      .ok (pairsSum (Nonbonded.pairEnergy spc nb.Rc2_g2g nb.pairpot) spc.groups +
        (spc.groups.map (Nonbonded.g_internal spc nb.pairpot)).sum, nb1) := by
  obtain ⟨h1, _⟩ := allLoop_value spc nb.pairpot (fun g1 g2 s => Nonbonded.g2g spc g1.2 g2.2 s)
    (fun _ => true) (fun s => s.Rc2_g2g = nb.Rc2_g2g ∧ s.pairpot = nb.pairpot)
    (fun i j => Nonbonded.pairEnergy spc nb.Rc2_g2g nb.pairpot i.2 j.2)
    (fun i j s hs => by
      have h := g2g_snd spc i.2 j.2 s
      refine ⟨?_, h.1.trans hs.1, h.2.trans hs.2⟩
      rw [g2g_fst, hs.1, hs.2])
    spc.groupRefs 0 nb ⟨rfl, rfl⟩
  refine ⟨(Nonbonded.allLoop spc nb.pairpot (fun g1 g2 s => Nonbonded.g2g spc g1.2 g2.2 s)
    (fun _ => true) spc.groupRefs (0, nb)).2, ?_⟩
  simp only [Nonbonded.energy, Nonbonded.energyWith, Change.empty, Bool.not_true,
    Bool.false_and, Bool.false_eq_true, if_false, if_true]
  congr 1
  refine Prod.ext ?_ rfl
  rw [h1, pairsSum_map (Nonbonded.pairEnergy spc nb.Rc2_g2g nb.pairpot) Prod.snd]
  simp only [Space.groupRefs, List.enum, enum_map_snd_eq, List.filter_true, zero_add]
  rw [enum_map_on_snd]

theorem filter_enum_ne {α : Type} (A B : List α) (x : α) :
    ((A ++ x :: B).enum).filter (fun i => decide (i.1 ≠ A.length)) =
      A.enum ++ B.enumFrom (A.length + 1) := by
  rw [List.enum_append, List.filter_append, List.enumFrom_cons, List.filter_cons]
  have h1 : A.enum.filter (fun i => decide (i.1 ≠ A.length)) = A.enum := by
    rw [List.filter_eq_self]
    intro a ha
    have := List.fst_lt_of_mem_enum ha
    simp
    omega
  have h2 : (B.enumFrom (A.length + 1)).filter (fun i => decide (i.1 ≠ A.length)) =
      B.enumFrom (A.length + 1) := by
    rw [List.filter_eq_self]
    intro a ha
    have := (List.mem_enumFrom (x := a.2) (i := a.1) ha).1
    simp
    omega
  rw [h1, h2]
  simp

theorem getElem?_append_cons {α : Type} (A B : List α) (x : α) :
    (A ++ x :: B)[A.length]? = some x := by
  rw [List.getElem?_append_right (le_refl _)]
  simp

/-- The value of the whole-group branch for the group at position `A.length`: `g2g`
of every other group against it plus its `g_internal`. -/
theorem energy_oneGroup_value (spc : Space R) (nb : Nonbonded R) (A B : List (Group R))
    (x : Group R) (hgs : spc.groups = A ++ x :: B) :
    ∃ nb1, Nonbonded.energy spc
        { dV := false, all := false, groups := [{ index := A.length, all := true, atoms := [] }] }
        nb =
      .ok (((A ++ B).map (fun h => Nonbonded.pairEnergy spc nb.Rc2_g2g nb.pairpot h x)).sum +
        Nonbonded.g_internal spc nb.pairpot x, nb1) := by
  have hx : spc.groupAt A.length = .ok (A.length, x) := by
    simp only [Space.groupAt, hgs, getElem?_append_cons]
  obtain ⟨h1, _⟩ := sumOver_value
    (fun (i : GroupRef R) (s : Nonbonded R) => Nonbonded.g2g spc i.2 x s)
    (fun s => s.Rc2_g2g = nb.Rc2_g2g ∧ s.pairpot = nb.pairpot)
    (fun i => Nonbonded.pairEnergy spc nb.Rc2_g2g nb.pairpot i.2 x)
    (fun i s hs => by
      have h := g2g_snd spc i.2 x s
      refine ⟨?_, h.1.trans hs.1, h.2.trans hs.2⟩
      rw [g2g_fst, hs.1, hs.2])
    (A.enum ++ B.enumFrom (A.length + 1)) 0 nb ⟨rfl, rfl⟩
  refine ⟨(sumOver (fun (i : GroupRef R) (s : Nonbonded R) => Nonbonded.g2g spc i.2 x s)
    (A.enum ++ B.enumFrom (A.length + 1)) (0, nb)).2, ?_⟩
  simp only [Nonbonded.energy, Nonbonded.energyWith, Change.empty, Nonbonded.oneGroup, hx,
    Except.map, Space.groupRefs, hgs, filter_enum_ne, List.length_nil, List.isEmpty_cons,
    Bool.not_false, Bool.and_false, Bool.and_self, Bool.false_eq_true, if_false, if_true,
    Nat.zero_ne_one]
  congr 1
  refine Prod.ext ?_ rfl
  simp only
  rw [h1, List.map_append, List.map_append, List.enum,
    enum_map_on_snd (fun h => Nonbonded.pairEnergy spc nb.Rc2_g2g nb.pairpot h x),
    enum_map_on_snd (fun h => Nonbonded.pairEnergy spc nb.Rc2_g2g nb.pairpot h x), zero_add]

theorem pairEnergy_symm (spc : Space R) (Rc2 : WithTop R)
    (pairpot : Particle R → Particle R → Point R → R)
    (hsym : ∀ a b, Nonbonded.i2i spc pairpot a b = Nonbonded.i2i spc pairpot b a)
    (hdist : ∀ p q, spc.geo.sqdist p q = spc.geo.sqdist q p) (g1 g2 : Group R) :
    Nonbonded.pairEnergy spc Rc2 pairpot g1 g2 = Nonbonded.pairEnergy spc Rc2 pairpot g2 g1 := by
  unfold Nonbonded.pairEnergy
  rw [hdist g1.cm g2.cm, crossSum_swap]
  have h : (fun b a => Nonbonded.i2i spc pairpot a b) = Nonbonded.i2i spc pairpot := by
    funext b a
    exact hsym a b
  rw [h]

theorem pairEnergy_congr (sN sO : Space R) (Rc2 : WithTop R)
    (pairpot : Particle R → Particle R → Point R → R) (hgeo : sN.geo = sO.geo)
    (g1 g2 : Group R) (h1 : sN.particles g1 = sO.particles g1)
    (h2 : sN.particles g2 = sO.particles g2) :
    Nonbonded.pairEnergy sN Rc2 pairpot g1 g2 = Nonbonded.pairEnergy sO Rc2 pairpot g1 g2 := by
  unfold Nonbonded.pairEnergy Nonbonded.i2i
  rw [hgeo, h1, h2]

theorem g_internal_congr (sN sO : Space R)
    (pairpot : Particle R → Particle R → Point R → R) (hgeo : sN.geo = sO.geo)
    (g : Group R) (h : sN.particles g = sO.particles g) :
    Nonbonded.g_internal sN pairpot g = Nonbonded.g_internal sO pairpot g := by
  unfold Nonbonded.g_internal Nonbonded.i2i
  rw [hgeo, h]

theorem map_sum_congr {α : Type} (f g : α → R) (l : List α) (h : ∀ a ∈ l, f a = g a) :
    (l.map f).sum = (l.map g).sum :=
  congrArg List.sum (List.map_congr_left h)

/-- C4. Full versus incremental evaluation for a move of one whole group.  Two
states whose group vectors are `A ++ x :: B` (reference) and `A ++ y :: B` (trial),
with the same container and the same particles in every group of `A` and `B`; a
pair potential that is symmetric in its two particles and a symmetric distance
function; any group-group cutoff.  Then the energy difference between trial and
reference state is the same for the Change that names the group as a whole and for
`all == true`. -/
theorem C4_whole_group_move (sO sN : Space R) (nbO nbN : Nonbonded R) (A B : List (Group R))
    (x y : Group R) (hRc : nbN.Rc2_g2g = nbO.Rc2_g2g) (hpot : nbN.pairpot = nbO.pairpot)
    (hgeo : sN.geo = sO.geo) (hO : sO.groups = A ++ x :: B) (hN : sN.groups = A ++ y :: B)
    (hpart : ∀ h ∈ A ++ B, sN.particles h = sO.particles h)
    (hsym : ∀ a b, nbO.pairpot a b (sO.geo.vdist a.pos b.pos) =
      nbO.pairpot b a (sO.geo.vdist b.pos a.pos))
    (hdist : ∀ p q, sO.geo.sqdist p q = sO.geo.sqdist q p) :
    ∃ uN uO vN vO nN nO mN mO,
      Nonbonded.energy sN
        { dV := false, all := false, groups := [{ index := A.length, all := true, atoms := [] }] }
        nbN = .ok (uN, nN) ∧
      Nonbonded.energy sO
        { dV := false, all := false, groups := [{ index := A.length, all := true, atoms := [] }] }
        nbO = .ok (uO, nO) ∧
      Nonbonded.energy sN { dV := false, all := true, groups := [] } nbN = .ok (vN, mN) ∧
      Nonbonded.energy sO { dV := false, all := true, groups := [] } nbO = .ok (vO, mO) ∧
      uN - uO = vN - vO := by
  obtain ⟨nN, hcN⟩ := energy_oneGroup_value sN nbN A B y hN
  obtain ⟨nO, hcO⟩ := energy_oneGroup_value sO nbO A B x hO
  obtain ⟨mN, haN⟩ := energy_all_value sN nbN
  obtain ⟨mO, haO⟩ := energy_all_value sO nbO
  refine ⟨_, _, _, _, nN, nO, mN, mO, hcN, hcO, haN, haO, ?_⟩
  rw [hN, hO, hRc, hpot]
  have hsymO : ∀ a b, Nonbonded.i2i sO nbO.pairpot a b = Nonbonded.i2i sO nbO.pairpot b a :=
    fun a b => hsym a b
  have hsymN : ∀ a b, Nonbonded.i2i sN nbO.pairpot a b = Nonbonded.i2i sN nbO.pairpot b a := by
    intro a b
    unfold Nonbonded.i2i
    rw [hgeo]
    exact hsymO a b
  have hdistN : ∀ p q, sN.geo.sqdist p q = sN.geo.sqdist q p := by
    rw [hgeo]
    exact hdist
  have hA : ∀ h ∈ A, sN.particles h = sO.particles h := fun h hh =>
    hpart h (List.mem_append_left B hh)
  have hB : ∀ h ∈ B, sN.particles h = sO.particles h := fun h hh =>
    hpart h (List.mem_append_right A hh)
  have e1 : pairsSum (Nonbonded.pairEnergy sN nbO.Rc2_g2g nbO.pairpot) A =
      pairsSum (Nonbonded.pairEnergy sO nbO.Rc2_g2g nbO.pairpot) A :=
    pairsSum_congr _ _ A fun a ha b hb => pairEnergy_congr sN sO _ _ hgeo a b (hA a ha) (hA b hb)
  have e2 : pairsSum (Nonbonded.pairEnergy sN nbO.Rc2_g2g nbO.pairpot) B =
      pairsSum (Nonbonded.pairEnergy sO nbO.Rc2_g2g nbO.pairpot) B :=
    pairsSum_congr _ _ B fun a ha b hb => pairEnergy_congr sN sO _ _ hgeo a b (hB a ha) (hB b hb)
  have e3 : crossSum (Nonbonded.pairEnergy sN nbO.Rc2_g2g nbO.pairpot) A B =
      crossSum (Nonbonded.pairEnergy sO nbO.Rc2_g2g nbO.pairpot) A B :=
    crossSum_congr _ _ A B fun a ha b hb => pairEnergy_congr sN sO _ _ hgeo a b (hA a ha) (hB b hb)
  have e4 : (A.map (Nonbonded.g_internal sN nbO.pairpot)).sum =
      (A.map (Nonbonded.g_internal sO nbO.pairpot)).sum :=
    map_sum_congr _ _ A fun a ha => g_internal_congr sN sO _ hgeo a (hA a ha)
  have e5 : (B.map (Nonbonded.g_internal sN nbO.pairpot)).sum =
      (B.map (Nonbonded.g_internal sO nbO.pairpot)).sum :=
    map_sum_congr _ _ B fun a ha => g_internal_congr sN sO _ hgeo a (hB a ha)
  have e6 : (B.map (Nonbonded.pairEnergy sN nbO.Rc2_g2g nbO.pairpot y)).sum =
      (B.map (fun h => Nonbonded.pairEnergy sN nbO.Rc2_g2g nbO.pairpot h y)).sum :=
    map_sum_congr _ _ B fun b _ => pairEnergy_symm sN _ _ hsymN hdistN y b
  have e7 : (B.map (Nonbonded.pairEnergy sO nbO.Rc2_g2g nbO.pairpot x)).sum =
      (B.map (fun h => Nonbonded.pairEnergy sO nbO.Rc2_g2g nbO.pairpot h x)).sum :=
    map_sum_congr _ _ B fun b _ => pairEnergy_symm sO _ _ hsymO hdist x b
  simp only [pairsSum_append, pairsSum, crossSum_cons_right, List.map_append, List.map_cons,
    List.sum_append, List.sum_cons, e1, e2, e3, e4, e5, e6, e7]
  ring

theorem tiles_bounds (gs : List (Group R)) (s n : Nat) (h : tiles gs s n) :
    s ≤ n ∧ ∀ g ∈ gs, s ≤ g.first ∧ g.first + g.size ≤ n := by
  induction gs generalizing s with
  | nil =>
    simp only [tiles] at h
    exact ⟨by omega, fun g hg => absurd hg (List.not_mem_nil g)⟩
  | cons a gs ih =>
    obtain ⟨h1, h2⟩ := h
    obtain ⟨h3, h4⟩ := ih (s + a.size) h2
    refine ⟨by omega, fun g hg => ?_⟩
    rcases List.mem_cons.mp hg with hga | hga
    · subst hga
      omega
    · have := h4 g hga
      omega

theorem tiles_split (A B : List (Group R)) (s n : Nat) (h : tiles (A ++ B) s n) :
    ∃ m, tiles A s m ∧ tiles B m n := by
  induction A generalizing s with
  | nil => exact ⟨s, rfl, h⟩
  | cons a A ih =>
    obtain ⟨h1, h2⟩ := h
    obtain ⟨m, h3, h4⟩ := ih (s + a.size) h2
    exact ⟨m, ⟨h1, h3⟩, h4⟩

theorem tiles_flatten (spc : Space R) (gs : List (Group R)) (s : Nat)
    (h : tiles gs s spc.p.length) : (gs.map spc.particles).flatten = spc.p.drop s := by
  induction gs generalizing s with
  | nil =>
    simp only [tiles] at h
    simp [h]
  | cons a gs ih =>
    obtain ⟨h1, h2⟩ := h
    rw [List.map_cons, List.flatten_cons, ih (s + a.size) h2, Space.particles, h1,
      ← List.drop_drop, List.take_append_drop]

theorem slice_congr {α : Type} (pN pO : List α) (k f n : Nat)
    (hdiff : ∀ i, i ≠ k → pN[i]? = pO[i]?) (hk : k < f ∨ f + n ≤ k) :
    (pN.drop f).take n = (pO.drop f).take n := by
  apply List.ext_getElem?
  intro i
  simp only [List.getElem?_take, List.getElem?_drop]
  split
  · exact hdiff (f + i) (by omega)
  · rfl

theorem crossSum_flatten_right {α β : Type} (f : α → β → R) (A : List α) (Ls : List (List β)) :
    crossSum f A Ls.flatten = (Ls.map (crossSum f A)).sum := by
  induction Ls with
  | nil => simp [crossSum_nil_right]
  | cons L Ls ih => simp [crossSum_append_right, ih]

theorem pairsSum_flatten {α : Type} (f : α → α → R) (Ls : List (List α)) :
    pairsSum f Ls.flatten = pairsSum (crossSum f) Ls + (Ls.map (pairsSum f)).sum := by
  induction Ls with
  | nil => simp [pairsSum]
  | cons L Ls ih =>
    rw [List.flatten_cons, pairsSum_append, ih, crossSum_flatten_right]
    simp only [pairsSum, List.map_cons, List.sum_cons]
    ring

theorem g_internal_eq (spc : Space R) (pairpot : Particle R → Particle R → Point R → R)
    (g : Group R) :
    Nonbonded.g_internal spc pairpot g = pairsSum (Nonbonded.i2i spc pairpot) (spc.particles g) := by
  simp [Nonbonded.g_internal, sumPairs_eq]

/-- With groups that tile the particle vector, the pair potential summed over all
unordered pairs of particles is the uncut group-group energy of all unordered pairs
of groups plus the internal energy of every group. -/
theorem pairsSum_particles (spc : Space R) (pairpot : Particle R → Particle R → Point R → R)
    (ht : spc.Tiled) :
    pairsSum (Nonbonded.i2i spc pairpot) spc.p =
      pairsSum (Nonbonded.pairEnergy spc ⊤ pairpot) spc.groups +
        (spc.groups.map (Nonbonded.g_internal spc pairpot)).sum := by
  have h1 := tiles_flatten spc spc.groups 0 ht
  rw [List.drop_zero] at h1
  have h2 := pairsSum_flatten (Nonbonded.i2i spc pairpot) (spc.groups.map spc.particles)
  rw [h1] at h2
  have h3 : pairsSum (crossSum (Nonbonded.i2i spc pairpot)) (spc.groups.map spc.particles) =
      pairsSum (Nonbonded.pairEnergy spc ⊤ pairpot) spc.groups := by
    rw [← pairsSum_map (crossSum (Nonbonded.i2i spc pairpot)) spc.particles]
    apply pairsSum_congr
    intro a _ b _
    simp [Nonbonded.pairEnergy]
  have h4 : ((spc.groups.map spc.particles).map (pairsSum (Nonbonded.i2i spc pairpot))).sum =
      (spc.groups.map (Nonbonded.g_internal spc pairpot)).sum := by
    rw [List.map_map]
    apply map_sum_congr
    intro a _
    simp [g_internal_eq]
  rw [h2, h3, h4]

theorem filter_enumFrom_lt {α : Type} (l : List α) (n m : Nat) (hm : m < n) :
    (l.enumFrom n).filter (fun j => decide (j.1 ≠ m)) = l.enumFrom n := by
  rw [List.filter_eq_self]
  intro j hj
  have := (List.mem_enumFrom (x := j.2) (i := j.1) hj).1
  simp
  omega

theorem pairsSum_replace {α : Type} (f : α → α → R) (hsym : ∀ a b, f a b = f b a)
    (lN lO : List α) (k n : Nat) (x y : α) (hlen : lN.length = lO.length)
    (hdiff : ∀ i, i ≠ k → lN[i]? = lO[i]?) (hx : lN[k]? = some x) (hy : lO[k]? = some y) :
    pairsSum f lN - pairsSum f lO =
      (((lN.enumFrom n).filter (fun j => decide (j.1 ≠ n + k))).map (fun j => f x j.2)).sum -
        (((lO.enumFrom n).filter (fun j => decide (j.1 ≠ n + k))).map (fun j => f y j.2)).sum := by
  induction lN generalizing lO k n with
  | nil => simp at hx
  | cons a lN ih =>
    cases lO with
    | nil => simp at hy
    | cons b lO =>
      cases k with
      | zero =>
        simp only [List.getElem?_cons_zero, Option.some.injEq] at hx hy
        have h1 : lN = lO := List.ext_getElem? fun i => by
          have := hdiff (i + 1) (by omega)
          simpa using this
        subst hx hy h1
        have hf : ∀ c : α, ((c :: lN).enumFrom n).filter (fun j => decide (j.1 ≠ n + 0)) =
            lN.enumFrom (n + 1) := fun c => by
          rw [List.enumFrom_cons, List.filter_cons_of_neg (by simp),
            filter_enumFrom_lt lN (n + 1) (n + 0) (by omega)]
        rw [hf a, hf b, enum_map_on_snd (f a), enum_map_on_snd (f b)]
        simp only [pairsSum]
        ring
      | succ k =>
        have h0 := hdiff 0 (by omega)
        simp only [List.getElem?_cons_zero, Option.some.injEq] at h0
        simp only [List.getElem?_cons_succ] at hx hy
        have h1 := ih lO k (n + 1) (by simpa using hlen)
          (fun i hi => by
            have := hdiff (i + 1) (by omega)
            simpa using this) hx hy
        have h2 := sum_map_single_diff (f a) lN lO k x y (by simpa using hlen)
          (fun i hi => by
            have := hdiff (i + 1) (by omega)
            simpa using this) hx hy
        subst h0
        have hidx : n + 1 + k = n + (k + 1) := by omega
        rw [hidx] at h1
        have hf : ∀ l : List α, ((a :: l).enumFrom n).filter (fun j => decide (j.1 ≠ n + (k + 1))) =
            (n, a) :: (l.enumFrom (n + 1)).filter (fun j => decide (j.1 ≠ n + (k + 1))) :=
          fun l => by
            rw [List.enumFrom_cons, List.filter_cons_of_pos (by simp)]
        rw [hf lN, hf lO]
        simp only [pairsSum, List.map_cons, List.sum_cons]
        rw [h2, hsym a x, hsym a y]
        linear_combination h1

theorem oneAtom_loop_value (spc : Space R) (pairpot : Particle R → Particle R → Point R → R)
    (k : Nat) (x : Particle R) (hx : spc.p[k]? = some x) (es : List (Nat × Particle R)) (u : R) :
    es.foldlM (Nonbonded.oneAtomStep spc pairpot k) u =
      .ok (u + ((es.filter (fun j => decide (j.1 ≠ k))).map
        (fun j => Nonbonded.i2i spc pairpot x j.2)).sum) := by
  induction es generalizing u with
  | nil => simp [pure, Except.pure]
  | cons e es ih =>
    by_cases hk : k = e.1
    · have hstep : Nonbonded.oneAtomStep spc pairpot k u e = .ok u := by
        simp [Nonbonded.oneAtomStep, hk]
      rw [List.foldlM_cons, hstep, List.filter_cons_of_neg (by simp [hk])]
      exact ih u
    · have hstep : Nonbonded.oneAtomStep spc pairpot k u e =
          .ok (u + Nonbonded.i2i spc pairpot x e.2) := by
        simp [Nonbonded.oneAtomStep, hk, Space.particleAt, hx, Except.map]
      have hk2 : e.1 ≠ k := fun h => hk h.symm
      rw [List.foldlM_cons, hstep, List.filter_cons_of_pos (by simp [hk2])]
      simp only [bind, Except.bind, List.map_cons, List.sum_cons]
      rw [ih, add_assoc]

/-- The value of the single-atom branch: the pair potential of the moved particle with
every other particle of the particle vector. -/
theorem energy_oneAtom_value (spc : Space R) (nb : Nonbonded R) (g a : Nat) (b : Bool)
    (grp : Group R) (x : Particle R) (hg : spc.groups[g]? = some grp)
    (hx : spc.p[grp.first + a]? = some x) :
    Nonbonded.energy spc
        { dV := false, all := false, groups := [{ index := g, all := b, atoms := [a] }] } nb =
      .ok (((spc.p.enum.filter (fun j => decide (j.1 ≠ grp.first + a))).map
        (fun j => Nonbonded.i2i spc nb.pairpot x j.2)).sum, nb) := by
  simp only [Nonbonded.energy, Nonbonded.energyWith, Change.empty, Nonbonded.oneAtom,
    Space.groupAt, hg, Except.bind, Except.map, List.getD_cons_zero, List.length_singleton,
    oneAtom_loop_value spc nb.pairpot (grp.first + a) x hx, zero_add, List.isEmpty_cons,
    Bool.not_false, Bool.and_false, Bool.and_self, Bool.false_eq_true, if_false, if_true]

theorem pairEnergy_uncut (spc : Space R) (Rc2 : WithTop R)
    (pairpot : Particle R → Particle R → Point R → R) (g1 g2 : Group R)
    (h : (Nonbonded.cut spc g1 g2
      { key := keys.NONE, name := "", cite := "", g2gcnt := 0, g2gskip := 0, Rc2_g2g := Rc2,
        spc := 0, pairpot := pairpot }).1 = false) :
    Nonbonded.pairEnergy spc Rc2 pairpot g1 g2 = Nonbonded.pairEnergy spc ⊤ pairpot g1 g2 := by
  unfold Nonbonded.cut at h
  unfold Nonbonded.pairEnergy
  by_cases hc : ((spc.geo.sqdist g1.cm g2.cm : R) : WithTop R) < Rc2
  · simp [hc]
  · simp [hc] at h

theorem pairsSum_around {α : Type} (F : α → α → R) (A B : List α) (z : α) :
    pairsSum F (A ++ z :: B) =
      pairsSum F A + crossSum F A B + pairsSum F B +
        ((A.map (fun h => F h z)).sum + (B.map (F z)).sum) := by
  rw [pairsSum_append, crossSum_cons_right]
  simp only [pairsSum]
  ring

/-- C3, amended.  Full versus incremental evaluation for a move of one atom.  The
groups tile the particle vector (every particle is an active particle of one group);
the trial state differs from the reference state only in the particle `a` of the
group `grp` at position `A.length`; the pair potential is symmetric in its two
particles; and the cutoff skips no pair formed by `grp` and another group (as with the
default, infinite cutoff).  Then the energy difference between trial and reference
state is the same for the Change that names the atom and for `all == true`. -/
theorem C3_single_atom_move (sO sN : Space R) (nbO nbN : Nonbonded R) (A B : List (Group R))
    (grp : Group R) (a : Nat) (b : Bool)
    (hRc : nbN.Rc2_g2g = nbO.Rc2_g2g) (hpot : nbN.pairpot = nbO.pairpot)
    (hgeo : sN.geo = sO.geo) (hO : sO.groups = A ++ grp :: B) (hN : sN.groups = sO.groups)
    (ht : sO.Tiled) (ha : a < grp.size) (hlen : sN.p.length = sO.p.length)
    (hdiff : ∀ n, n ≠ grp.first + a → sN.p[n]? = sO.p[n]?)
    (hsym : ∀ p q, nbO.pairpot p q (sO.geo.vdist p.pos q.pos) =
      nbO.pairpot q p (sO.geo.vdist q.pos p.pos))
    (hcut : ∀ h ∈ A ++ B, (Nonbonded.cut sO h grp nbO).1 = false ∧
      (Nonbonded.cut sO grp h nbO).1 = false) :
    ∃ uN uO vN vO mN mO,
      Nonbonded.energy sN
        { dV := false, all := false, groups := [{ index := A.length, all := b, atoms := [a] }] }
        nbN = .ok (uN, nbN) ∧
      Nonbonded.energy sO
        { dV := false, all := false, groups := [{ index := A.length, all := b, atoms := [a] }] }
        nbO = .ok (uO, nbO) ∧
      Nonbonded.energy sN { dV := false, all := true, groups := [] } nbN = .ok (vN, mN) ∧
      Nonbonded.energy sO { dV := false, all := true, groups := [] } nbO = .ok (vO, mO) ∧
      uN - uO = vN - vO := by
  -- the tiling places the moved particle inside `grp` and outside every other group
  have ht1 : tiles (A ++ grp :: B) 0 sO.p.length := by
    have := ht
    unfold Space.Tiled at this
    rwa [hO] at this
  obtain ⟨m, htA, htB⟩ := tiles_split A (grp :: B) 0 _ ht1
  obtain ⟨hm, htB1⟩ := htB
  have hbA := (tiles_bounds A 0 m htA).2
  have hbB := tiles_bounds B (m + grp.size) _ htB1
  have hk : grp.first + a < sO.p.length := by omega
  have hkN : grp.first + a < sN.p.length := by omega
  have hx : sN.p[grp.first + a]? = some (sN.p[grp.first + a]) := List.getElem?_eq_getElem hkN
  have hy : sO.p[grp.first + a]? = some (sO.p[grp.first + a]) := List.getElem?_eq_getElem hk
  have hA : ∀ h ∈ A, sN.particles h = sO.particles h := fun h hh =>
    slice_congr sN.p sO.p (grp.first + a) h.first h.size hdiff (Or.inr (by
      have := hbA h hh
      omega))
  have hB : ∀ h ∈ B, sN.particles h = sO.particles h := fun h hh =>
    slice_congr sN.p sO.p (grp.first + a) h.first h.size hdiff (Or.inl (by
      have := hbB.2 h hh
      omega))
  have htN : sN.Tiled := by
    unfold Space.Tiled
    rw [hN, hlen]
    exact ht
  have hgO : sO.groups[A.length]? = some grp := by rw [hO, getElem?_append_cons]
  have hgN : sN.groups[A.length]? = some grp := by rw [hN, hgO]
  have hi2i : Nonbonded.i2i sN nbO.pairpot = Nonbonded.i2i sO nbO.pairpot := by
    funext p q
    unfold Nonbonded.i2i
    rw [hgeo]
  -- the four evaluations
  have hcN := energy_oneAtom_value sN nbN A.length a b grp _ hgN hx
  have hcO := energy_oneAtom_value sO nbO A.length a b grp _ hgO hy
  obtain ⟨mN, haN⟩ := energy_all_value sN nbN
  obtain ⟨mO, haO⟩ := energy_all_value sO nbO
  refine ⟨_, _, _, _, mN, mO, hcN, hcO, haN, haO, ?_⟩
  rw [hRc, hpot]
  -- the single-atom values differ by the difference of the sums over all particle pairs
  have hrep := pairsSum_replace (Nonbonded.i2i sO nbO.pairpot) (fun p q => hsym p q) sN.p sO.p
    (grp.first + a) 0 _ _ hlen hdiff hx hy
  rw [Nat.zero_add] at hrep
  rw [hi2i]
  simp only [List.enum]
  rw [← hrep]
  -- which are sums over pairs of groups
  have hpN := pairsSum_particles sN nbO.pairpot htN
  have hpO := pairsSum_particles sO nbO.pairpot ht
  rw [hi2i] at hpN
  rw [hpN, hpO, hN, hO]
  -- on pairs that do not involve `grp` the two states agree
  have congrP : ∀ Rc : WithTop R,
      pairsSum (Nonbonded.pairEnergy sN Rc nbO.pairpot) A +
          crossSum (Nonbonded.pairEnergy sN Rc nbO.pairpot) A B +
          pairsSum (Nonbonded.pairEnergy sN Rc nbO.pairpot) B =
        pairsSum (Nonbonded.pairEnergy sO Rc nbO.pairpot) A +
          crossSum (Nonbonded.pairEnergy sO Rc nbO.pairpot) A B +
          pairsSum (Nonbonded.pairEnergy sO Rc nbO.pairpot) B := fun Rc => by
    rw [pairsSum_congr _ _ A fun p hp q hq =>
        pairEnergy_congr sN sO Rc nbO.pairpot hgeo p q (hA p hp) (hA q hq),
      pairsSum_congr _ _ B fun p hp q hq =>
        pairEnergy_congr sN sO Rc nbO.pairpot hgeo p q (hB p hp) (hB q hq),
      crossSum_congr _ _ A B fun p hp q hq =>
        pairEnergy_congr sN sO Rc nbO.pairpot hgeo p q (hA p hp) (hB q hq)]
  -- on pairs that involve `grp` nothing is cut
  have hcutN : ∀ g1 g2 : Group R, (Nonbonded.cut sO g1 g2 nbO).1 = false →
      Nonbonded.pairEnergy sN nbO.Rc2_g2g nbO.pairpot g1 g2 =
        Nonbonded.pairEnergy sN ⊤ nbO.pairpot g1 g2 := fun g1 g2 h => by
    apply pairEnergy_uncut
    unfold Nonbonded.cut at h ⊢
    rw [hgeo]
    by_cases hc : ((sO.geo.sqdist g1.cm g2.cm : R) : WithTop R) < nbO.Rc2_g2g
    · simp [hc]
    · simp [hc] at h
  have hcutO : ∀ g1 g2 : Group R, (Nonbonded.cut sO g1 g2 nbO).1 = false →
      Nonbonded.pairEnergy sO nbO.Rc2_g2g nbO.pairpot g1 g2 =
        Nonbonded.pairEnergy sO ⊤ nbO.pairpot g1 g2 := fun g1 g2 h => by
    apply pairEnergy_uncut
    unfold Nonbonded.cut at h ⊢
    by_cases hc : ((sO.geo.sqdist g1.cm g2.cm : R) : WithTop R) < nbO.Rc2_g2g
    · simp [hc]
    · simp [hc] at h
  have eAN := map_sum_congr _ _ A fun h hh =>
    hcutN h grp (hcut h (List.mem_append_left B hh)).1
  have eBN := map_sum_congr _ _ B fun h hh =>
    hcutN grp h (hcut h (List.mem_append_right A hh)).2
  have eAO := map_sum_congr _ _ A fun h hh =>
    hcutO h grp (hcut h (List.mem_append_left B hh)).1
  have eBO := map_sum_congr _ _ B fun h hh =>
    hcutO grp h (hcut h (List.mem_append_right A hh)).2
  rw [pairsSum_around, pairsSum_around, pairsSum_around, pairsSum_around, eAN, eBN, eAO, eBO]
  linear_combination congrP ⊤ - congrP nbO.Rc2_g2g

theorem qPairpot_symmetric (p q : Particle ℚ) :
    qPairpot p q (qBox.vdist p.pos q.pos) = qPairpot q p (qBox.vdist q.pos p.pos) := by
  simp only [qPairpot, qBox, Point.squaredNorm, Point.dot, Point.sub]
  ring

theorem qBox_sqdist_symmetric (p q : Point ℚ) : qBox.sqdist p q = qBox.sqdist q p := by
  simp only [qBox, Point.squaredNorm, Point.dot, Point.sub]
  ring

theorem qSpace_tiled : qSpace.Tiled := by
  simp [Space.Tiled, tiles, qSpace]

/-- C3 as stated fails with a finite cutoff.  In `qSpace` the two atomic groups, of
one active particle each, are 3 apart and the cutoff is 1; the pair potential
`q_a q_b r^2` is symmetric.  Atom 0 of group 0 moves from `(0,0,0)` to `(1,0,0)`.  The
single-atom branch ignores the cutoff and gives -4 and -9, a difference of 5; the full
evaluation skips the pair in both states and gives 0 and 0. -/
theorem C3_fails_with_finite_cutoff :
    (Nonbonded.energy qSpaceMoved
      { dV := false, all := false, groups := [{ index := 0, all := false, atoms := [0] }] }
      qNonbondedCut).map Prod.fst = .ok (-4) ∧
    (Nonbonded.energy qSpace
      { dV := false, all := false, groups := [{ index := 0, all := false, atoms := [0] }] }
      qNonbondedCut).map Prod.fst = .ok (-9) ∧
    (Nonbonded.energy qSpaceMoved { dV := false, all := true, groups := [] }
      qNonbondedCut).map Prod.fst = .ok 0 ∧
    (Nonbonded.energy qSpace { dV := false, all := true, groups := [] }
      qNonbondedCut).map Prod.fst = .ok 0 ∧
    (-4 : ℚ) - (-9) ≠ 0 - 0 := by
  refine ⟨by decide!, by decide!, by decide!, by decide!, by decide!⟩

/-- C3, amended, on `qSpace` with the default cutoff: atom 0 of group 0 moves from
`(0,0,0)` to `(1,0,0)`. -/
theorem C3_single_atom_move_witness :
    qSpace.Tiled ∧
    ∃ uN uO vN vO mN mO,
      Nonbonded.energy qSpaceMoved
        { dV := false, all := false, groups := [{ index := 0, all := false, atoms := [0] }] }
        qNonbonded = .ok (uN, qNonbonded) ∧
      Nonbonded.energy qSpace
        { dV := false, all := false, groups := [{ index := 0, all := false, atoms := [0] }] }
        qNonbonded = .ok (uO, qNonbonded) ∧
      Nonbonded.energy qSpaceMoved { dV := false, all := true, groups := [] } qNonbonded =
        .ok (vN, mN) ∧
      Nonbonded.energy qSpace { dV := false, all := true, groups := [] } qNonbonded =
        .ok (vO, mO) ∧
      uN - uO = vN - vO :=
  ⟨qSpace_tiled,
    C3_single_atom_move qSpace qSpaceMoved qNonbonded qNonbonded []
      [⟨1, 1, 0, true, ⟨3, 0, 0⟩⟩] ⟨0, 1, 0, true, ⟨0, 0, 0⟩⟩ 0 false rfl rfl rfl rfl rfl
      qSpace_tiled (by decide) rfl
      (by
        intro n hn
        cases n with
        | zero => exact absurd rfl hn
        | succ n => simp [qSpaceMoved, qSpace])
      qPairpot_symmetric
      (by
        intro h hh
        simp [Nonbonded.cut, qNonbonded])⟩

/-- C4 on `qSpace`: the whole of group 1 moves from `(3,0,0)` to `(4,0,0)`. -/
theorem C4_whole_group_move_witness :
    ∃ uN uO vN vO nN nO mN mO,
      Nonbonded.energy qSpaceLast
        { dV := false, all := false, groups := [{ index := 1, all := true, atoms := [] }] }
        qNonbondedCut = .ok (uN, nN) ∧
      Nonbonded.energy qSpace
        { dV := false, all := false, groups := [{ index := 1, all := true, atoms := [] }] }
        qNonbondedCut = .ok (uO, nO) ∧
      Nonbonded.energy qSpaceLast { dV := false, all := true, groups := [] } qNonbondedCut =
        .ok (vN, mN) ∧
      Nonbonded.energy qSpace { dV := false, all := true, groups := [] } qNonbondedCut =
        .ok (vO, mO) ∧
      uN - uO = vN - vO :=
  C4_whole_group_move qSpace qSpaceLast qNonbondedCut qNonbondedCut
    [⟨0, 1, 0, true, ⟨0, 0, 0⟩⟩] [] ⟨1, 1, 0, true, ⟨3, 0, 0⟩⟩ ⟨1, 1, 0, true, ⟨4, 0, 0⟩⟩
    rfl rfl rfl rfl rfl
    (by
      intro h hh
      simp at hh
      subst hh
      rfl)
    qPairpot_symmetric qBox_sqdist_symmetric

/-- C5, evaluated at a single-atom move.  Both `NonbondedCached` instances hold the
base `g2g` of the two groups of the accepted state `qSpace`, -9.  Atom 0 of group 0
moves to `(1,0,0)`; the trial instance evaluates `energy` of the Change with key `NEW`
on the trial state `qSpaceMoved` (and returns -4), the move is accepted and the
reference instance calls `sync`.  Its `cache(0,1)` is still -9, whereas the base
`g2g` of the two groups on the newly accepted state is -4: the single-atom branch
never calls `g2g`, so the energy matrix is not updated. -/
theorem C5_single_atom_move_leaves_cache_stale :
    qConsistentNew.cache.get 0 1 =
      (Nonbonded.g2g qSpace ⟨0, 1, 0, true, ⟨0, 0, 0⟩⟩ ⟨1, 1, 0, true, ⟨3, 0, 0⟩⟩ qNonbonded).1 ∧
    qConsistentNew.cache.get 1 0 =
      (Nonbonded.g2g qSpace ⟨1, 1, 0, true, ⟨3, 0, 0⟩⟩ ⟨0, 1, 0, true, ⟨0, 0, 0⟩⟩ qNonbonded).1 ∧
    qConsistentOld.cache.get 0 1 = qConsistentNew.cache.get 0 1 ∧
    qConsistentOld.cache.get 1 0 = qConsistentNew.cache.get 1 0 ∧
    NonbondedCached.energy qSpaceMoved
      { dV := false, all := false, groups := [{ index := 0, all := false, atoms := [0] }] }
      qConsistentNew = .ok (-4, qConsistentNew) ∧
    (NonbondedCached.sync qConsistentOld qConsistentNew
      { dV := false, all := false, groups := [{ index := 0, all := false, atoms := [0] }] }).cache.get
      0 1 = -9 ∧
    (Nonbonded.g2g qSpaceMoved ⟨0, 1, 0, true, ⟨0, 0, 0⟩⟩ ⟨1, 1, 0, true, ⟨3, 0, 0⟩⟩
      qNonbonded).1 = -4 := by
  refine ⟨by decide!, by decide!, rfl, rfl, ?_, by decide!, by decide!⟩
  have hv : ((qSpaceMoved.p.enum.filter (fun j => decide (j.1 ≠ 0 + 0))).map
      (fun j => Nonbonded.i2i qSpaceMoved qConsistentNew.pairpot ⟨⟨1, 0, 0⟩, 1, 0⟩ j.2)).sum =
      -4 := by decide!
  simp only [NonbondedCached.energy, Nonbonded.energyWith, Change.empty, Nonbonded.oneAtom,
    Space.groupAt, Except.bind, Except.map, List.getD_cons_zero, List.length_singleton,
    List.isEmpty_cons, Bool.not_false, Bool.and_false, Bool.and_self, Bool.false_eq_true,
    if_false, if_true]
  have hg : qSpaceMoved.groups[0]? = some ⟨0, 1, 0, true, ⟨0, 0, 0⟩⟩ := rfl
  simp only [hg, oneAtom_loop_value qSpaceMoved qConsistentNew.pairpot (0 + 0)
    ⟨⟨1, 0, 0⟩, 1, 0⟩ rfl, hv, zero_add]

end NonbondedTheorems

section SyncTheorems

variable {R : Type} [LinearOrderedField R]

/-- C11: after `a.sync(b, change)` the energy matrix of `a` is that of `b`, entry for
entry; every other member of `a` is as before; `sync` only reads `b`, whose matrix is
what `a` holds afterwards; and a second `sync` with the same `b` changes nothing. -/
theorem C11_cached_sync_copies_matrix {S : Type} [LinearOrderedCommRing S]
    (a b : NonbondedCached S) (c c2 : Change) :
    (∀ i j, (a.sync b c).cache.get i j = b.cache.get i j) ∧
    (a.sync b c).cache = b.cache ∧
    (a.sync b c).toNonbonded = a.toNonbonded ∧
    (a.sync b c).sync b c2 = a.sync b c := by
  refine ⟨fun _ _ => rfl, rfl, rfl, rfl⟩

/-- C13: after `a.sync(b, change)` the whole `EwaldData` of `a` is that of `b` (box,
k-vectors, weights, `kVectorsInUse`, structure factors and parameters); the
back-reference `old` of `a` is the space of `b` if `b.key == OLD` and is what it was
otherwise; the other members of `a` are as before. -/
theorem C13_ewald_sync_copies_data (a b : Ewald R) (c : Change) :
    (a.sync b c).data = b.data ∧
    (a.sync b c).policy.old = (if b.key = keys.OLD then some b.spc else a.policy.old) ∧
    (a.sync b c).policy.spc = a.policy.spc ∧
    (a.sync b c).toEnergybase = a.toEnergybase ∧
    (a.sync b c).spc = a.spc := by
  refine ⟨rfl, ?_, ?_, rfl, rfl⟩
  · simp only [Ewald.sync]
    split <;> rfl
  · simp only [Ewald.sync]
    split <;> rfl

/-- A term whose class inherits `Energybase::sync` is left as it is, whatever the peer. -/
theorem Term.sync_of_not_downcasts (c : Change) (t o : Term R)
    (h : t.kind.downcasts = false) : Term.sync c t o = .ok t := by
  cases t <;> first | rfl | simp [Term.kind, Term.Kind.downcasts] at h

/-- A term facing a peer of its own class synchronises without a fault. -/
theorem Term.sync_of_same_kind (c : Change) (t o : Term R) (h : t.kind = o.kind) :
    ∃ t1, Term.sync c t o = .ok t1 := by
  cases t <;> cases o <;> first | exact ⟨_, rfl⟩ | simp [Term.kind] at h

/-- A term that downcasts a peer of another class fails its assertion. -/
theorem Term.sync_of_mismatch (c : Change) (t o : Term R)
    (hd : t.kind.downcasts = true) (h : t.kind ≠ o.kind) :
    Term.sync c t o = .error Fault.assertion := by
  cases t <;> cases o <;>
    first | rfl | exact absurd rfl h | simp [Term.kind, Term.Kind.downcasts] at hd

/-- A term's `sync` fails with the assertion only. -/
theorem Term.sync_ok_or_assertion (c : Change) (t o : Term R) :
    (∃ t1, Term.sync c t o = .ok t1) ∨ Term.sync c t o = .error Fault.assertion := by
  cases t <;> cases o <;> first | exact Or.inl ⟨_, rfl⟩ | exact Or.inr rfl

/-- The loop of `Hamiltonian::sync` on lists of equal length, when no term that
downcasts faces a peer of another class. -/
theorem Hamiltonian.syncLoop_ok (c : Change) :
    ∀ (ts os : List (Term R)), ts.length = os.length →
      (∀ (i : Nat) (t o : Term R), ts[i]? = some t → os[i]? = some o → t.kind.downcasts = true →
        t.kind = o.kind) →
      ∃ v, Hamiltonian.syncLoop c ts os = .ok v ∧
        List.Forall₂ (fun pr t1 => Term.sync c pr.1 pr.2 = .ok t1) (ts.zip os) v
  | [], _, _, _ => ⟨[], rfl, by simp⟩
  | t :: ts, [], hl, _ => by simp at hl
  | t :: ts, o :: os, hl, hk => by
    have hto : ∃ t1, Term.sync c t o = .ok t1 := by
      cases hd : t.kind.downcasts
      · exact ⟨t, Term.sync_of_not_downcasts c t o hd⟩
      · exact Term.sync_of_same_kind c t o (hk 0 t o (by simp) (by simp) hd)
    obtain ⟨t1, ht1⟩ := hto
    obtain ⟨v, hv, hf⟩ := Hamiltonian.syncLoop_ok c ts os (by simpa using hl)
      (fun i t o h1 h2 => hk (i + 1) t o (by simpa using h1) (by simpa using h2))
    refine ⟨t1 :: v, ?_, ?_⟩
    · simp only [Hamiltonian.syncLoop, ht1, hv]; rfl
    · simpa using ⟨ht1, hf⟩

/-- The loop of `Hamiltonian::sync` when a term that downcasts faces a peer of another
class. -/
theorem Hamiltonian.syncLoop_mismatch (c : Change) :
    ∀ (ts os : List (Term R)) (i : Nat) (t o : Term R), ts[i]? = some t → os[i]? = some o →
      t.kind.downcasts = true → t.kind ≠ o.kind →
      Hamiltonian.syncLoop c ts os = .error Fault.assertion
  | [], _, i, _, _, h1, _, _, _ => by simp at h1
  | _ :: _, [], i, _, _, _, h2, _, _ => by simp at h2
  | t0 :: ts, o0 :: os, 0, t, o, h1, h2, hd, hk => by
    simp at h1 h2
    subst h1; subst h2
    simp only [Hamiltonian.syncLoop, Term.sync_of_mismatch c _ _ hd hk]; rfl
  | t0 :: ts, o0 :: os, i + 1, t, o, h1, h2, hd, hk => by
    have ih := Hamiltonian.syncLoop_mismatch c ts os i t o (by simpa using h1)
      (by simpa using h2) hd hk
    rcases Term.sync_ok_or_assertion c t0 o0 with ⟨t1, ht1⟩ | he
    · simp only [Hamiltonian.syncLoop, ht1, ih]; rfl
    · simp only [Hamiltonian.syncLoop, he]; rfl

/-- C14 (the claim fails): the Hamiltonians `[Bonded, Isobaric]` and
`[Isobaric, Bonded]` hold different lists of term kinds, yet `sync` of the one with
the other raises no error and leaves the first as it is. -/
theorem C14_mismatched_kinds_sync_without_error :
    qHamiltonianBI.vec.map Term.kind ≠ qHamiltonianIB.vec.map Term.kind ∧
    qHamiltonianBI.vec.length = qHamiltonianIB.vec.length ∧
    (∃ h, Hamiltonian.sync qHamiltonianBI qHamiltonianIB Change.none = .ok h ∧
      h.vec.map Term.kind = qHamiltonianBI.vec.map Term.kind) := by
  refine ⟨by decide, rfl, qHamiltonianBI, rfl, rfl⟩

/-- C14 (amended): `Hamiltonian::sync` ends in an assertion failure when the two term
lists differ in length, and when they have the same length and at some index a
`NonbondedCached`, `Ewald` or `Penalty` term faces a peer of another kind.  In every
other case, in particular when the ordered lists of term kinds are the same, it
replaces every term by the result of its own `sync` with the peer at the same index
and raises no error. -/
theorem C14_sync_checks_length_and_downcasts (h other : Hamiltonian R) (c : Change) :
    (other.vec.length ≠ h.vec.length → h.sync other c = .error Fault.assertion) ∧
    (other.vec.length = h.vec.length →
      (∃ (i : Nat) (t o : Term R), h.vec[i]? = some t ∧ other.vec[i]? = some o ∧
        t.kind.downcasts = true ∧ t.kind ≠ o.kind) →
      h.sync other c = .error Fault.assertion) ∧
    (other.vec.length = h.vec.length →
      (∀ (i : Nat) (t o : Term R), h.vec[i]? = some t → other.vec[i]? = some o →
        t.kind.downcasts = true → t.kind = o.kind) →
      ∃ v, h.sync other c = .ok { h with vec := v } ∧
        List.Forall₂ (fun pr t1 => Term.sync c pr.1 pr.2 = .ok t1) (h.vec.zip other.vec) v) ∧
    (h.vec.map Term.kind = other.vec.map Term.kind →
      ∃ v, h.sync other c = .ok { h with vec := v } ∧
        List.Forall₂ (fun pr t1 => Term.sync c pr.1 pr.2 = .ok t1) (h.vec.zip other.vec) v) := by
  have key : other.vec.length = h.vec.length →
      (∀ (i : Nat) (t o : Term R), h.vec[i]? = some t → other.vec[i]? = some o →
        t.kind.downcasts = true → t.kind = o.kind) →
      ∃ v, h.sync other c = .ok { h with vec := v } ∧
        List.Forall₂ (fun pr t1 => Term.sync c pr.1 pr.2 = .ok t1)
          (h.vec.zip other.vec) v := by
    intro hl hk
    obtain ⟨v, hv, hf⟩ := Hamiltonian.syncLoop_ok c h.vec other.vec hl.symm hk
    refine ⟨v, ?_, hf⟩
    simp only [Hamiltonian.sync, hl, ne_eq, not_true_eq_false, if_false, hv]; rfl
  refine ⟨?_, ?_, key, ?_⟩
  · intro hl
    simp only [Hamiltonian.sync, hl, ne_eq, not_false_eq_true, if_true]
  · rintro hl ⟨i, t, o, h1, h2, hd, hk⟩
    simp only [Hamiltonian.sync, hl, ne_eq, not_true_eq_false, if_false,
      Hamiltonian.syncLoop_mismatch c h.vec other.vec i t o h1 h2 hd hk]; rfl
  · intro hm
    have hl : other.vec.length = h.vec.length := by
      have := congrArg List.length hm
      simpa using this.symm
    refine key hl ?_
    intro i t o h1 h2 _
    have h3 : (h.vec.map Term.kind)[i]? = some t.kind := by simp [h1]
    have h4 : (other.vec.map Term.kind)[i]? = some o.kind := by simp [h2]
    rw [hm, h4] at h3
    exact (Option.some.inj h3).symm

/-- C14 (amended), at the Hamiltonian with one term of every kind synchronised with
itself. -/
theorem C14_sync_checks_length_and_downcasts_witness :
    qHamiltonian.vec.map Term.kind = qHamiltonian.vec.map Term.kind ∧
    ∃ v, qHamiltonian.sync qHamiltonian Change.none = .ok { qHamiltonian with vec := v } ∧
      List.Forall₂ (fun pr t1 => Term.sync Change.none pr.1 pr.2 = .ok t1)
        (qHamiltonian.vec.zip qHamiltonian.vec) v :=
  ⟨rfl, (C14_sync_checks_length_and_downcasts qHamiltonian qHamiltonian Change.none).2.2.2 rfl⟩

end SyncTheorems


section VolumeBranchTheorems

variable {R : Type} [LinearOrderedCommRing R]

theorem enum_filter_map_snd {α β : Type} (p : α → Bool) (f : α → β) (l : List α) (n : Nat) :
    ((l.enumFrom n).filter (fun i => p i.2)).map (fun i => f i.2) = (l.filter p).map f := by
  induction l generalizing n with
  | nil => rfl
  | cons a l ih =>
    simp only [List.enumFrom_cons, List.filter_cons]
    by_cases h : p a = true
    · simp [h, ih]
    · simp [h, ih]

/-- The value of the branch for a volume change: `g2g` over the unordered pairs of
groups plus `g_internal` of the atomic groups. -/
theorem energy_dV_value (spc : Space R) (change : Change) (nb : Nonbonded R)
    (hdV : change.dV = true) :
    ∃ nb1, Nonbonded.energy spc change nb =
      .ok (pairsSum (Nonbonded.pairEnergy spc nb.Rc2_g2g nb.pairpot) spc.groups +
        ((spc.groups.filter (fun g => g.atomic)).map
          (Nonbonded.g_internal spc nb.pairpot)).sum, nb1) := by
  obtain ⟨h1, _⟩ := allLoop_value spc nb.pairpot (fun g1 g2 s => Nonbonded.g2g spc g1.2 g2.2 s)
    (fun g => g.atomic) (fun s => s.Rc2_g2g = nb.Rc2_g2g ∧ s.pairpot = nb.pairpot)
    (fun i j => Nonbonded.pairEnergy spc nb.Rc2_g2g nb.pairpot i.2 j.2)
    (fun i j s hs => by
      have h := g2g_snd spc i.2 j.2 s
      refine ⟨?_, h.1.trans hs.1, h.2.trans hs.2⟩
      rw [g2g_fst, hs.1, hs.2])
    spc.groupRefs 0 nb ⟨rfl, rfl⟩
  refine ⟨(Nonbonded.allLoop spc nb.pairpot (fun g1 g2 s => Nonbonded.g2g spc g1.2 g2.2 s)
    (fun g => g.atomic) spc.groupRefs (0, nb)).2, ?_⟩
  have he : change.empty = false := by simp [Change.empty, hdV]
  simp only [Nonbonded.energy, Nonbonded.energyWith, he, hdV, Bool.false_eq_true, if_false,
    if_true]
  congr 1
  refine Prod.ext ?_ rfl
  rw [h1, pairsSum_map (Nonbonded.pairEnergy spc nb.Rc2_g2g nb.pairpot) Prod.snd]
  simp only [Space.groupRefs, List.enum, enum_map_snd_eq, zero_add]
  rw [enum_filter_map_snd (fun g => g.atomic) (Nonbonded.g_internal spc nb.pairpot)]

/-- C20: for a Change with `dV == true`, whatever `all` and `groups` are,
`Nonbonded::energy` returns the sum of `g2g(g_i, g_j)` over the pairs `i < j` of groups
plus the sum of `g_internal(g_i)` over the atomic groups; `g_internal(g)` is the pair
potential summed over each unordered pair of particles of `g` once, and zero for a
group of fewer than two particles. -/
theorem C20_volume_change_branch (spc : Space R) (change : Change) (nb : Nonbonded R)
    (hdV : change.dV = true) :
    (∃ nb1, Nonbonded.energy spc change nb =
      .ok (pairsSum (fun g1 g2 => (Nonbonded.g2g spc g1 g2 nb).1) spc.groups +
        ((spc.groups.filter (fun g => g.atomic)).map
          (Nonbonded.g_internal spc nb.pairpot)).sum, nb1)) ∧
    (∀ g, Nonbonded.g_internal spc nb.pairpot g =
      pairsSum (fun a b => nb.pairpot a b (spc.geo.vdist a.pos b.pos)) (spc.particles g)) ∧
    (∀ g, (spc.particles g).length < 2 → Nonbonded.g_internal spc nb.pairpot g = 0) := by
  refine ⟨?_, fun g => g_internal_eq spc nb.pairpot g, ?_⟩
  · obtain ⟨nb1, h⟩ := energy_dV_value spc change nb hdV
    refine ⟨nb1, ?_⟩
    rw [h]
    have e : (fun g1 g2 => (Nonbonded.g2g spc g1 g2 nb).1) =
        Nonbonded.pairEnergy spc nb.Rc2_g2g nb.pairpot := by
      funext g1 g2
      exact g2g_fst spc g1 g2 nb
    rw [e]
  · intro g hg
    rw [g_internal_eq]
    match hp : spc.particles g, hg with
    | [], _ => rfl
    | [a], _ => simp [pairsSum]
    | _ :: _ :: _, hg => exact absurd hg (by simp)

/-- C20 at the two atomic one-particle groups of `qSpace` with only `dV` set. -/
theorem C20_volume_change_branch_witness :
    ∃ nb1, Nonbonded.energy qSpace { dV := true, all := false, groups := [] } qNonbonded =
      .ok (pairsSum (fun g1 g2 => (Nonbonded.g2g qSpace g1 g2 qNonbonded).1) qSpace.groups +
        ((qSpace.groups.filter (fun g => g.atomic)).map
          (Nonbonded.g_internal qSpace qNonbonded.pairpot)).sum, nb1) :=
  (C20_volume_change_branch qSpace { dV := true, all := false, groups := [] } qNonbonded rfl).1

end VolumeBranchTheorems


section EwaldEnergyTheorems

variable {R : Type} [LinearOrderedField R]

/-- A loop of `updateComplex(data)` that completes has read only stored vectors and
written only stored structure factors. -/
theorem updateComplex_loop_valid (M : Numerics R) (spc : Space R) (ks : List Nat)
    (d d1 : EwaldData R) (h : ks.foldlM (PolicyIonIon.updateComplexAt M spc) d = .ok d1) :
    ∀ k ∈ ks, k < d.kVectors.length ∧ k < d.Qion.length := by
  induction ks generalizing d with
  | nil => exact fun k hk => absurd hk (List.not_mem_nil k)
  | cons k ks ih =>
    intro k1 hk1
    simp only [List.foldlM_cons] at h
    cases hkv : d.kVectors[k]? with
    | none => simp [PolicyIonIon.updateComplexAt, hkv, bind, Except.bind] at h
    | some kv =>
      by_cases hq : k < d.Qion.length
      · have hstep : PolicyIonIon.updateComplexAt M spc d k =
            .ok { d with Qion := d.Qion.set k (PolicyIonIon.structureFactor M kv spc.p) } := by
          simp [PolicyIonIon.updateComplexAt, hkv, hq]
        rw [hstep] at h
        simp only [bind, Except.bind] at h
        have hrest := ih _ h
        rcases List.mem_cons.mp hk1 with hk | hm
        · subst hk
          obtain ⟨hlt, _⟩ := List.getElem?_eq_some_iff.mp hkv
          exact ⟨hlt, hq⟩
        · simpa using hrest k1 hm
      · simp [PolicyIonIon.updateComplexAt, hkv, hq, bind, Except.bind] at h

/-- A loop of `updateComplex(data)` changes `Qion` only. -/
theorem updateComplex_loop_frame (M : Numerics R) (spc : Space R) (ks : List Nat)
    (d d1 : EwaldData R) (h : ks.foldlM (PolicyIonIon.updateComplexAt M spc) d = .ok d1) :
    ∃ Q, d1 = { d with Qion := Q } := by
  obtain ⟨Q, h1, _⟩ := updateComplex_loop_spec M spc ks d (updateComplex_loop_valid M spc ks d d1 h)
  rw [h1] at h
  exact ⟨Q, (Except.ok.inj h).symm⟩

/-- A second run of the loop of `updateComplex(data)` on the same particles changes
nothing. -/
theorem updateComplex_loop_idem (M : Numerics R) (spc : Space R) (ks : List Nat)
    (d d1 : EwaldData R) (h : ks.foldlM (PolicyIonIon.updateComplexAt M spc) d = .ok d1) :
    ks.foldlM (PolicyIonIon.updateComplexAt M spc) d1 = .ok d1 := by
  have hk := updateComplex_loop_valid M spc ks d d1 h
  obtain ⟨Q, h1, h3, h4, h5⟩ := updateComplex_loop_spec M spc ks d hk
  rw [h1] at h
  have hd1 : d1 = { d with Qion := Q } := (Except.ok.inj h).symm
  subst hd1
  have hk2 : ∀ k ∈ ks, k < ({ d with Qion := Q } : EwaldData R).kVectors.length ∧
      k < ({ d with Qion := Q } : EwaldData R).Qion.length := fun k hkm => by
    have := hk k hkm
    exact ⟨this.1, by show k < Q.length; rw [h3]; exact this.2⟩
  obtain ⟨Q2, g1, g3, g4, g5⟩ := updateComplex_loop_spec M spc ks { d with Qion := Q } hk2
  have hQ : Q2 = Q := by
    apply List.ext_getElem?
    intro k
    by_cases hkm : k ∈ ks
    · have hlt := (hk k hkm).1
      rw [g4 k hkm _ (List.getElem?_eq_getElem hlt), h4 k hkm _ (List.getElem?_eq_getElem hlt)]
    · exact g5 k hkm
  rw [g1, hQ]

/-- A loop of `updateComplex(data, begin, end)` changes `Qion` only. -/
theorem updateComplexRange_loop_frame (M : Numerics R) (spc old : Space R) (ibeg iend : Nat)
    (ks : List Nat) (d d1 : EwaldData R)
    (h : ks.foldlM (PolicyIonIon.updateComplexRangeAt M spc old ibeg iend) d = .ok d1) :
    ∃ Q, d1 = { d with Qion := Q } := by
  induction ks generalizing d with
  | nil =>
    simp only [List.foldlM_nil, pure, Except.pure] at h
    exact ⟨d.Qion, (Except.ok.inj h).symm⟩
  | cons k ks ih =>
    simp only [List.foldlM_cons] at h
    cases hs : PolicyIonIon.updateComplexRangeAt M spc old ibeg iend d k with
    | error f => simp [hs, bind, Except.bind] at h
    | ok d2 =>
      rw [hs] at h
      simp only [bind, Except.bind] at h
      obtain ⟨Q, hQ⟩ := ih d2 h
      have hd2 : ∃ Q2, d2 = { d with Qion := Q2 } := by
        unfold PolicyIonIon.updateComplexRangeAt at hs
        cases hq : d.Qion[k]? with
        | none => simp [hq] at hs
        | some Q0 =>
          cases hkv : d.kVectors[k]? with
          | none => simp [hq, hkv] at hs
          | some q =>
            simp only [hq, hkv] at hs
            cases hsh : PolicyIonIon.shift M spc old q (List.range' ibeg (iend + 1 - ibeg)) Q0 with
            | error f => simp [hsh, Except.map] at hs
            | ok Q1 =>
              simp only [hsh, Except.map] at hs
              exact ⟨_, (Except.ok.inj hs).symm⟩
      obtain ⟨Q2, hQ2⟩ := hd2
      subst hQ2
      exact ⟨Q, hQ⟩

/-- The update that `Ewald::energy` makes for the trial state changes `Qion` only. -/
theorem refresh_frame (M : Numerics R) (mem : SpaceRef → Space R) (spc : Space R)
    (change : Change) (e : Ewald R) (d1 : EwaldData R)
    (h : Ewald.refresh M mem spc change e = .ok d1) : ∃ Q, d1 = { e.data with Qion := Q } := by
  have hrange : ∀ ibeg iend,
      PolicyIonIon.updateComplexRange M spc (e.policy.old.map mem) e.data ibeg iend = .ok d1 →
      ∃ Q, d1 = { e.data with Qion := Q } := by
    intro ibeg iend hr
    unfold PolicyIonIon.updateComplexRange at hr
    cases ho : e.policy.old.map mem with
    | none => simp [ho] at hr
    | some o =>
      simp only [ho] at hr
      split at hr
      · exact absurd hr (by simp)
      · exact updateComplexRange_loop_frame M spc o ibeg iend _ _ _ hr
  unfold Ewald.refresh at h
  split at h
  · exact updateComplex_loop_frame M spc _ _ _ h
  · cases hgs : change.groups with
    | nil =>
      simp only [hgs] at h
      exact updateComplex_loop_frame M spc _ _ _ h
    | cons g gs =>
      cases gs with
      | nil =>
        simp only [hgs] at h
        cases hg : spc.groupAt g.index with
        | error f => simp [hg, Except.bind] at h
        | ok gr =>
          simp only [hg, Except.bind] at h
          split at h
          · exact hrange _ _ h
          · exact hrange _ _ h
      | cons g2 gs =>
        simp only [hgs] at h
        exact updateComplex_loop_frame M spc _ _ _ h

/-- On a Change that takes the full-update path, the update is `updateComplex(data)`. -/
theorem refresh_full (M : Numerics R) (mem : SpaceRef → Space R) (spc : Space R)
    (change : Change) (e : Ewald R) (hfull : change.fullUpdate) :
    Ewald.refresh M mem spc change e = PolicyIonIon.updateComplex M spc e.data := by
  unfold Ewald.refresh
  split
  · rfl
  · rename_i hn
    simp only [Bool.or_eq_true, not_or] at hn
    rcases hfull with h | h | h
    · exact absurd h hn.1
    · exact absurd h hn.2
    · cases hgs : change.groups with
      | nil => rfl
      | cons g gs =>
        cases gs with
        | nil => simp [hgs] at h
        | cons g2 gs => rfl

/-- The value of the loop of `reciprocalEnergy`, when it completes. -/
theorem reciprocalEnergy_loop_value (Aks : List R) (l : List (Tcomplex R)) (n : Nat) (E v : R)
    (h : (l.enumFrom n).foldlM
      (fun (E : R) (kQ : Nat × Tcomplex R) =>
        match Aks[kQ.1]? with
        | some A => Except.ok (E + A * kQ.2.norm)
        | none => Except.error Fault.undefined_read) E = .ok v) :
    v = E + (((Aks.drop n).zip l).map (fun a => a.1 * (a.2.re ^ 2 + a.2.im ^ 2))).sum := by
  induction l generalizing n E with
  | nil =>
    simp only [List.enumFrom_nil, List.foldlM_nil, pure, Except.pure] at h
    simp [(Except.ok.inj h).symm]
  | cons a l ih =>
    simp only [List.enumFrom_cons, List.foldlM_cons] at h
    cases hA : Aks[n]? with
    | none => simp [hA, bind, Except.bind] at h
    | some A =>
      simp only [hA, bind, Except.bind] at h
      have h1 := ih (n + 1) _ h
      obtain ⟨hlt, hget⟩ := List.getElem?_eq_some_iff.mp hA
      rw [List.drop_eq_getElem_cons hlt, hget, h1]
      simp only [List.zip_cons_cons, List.map_cons, List.sum_cons, Tcomplex.norm]
      ring

theorem reciprocalEnergy_value (M : Numerics R) (spc : Space R) (d : EwaldData R) (v : R)
    (h : PolicyIonIon.reciprocalEnergy M spc d = .ok v) : v = Ewald.reciprocalFormula M spc d := by
  cases hl : d.Qion.enum.foldlM
      (fun (E : R) (kQ : Nat × Tcomplex R) =>
        match d.Aks[kQ.1]? with
        | some A => Except.ok (E + A * kQ.2.norm)
        | none => Except.error Fault.undefined_read) 0 with
  | error f =>
    have h1 : Except.map (fun E => 2 * M.pi / spc.geo.getVolume * E * d.lB)
        (Except.error f : Except Fault R) = .ok v := by
      rw [← hl]
      exact h
    exact absurd h1 (by simp [Except.map])
  | ok w =>
    have h1 : Except.map (fun E => 2 * M.pi / spc.geo.getVolume * E * d.lB)
        (Except.ok w : Except Fault R) = .ok v := by
      rw [← hl]
      exact h
    simp only [Except.map] at h1
    have hw := reciprocalEnergy_loop_value d.Aks d.Qion 0 0 w hl
    rw [List.drop_zero, zero_add] at hw
    rw [← Except.ok.inj h1, hw, Ewald.reciprocalFormula]
    ring

theorem selfEnergy_value (M : Numerics R) (spc : Space R) (d : EwaldData R) :
    PolicyIonIon.selfEnergy M spc d = Ewald.selfFormula M spc d := by
  simp only [PolicyIonIon.selfEnergy, Ewald.selfFormula, foldl_add_eq_sum, zero_add]
  have e : (fun (i : Particle R) => i.charge * i.charge) = fun i => i.charge ^ 2 := by
    funext i
    ring
  rw [e]
  ring

theorem foldl_dipole (l : List (Particle R)) (q : Point R) :
    l.foldl (fun qr i => qr.add (Point.smul i.charge i.pos)) q =
      ⟨q.x + (l.map (fun i => i.charge * i.pos.x)).sum,
        q.y + (l.map (fun i => i.charge * i.pos.y)).sum,
        q.z + (l.map (fun i => i.charge * i.pos.z)).sum⟩ := by
  induction l generalizing q with
  | nil => simp
  | cons a l ih =>
    rw [List.foldl_cons, ih]
    simp only [List.map_cons, List.sum_cons, Point.add, Point.smul, add_assoc]

theorem surfaceEnergy_value (M : Numerics R) (spc : Space R) (d : EwaldData R)
    (hinf : d.const_inf = if d.eps_surf < 1 then 0 else 1) :
    PolicyIonIon.surfaceEnergy M spc d = Ewald.surfaceFormula M spc d := by
  unfold PolicyIonIon.surfaceEnergy Ewald.surfaceFormula
  by_cases he : d.eps_surf < 1
  · have hc : d.const_inf = 0 := by rw [hinf, if_pos he]
    have : (0 : R) < 1 / 2 := by norm_num
    simp [hc, he]
  · have hc : d.const_inf = 1 := by rw [hinf, if_neg he]
    have hn : ¬ ((1 : R) < 1 / 2) := by norm_num
    simp only [hc, hn, he, if_false, foldl_dipole, Point.zero, zero_add, Ewald.dipoleMoment,
      Point.squaredNorm]
    ring

/-- C12: for a non-empty Change and every key, with `const_inf` as `from_json` sets
it, a call of `Ewald::energy` that returns gives `selfEnergy + surfaceEnergy +
reciprocalEnergy` in the closed forms of the specification, computed from the data
the term holds after the call and the current particles; these data differ from those
before the call in `Qion` only, and not at all unless the key is `NEW`.  The call
returns for every key other than `NEW` when there is a weight for every structure
factor, and for the key `NEW` on the full-update path when the sizes are those that
`update` leaves. -/
theorem C12_ewald_energy_formula (M : Numerics R) (mem : SpaceRef → Space R) (spc : Space R)
    (change : Change) (e : Ewald R) (hne : change.empty = false)
    (hinf : e.data.const_inf = if e.data.eps_surf < 1 then 0 else 1) :
    (∀ u e1, Ewald.energy M mem spc change e = .ok (u, e1) →
      u = Ewald.selfFormula M spc e1.data + Ewald.surfaceFormula M spc e1.data +
          Ewald.reciprocalFormula M spc e1.data ∧
        (∃ Q, e1 = { e with data := { e.data with Qion := Q } }) ∧
        (e.key ≠ keys.NEW → e1 = e)) ∧
    (e.key ≠ keys.NEW → e.data.Qion.length ≤ e.data.Aks.length →
      ∃ u, Ewald.energy M mem spc change e = .ok (u, e)) ∧
    (e.key = keys.NEW → change.fullUpdate → e.data.Sized →
      ∃ u e1, Ewald.energy M mem spc change e = .ok (u, e1)) := by
  refine ⟨?_, ?_, ?_⟩
  · intro u e1 h
    simp only [Ewald.energy, hne, Bool.false_eq_true, if_false] at h
    cases hd : (if e.key = keys.NEW then Ewald.refresh M mem spc change e else .ok e.data) with
    | error f => simp [hd, Except.bind] at h
    | ok d1 =>
      simp only [hd, Except.bind] at h
      cases hr : PolicyIonIon.reciprocalEnergy M spc d1 with
      | error f => simp [hr, Except.map] at h
      | ok v =>
        simp only [hr, Except.map] at h
        have h2 := Except.ok.inj h
        have hu : PolicyIonIon.selfEnergy M spc d1 + PolicyIonIon.surfaceEnergy M spc d1 + v = u :=
          congrArg Prod.fst h2
        have he1 : ({ e with data := d1 } : Ewald R) = e1 := congrArg Prod.snd h2
        have hQ : ∃ Q, d1 = { e.data with Qion := Q } := by
          by_cases hk : e.key = keys.NEW
          · rw [if_pos hk] at hd
            exact refresh_frame M mem spc change e d1 hd
          · rw [if_neg hk] at hd
            exact ⟨e.data.Qion, (Except.ok.inj hd).symm⟩
        obtain ⟨Q, hQ⟩ := hQ
        have hinf1 : d1.const_inf = if d1.eps_surf < 1 then 0 else 1 := by
          rw [hQ]
          exact hinf
        subst he1
        refine ⟨?_, ⟨Q, by rw [hQ]⟩, ?_⟩
        · rw [← hu, selfEnergy_value, surfaceEnergy_value M spc d1 hinf1,
            reciprocalEnergy_value M spc d1 v hr]
        · intro hk
          rw [if_neg hk] at hd
          rw [← Except.ok.inj hd]
  · intro hk hlen
    obtain ⟨v, hv⟩ := reciprocalEnergy_ok M spc e.data hlen
    refine ⟨PolicyIonIon.selfEnergy M spc e.data + PolicyIonIon.surfaceEnergy M spc e.data + v, ?_⟩
    simp only [Ewald.energy, hne, hk, hv, Except.bind, Except.map, Bool.false_eq_true, if_false]
  · intro hk hfull hsz
    obtain ⟨hs1, hs2, hs3⟩ := hsz
    obtain ⟨Q, h1, h3, _⟩ := updateComplex_loop_spec M spc (List.range e.data.kVectorsInUse)
      e.data (fun k hkm => by
        have := List.mem_range.mp hkm
        omega)
    have hAks : ({ e.data with Qion := Q } : EwaldData R).Qion.length ≤
        ({ e.data with Qion := Q } : EwaldData R).Aks.length := by
      show Q.length ≤ e.data.Aks.length
      rw [h3]
      exact hs3
    obtain ⟨v, hv⟩ := reciprocalEnergy_ok M spc { e.data with Qion := Q } hAks
    refine ⟨PolicyIonIon.selfEnergy M spc { e.data with Qion := Q } +
      PolicyIonIon.surfaceEnergy M spc { e.data with Qion := Q } + v,
      { e with data := { e.data with Qion := Q } }, ?_⟩
    simp only [Ewald.energy, hne, hk, refresh_full M mem spc change e hfull,
      PolicyIonIon.updateComplex, h1, hv, Except.bind, Except.map, Bool.false_eq_true, if_false,
      if_true]

/-- C12 at the term `qEwaldNew` for the Change `all`. -/
theorem C12_ewald_energy_formula_witness :
    ∃ u e1, Ewald.energy qNumerics qMem qSpaceMoved { dV := false, all := true, groups := [] }
      qEwaldNew = .ok (u, e1) :=
  (C12_ewald_energy_formula qNumerics qMem qSpaceMoved { dV := false, all := true, groups := [] }
    qEwaldNew rfl (by simp [qEwaldNew, qEwaldDataOne])).2.2 rfl (Or.inl rfl)
    (by simp [EwaldData.Sized, qEwaldNew, qEwaldDataOne])

end EwaldEnergyTheorems


section EwaldRepeatTheorems

variable {R : Type} [LinearOrderedField R]

/-- C18 (the claim fails): the term tagged `NEW`, holding the structure factor
`(9/2, -3)` of the reference state `qSpace`, evaluated on the trial state `qSpaceMoved`
for the Change naming the moved atom.  The first evaluation returns `-4262/725` and
leaves the structure factor `(4, -2)` of the trial state; the second evaluation in
succession adds the same difference once more, leaves `(7/2, -1)` and returns
`-179093/29000`. -/
theorem C18_single_atom_evaluation_is_not_repeatable :
    (Ewald.energy qNumerics qMem qSpaceMoved qChangeAtom qEwaldNewWeighted).map
        (fun r => (r.1, r.2.data.Qion)) = .ok (-4262 / 725, [⟨4, -2⟩]) ∧
    ((Ewald.energy qNumerics qMem qSpaceMoved qChangeAtom qEwaldNewWeighted).bind
        (fun r => Ewald.energy qNumerics qMem qSpaceMoved qChangeAtom r.2)).map
        (fun r => (r.1, r.2.data.Qion)) = .ok (-179093 / 29000, [⟨7 / 2, -1⟩]) := by
  constructor
  · simp [Ewald.energy, Change.empty, qChangeAtom, qEwaldNewWeighted, qEwaldDataWeighted,
      Ewald.refresh, Space.groupAt, qSpaceMoved,
      PolicyIonIon.updateComplexRange, qMem, qSpace, PolicyIonIon.updateComplexRangeAt,
      qEwaldDataOne, PolicyIonIon.shift, List.range'_succ, Except.bind, Except.map,
      List.range_succ, PolicyIonIon.reciprocalEnergy, List.enum, List.enumFrom,
      PolicyIonIon.selfEnergy, PolicyIonIon.surfaceEnergy, qBox,
      PolicyIonIon.structureFactor, PolicyIonIon.phase, Tcomplex.add, Tcomplex.sub,
      Tcomplex.smul, Tcomplex.zero, Tcomplex.norm, qNumerics, Point.dot, bind, pure, Except.pure]
    norm_num
  · simp [Ewald.energy, Change.empty, qChangeAtom, qEwaldNewWeighted, qEwaldDataWeighted,
      Ewald.refresh, Space.groupAt, qSpaceMoved,
      PolicyIonIon.updateComplexRange, qMem, qSpace, PolicyIonIon.updateComplexRangeAt,
      qEwaldDataOne, PolicyIonIon.shift, List.range'_succ, Except.bind, Except.map,
      List.range_succ, PolicyIonIon.reciprocalEnergy, List.enum, List.enumFrom,
      PolicyIonIon.selfEnergy, PolicyIonIon.surfaceEnergy, qBox,
      PolicyIonIon.structureFactor, PolicyIonIon.phase, Tcomplex.add, Tcomplex.sub,
      Tcomplex.smul, Tcomplex.zero, Tcomplex.norm, qNumerics, Point.dot, bind, pure, Except.pure]
    norm_num

/-- C18 (amended): for every key other than `NEW`, and for the key `NEW` on a Change
that takes the full-update path (`all`, `dV`, or a number of named groups other than
one), a second evaluation of `Ewald::energy` in succession returns the value of the
first and leaves the term as the first left it; with the sizes that `update` leaves,
both evaluations return. -/
theorem C18_ewald_energy_repeatable (M : Numerics R) (mem : SpaceRef → Space R)
    (spc : Space R) (change : Change) (e : Ewald R)
    (hpath : e.key ≠ keys.NEW ∨ change.fullUpdate) :
    (∀ u e1, Ewald.energy M mem spc change e = .ok (u, e1) →
      Ewald.energy M mem spc change e1 = .ok (u, e1)) ∧
    (e.data.Sized → ∃ u e1, Ewald.energy M mem spc change e = .ok (u, e1) ∧
      Ewald.energy M mem spc change e1 = .ok (u, e1)) := by
  have hA : ∀ u e1, Ewald.energy M mem spc change e = .ok (u, e1) →
      Ewald.energy M mem spc change e1 = .ok (u, e1) := by
    intro u e1 h
    by_cases hne : change.empty = true
    · simp only [Ewald.energy, hne, if_true] at h
      have h2 := Except.ok.inj h
      have he1 : e = e1 := congrArg Prod.snd h2
      have hu : (0 : R) = u := congrArg Prod.fst h2
      subst he1; subst hu
      simp only [Ewald.energy, hne, if_true]
    · by_cases hk : e.key = keys.NEW
      · have hfull : change.fullUpdate := by
          rcases hpath with h1 | h1
          · exact absurd hk h1
          · exact h1
        simp only [Ewald.energy, hne, hk, if_true, Bool.false_eq_true, if_false,
          refresh_full M mem spc change e hfull] at h
        cases hd : PolicyIonIon.updateComplex M spc e.data with
        | error f => simp [hd, Except.bind] at h
        | ok d1 =>
          simp only [hd, Except.bind] at h
          cases hr : PolicyIonIon.reciprocalEnergy M spc d1 with
          | error f => simp [hr, Except.map] at h
          | ok v =>
            simp only [hr, Except.map] at h
            have h2 := Except.ok.inj h
            have he1 : ({ e with data := d1 } : Ewald R) = e1 := congrArg Prod.snd h2
            have hu : PolicyIonIon.selfEnergy M spc d1 + PolicyIonIon.surfaceEnergy M spc d1 + v
                = u := congrArg Prod.fst h2
            subst he1; subst hu
            obtain ⟨Q, hQ⟩ := updateComplex_loop_frame M spc _ _ _ hd
            have hidem : PolicyIonIon.updateComplex M spc d1 = .ok d1 := by
              have := updateComplex_loop_idem M spc _ _ _ hd
              unfold PolicyIonIon.updateComplex
              rw [hQ] at this ⊢
              exact this
            have hk1 : ({ e with data := d1 } : Ewald R).key = keys.NEW := hk
            simp only [Ewald.energy, hne, hk, if_true, Bool.false_eq_true, if_false,
              refresh_full M mem spc change { e with data := d1 } hfull, hidem, hr, Except.bind,
              Except.map]
      · simp only [Ewald.energy, hne, hk, Bool.false_eq_true, if_false, Except.bind] at h
        cases hr : PolicyIonIon.reciprocalEnergy M spc e.data with
        | error f => simp [hr, Except.map] at h
        | ok v =>
          simp only [hr, Except.map] at h
          have h2 := Except.ok.inj h
          have he1 : e = e1 := congrArg Prod.snd h2
          have hu : PolicyIonIon.selfEnergy M spc e.data + PolicyIonIon.surfaceEnergy M spc e.data
              + v = u := congrArg Prod.fst h2
          subst he1; subst hu
          simp only [Ewald.energy, hne, hk, Bool.false_eq_true, if_false, Except.bind, hr,
            Except.map]
  refine ⟨hA, ?_⟩
  intro hsz
  have hret : ∃ u e1, Ewald.energy M mem spc change e = .ok (u, e1) := by
    by_cases hne : change.empty = true
    · exact ⟨0, e, by simp only [Ewald.energy, hne, if_true]⟩
    · by_cases hk : e.key = keys.NEW
      · have hfull : change.fullUpdate := by
          rcases hpath with h1 | h1
          · exact absurd hk h1
          · exact h1
        obtain ⟨hs1, hs2, hs3⟩ := hsz
        obtain ⟨Q, h1, h3, _⟩ := updateComplex_loop_spec M spc
          (List.range e.data.kVectorsInUse) e.data (fun k hkm => by
            have := List.mem_range.mp hkm
            omega)
        have hAks : ({ e.data with Qion := Q } : EwaldData R).Qion.length ≤
            ({ e.data with Qion := Q } : EwaldData R).Aks.length := by
          show Q.length ≤ e.data.Aks.length
          rw [h3]
          exact hs3
        obtain ⟨v, hv⟩ := reciprocalEnergy_ok M spc { e.data with Qion := Q } hAks
        refine ⟨PolicyIonIon.selfEnergy M spc { e.data with Qion := Q } +
          PolicyIonIon.surfaceEnergy M spc { e.data with Qion := Q } + v,
          { e with data := { e.data with Qion := Q } }, ?_⟩
        simp only [Ewald.energy, hne, hk, refresh_full M mem spc change e hfull,
          PolicyIonIon.updateComplex, h1, hv, Except.bind, Except.map, Bool.false_eq_true,
          if_false, if_true]
      · obtain ⟨v, hv⟩ := reciprocalEnergy_ok M spc e.data hsz.2.2
        refine ⟨PolicyIonIon.selfEnergy M spc e.data + PolicyIonIon.surfaceEnergy M spc e.data
          + v, e, ?_⟩
        simp only [Ewald.energy, hne, hk, hv, Except.bind, Except.map, Bool.false_eq_true,
          if_false]
  obtain ⟨u, e1, h⟩ := hret
  exact ⟨u, e1, h, hA u e1 h⟩

/-- C18 (amended) at the term `qEwaldNewWeighted` for the Change `all`. -/
theorem C18_ewald_energy_repeatable_witness :
    ∃ u e1,
      Ewald.energy qNumerics qMem qSpaceMoved { dV := false, all := true, groups := [] }
        qEwaldNewWeighted = .ok (u, e1) ∧
      Ewald.energy qNumerics qMem qSpaceMoved { dV := false, all := true, groups := [] } e1 =
        .ok (u, e1) :=
  (C18_ewald_energy_repeatable qNumerics qMem qSpaceMoved
    { dV := false, all := true, groups := [] } qEwaldNewWeighted (Or.inr (Or.inl rfl))).2
    (by simp [EwaldData.Sized, qEwaldNewWeighted, qEwaldDataWeighted, qEwaldDataOne])

end EwaldRepeatTheorems


section ConfigurationTheorems

variable {R : Type} [LinearOrderedField R]

/-- The summary that `to_json` writes is not a configuration that `from_json` reads:
the key `cutoffK` is looked up and is not there. -/
theorem from_json_to_json (S : Setup R) (d d0 : EwaldData R) :
    EwaldData.from_json S (EwaldData.to_json d) d0 =
      .error (Fault.json_exception "[json.exception.out_of_range.403] key 'cutoffK' not found") := by
  simp [EwaldData.from_json, EwaldData.to_json, Json.atKey, Json.lookup, Json.getNumber,
    Except.bind]

/-- C17 (the claim fails): the data `qEwaldRead` are read from the valid configuration
`qEwaldConfig`; reading the summary written by `to_json` for them back with
`from_json` throws. -/
theorem C17_summary_is_not_read_back :
    EwaldData.from_json qSetup qEwaldConfig EwaldData.fresh = .ok qEwaldRead ∧
    EwaldData.from_json qSetup (EwaldData.to_json qEwaldRead) EwaldData.fresh =
      .error (Fault.json_exception "[json.exception.out_of_range.403] key 'cutoffK' not found") := by
  refine ⟨?_, from_json_to_json qSetup qEwaldRead EwaldData.fresh⟩
  simp [EwaldData.from_json, qEwaldConfig, Json.atKey, Json.lookup, Json.getNumber, Json.value,
    Except.bind, Except.map, qEwaldRead]

/-- C17 (amended): the summary written by `to_json(d)` reports `alpha`, the real-space
cutoff, `ipbc`, `spherical_sum`, the surrounding dielectric constant and the Bjerrum
length of `d` as they are; it has no key `epsr`, and `from_json` does not accept it. -/
theorem C17_summary_reports_parameters (S : Setup R) (d d0 : EwaldData R) :
    (EwaldData.to_json d).atKey "alpha" = .ok (Json.number d.alpha) ∧
    (EwaldData.to_json d).atKey "cutoff" = .ok (Json.number d.rc) ∧
    (EwaldData.to_json d).atKey "ipbc" = .ok (Json.boolean d.ipbc) ∧
    (EwaldData.to_json d).atKey "spherical_sum" = .ok (Json.boolean d.spherical_sum) ∧
    (EwaldData.to_json d).atKey "epss" = .ok (Json.number d.eps_surf) ∧
    (EwaldData.to_json d).atKey "lB" = .ok (Json.number d.lB) ∧
    (EwaldData.to_json d).count "epsr" = 0 ∧
    ∃ w, EwaldData.from_json S (EwaldData.to_json d) d0 = .error (Fault.json_exception w) := by
  refine ⟨?_, ?_, ?_, ?_, ?_, ?_, ?_, _, from_json_to_json S d d0⟩ <;>
    simp [EwaldData.to_json, Json.atKey, Json.lookup, Json.count]

end ConfigurationTheorems


section ConstructorTheorems

variable {R : Type} [LinearOrderedField R]

/-- The exceptions of the json library. -/
theorem Json.atKey_error (j : Json R) (key : String) (f : Fault)
    (h : j.atKey key = .error f) : ∃ w, f = Fault.json_exception w := by
  unfold Json.atKey at h
  split at h
  · split at h
    · exact absurd h (by simp)
    · exact ⟨_, (Except.error.inj h).symm⟩
  · exact ⟨_, (Except.error.inj h).symm⟩

theorem Json.getNumber_error (j : Json R) (f : Fault)
    (h : j.getNumber = .error f) : ∃ w, f = Fault.json_exception w := by
  unfold Json.getNumber at h
  split at h
  · exact absurd h (by simp)
  · exact ⟨_, (Except.error.inj h).symm⟩

theorem Json.getBool_error (j : Json R) (f : Fault)
    (h : j.getBool = .error f) : ∃ w, f = Fault.json_exception w := by
  unfold Json.getBool at h
  split at h
  · exact absurd h (by simp)
  · exact ⟨_, (Except.error.inj h).symm⟩

theorem Json.value_error {α : Type} (conv : Json R → Except Fault α)
    (hconv : ∀ v f, conv v = .error f → ∃ w, f = Fault.json_exception w)
    (j : Json R) (key : String) (dflt : α) (f : Fault)
    (h : j.value conv key dflt = .error f) : ∃ w, f = Fault.json_exception w := by
  unfold Json.value at h
  split at h
  · split at h
    · exact hconv _ _ h
    · exact absurd h (by simp)
  · exact ⟨_, (Except.error.inj h).symm⟩

theorem Json.atKey_number_error (j : Json R) (key : String) (f : Fault)
    (h : (j.atKey key).bind Json.getNumber = .error f) : ∃ w, f = Fault.json_exception w := by
  cases h1 : j.atKey key with
  | error g =>
    rw [h1] at h
    have hg : g = f := Except.error.inj h
    exact Json.atKey_error j key f (by rw [h1, hg])
  | ok v =>
    rw [h1] at h
    exact Json.getNumber_error v f h

/-- A required number that is missing makes the lookup throw. -/
theorem Json.atKey_number_missing (m : List (String × Json R)) (key : String)
    (h : Json.lookup key m = none) :
    (Json.object m).atKey key = .error (Fault.json_exception
      ("[json.exception.out_of_range.403] key '" ++ key ++ "' not found")) := by
  simp [Json.atKey, h]

/-- The function `from_json` for `EwaldData` fails with an exception of the json
library only, and fails when one of the four required keys is absent. -/
theorem from_json_required (S : Setup R) (m : List (String × Json R)) (d : EwaldData R)
    (key : String) (hkey : key ∈ EwaldData.requiredKeys) (hmiss : Json.lookup key m = none) :
    ∃ w, EwaldData.from_json S (Json.object m) d = .error (Fault.json_exception w) := by
  have hk := Json.atKey_number_missing m key hmiss
  unfold EwaldData.from_json
  cases h1 : ((Json.object m).atKey "alpha").bind Json.getNumber with
  | error f =>
    obtain ⟨w, hw⟩ := Json.atKey_number_error _ _ f h1
    exact ⟨w, by rw [hw]; rfl⟩
  | ok alpha =>
    cases h2 : ((Json.object m).atKey "cutoff").bind Json.getNumber with
    | error f =>
      obtain ⟨w, hw⟩ := Json.atKey_number_error _ _ f h2
      exact ⟨w, by rw [hw]; rfl⟩
    | ok rc =>
      cases h3 : ((Json.object m).atKey "cutoffK").bind Json.getNumber with
      | error f =>
        obtain ⟨w, hw⟩ := Json.atKey_number_error _ _ f h3
        exact ⟨w, by rw [hw]; rfl⟩
      | ok kc =>
        cases h4 : (Json.object m).value Json.getBool "ipbc" false with
        | error f =>
          obtain ⟨w, hw⟩ := Json.value_error Json.getBool Json.getBool_error _ _ _ f h4
          exact ⟨w, by rw [hw]; rfl⟩
        | ok ipbc =>
          cases h5 : (Json.object m).value Json.getBool "spherical_sum" true with
          | error f =>
            obtain ⟨w, hw⟩ := Json.value_error Json.getBool Json.getBool_error _ _ _ f h5
            exact ⟨w, by rw [hw]; rfl⟩
          | ok ss =>
            cases h6 : ((Json.object m).atKey "epsr").bind Json.getNumber with
            | error f =>
              obtain ⟨w, hw⟩ := Json.atKey_number_error _ _ f h6
              exact ⟨w, by rw [hw]; rfl⟩
            | ok epsr =>
              exfalso
              simp only [EwaldData.requiredKeys, List.mem_cons, List.mem_singleton,
                List.not_mem_nil, or_false] at hkey
              rcases hkey with h | h | h | h <;> subst h
              · rw [hk] at h1; simp [Except.bind] at h1
              · rw [hk] at h2; simp [Except.bind] at h2
              · rw [hk] at h3; simp [Except.bind] at h3
              · rw [hk] at h6; simp [Except.bind] at h6

/-- The handler of the constructor of the Hamiltonian: a term whose construction
throws makes the entry throw the `std::runtime_error` that names the entry and the
cause. -/
theorem addEntry_error (S : Setup R) (M : Numerics R) (ref : SpaceRef) (spc : Space R)
    (oldsize : Nat) (st : List (Term R) × List String) (key : String) (value : Json R)
    (f : Fault) (w : String)
    (hfail : Hamiltonian.addTerms S M ref spc key value st.1 = .error f)
    (hwhat : f.what = some w) :
    Hamiltonian.addEntry S M ref spc oldsize st (key, value) =
      .error (Fault.runtime_error (Hamiltonian.errorText key w)) := by
  simp only [Hamiltonian.addEntry, hfail, hwhat]

/-- A fault in the loop over the entries of an object ends the loop. -/
theorem foldlM_error_at {α σ : Type} (step : σ → α → Except Fault σ) (xs ys : List α) (x : α)
    (s0 s1 : σ) (f : Fault) (hxs : xs.foldlM step s0 = .ok s1) (hx : step s1 x = .error f) :
    (xs ++ x :: ys).foldlM step s0 = .error f := by
  induction xs generalizing s0 with
  | nil =>
    simp only [List.foldlM_nil, pure, Except.pure] at hxs
    have := Except.ok.inj hxs
    subst this
    simp only [List.nil_append, List.foldlM_cons, hx, bind, Except.bind]
  | cons a xs ih =>
    simp only [List.foldlM_cons, bind, Except.bind] at hxs
    cases ha : step s0 a with
    | error g => simp [ha] at hxs
    | ok s2 =>
      simp only [ha] at hxs
      simp only [List.cons_append, List.foldlM_cons, ha, bind, Except.bind]
      exact ih s2 hxs

end ConstructorTheorems


section ConstructionFailureTheorems

variable {R : Type} [LinearOrderedField R]

/-- The constructor of the Hamiltonian stops at the first entry whose terms cannot be
constructed, with the `std::runtime_error` of the handler. -/
theorem construct_error_at (S : Setup R) (M : Numerics R) (ref : SpaceRef) (spc : Space R)
    (j je : Json R) (pre post : List (Json R)) (es1 es2 : List (String × Json R))
    (key : String) (value : Json R) (st0 st1 : List (Term R) × List String) (f : Fault)
    (w : String) (hj : j.atKey "energy" = .ok je)
    (hitems : je.items = pre ++ Json.object (es1 ++ (key, value) :: es2) :: post)
    (hpre : pre.foldlM (Hamiltonian.addObject S M ref spc) ([], []) = .ok st0)
    (hes1 : es1.foldlM (Hamiltonian.addEntry S M ref spc st0.1.length) st0 = .ok st1)
    (hfail : Hamiltonian.addTerms S M ref spc key value st1.1 = .error f)
    (hwhat : f.what = some w) :
    Hamiltonian.construct S M ref spc j =
      .error (Fault.runtime_error (Hamiltonian.errorText key w)) := by
  have hentry := addEntry_error S M ref spc st0.1.length st1 key value f w hfail hwhat
  have hobj : Hamiltonian.addObject S M ref spc st0
      (Json.object (es1 ++ (key, value) :: es2)) =
      .error (Fault.runtime_error (Hamiltonian.errorText key w)) := by
    simp only [Hamiltonian.addObject]
    exact foldlM_error_at _ es1 es2 (key, value) st0 st1 _ hes1 hentry
  have hloop := foldlM_error_at (Hamiltonian.addObject S M ref spc) pre post _ ([], []) st0 _
    hpre hobj
  simp only [Hamiltonian.construct, hj, hitems, hloop, Except.bind, Except.map]

/-- An entry `isobaric` with none of `P/mM`, `P/Pa` and `P/atm`. -/
theorem addTerms_isobaric_without_pressure (S : Setup R) (M : Numerics R) (ref : SpaceRef)
    (spc : Space R) (m : List (String × Json R)) (vec : List (Term R))
    (h1 : Json.lookup "P/mM" m = none) (h2 : Json.lookup "P/Pa" m = none)
    (h3 : Json.lookup "P/atm" m = none) :
    Hamiltonian.addTerms S M ref spc "isobaric" (Json.object m) vec =
      .error (Fault.json_exception "[json.exception.out_of_range.403] key 'P/atm' not found") := by
  have hpos : (0 : R) < 1 / 10 ^ 10 := by positivity
  simp [Hamiltonian.addTerms, Hamiltonian.pushIf, Isobaric.construct, Json.value, Json.atKey,
    h1, h2, h3, Except.bind, Except.map, hpos]

/-- An entry `penalty` whose `type` is not the name of a reaction coordinate. -/
theorem addTerms_penalty_unknown_type (S : Setup R) (M : Numerics R) (ref : SpaceRef)
    (spc : Space R) (m : List (String × Json R)) (vec : List (Term R)) (type : String)
    (h1 : Json.lookup "type" m = some (Json.string type)) (h2 : type ≠ "cm") :
    Hamiltonian.addTerms S M ref spc "penalty" (Json.object m) vec =
      .error (Fault.runtime_error ("penalty: unknown type'" ++ type ++ "'")) := by
  simp [Hamiltonian.addTerms, Hamiltonian.pushIf, Penalty.construct, Json.atKey, Json.getString,
    h1, h2, Except.bind, Except.map]

/-- An entry `confine` whose molecule list is empty or has a name that resolves to no
identifier of its own. -/
theorem addTerms_confine_without_molecules (S : Setup R) (M : Numerics R) (ref : SpaceRef)
    (spc : Space R) (value : Json R) (vec : List (Term R)) (names : List String)
    (ids : List Nat)
    (h1 : (value.atKey "molecules").bind (Json.getVector Json.getString) = .ok names)
    (h2 : S.names2ids names = .ok ids)
    (h3 : ids = [] ∨ ids.dedup.length ≠ names.length) :
    Hamiltonian.addTerms S M ref spc "confine" value vec =
      .error (Fault.runtime_error "external: molecule list is empty") := by
  have hc : ((ids.dedup).insertionSort (fun a b => a ≤ b)).isEmpty = true ∨
      ((ids.dedup).insertionSort (fun a b => a ≤ b)).length ≠ names.length := by
    rcases h3 with h | h
    · left
      subst h
      rfl
    · right
      rw [List.length_insertionSort]
      exact h
  have hcond : (((ids.dedup).insertionSort (fun a b => a ≤ b)).isEmpty ||
      decide (((ids.dedup).insertionSort (fun a b => a ≤ b)).length ≠ names.length)) = true := by
    rcases hc with h | h
    · rw [h]; rfl
    · rw [decide_eq_true h, Bool.or_true]
  have hbase : ExternalPotential.construct S value ref =
      .error (Fault.runtime_error "external: molecule list is empty") := by
    unfold ExternalPotential.construct
    rw [h1]
    simp only [Except.bind, h2]
    rw [if_pos hcond]
    rfl
  simp [Hamiltonian.addTerms, Hamiltonian.pushIf, Confine.construct, hbase, Except.bind,
    Except.map]

/-- An entry whose value holds a coulomb block of type ewald in which one of the
required keys is absent. -/
theorem addEwald_missing_key (S : Setup R) (M : Numerics R) (ref : SpaceRef) (spc : Space R)
    (mv mc : List (String × Json R)) (vec : List (Term R)) (key : String)
    (h1 : Json.lookup "coulomb" mv = some (Json.object mc))
    (h2 : Json.lookup "type" mc = some (Json.string "ewald"))
    (hkey : key ∈ EwaldData.requiredKeys) (hmiss : Json.lookup key mc = none) :
    ∃ w, Hamiltonian.addEwald S M ref spc (Json.object mv) vec =
      .error (Fault.json_exception w) := by
  obtain ⟨w, hw⟩ := from_json_required S mc EwaldData.fresh key hkey hmiss
  refine ⟨w, ?_⟩
  simp [Hamiltonian.addEwald, Json.count, Json.getKey, Json.atKey, Json.isString, h1, h2,
    Ewald.fromConfig, hw, Except.bind, Except.map]

end ConstructionFailureTheorems


section ConstructionClaims

variable {R : Type} [LinearOrderedField R]

/-- For an entry whose name selects no term the `try` block runs `addEwald` only. -/
theorem addTerms_of_unknown (S : Setup R) (M : Numerics R) (ref : SpaceRef) (spc : Space R)
    (key : String) (value : Json R) (vec : List (Term R))
    (hkey : key ∉ Hamiltonian.termNames) :
    Hamiltonian.addTerms S M ref spc key value vec =
      Hamiltonian.addEwald S M ref spc value vec := by
  simp only [Hamiltonian.termNames, List.mem_cons, List.mem_singleton, List.not_mem_nil,
    or_false, not_or] at hkey
  obtain ⟨h1, h2, h3, h4, h5, h6, h7, h8⟩ := hkey
  simp [Hamiltonian.addTerms, Hamiltonian.pushIf, h1, h2, h3, h4, h5, h6, h7, h8, Except.bind]

/-- An entry whose name selects no term and whose value holds no coulomb block adds no
term and does not throw; the warning is written if the vector of terms has the size
that it had when the loop over the entries of the object began. -/
theorem addEntry_unknown (S : Setup R) (M : Numerics R) (ref : SpaceRef) (spc : Space R)
    (oldsize : Nat) (st : List (Term R) × List String) (key : String) (value : Json R)
    (hkey : key ∉ Hamiltonian.termNames) (hcoul : value.count "coulomb" ≠ 1) :
    Hamiltonian.addEntry S M ref spc oldsize st (key, value) =
      .ok (st.1, if st.1.length = oldsize then st.2 ++ [Hamiltonian.warningText key]
        else st.2) := by
  simp [Hamiltonian.addEntry, addTerms_of_unknown S M ref spc key value st.1 hkey,
    Hamiltonian.addEwald, hcoul]

/-- C15: the constructor of the Hamiltonian processes the entries in order; at the
first entry for which the construction of a term throws an exception with the text `w`
it throws the `std::runtime_error` with the text `Error adding energy 'key': w`, which
names the entry and the cause, and no Hamiltonian is produced.  The construction of a
term throws for an entry `isobaric` with none of `P/mM`, `P/Pa`, `P/atm`; for a coulomb
block of type ewald without `alpha`, `cutoff`, `cutoffK` or `epsr`; for an entry
`penalty` with an unknown type; and for an entry `confine` whose molecule list is empty
or has a name that resolves to no identifier of its own. -/
theorem C15_failed_term_aborts_construction (S : Setup R) (M : Numerics R) (ref : SpaceRef)
    (spc : Space R) :
    (∀ (j je : Json R) (pre post : List (Json R)) (es1 es2 : List (String × Json R))
      (key : String) (value : Json R) (st0 st1 : List (Term R) × List String) (f : Fault)
      (w : String),
      j.atKey "energy" = .ok je →
      je.items = pre ++ Json.object (es1 ++ (key, value) :: es2) :: post →
      pre.foldlM (Hamiltonian.addObject S M ref spc) ([], []) = .ok st0 →
      es1.foldlM (Hamiltonian.addEntry S M ref spc st0.1.length) st0 = .ok st1 →
      Hamiltonian.addTerms S M ref spc key value st1.1 = .error f →
      f.what = some w →
      Hamiltonian.construct S M ref spc j =
        .error (Fault.runtime_error ("Error adding energy '" ++ key ++ "': " ++ w))) ∧
    (∀ (m : List (String × Json R)) (vec : List (Term R)),
      Json.lookup "P/mM" m = none → Json.lookup "P/Pa" m = none →
      Json.lookup "P/atm" m = none →
      ∃ w, Hamiltonian.addTerms S M ref spc "isobaric" (Json.object m) vec = .error w ∧
        w.what = some "[json.exception.out_of_range.403] key 'P/atm' not found") ∧
    (∀ (entry key : String) (mv mc : List (String × Json R)) (vec : List (Term R)),
      entry ∉ Hamiltonian.termNames →
      Json.lookup "coulomb" mv = some (Json.object mc) →
      Json.lookup "type" mc = some (Json.string "ewald") →
      key ∈ EwaldData.requiredKeys → Json.lookup key mc = none →
      ∃ f w, Hamiltonian.addTerms S M ref spc entry (Json.object mv) vec = .error f ∧
        f.what = some w) ∧
    (∀ (m : List (String × Json R)) (vec : List (Term R)) (type : String),
      Json.lookup "type" m = some (Json.string type) → type ≠ "cm" →
      ∃ f, Hamiltonian.addTerms S M ref spc "penalty" (Json.object m) vec = .error f ∧
        f.what = some ("penalty: unknown type'" ++ type ++ "'")) ∧
    (∀ (value : Json R) (vec : List (Term R)) (names : List String) (ids : List Nat),
      (value.atKey "molecules").bind (Json.getVector Json.getString) = .ok names →
      S.names2ids names = .ok ids → (ids = [] ∨ ids.dedup.length ≠ names.length) →
      ∃ f, Hamiltonian.addTerms S M ref spc "confine" value vec = .error f ∧
        f.what = some "external: molecule list is empty") := by
  refine ⟨?_, ?_, ?_, ?_, ?_⟩
  · intro j je pre post es1 es2 key value st0 st1 f w hj hitems hpre hes1 hfail hwhat
    exact construct_error_at S M ref spc j je pre post es1 es2 key value st0 st1 f w hj hitems
      hpre hes1 hfail hwhat
  · intro m vec h1 h2 h3
    exact ⟨_, addTerms_isobaric_without_pressure S M ref spc m vec h1 h2 h3, rfl⟩
  · intro entry key mv mc vec hentry h1 h2 hkey hmiss
    obtain ⟨w, hw⟩ := addEwald_missing_key S M ref spc mv mc vec key h1 h2 hkey hmiss
    refine ⟨Fault.json_exception w, w, ?_, rfl⟩
    rw [addTerms_of_unknown S M ref spc entry _ vec hentry]
    exact hw
  · intro m vec type h1 h2
    exact ⟨_, addTerms_penalty_unknown_type S M ref spc m vec type h1 h2, rfl⟩
  · intro value vec names ids h1 h2 h3
    exact ⟨_, addTerms_confine_without_molecules S M ref spc value vec names ids h1 h2 h3, rfl⟩

/-- C15 at the configuration `{"energy": [{"bonded": {}, "isobaric": {}}]}`: the term
for `bonded` is constructed, the entry `isobaric` has no pressure, and the constructor
throws the error that names `isobaric` and the missing key. -/
theorem C15_failed_term_aborts_construction_witness :
    Hamiltonian.construct qSetup qNumerics 0 qSpace
        (Hamiltonian.config
          [Json.object [("bonded", Json.object []), ("isobaric", Json.object [])]]) =
      .error (Fault.runtime_error ("Error adding energy '" ++ "isobaric" ++ "': " ++
        "[json.exception.out_of_range.403] key 'P/atm' not found")) :=
  (C15_failed_term_aborts_construction qSetup qNumerics 0 qSpace).1
    (Hamiltonian.config [Json.object [("bonded", Json.object []), ("isobaric", Json.object [])]])
    (Json.array [Json.object [("bonded", Json.object []), ("isobaric", Json.object [])]])
    [] [] [("bonded", Json.object [])] [] "isobaric" (Json.object []) ([], [])
    ([Term.bonded qBonded], [])
    (Fault.json_exception "[json.exception.out_of_range.403] key 'P/atm' not found")
    "[json.exception.out_of_range.403] key 'P/atm' not found"
    (by simp [Hamiltonian.config, Json.atKey, Json.lookup])
    (by simp [Json.items])
    rfl
    (by
      simp [Hamiltonian.addEntry, Hamiltonian.addTerms, Hamiltonian.pushIf, Bonded.construct,
        Bonded.update, qSetup, qSpace, qBonded, Json.is_object, Json.count, Json.lookup,
        Hamiltonian.addEwald, Except.bind, Except.map, List.enum, List.enumFrom, pure,
        Except.pure, bind, BondData.shift, List.mapM.loop])
    (addTerms_isobaric_without_pressure qSetup qNumerics 0 qSpace [] _ rfl rfl rfl)
    rfl

/-- C16, evaluated on the state `qSpace`.  An unknown entry `zzz` that follows the
recognised entry `bonded` in the same configuration object adds no term and writes no
warning.  The same entry alone in its object, an unknown entry `aaa` that precedes
`bonded` in the same object, and `zzz` in an object of its own after the object of
`bonded` each add no term and write the warning that names the entry. -/
theorem C16_unknown_entry_after_recognised_entry_is_silent :
    (Hamiltonian.construct qSetup qNumerics 0 qSpace
        (Hamiltonian.config
          [Json.object [("bonded", Json.object []), ("zzz", Json.object [])]])).map
        (fun r => (r.1.vec.map Term.kind, r.2)) = .ok ([Term.Kind.bonded], []) ∧
    (Hamiltonian.construct qSetup qNumerics 0 qSpace
        (Hamiltonian.config [Json.object [("zzz", Json.object [])]])).map
        (fun r => (r.1.vec.map Term.kind, r.2)) =
      .ok ([], ["warning: ignoring unknown energy 'zzz'"]) ∧
    (Hamiltonian.construct qSetup qNumerics 0 qSpace
        (Hamiltonian.config
          [Json.object [("aaa", Json.object []), ("bonded", Json.object [])]])).map
        (fun r => (r.1.vec.map Term.kind, r.2)) =
      .ok ([Term.Kind.bonded], ["warning: ignoring unknown energy 'aaa'"]) ∧
    (Hamiltonian.construct qSetup qNumerics 0 qSpace
        (Hamiltonian.config
          [Json.object [("bonded", Json.object [])], Json.object [("zzz", Json.object [])]])).map
        (fun r => (r.1.vec.map Term.kind, r.2)) =
      .ok ([Term.Kind.bonded], ["warning: ignoring unknown energy 'zzz'"]) := by
  refine ⟨?_, ?_, ?_, ?_⟩ <;>
    simp [Hamiltonian.construct, Hamiltonian.config, Json.atKey, Json.lookup, Json.items,
      Hamiltonian.addObject, Hamiltonian.addEntry, Hamiltonian.addTerms, Hamiltonian.pushIf,
      Bonded.construct, Bonded.update, qSetup, qSpace, Json.is_object, Json.count,
      Hamiltonian.addEwald, Hamiltonian.warningText, Except.bind, Except.map, List.enum,
      List.enumFrom, pure, Except.pure, bind, Term.kind, List.mapM.loop]

end ConstructionClaims


section ConfiguredEwaldTheorems

variable {R : Type} [LinearOrderedField R]

/-- The function `from_json` leaves `const_inf` zero for `eps_surf < 1` and one
otherwise. -/
theorem from_json_const_inf (S : Setup R) (j : Json R) (d d1 : EwaldData R)
    (h : EwaldData.from_json S j d = .ok d1) :
    d1.const_inf = if d1.eps_surf < 1 then 0 else 1 := by
  unfold EwaldData.from_json at h
  cases h1 : (j.atKey "alpha").bind Json.getNumber with
  | error f => rw [h1] at h; exact absurd h (by simp [Except.bind])
  | ok alpha =>
    cases h2 : (j.atKey "cutoff").bind Json.getNumber with
    | error f => rw [h1, h2] at h; exact absurd h (by simp [Except.bind])
    | ok rc =>
      cases h3 : (j.atKey "cutoffK").bind Json.getNumber with
      | error f => rw [h1, h2, h3] at h; exact absurd h (by simp [Except.bind])
      | ok kc =>
        cases h4 : j.value Json.getBool "ipbc" false with
        | error f => rw [h1, h2, h3, h4] at h; exact absurd h (by simp [Except.bind])
        | ok ipbc =>
          cases h5 : j.value Json.getBool "spherical_sum" true with
          | error f => rw [h1, h2, h3, h4, h5] at h; exact absurd h (by simp [Except.bind])
          | ok ss =>
            cases h6 : (j.atKey "epsr").bind Json.getNumber with
            | error f => rw [h1, h2, h3, h4, h5, h6] at h; exact absurd h (by simp [Except.bind])
            | ok epsr =>
              cases h7 : j.value Json.getNumber "epss" 0 with
              | error f =>
                rw [h1, h2, h3, h4, h5, h6, h7] at h
                exact absurd h (by simp [Except.bind, Except.map])
              | ok eps =>
                rw [h1, h2, h3, h4, h5, h6, h7] at h
                simp only [Except.bind, Except.map] at h
                rw [← Except.ok.inj h]

/-- The member function `update` changes neither `const_inf` nor `eps_surf`. -/
theorem update_const_inf (M : Numerics R) (box : Point R) (d d1 : EwaldData R)
    (h : EwaldData.update M box d = .ok d1) :
    d1.const_inf = d.const_inf ∧ d1.eps_surf = d.eps_surf := by
  simp only [EwaldData.update] at h
  split at h
  · rw [← Except.ok.inj h]
    exact ⟨rfl, rfl⟩
  · split at h
    · exact absurd h (by simp)
    · rw [← Except.ok.inj h]
      exact ⟨rfl, rfl⟩

/-- Every `Ewald` term that the constructor makes from a configuration holds a
`const_inf` that is zero for `eps_surf < 1` and one otherwise. -/
theorem fromConfig_const_inf (S : Setup R) (M : Numerics R) (j : Json R) (ref : SpaceRef)
    (spc : Space R) (e : Ewald R) (h : Ewald.fromConfig S M j ref spc = .ok e) :
    e.data.const_inf = if e.data.eps_surf < 1 then 0 else 1 := by
  unfold Ewald.fromConfig at h
  cases h1 : EwaldData.from_json S j EwaldData.fresh with
  | error f => rw [h1] at h; exact absurd h (by simp [Except.bind])
  | ok d0 =>
    rw [h1] at h
    simp only [Except.bind, Ewald.construct] at h
    cases h2 : EwaldData.update M spc.geo.getLength d0 with
    | error f => rw [h2] at h; exact absurd h (by simp)
    | ok d1 =>
      rw [h2] at h
      simp only at h
      cases h3 : PolicyIonIon.updateComplex M spc d1 with
      | error f => rw [h3] at h; exact absurd h (by simp [Except.map])
      | ok d2 =>
        rw [h3] at h
        simp only [Except.map] at h
        obtain ⟨Q, hQ⟩ := updateComplex_loop_frame M spc _ _ _ h3
        have hc := from_json_const_inf S j _ _ h1
        obtain ⟨u1, u2⟩ := update_const_inf M _ _ _ h2
        rw [← Except.ok.inj h]
        show d2.const_inf = if d2.eps_surf < 1 then 0 else 1
        rw [hQ]
        show d1.const_inf = if d1.eps_surf < 1 then 0 else 1
        rw [u1, u2]
        exact hc

end ConfiguredEwaldTheorems


section BinarySearchTheorems

/-- The loop of `std::lower_bound` on an ascending range: it returns the position
`p` before which every element is less than `val` and from which on none is. -/
theorem lower_bound_loop_spec (xs : List Nat) (val : Nat)
    (hmono : ∀ i j, i ≤ j → j < xs.length → xs.getD i 0 ≤ xs.getD j 0) :
    ∀ (fuel first count : Nat), count ≤ fuel → first + count ≤ xs.length →
      (∀ i, i < first → xs.getD i 0 < val) →
      (∀ i, first + count ≤ i → i < xs.length → val ≤ xs.getD i 0) →
      Nonbonded.lower_bound_loop xs val fuel first count ≤ xs.length ∧
        (∀ i, i < Nonbonded.lower_bound_loop xs val fuel first count → xs.getD i 0 < val) ∧
        (∀ i, Nonbonded.lower_bound_loop xs val fuel first count ≤ i → i < xs.length →
          val ≤ xs.getD i 0) := by
  intro fuel
  induction fuel with
  | zero =>
    intro first count hc hlen hlt hge
    have hc0 : count = 0 := by omega
    subst hc0
    simp only [Nonbonded.lower_bound_loop]
    exact ⟨by omega, hlt, fun i hi hil => hge i (by omega) hil⟩
  | succ fuel ih =>
    intro first count hc hlen hlt hge
    simp only [Nonbonded.lower_bound_loop]
    by_cases hc0 : count = 0
    · subst hc0
      simp only [if_true]
      exact ⟨by omega, hlt, fun i hi hil => hge i (by omega) hil⟩
    · simp only [hc0, if_false]
      have hstep : count / 2 < count := Nat.div_lt_self (by omega) (by omega)
      by_cases hcmp : xs.getD (first + count / 2) 0 < val
      · simp only [hcmp, if_true]
        apply ih
        · omega
        · omega
        · intro i hi
          have h1 := hmono i (first + count / 2) (by omega) (by omega)
          omega
        · intro i hi hil
          exact hge i (by omega) hil
      · simp only [hcmp, if_false]
        apply ih
        · omega
        · omega
        · exact hlt
        · intro i hi hil
          have h1 := hmono (first + count / 2) i hi hil
          omega

/-- On a strictly ascending vector `std::binary_search` finds exactly the elements of
the vector. -/
theorem binary_search_iff (xs : List Nat) (val : Nat) (hs : xs.Sorted (fun a b => a < b)) :
    Nonbonded.binary_search xs val = decide (val ∈ xs) := by
  have hget : ∀ i j, i < j → j < xs.length → xs.getD i 0 < xs.getD j 0 := by
    intro i j hij hj
    have h := List.pairwise_iff_getElem.mp hs i j (by omega) hj hij
    rw [List.getD_eq_getElem _ _ (by omega), List.getD_eq_getElem _ _ hj]
    exact h
  have hmono : ∀ i j, i ≤ j → j < xs.length → xs.getD i 0 ≤ xs.getD j 0 := by
    intro i j hij hj
    rcases Nat.lt_or_ge i j with h | h
    · exact Nat.le_of_lt (hget i j h hj)
    · have : i = j := by omega
      subst this
      exact Nat.le_refl _
  obtain ⟨hle, hlt, hge⟩ := lower_bound_loop_spec xs val hmono xs.length 0 xs.length
    (Nat.le_refl _) (by omega) (fun i hi => absurd hi (by omega))
    (fun i hi hil => absurd hil (by omega))
  simp only [Nonbonded.binary_search]
  by_cases hmem : val ∈ xs
  · obtain ⟨q, hq, hqv⟩ := List.getElem_of_mem hmem
    have hqd : xs.getD q 0 = val := by rw [List.getD_eq_getElem _ _ hq]; exact hqv
    have hpq : Nonbonded.lower_bound_loop xs val xs.length 0 xs.length ≤ q := by
      by_contra hcon
      have := hlt q (by omega)
      omega
    have hp : Nonbonded.lower_bound_loop xs val xs.length 0 xs.length < xs.length := by omega
    have h1 := hmono _ q hpq hq
    have h2 := hge _ (Nat.le_refl _) hp
    simp only [hmem, decide_True, Bool.and_eq_true, decide_eq_true_eq, Bool.not_eq_true',
      decide_eq_false_iff_not, ne_eq]
    exact ⟨by omega, by omega⟩
  · simp only [hmem, decide_False, Bool.and_eq_false_imp, decide_eq_true_eq,
      Bool.not_eq_false', ne_eq]
    intro hne
    have hp : Nonbonded.lower_bound_loop xs val xs.length 0 xs.length < xs.length := by omega
    have h2 := hge _ (Nat.le_refl _) hp
    have hne2 : xs.getD (Nonbonded.lower_bound_loop xs val xs.length 0 xs.length) 0 ≠ val := by
      intro heq
      apply hmem
      rw [← heq, List.getD_eq_getElem _ _ hp]
      exact List.getElem_mem _
    omega

/-- A strictly ascending list of indices below `n` is the list of the indices below
`n` that it holds. -/
theorem filter_range_mem (l : List Nat) (n : Nat) (hs : l.Sorted (fun a b => a < b))
    (hlt : ∀ i ∈ l, i < n) : (List.range n).filter (fun i => decide (i ∈ l)) = l := by
  apply List.eq_of_perm_of_sorted (r := fun a b => a < b)
  · rw [List.perm_ext_iff_of_nodup ((List.nodup_range n).filter _) hs.nodup]
    intro a
    simp only [List.mem_filter, List.mem_range, decide_eq_true_eq]
    exact ⟨fun h => h.2, fun h => ⟨hlt a h, h⟩⟩
  · exact (List.sorted_lt_range n).filter _
  · exact hs

end BinarySearchTheorems


section GeneralBranchTheorems

variable {R : Type} [LinearOrderedCommRing R]

theorem sumOverM_value {σ α : Type} (f : α → σ → Except Fault (R × σ)) (inv : σ → Prop)
    (val : α → R) (xs : List α)
    (hf : ∀ x ∈ xs, ∀ s, inv s → ∃ r, f x s = .ok r ∧ r.1 = val x ∧ inv r.2) (u : R) (s : σ)
    (hs : inv s) :
    ∃ s1, sumOverM f xs (u, s) = .ok (u + (xs.map val).sum, s1) ∧ inv s1 := by
  induction xs generalizing u s with
  | nil => exact ⟨s, by simp [sumOverM, pure, Except.pure], hs⟩
  | cons x xs ih =>
    obtain ⟨r, hr, hv, hi⟩ := hf x (List.mem_cons_self x xs) s hs
    obtain ⟨s1, h1, h2⟩ := ih (fun y hy => hf y (List.mem_cons_of_mem x hy)) (u + r.1) r.2 hi
    refine ⟨s1, ?_, h2⟩
    simp only [sumOverM, List.foldlM_cons, hr, Except.map, bind, Except.bind]
    simp only [sumOverM, Except.map] at h1
    rw [h1, hv, List.map_cons, List.sum_cons, add_assoc]

theorem groupAt_groupOr (spc : Space R) (i : Nat) (hi : i < spc.groups.length) :
    spc.groupAt i = .ok (i, spc.groupOr i) := by
  simp [Space.groupAt, Space.groupOr, List.getElem?_eq_getElem hi, List.getD_eq_getElem _ _ hi]

theorem groups_eq_map_groupOr (spc : Space R) :
    spc.groups = (List.range spc.groups.length).map spc.groupOr := by
  apply List.ext_getElem
  · simp
  · intro i h1 h2
    simp [Space.groupOr, List.getElem?_eq_getElem h1]

theorem g2gAt_value {σ : Type} (spc : Space R) (g2g : GroupRef R → GroupRef R → σ → R × σ)
    (inv : σ → Prop) (G : Group R → Group R → R)
    (hg : ∀ a b s, inv s → (g2g a b s).1 = G a.2 b.2 ∧ inv (g2g a b s).2)
    (i j : Nat) (hi : i < spc.groups.length) (hj : j < spc.groups.length) (s : σ) (hs : inv s) :
    ∃ r, Nonbonded.g2gAt spc g2g i j s = .ok r ∧
      r.1 = G (spc.groupOr i) (spc.groupOr j) ∧ inv r.2 := by
  refine ⟨g2g (i, spc.groupOr i) (j, spc.groupOr j) s, ?_, (hg _ _ s hs).1, (hg _ _ s hs).2⟩
  simp only [Nonbonded.g2gAt, groupAt_groupOr spc i hi, groupAt_groupOr spc j hj, Except.bind,
    Except.map]

/-- The value of the loop `moved<->moved` of the general branch. -/
theorem movedMoved_value {σ : Type} (spc : Space R)
    (g2g : GroupRef R → GroupRef R → σ → R × σ) (inv : σ → Prop) (G : Group R → Group R → R)
    (hg : ∀ a b s, inv s → (g2g a b s).1 = G a.2 b.2 ∧ inv (g2g a b s).2)
    (moved : List Nat) (hm : ∀ i ∈ moved, i < spc.groups.length) (u : R) (s : σ) (hs : inv s) :
    ∃ s1, Nonbonded.movedMoved spc g2g moved (u, s) =
        .ok (u + pairsSum (fun i j => G (spc.groupOr i) (spc.groupOr j)) moved, s1) ∧
      inv s1 := by
  induction moved generalizing u s with
  | nil => exact ⟨s, by simp [Nonbonded.movedMoved, pairsSum], hs⟩
  | cons i rest ih =>
    have hi := hm i (List.mem_cons_self i rest)
    have hrest : ∀ j ∈ rest, j < spc.groups.length := fun j hj =>
      hm j (List.mem_cons_of_mem i hj)
    obtain ⟨s1, h1, hs1⟩ := sumOverM_value (fun j => Nonbonded.g2gAt spc g2g i j) inv
      (fun j => G (spc.groupOr i) (spc.groupOr j)) rest
      (fun j hj s hs => g2gAt_value spc g2g inv G hg i j hi (hrest j hj) s hs) u s hs
    obtain ⟨s2, h2, hs2⟩ := ih hrest
      (u + (rest.map (fun j => G (spc.groupOr i) (spc.groupOr j))).sum) s1 hs1
    refine ⟨s2, ?_, hs2⟩
    simp only [Nonbonded.movedMoved, h1, Except.bind, h2, pairsSum]
    rw [add_assoc]

/-- The value of the loop `moved<->static` of the general branch. -/
theorem movedFixed_value {σ : Type} (spc : Space R)
    (g2g : GroupRef R → GroupRef R → σ → R × σ) (inv : σ → Prop) (G : Group R → Group R → R)
    (hg : ∀ a b s, inv s → (g2g a b s).1 = G a.2 b.2 ∧ inv (g2g a b s).2)
    (moved fixed : List Nat) (hm : ∀ i ∈ moved, i < spc.groups.length)
    (hf : ∀ j ∈ fixed, j < spc.groups.length) (u : R) (s : σ) (hs : inv s) :
    ∃ s1, moved.foldlM (fun a i => sumOverM (fun j => Nonbonded.g2gAt spc g2g i j) fixed a)
          (u, s) =
        .ok (u + crossSum (fun i j => G (spc.groupOr i) (spc.groupOr j)) moved fixed, s1) ∧
      inv s1 := by
  induction moved generalizing u s with
  | nil => exact ⟨s, by simp [crossSum, pure, Except.pure], hs⟩
  | cons i rest ih =>
    have hi := hm i (List.mem_cons_self i rest)
    have hrest : ∀ j ∈ rest, j < spc.groups.length := fun j hj =>
      hm j (List.mem_cons_of_mem i hj)
    obtain ⟨s1, h1, hs1⟩ := sumOverM_value (fun j => Nonbonded.g2gAt spc g2g i j) inv
      (fun j => G (spc.groupOr i) (spc.groupOr j)) fixed
      (fun j hj s hs => g2gAt_value spc g2g inv G hg i j hi (hf j hj) s hs) u s hs
    obtain ⟨s2, h2, hs2⟩ := ih hrest
      (u + (fixed.map (fun j => G (spc.groupOr i) (spc.groupOr j))).sum) s1 hs1
    refine ⟨s2, ?_, hs2⟩
    simp only [List.foldlM_cons, h1, bind, Except.bind, h2, crossSum_cons_left]
    rw [add_assoc]

/-- The value of the general branch of `Nonbonded::energy` for a Change that names at
least two groups, with strictly ascending indices inside the group vector: `g2g` over
the pairs of named groups, plus `g2g` of every named group with every other group. -/
theorem energy_general_value (spc : Space R) (nb : Nonbonded R) (c : Change)
    (hall : c.all = false) (hdV : c.dV = false) (htwo : 2 ≤ c.groups.length)
    (hasc : c.touchedGroupIndex.Sorted (fun a b => a < b))
    (hidx : ∀ i ∈ c.touchedGroupIndex, i < spc.groups.length) :
    ∃ nb1, Nonbonded.energy spc c nb =
      .ok (pairsSum (fun i j => Nonbonded.pairEnergy spc nb.Rc2_g2g nb.pairpot
            (spc.groupOr i) (spc.groupOr j)) c.touchedGroupIndex +
          crossSum (fun i j => Nonbonded.pairEnergy spc nb.Rc2_g2g nb.pairpot
            (spc.groupOr i) (spc.groupOr j)) c.touchedGroupIndex
            ((List.range spc.groups.length).filter (fun i => !decide (i ∈ c.touchedGroupIndex))),
        nb1) := by
  have hg : ∀ (a b : GroupRef R) (s : Nonbonded R),
      (s.Rc2_g2g = nb.Rc2_g2g ∧ s.pairpot = nb.pairpot) →
      (Nonbonded.g2g spc a.2 b.2 s).1 = Nonbonded.pairEnergy spc nb.Rc2_g2g nb.pairpot a.2 b.2 ∧
        ((Nonbonded.g2g spc a.2 b.2 s).2.Rc2_g2g = nb.Rc2_g2g ∧
          (Nonbonded.g2g spc a.2 b.2 s).2.pairpot = nb.pairpot) := by
    intro a b s hs
    have h := g2g_snd spc a.2 b.2 s
    refine ⟨?_, h.1.trans hs.1, h.2.trans hs.2⟩
    rw [g2g_fst, hs.1, hs.2]
  have hfixed : (List.range spc.groups.length).filter
      (fun i => !Nonbonded.binary_search c.touchedGroupIndex i) =
      (List.range spc.groups.length).filter (fun i => !decide (i ∈ c.touchedGroupIndex)) := by
    apply List.filter_congr
    intro i _
    rw [binary_search_iff _ _ hasc]
  obtain ⟨s1, h1, hs1⟩ := movedMoved_value spc (fun g1 g2 s => Nonbonded.g2g spc g1.2 g2.2 s)
    (fun s => s.Rc2_g2g = nb.Rc2_g2g ∧ s.pairpot = nb.pairpot)
    (Nonbonded.pairEnergy spc nb.Rc2_g2g nb.pairpot) hg c.touchedGroupIndex hidx 0 nb ⟨rfl, rfl⟩
  obtain ⟨s2, h2, _⟩ := movedFixed_value spc (fun g1 g2 s => Nonbonded.g2g spc g1.2 g2.2 s)
    (fun s => s.Rc2_g2g = nb.Rc2_g2g ∧ s.pairpot = nb.pairpot)
    (Nonbonded.pairEnergy spc nb.Rc2_g2g nb.pairpot) hg c.touchedGroupIndex
    ((List.range spc.groups.length).filter (fun i => !decide (i ∈ c.touchedGroupIndex))) hidx
    (fun j hj => List.mem_range.mp (List.mem_filter.mp hj).1)
    (0 + pairsSum (fun i j => Nonbonded.pairEnergy spc nb.Rc2_g2g nb.pairpot
      (spc.groupOr i) (spc.groupOr j)) c.touchedGroupIndex) s1 hs1
  have hgen : Nonbonded.general spc (fun g1 g2 s => Nonbonded.g2g spc g1.2 g2.2 s) c nb =
      .ok (0 + pairsSum (fun i j => Nonbonded.pairEnergy spc nb.Rc2_g2g nb.pairpot
            (spc.groupOr i) (spc.groupOr j)) c.touchedGroupIndex +
          crossSum (fun i j => Nonbonded.pairEnergy spc nb.Rc2_g2g nb.pairpot
            (spc.groupOr i) (spc.groupOr j)) c.touchedGroupIndex
            ((List.range spc.groups.length).filter (fun i => !decide (i ∈ c.touchedGroupIndex))),
        s2) := by
    simp only [Nonbonded.general, hfixed, h1, Except.bind]
    exact h2
  refine ⟨s2, ?_⟩
  have he : c.empty = false := by
    cases hgs : c.groups with
    | nil => simp [hgs] at htwo
    | cons d ds => simp [Change.empty, hgs]
  rw [zero_add] at hgen
  cases hgs : c.groups with
  | nil => simp [hgs] at htwo
  | cons d ds =>
    cases ds with
    | nil => simp [hgs] at htwo
    | cons d2 ds2 =>
      simp only [Nonbonded.energy, Nonbonded.energyWith, he, hdV, hall, Bool.false_eq_true,
        if_false, hgs]
      exact hgen

end GeneralBranchTheorems


section MultiGroupTheorems

variable {R : Type} [LinearOrderedCommRing R]

theorem sum_filter_split {α : Type} (p : α → Bool) (f : α → R) (l : List α) :
    (l.map f).sum = ((l.filter p).map f).sum + ((l.filter (fun a => !p a)).map f).sum := by
  induction l with
  | nil => simp
  | cons a l ih =>
    by_cases h : p a = true
    · simp only [List.map_cons, List.sum_cons, List.filter_cons, h, if_true, Bool.not_true,
        Bool.false_eq_true, if_false, ih]
      ring
    · have h2 : p a = false := by simpa using h
      simp only [List.map_cons, List.sum_cons, List.filter_cons, h2, Bool.false_eq_true,
        if_false, Bool.not_false, if_true, ih]
      ring

/-- For a symmetric `f` the sum over the pairs of a list is the sum over the pairs
of the elements selected by `p`, the sum over the pairs of the others, and the sum over
the pairs of one element of each kind. -/
theorem pairsSum_filter_split {α : Type} (f : α → α → R) (hsym : ∀ a b, f a b = f b a)
    (p : α → Bool) (l : List α) :
    pairsSum f l = pairsSum f (l.filter p) +
      crossSum f (l.filter p) (l.filter (fun a => !p a)) +
      pairsSum f (l.filter (fun a => !p a)) := by
  induction l with
  | nil => simp [pairsSum, crossSum]
  | cons a l ih =>
    have hsplit := sum_filter_split p (f a) l
    by_cases h : p a = true
    · simp only [List.filter_cons, h, if_true, Bool.not_true, Bool.false_eq_true, if_false,
        pairsSum, crossSum_cons_left, ih, hsplit]
      ring
    · have h2 : p a = false := by simpa using h
      have hswap : ((l.filter p).map (fun x => f x a)).sum = ((l.filter p).map (f a)).sum :=
        map_sum_congr _ _ _ (fun x _ => hsym x a)
      simp only [List.filter_cons, h2, Bool.false_eq_true, if_false, Bool.not_false, if_true,
        pairsSum, crossSum_cons_right, ih, hsplit, hswap]
      ring

theorem groupOr_of_getElem? (spc : Space R) (i : Nat) (g : Group R)
    (h : spc.groups[i]? = some g) : spc.groupOr i = g := by
  simp [Space.groupOr, List.getD_eq_getElem?_getD, h]

theorem getElem?_groupOr (spc : Space R) (i : Nat) (hi : i < spc.groups.length) :
    spc.groups[i]? = some (spc.groupOr i) := by
  simp [Space.groupOr, List.getElem?_eq_getElem hi, List.getD_eq_getElem _ _ hi]

/-- The value of a full evaluation in terms of the indices of the groups, split into
the groups that a list `l` of indices names and the others. -/
theorem energy_all_split (spc : Space R) (nb : Nonbonded R) (l : List Nat)
    (hs : l.Sorted (fun a b => a < b)) (hidx : ∀ i ∈ l, i < spc.groups.length)
    (hsym : ∀ a b, Nonbonded.i2i spc nb.pairpot a b = Nonbonded.i2i spc nb.pairpot b a)
    (hdist : ∀ p q, spc.geo.sqdist p q = spc.geo.sqdist q p) :
    ∃ nb1, Nonbonded.energy spc { dV := false, all := true, groups := [] } nb =
      .ok (pairsSum (fun i j => Nonbonded.pairEnergy spc nb.Rc2_g2g nb.pairpot
            (spc.groupOr i) (spc.groupOr j)) l +
          crossSum (fun i j => Nonbonded.pairEnergy spc nb.Rc2_g2g nb.pairpot
            (spc.groupOr i) (spc.groupOr j)) l
            ((List.range spc.groups.length).filter (fun i => !decide (i ∈ l))) +
          pairsSum (fun i j => Nonbonded.pairEnergy spc nb.Rc2_g2g nb.pairpot
            (spc.groupOr i) (spc.groupOr j))
            ((List.range spc.groups.length).filter (fun i => !decide (i ∈ l))) +
          ((l.map (fun i => Nonbonded.g_internal spc nb.pairpot (spc.groupOr i))).sum +
            (((List.range spc.groups.length).filter (fun i => !decide (i ∈ l))).map
              (fun i => Nonbonded.g_internal spc nb.pairpot (spc.groupOr i))).sum), nb1) := by
  obtain ⟨nb1, h⟩ := energy_all_value spc nb
  refine ⟨nb1, ?_⟩
  rw [h]
  have hW : ∀ a b : Nat,
      Nonbonded.pairEnergy spc nb.Rc2_g2g nb.pairpot (spc.groupOr a) (spc.groupOr b) =
        Nonbonded.pairEnergy spc nb.Rc2_g2g nb.pairpot (spc.groupOr b) (spc.groupOr a) :=
    fun a b => pairEnergy_symm spc _ _ hsym hdist _ _
  have h1 := pairsSum_filter_split
    (fun i j => Nonbonded.pairEnergy spc nb.Rc2_g2g nb.pairpot (spc.groupOr i) (spc.groupOr j))
    hW (fun i => decide (i ∈ l)) (List.range spc.groups.length)
  have h2 := sum_filter_split (fun i => decide (i ∈ l))
    (fun i => Nonbonded.g_internal spc nb.pairpot (spc.groupOr i)) (List.range spc.groups.length)
  rw [filter_range_mem l _ hs hidx] at h1 h2
  have h3 : pairsSum (Nonbonded.pairEnergy spc nb.Rc2_g2g nb.pairpot) spc.groups =
      pairsSum (fun i j => Nonbonded.pairEnergy spc nb.Rc2_g2g nb.pairpot
        (spc.groupOr i) (spc.groupOr j)) (List.range spc.groups.length) := by
    rw [pairsSum_map (Nonbonded.pairEnergy spc nb.Rc2_g2g nb.pairpot) spc.groupOr,
      ← groups_eq_map_groupOr]
  have h4 : (spc.groups.map (Nonbonded.g_internal spc nb.pairpot)).sum =
      ((List.range spc.groups.length).map
        (fun i => Nonbonded.g_internal spc nb.pairpot (spc.groupOr i))).sum := by
    conv_lhs => rw [groups_eq_map_groupOr spc]
    rw [List.map_map]
    rfl
  rw [h3, h4, h1, h2]

/-- C19 (amended).  Two states with the same container and as many groups; a Change
with `all == false` and `dV == false` that names two or more groups, with strictly
ascending indices inside the group vector; every group that the Change does not name
is the same in both states, with the same particles; every group that it names has
the same internal energy `g_internal` in both states; a pair potential symmetric in its
two particles and a symmetric distance function; any cutoff.  Then the energy
difference between trial and reference state is the same for this Change and for
`all == true`. -/
theorem C19_multi_group_move (sO sN : Space R) (nbO nbN : Nonbonded R) (c : Change)
    (hRc : nbN.Rc2_g2g = nbO.Rc2_g2g) (hpot : nbN.pairpot = nbO.pairpot)
    (hgeo : sN.geo = sO.geo) (hall : c.all = false) (hdV : c.dV = false)
    (htwo : 2 ≤ c.groups.length) (hasc : c.touchedGroupIndex.Sorted (fun a b => a < b))
    (hlen : sN.groups.length = sO.groups.length)
    (hidx : ∀ i ∈ c.touchedGroupIndex, i < sO.groups.length)
    (hfix : ∀ (i : Nat) (g : Group R), i ∉ c.touchedGroupIndex → sO.groups[i]? = some g →
      sN.groups[i]? = some g ∧ sN.particles g = sO.particles g)
    (hint : ∀ (i : Nat) (gN gO : Group R), i ∈ c.touchedGroupIndex →
      sN.groups[i]? = some gN → sO.groups[i]? = some gO →
      Nonbonded.g_internal sN nbO.pairpot gN = Nonbonded.g_internal sO nbO.pairpot gO)
    (hsym : ∀ a b, nbO.pairpot a b (sO.geo.vdist a.pos b.pos) =
      nbO.pairpot b a (sO.geo.vdist b.pos a.pos))
    (hdist : ∀ p q, sO.geo.sqdist p q = sO.geo.sqdist q p) :
    ∃ uN uO vN vO nN nO mN mO,
      Nonbonded.energy sN c nbN = .ok (uN, nN) ∧
      Nonbonded.energy sO c nbO = .ok (uO, nO) ∧
      Nonbonded.energy sN { dV := false, all := true, groups := [] } nbN = .ok (vN, mN) ∧
      Nonbonded.energy sO { dV := false, all := true, groups := [] } nbO = .ok (vO, mO) ∧
      uN - uO = vN - vO := by
  have hsymO : ∀ a b, Nonbonded.i2i sO nbO.pairpot a b = Nonbonded.i2i sO nbO.pairpot b a :=
    fun a b => hsym a b
  have hsymN : ∀ a b, Nonbonded.i2i sN nbN.pairpot a b = Nonbonded.i2i sN nbN.pairpot b a := by
    intro a b
    unfold Nonbonded.i2i
    rw [hgeo, hpot]
    exact hsymO a b
  have hdistN : ∀ p q, sN.geo.sqdist p q = sN.geo.sqdist q p := by
    rw [hgeo]
    exact hdist
  have hidxN : ∀ i ∈ c.touchedGroupIndex, i < sN.groups.length := by
    rw [hlen]
    exact hidx
  obtain ⟨nN, hcN⟩ := energy_general_value sN nbN c hall hdV htwo hasc hidxN
  obtain ⟨nO, hcO⟩ := energy_general_value sO nbO c hall hdV htwo hasc hidx
  obtain ⟨mN, haN⟩ := energy_all_split sN nbN c.touchedGroupIndex hasc hidxN hsymN hdistN
  obtain ⟨mO, haO⟩ := energy_all_split sO nbO c.touchedGroupIndex hasc hidx hsymO hdist
  refine ⟨_, _, _, _, nN, nO, mN, mO, hcN, hcO, haN, haO, ?_⟩
  rw [hlen, hRc, hpot]
  have hfx : ∀ i ∈ (List.range sO.groups.length).filter
      (fun i => !decide (i ∈ c.touchedGroupIndex)),
      sN.groupOr i = sO.groupOr i ∧ sN.particles (sO.groupOr i) = sO.particles (sO.groupOr i) := by
    intro i hi
    obtain ⟨h1, h2⟩ := List.mem_filter.mp hi
    have hlt := List.mem_range.mp h1
    have hnot : i ∉ c.touchedGroupIndex := by simpa using h2
    obtain ⟨h3, h4⟩ := hfix i (sO.groupOr i) hnot (getElem?_groupOr sO i hlt)
    exact ⟨groupOr_of_getElem? sN i _ h3, h4⟩
  have e1 : pairsSum (fun i j => Nonbonded.pairEnergy sN nbO.Rc2_g2g nbO.pairpot
        (sN.groupOr i) (sN.groupOr j))
        ((List.range sO.groups.length).filter (fun i => !decide (i ∈ c.touchedGroupIndex))) =
      pairsSum (fun i j => Nonbonded.pairEnergy sO nbO.Rc2_g2g nbO.pairpot
        (sO.groupOr i) (sO.groupOr j))
        ((List.range sO.groups.length).filter (fun i => !decide (i ∈ c.touchedGroupIndex))) := by
    apply pairsSum_congr
    intro a ha b hb
    show Nonbonded.pairEnergy sN nbO.Rc2_g2g nbO.pairpot (sN.groupOr a) (sN.groupOr b) =
      Nonbonded.pairEnergy sO nbO.Rc2_g2g nbO.pairpot (sO.groupOr a) (sO.groupOr b)
    rw [(hfx a ha).1, (hfx b hb).1]
    exact pairEnergy_congr sN sO _ _ hgeo _ _ (hfx a ha).2 (hfx b hb).2
  have e2 : (((List.range sO.groups.length).filter
        (fun i => !decide (i ∈ c.touchedGroupIndex))).map
        (fun i => Nonbonded.g_internal sN nbO.pairpot (sN.groupOr i))).sum =
      (((List.range sO.groups.length).filter
        (fun i => !decide (i ∈ c.touchedGroupIndex))).map
        (fun i => Nonbonded.g_internal sO nbO.pairpot (sO.groupOr i))).sum := by
    apply map_sum_congr
    intro a ha
    show Nonbonded.g_internal sN nbO.pairpot (sN.groupOr a) =
      Nonbonded.g_internal sO nbO.pairpot (sO.groupOr a)
    rw [(hfx a ha).1]
    exact g_internal_congr sN sO _ hgeo _ (hfx a ha).2
  have e3 : (c.touchedGroupIndex.map
        (fun i => Nonbonded.g_internal sN nbO.pairpot (sN.groupOr i))).sum =
      (c.touchedGroupIndex.map
        (fun i => Nonbonded.g_internal sO nbO.pairpot (sO.groupOr i))).sum := by
    apply map_sum_congr
    intro a ha
    exact hint a _ _ ha (getElem?_groupOr sN a (hidxN a ha)) (getElem?_groupOr sO a (hidx a ha))
  rw [e1, e2, e3]
  ring

/-- C19 (the claim fails): in `qSpacePairs` and `qSpacePairsBent` the Change names
both groups, with ascending indices; the pair potential `q_a q_b r^2` is symmetric; the
states differ only in particles of the named groups, one atom having moved inside each
group.  The general branch gives -72 and -102, a difference of 30; the full evaluation
adds the internal energies, gives -64 and -100, a difference of 36. -/
theorem C19_fails_when_atoms_move_inside_a_group :
    (Nonbonded.energy qSpacePairsBent qChangeBoth qNonbonded).map Prod.fst = .ok (-72) ∧
    (Nonbonded.energy qSpacePairs qChangeBoth qNonbonded).map Prod.fst = .ok (-102) ∧
    (Nonbonded.energy qSpacePairsBent { dV := false, all := true, groups := [] }
      qNonbonded).map Prod.fst = .ok (-64) ∧
    (Nonbonded.energy qSpacePairs { dV := false, all := true, groups := [] }
      qNonbonded).map Prod.fst = .ok (-100) ∧
    qChangeBoth.touchedGroupIndex = [0, 1] ∧
    (∀ a b : Particle ℚ, qNonbonded.pairpot a b (qBox.vdist a.pos b.pos) =
      qNonbonded.pairpot b a (qBox.vdist b.pos a.pos)) ∧
    (-72 : ℚ) - (-102) ≠ -64 - (-100) := by
  refine ⟨by decide!, by decide!, by decide!, by decide!, rfl, qPairpot_symmetric,
    by decide!⟩

/-- C19 (amended) on `qSpace` and `qSpaceMoved`, whose groups hold one particle each,
for the Change that names both groups. -/
theorem C19_multi_group_move_witness :
    ∃ uN uO vN vO nN nO mN mO,
      Nonbonded.energy qSpaceMoved qChangeBoth qNonbonded = .ok (uN, nN) ∧
      Nonbonded.energy qSpace qChangeBoth qNonbonded = .ok (uO, nO) ∧
      Nonbonded.energy qSpaceMoved { dV := false, all := true, groups := [] } qNonbonded =
        .ok (vN, mN) ∧
      Nonbonded.energy qSpace { dV := false, all := true, groups := [] } qNonbonded =
        .ok (vO, mO) ∧
      uN - uO = vN - vO :=
  C19_multi_group_move qSpace qSpaceMoved qNonbonded qNonbonded qChangeBoth rfl rfl rfl rfl rfl
    (by decide) (by simp [qChangeBoth, Change.touchedGroupIndex]) rfl
    (by simp [qChangeBoth, Change.touchedGroupIndex, qSpace])
    (by
      intro i g hi hg
      have h2 : 2 ≤ i := by
        simp [qChangeBoth, Change.touchedGroupIndex] at hi
        omega
      have : qSpace.groups[i]? = none := by
        simp [qSpace]
        omega
      rw [this] at hg
      exact absurd hg (by simp))
    (by
      intro i gN gO hi hN hO
      simp only [qChangeBoth, Change.touchedGroupIndex, List.map_cons, List.map_nil,
        List.mem_cons, List.mem_singleton, List.not_mem_nil, or_false] at hi
      rcases hi with h | h <;> subst h
      · simp [qSpaceMoved] at hN
        simp [qSpace] at hO
        subst hN; subst hO
        simp [Nonbonded.g_internal, Space.particles, qSpaceMoved, qSpace, sumPairs]
      · simp [qSpaceMoved] at hN
        simp [qSpace] at hO
        subst hN; subst hO
        simp [Nonbonded.g_internal, Space.particles, qSpaceMoved, qSpace, sumPairs])
    (fun a b => qPairpot_symmetric a b) qBox_sqdist_symmetric

end MultiGroupTheorems


section BranchTheorems

variable {R : Type} [LinearOrderedCommRing R]

/-- A full evaluation does not look at the groups that the Change names. -/
theorem energy_all_of_flags (spc : Space R) (nb : Nonbonded R) (c : Change)
    (hall : c.all = true) (hdV : c.dV = false) :
    Nonbonded.energy spc c nb =
      Nonbonded.energy spc { dV := false, all := true, groups := [] } nb := by
  simp [Nonbonded.energy, Nonbonded.energyWith, Change.empty, hall, hdV]

/-- C21 (amended): for a Change with `all == true` and `dV == false`,
`Nonbonded::energy` returns the sum of `g2g` over the pairs `i < j` of groups plus the
sum of `g_internal` over every group, atomic or not.  The evaluation with `dV == true`
on the same state returns; its value is smaller by the sum of `g_internal` over the
groups that are not atomic. -/
theorem C21_all_branch_counts_every_group (spc : Space R) (nb : Nonbonded R) (c : Change)
    (hall : c.all = true) (hdV : c.dV = false) :
    ∃ uAll uVol nb1 nb2,
      Nonbonded.energy spc c nb = .ok (uAll, nb1) ∧
      Nonbonded.energy spc { c with dV := true } nb = .ok (uVol, nb2) ∧
      uAll = pairsSum (fun g1 g2 => (Nonbonded.g2g spc g1 g2 nb).1) spc.groups +
        (spc.groups.map (Nonbonded.g_internal spc nb.pairpot)).sum ∧
      uAll = uVol + ((spc.groups.filter (fun g => !g.atomic)).map
        (Nonbonded.g_internal spc nb.pairpot)).sum := by
  obtain ⟨nb1, h1⟩ := energy_all_value spc nb
  obtain ⟨nb2, h2⟩ := energy_dV_value spc { c with dV := true } nb rfl
  refine ⟨_, _, nb1, nb2, (energy_all_of_flags spc nb c hall hdV).trans h1, h2, ?_, ?_⟩
  · have e : (fun g1 g2 => (Nonbonded.g2g spc g1 g2 nb).1) =
        Nonbonded.pairEnergy spc nb.Rc2_g2g nb.pairpot := by
      funext g1 g2
      exact g2g_fst spc g1 g2 nb
    rw [e]
  · rw [sum_filter_split (fun g => g.atomic) (Nonbonded.g_internal spc nb.pairpot) spc.groups]
    ring

/-- C21 (the claim fails): the two groups of `qSpacePairs` are not atomic and hold two
particles each.  With `all == true` the evaluation returns -100, which includes the
internal energy 1 of each group; with `dV == true` it returns -102, the group-group
energy alone. -/
theorem C21_all_branch_differs_from_volume_branch :
    (∀ g ∈ qSpacePairs.groups, g.atomic = false) ∧
    (Nonbonded.energy qSpacePairs { dV := false, all := true, groups := [] }
      qNonbonded).map Prod.fst = .ok (-100) ∧
    (Nonbonded.energy qSpacePairs { dV := true, all := true, groups := [] }
      qNonbonded).map Prod.fst = .ok (-102) ∧
    pairsSum (fun g1 g2 => (Nonbonded.g2g qSpacePairs g1 g2 qNonbonded).1) qSpacePairs.groups +
      ((qSpacePairs.groups.filter (fun g => g.atomic)).map
        (Nonbonded.g_internal qSpacePairs qNonbonded.pairpot)).sum = -102 := by
  refine ⟨by decide, by decide!, by decide!, by decide!⟩

/-- C21 (amended) at the state `qSpacePairs`. -/
theorem C21_all_branch_counts_every_group_witness :
    ∃ uAll uVol nb1 nb2,
      Nonbonded.energy qSpacePairs { dV := false, all := true, groups := [] } qNonbonded =
        .ok (uAll, nb1) ∧
      Nonbonded.energy qSpacePairs { dV := true, all := true, groups := [] } qNonbonded =
        .ok (uVol, nb2) ∧
      uAll = pairsSum (fun g1 g2 => (Nonbonded.g2g qSpacePairs g1 g2 qNonbonded).1)
          qSpacePairs.groups +
        (qSpacePairs.groups.map (Nonbonded.g_internal qSpacePairs qNonbonded.pairpot)).sum ∧
      uAll = uVol + ((qSpacePairs.groups.filter (fun g => !g.atomic)).map
        (Nonbonded.g_internal qSpacePairs qNonbonded.pairpot)).sum :=
  C21_all_branch_counts_every_group qSpacePairs qNonbonded
    { dV := false, all := true, groups := [] } rfl rfl

theorem enum_filter_ne_eraseIdx {α : Type} (l : List α) (n k : Nat) :
    ((l.enumFrom n).filter (fun j => decide (j.1 ≠ n + k))).map Prod.snd = l.eraseIdx k := by
  induction l generalizing n k with
  | nil => rfl
  | cons a l ih =>
    cases k with
    | zero =>
      rw [List.enumFrom_cons, List.filter_cons_of_neg (by simp),
        filter_enumFrom_lt l (n + 1) (n + 0) (by omega), enum_map_snd_eq]
      rfl
    | succ k =>
      rw [List.enumFrom_cons, List.filter_cons_of_pos (by simp), List.map_cons,
        List.eraseIdx_cons_succ]
      have h := ih (n + 1) k
      have e : n + 1 + k = n + (k + 1) := by omega
      rw [e] at h
      rw [h]

theorem enum_filter_ne_map {α β : Type} (f : α → β) (l : List α) (k : Nat) :
    (l.enum.filter (fun j => decide (j.1 ≠ k))).map (fun j => f j.2) = (l.eraseIdx k).map f := by
  have h := enum_filter_ne_eraseIdx l 0 k
  rw [Nat.zero_add] at h
  rw [← h, List.map_map]
  rfl

/-- C22: for a Change with `all == false` and `dV == false` that names exactly one
group `g` with exactly one atom index `a`, whatever the flag `all` of that entry,
`Nonbonded::energy` returns the pair potential of the particle at offset
`g.begin() + a` of the particle vector with every other particle of the whole particle
vector, each once; neither the cutoff nor the groups enter the sum, and the term is left
as it was. -/
theorem C22_single_atom_branch (spc : Space R) (nb : Nonbonded R) (c : Change)
    (d : Change.data) (a : Nat) (grp : Group R) (x : Particle R)
    (hall : c.all = false) (hdV : c.dV = false) (hgroups : c.groups = [d])
    (hatoms : d.atoms = [a]) (hg : spc.groups[d.index]? = some grp)
    (hx : spc.p[grp.first + a]? = some x) :
    Nonbonded.energy spc c nb =
      .ok (((spc.p.eraseIdx (grp.first + a)).map
        (fun y => nb.pairpot x y (spc.geo.vdist x.pos y.pos))).sum, nb) := by
  have hc : c =
      { dV := false, all := false, groups := [{ index := d.index, all := d.all, atoms := [a] }] }
      := by
    cases c with
    | mk dV all groups =>
      simp only at hall hdV hgroups
      subst hall; subst hdV; subst hgroups
      cases d with
      | mk index dall atoms =>
        simp only at hatoms
        subst hatoms
        rfl
  rw [hc, energy_oneAtom_value spc nb d.index a d.all grp x hg hx,
    enum_filter_ne_map (fun y => Nonbonded.i2i spc nb.pairpot x y)]
  rfl

/-- C22 on `qSpace` for atom 0 of group 0. -/
theorem C22_single_atom_branch_witness :
    Nonbonded.energy qSpace qChangeAtom qNonbondedCut =
      .ok (((qSpace.p.eraseIdx (0 + 0)).map
        (fun y => qNonbondedCut.pairpot ⟨⟨0, 0, 0⟩, 1, 0⟩ y
          (qSpace.geo.vdist (⟨⟨0, 0, 0⟩, 1, 0⟩ : Particle ℚ).pos y.pos))).sum, qNonbondedCut) :=
  C22_single_atom_branch qSpace qNonbondedCut qChangeAtom
    { index := 0, all := false, atoms := [0] } 0 ⟨0, 1, 0, true, ⟨0, 0, 0⟩⟩ ⟨⟨0, 0, 0⟩, 1, 0⟩
    rfl rfl rfl rfl (by simp [qSpace]) (by simp [qSpace])

/-- C23: for a Change with `all == false` and `dV == false` that names exactly one
group `g`, with the flag `all` of the entry set and a number of listed atoms other than
one, `Nonbonded::energy` returns `g2g(g_i, g_g)` summed over every other group `i`, each
once, plus `g_internal(g_g)`. -/
theorem C23_whole_group_branch (spc : Space R) (nb : Nonbonded R) (c : Change)
    (d : Change.data) (grp : Group R) (hall : c.all = false) (hdV : c.dV = false)
    (hgroups : c.groups = [d]) (hd : d.all = true) (hatoms : d.atoms.length ≠ 1)
    (hg : spc.groups[d.index]? = some grp) :
    ∃ nb1, Nonbonded.energy spc c nb =
      .ok (((spc.groups.eraseIdx d.index).map
          (fun h => (Nonbonded.g2g spc h grp nb).1)).sum +
        Nonbonded.g_internal spc nb.pairpot grp, nb1) := by
  have hx : spc.groupAt d.index = .ok (d.index, grp) := by
    simp only [Space.groupAt, hg]
  obtain ⟨h1, _⟩ := sumOver_value
    (fun (i : GroupRef R) (s : Nonbonded R) => Nonbonded.g2g spc i.2 grp s)
    (fun s => s.Rc2_g2g = nb.Rc2_g2g ∧ s.pairpot = nb.pairpot)
    (fun i => (Nonbonded.g2g spc i.2 grp nb).1)
    (fun i s hs => by
      have h := g2g_snd spc i.2 grp s
      refine ⟨?_, h.1.trans hs.1, h.2.trans hs.2⟩
      simp only [g2g_fst, hs.1, hs.2])
    (spc.groups.enum.filter (fun i => decide (i.1 ≠ d.index))) 0 nb ⟨rfl, rfl⟩
  refine ⟨(sumOver (fun (i : GroupRef R) (s : Nonbonded R) => Nonbonded.g2g spc i.2 grp s)
    (spc.groups.enum.filter (fun i => decide (i.1 ≠ d.index))) (0, nb)).2, ?_⟩
  have he : c.empty = false := by simp [Change.empty, hgroups]
  simp only [Nonbonded.energy, Nonbonded.energyWith, he, hdV, hall, hgroups, hatoms, hd,
    Nonbonded.oneGroup, hx, Except.map, Space.groupRefs, Bool.false_eq_true, if_false, if_true]
  congr 1
  refine Prod.ext ?_ rfl
  simp only
  rw [h1, zero_add, enum_filter_ne_map (fun h => (Nonbonded.g2g spc h grp nb).1)]

/-- C23 on `qSpace` for group 0 moved as a whole. -/
theorem C23_whole_group_branch_witness :
    ∃ nb1, Nonbonded.energy qSpace
        { dV := false, all := false, groups := [{ index := 0, all := true, atoms := [] }] }
        qNonbonded =
      .ok (((qSpace.groups.eraseIdx 0).map
          (fun h => (Nonbonded.g2g qSpace h ⟨0, 1, 0, true, ⟨0, 0, 0⟩⟩ qNonbonded).1)).sum +
        Nonbonded.g_internal qSpace qNonbonded.pairpot ⟨0, 1, 0, true, ⟨0, 0, 0⟩⟩, nb1) :=
  C23_whole_group_branch qSpace qNonbonded
    { dV := false, all := false, groups := [{ index := 0, all := true, atoms := [] }] }
    { index := 0, all := true, atoms := [] } ⟨0, 1, 0, true, ⟨0, 0, 0⟩⟩ rfl rfl rfl rfl
    (by decide) (by simp [qSpace])

end BranchTheorems


section GeneralPathTheorems

variable {R : Type} [LinearOrderedCommRing R]

/-- The value of the general branch for strictly ascending indices inside the group
vector. -/
theorem general_value (spc : Space R) (nb : Nonbonded R) (c : Change)
    (hasc : c.touchedGroupIndex.Sorted (fun a b => a < b))
    (hidx : ∀ i ∈ c.touchedGroupIndex, i < spc.groups.length) :
    ∃ nb1, Nonbonded.general spc (fun g1 g2 s => Nonbonded.g2g spc g1.2 g2.2 s) c nb =
      .ok (pairsSum (fun i j => Nonbonded.pairEnergy spc nb.Rc2_g2g nb.pairpot
            (spc.groupOr i) (spc.groupOr j)) c.touchedGroupIndex +
          crossSum (fun i j => Nonbonded.pairEnergy spc nb.Rc2_g2g nb.pairpot
            (spc.groupOr i) (spc.groupOr j)) c.touchedGroupIndex
            ((List.range spc.groups.length).filter (fun i => !decide (i ∈ c.touchedGroupIndex))),
        nb1) := by
  have hg : ∀ (a b : GroupRef R) (s : Nonbonded R),
      (s.Rc2_g2g = nb.Rc2_g2g ∧ s.pairpot = nb.pairpot) →
      (Nonbonded.g2g spc a.2 b.2 s).1 = Nonbonded.pairEnergy spc nb.Rc2_g2g nb.pairpot a.2 b.2 ∧
        ((Nonbonded.g2g spc a.2 b.2 s).2.Rc2_g2g = nb.Rc2_g2g ∧
          (Nonbonded.g2g spc a.2 b.2 s).2.pairpot = nb.pairpot) := by
    intro a b s hs
    have h := g2g_snd spc a.2 b.2 s
    refine ⟨?_, h.1.trans hs.1, h.2.trans hs.2⟩
    rw [g2g_fst, hs.1, hs.2]
  have hfixed : (List.range spc.groups.length).filter
      (fun i => !Nonbonded.binary_search c.touchedGroupIndex i) =
      (List.range spc.groups.length).filter (fun i => !decide (i ∈ c.touchedGroupIndex)) := by
    apply List.filter_congr
    intro i _
    rw [binary_search_iff _ _ hasc]
  obtain ⟨s1, h1, hs1⟩ := movedMoved_value spc (fun g1 g2 s => Nonbonded.g2g spc g1.2 g2.2 s)
    (fun s => s.Rc2_g2g = nb.Rc2_g2g ∧ s.pairpot = nb.pairpot)
    (Nonbonded.pairEnergy spc nb.Rc2_g2g nb.pairpot) hg c.touchedGroupIndex hidx 0 nb ⟨rfl, rfl⟩
  obtain ⟨s2, h2, _⟩ := movedFixed_value spc (fun g1 g2 s => Nonbonded.g2g spc g1.2 g2.2 s)
    (fun s => s.Rc2_g2g = nb.Rc2_g2g ∧ s.pairpot = nb.pairpot)
    (Nonbonded.pairEnergy spc nb.Rc2_g2g nb.pairpot) hg c.touchedGroupIndex
    ((List.range spc.groups.length).filter (fun i => !decide (i ∈ c.touchedGroupIndex))) hidx
    (fun j hj => List.mem_range.mp (List.mem_filter.mp hj).1)
    (0 + pairsSum (fun i j => Nonbonded.pairEnergy spc nb.Rc2_g2g nb.pairpot
      (spc.groupOr i) (spc.groupOr j)) c.touchedGroupIndex) s1 hs1
  refine ⟨s2, ?_⟩
  rw [zero_add] at h2 h1
  simp only [Nonbonded.general, hfixed, h1, Except.bind]
  exact h2

/-- C25: for a Change with `all == false` and `dV == false` whose group indices are
strictly ascending and inside the group vector, and which names two or more groups, or
one group with its flag `all` not set and a number of listed atoms other than one,
`Nonbonded::energy` returns `g2g` summed over the pairs of named groups plus `g2g`
of every named group with every group that the Change does not name.  The sum holds
no pair of groups that are both not named and no `g_internal` of any group. -/
theorem C25_general_branch (spc : Space R) (nb : Nonbonded R) (c : Change)
    (hall : c.all = false) (hdV : c.dV = false)
    (hpath : 2 ≤ c.groups.length ∨
      ∃ d, c.groups = [d] ∧ d.all = false ∧ d.atoms.length ≠ 1)
    (hasc : c.touchedGroupIndex.Sorted (fun a b => a < b))
    (hidx : ∀ i ∈ c.touchedGroupIndex, i < spc.groups.length) :
    ∃ nb1, Nonbonded.energy spc c nb =
      .ok (pairsSum (fun i j => (Nonbonded.g2g spc (spc.groupOr i) (spc.groupOr j) nb).1)
            c.touchedGroupIndex +
          crossSum (fun i j => (Nonbonded.g2g spc (spc.groupOr i) (spc.groupOr j) nb).1)
            c.touchedGroupIndex
            ((List.range spc.groups.length).filter (fun i => !decide (i ∈ c.touchedGroupIndex))),
        nb1) := by
  obtain ⟨nb1, hgen⟩ := general_value spc nb c hasc hidx
  refine ⟨nb1, ?_⟩
  have e : (fun i j => (Nonbonded.g2g spc (spc.groupOr i) (spc.groupOr j) nb).1) =
      fun i j => Nonbonded.pairEnergy spc nb.Rc2_g2g nb.pairpot (spc.groupOr i)
        (spc.groupOr j) := by
    funext i j
    exact g2g_fst spc _ _ nb
  rw [e, ← hgen]
  rcases hpath with htwo | ⟨d, hd, hdall, hdat⟩
  · have he : c.empty = false := by
      cases hgs : c.groups with
      | nil => simp [hgs] at htwo
      | cons d ds => simp [Change.empty, hgs]
    cases hgs : c.groups with
    | nil => simp [hgs] at htwo
    | cons d ds =>
      cases ds with
      | nil => simp [hgs] at htwo
      | cons d2 ds2 =>
        simp only [Nonbonded.energy, Nonbonded.energyWith, he, hdV, hall, Bool.false_eq_true,
          if_false, hgs]
  · have he : c.empty = false := by simp [Change.empty, hd]
    simp only [Nonbonded.energy, Nonbonded.energyWith, he, hdV, hall, Bool.false_eq_true,
      if_false, hd, hdall, hdat]

/-- C25 on `qSpace` for the Change that names both groups. -/
theorem C25_general_branch_witness :
    ∃ nb1, Nonbonded.energy qSpace qChangeBoth qNonbonded =
      .ok (pairsSum (fun i j => (Nonbonded.g2g qSpace (qSpace.groupOr i) (qSpace.groupOr j)
            qNonbonded).1) qChangeBoth.touchedGroupIndex +
          crossSum (fun i j => (Nonbonded.g2g qSpace (qSpace.groupOr i) (qSpace.groupOr j)
            qNonbonded).1) qChangeBoth.touchedGroupIndex
            ((List.range qSpace.groups.length).filter
              (fun i => !decide (i ∈ qChangeBoth.touchedGroupIndex))),
        nb1) :=
  C25_general_branch qSpace qNonbonded qChangeBoth rfl rfl (Or.inl (by decide))
    (by simp [qChangeBoth, Change.touchedGroupIndex])
    (by simp [qChangeBoth, Change.touchedGroupIndex, qSpace])

/-- The general branch runs its loop `moved<->static` over `Nonbonded.fixed`. -/
theorem general_uses_fixed {σ : Type} (spc : Space R)
    (g2g : GroupRef R → GroupRef R → σ → R × σ) (change : Change) (s : σ) :
    Nonbonded.general spc g2g change s =
      (Nonbonded.movedMoved spc g2g change.touchedGroupIndex (0, s)).bind fun acc =>
        change.touchedGroupIndex.foldlM
          (fun a i => sumOverM (fun j => Nonbonded.g2gAt spc g2g i j)
            (Nonbonded.fixed spc change) a) acc :=
  rfl

/-- C24 (amended): for a Change whose group indices are strictly ascending, the index
vector `fixed` that the general branch computes holds exactly the indices of the groups
that the Change does not name, each once; no named index is in it, and no index is
named twice. -/
theorem C24_fixed_is_complement_of_ascending (spc : Space R) (c : Change)
    (hasc : c.touchedGroupIndex.Sorted (fun a b => a < b)) :
    Nonbonded.fixed spc c =
      (List.range spc.groups.length).filter (fun i => !decide (i ∈ c.touchedGroupIndex)) ∧
    (∀ i, i ∈ Nonbonded.fixed spc c ↔ i < spc.groups.length ∧ i ∉ c.touchedGroupIndex) ∧
    (∀ i ∈ c.touchedGroupIndex, i ∉ Nonbonded.fixed spc c) ∧
    (Nonbonded.fixed spc c).Nodup ∧ c.touchedGroupIndex.Nodup := by
  have hfixed : Nonbonded.fixed spc c =
      (List.range spc.groups.length).filter (fun i => !decide (i ∈ c.touchedGroupIndex)) := by
    unfold Nonbonded.fixed
    apply List.filter_congr
    intro i _
    rw [binary_search_iff _ _ hasc]
  have hmem : ∀ i, i ∈ Nonbonded.fixed spc c ↔
      i < spc.groups.length ∧ i ∉ c.touchedGroupIndex := by
    intro i
    rw [hfixed]
    simp [List.mem_filter]
  refine ⟨hfixed, hmem, fun i hi hf => ((hmem i).mp hf).2 hi, ?_, hasc.nodup⟩
  rw [hfixed]
  exact (List.nodup_range _).filter _

/-- C24 (the claim fails): the Change `qChangeDescending` names the groups 1 and 0 of
`qSpace`, without duplicate, in descending order.  `std::binary_search` finds neither
of them, so `fixed` holds both named groups; the general branch then adds `g2g(1,0)`
three times and pairs each group with itself: it returns -27, while `g2g` of the two
groups is -9. -/
theorem C24_descending_indices_are_also_fixed :
    qChangeDescending.touchedGroupIndex = [1, 0] ∧
    qChangeDescending.touchedGroupIndex.Nodup ∧
    Nonbonded.fixed qSpace qChangeDescending = [0, 1] ∧
    (Nonbonded.energy qSpace qChangeDescending qNonbonded).map Prod.fst = .ok (-27) ∧
    (Nonbonded.g2g qSpace (qSpace.groupOr 1) (qSpace.groupOr 0) qNonbonded).1 = -9 := by
  refine ⟨rfl, by decide, by decide!, by decide!, by decide!⟩

/-- C24 (amended) on `qSpace` for the Change that names the groups 0 and 1 in
ascending order. -/
theorem C24_fixed_is_complement_of_ascending_witness :
    Nonbonded.fixed qSpace qChangeBoth =
      (List.range qSpace.groups.length).filter
        (fun i => !decide (i ∈ qChangeBoth.touchedGroupIndex)) :=
  (C24_fixed_is_complement_of_ascending qSpace qChangeBoth
    (by simp [qChangeBoth, Change.touchedGroupIndex])).1

/-- C26 (amended): the base `Nonbonded::g2g` skips the pair and returns zero when the
squared mass-centre distance is greater than or equal to the squared cutoff `c`, also
when the two are equal; when the squared distance is less than `c`, and for the
default cutoff (infinity) always, it returns the pair potential summed over every
particle of `g1` with every particle of `g2`. -/
theorem C26_g2g_skips_at_or_beyond_cutoff (spc : Space R) (g1 g2 : Group R)
    (nb : Nonbonded R) :
    (∀ c : R, nb.Rc2_g2g = ((c : R) : WithTop R) → c ≤ spc.geo.sqdist g1.cm g2.cm →
      (Nonbonded.cut spc g1 g2 nb).1 = true ∧ (Nonbonded.g2g spc g1 g2 nb).1 = 0) ∧
    (∀ c : R, nb.Rc2_g2g = ((c : R) : WithTop R) → spc.geo.sqdist g1.cm g2.cm < c →
      (Nonbonded.cut spc g1 g2 nb).1 = false ∧
      (Nonbonded.g2g spc g1 g2 nb).1 =
        crossSum (fun a b => nb.pairpot a b (spc.geo.vdist a.pos b.pos))
          (spc.particles g1) (spc.particles g2)) ∧
    (nb.Rc2_g2g = ⊤ →
      (Nonbonded.cut spc g1 g2 nb).1 = false ∧
      (Nonbonded.g2g spc g1 g2 nb).1 =
        crossSum (fun a b => nb.pairpot a b (spc.geo.vdist a.pos b.pos))
          (spc.particles g1) (spc.particles g2)) := by
  refine ⟨?_, ?_, ?_⟩
  · intro c hc hle
    have hn : ¬ (((spc.geo.sqdist g1.cm g2.cm : R) : WithTop R) < nb.Rc2_g2g) := by
      rw [hc, WithTop.coe_lt_coe]
      exact not_lt.mpr hle
    constructor
    · simp [Nonbonded.cut, hn]
    · rw [g2g_fst]
      simp [Nonbonded.pairEnergy, hn]
  · intro c hc hlt
    have hp : ((spc.geo.sqdist g1.cm g2.cm : R) : WithTop R) < nb.Rc2_g2g := by
      rw [hc, WithTop.coe_lt_coe]
      exact hlt
    constructor
    · simp [Nonbonded.cut, hp]
    · rw [g2g_fst]
      simp only [Nonbonded.pairEnergy, hp, if_true]
      rfl
  · intro hc
    have hp : ((spc.geo.sqdist g1.cm g2.cm : R) : WithTop R) < nb.Rc2_g2g := by
      rw [hc]
      exact WithTop.coe_lt_top _
    constructor
    · simp [Nonbonded.cut, hp]
    · rw [g2g_fst]
      simp only [Nonbonded.pairEnergy, hp, if_true]
      rfl

/-- C26 (the claim fails): the mass centres of the two groups of `qSpace` are at the
squared distance 9 and the squared cutoff is 9.  The squared distance does not exceed
the squared cutoff, yet `cut` skips the pair and `g2g` returns zero; the pair
potential summed over the particles of the two groups is -9. -/
theorem C26_pair_at_the_cutoff_is_skipped :
    qSpace.geo.sqdist (qSpace.groupOr 0).cm (qSpace.groupOr 1).cm = 9 ∧
    qNonbondedCut3.Rc2_g2g = (((3 : ℚ) ^ 2 : ℚ) : WithTop ℚ) ∧
    (Nonbonded.cut qSpace (qSpace.groupOr 0) (qSpace.groupOr 1) qNonbondedCut3).1 = true ∧
    (Nonbonded.g2g qSpace (qSpace.groupOr 0) (qSpace.groupOr 1) qNonbondedCut3).1 = 0 ∧
    crossSum (fun a b => qNonbondedCut3.pairpot a b (qSpace.geo.vdist a.pos b.pos))
      (qSpace.particles (qSpace.groupOr 0)) (qSpace.particles (qSpace.groupOr 1)) = -9 := by
  refine ⟨by decide!, ?_, by decide!, by decide!, by decide!⟩
  simp only [qNonbondedCut3]
  norm_num

/-- C26 (amended) on `qSpace` with the squared cutoff 1 and the squared distance 9. -/
theorem C26_g2g_skips_at_or_beyond_cutoff_witness :
    (Nonbonded.cut qSpace (qSpace.groupOr 0) (qSpace.groupOr 1) qNonbondedCut).1 = true ∧
    (Nonbonded.g2g qSpace (qSpace.groupOr 0) (qSpace.groupOr 1) qNonbondedCut).1 = 0 :=
  (C26_g2g_skips_at_or_beyond_cutoff qSpace (qSpace.groupOr 0) (qSpace.groupOr 1)
    qNonbondedCut).1 1 rfl (by decide!)

end GeneralPathTheorems


section EwaldBranchTheorems

variable {R : Type} [LinearOrderedField R]

/-- The structure factor of a vector as two sums over the particles. -/
theorem structureFactor_eq_sums (M : Numerics R) (kv : Point R) (p : List (Particle R)) :
    PolicyIonIon.structureFactor M kv p =
      ⟨(p.map (fun i => i.charge * M.cos (kv.dot i.pos))).sum,
        (p.map (fun i => i.charge * M.sin (kv.dot i.pos))).sum⟩ := by
  apply Tcomplex.ext
  · simp only [PolicyIonIon.structureFactor, foldl_phase_re, Tcomplex.zero, zero_add]
    rfl
  · simp only [PolicyIonIon.structureFactor, foldl_phase_im, Tcomplex.zero, zero_add]
    rfl

/-- C28: for a term with the key `NEW`, with the sizes that `update` leaves, and a
Change that has `all` or `dV` set or names two or more groups, `Ewald::energy` returns
and leaves, for every stored vector `k`, the structure factor
`sum_i q_i (cos(k.r_i), sin(k.r_i))` over all particles of the current state, whatever
the structure factors were before; the vectors themselves are not changed. -/
theorem C28_full_update_recomputes (M : Numerics R) (mem : SpaceRef → Space R)
    (spc : Space R) (change : Change) (e : Ewald R) (hkey : e.key = keys.NEW)
    (hpath : change.all = true ∨ change.dV = true ∨ 2 ≤ change.groups.length)
    (hsz : e.data.Sized) :
    ∃ u e1, Ewald.energy M mem spc change e = .ok (u, e1) ∧
      e1.data.kVectors = e.data.kVectors ∧
      e1.data.kVectorsInUse = e.data.kVectorsInUse ∧
      e1.data.Qion.length = e.data.Qion.length ∧
      ∀ k kv, k < e.data.kVectorsInUse → e.data.kVectors[k]? = some kv →
        e1.data.Qion[k]? =
          some ⟨(spc.p.map (fun i => i.charge * M.cos (kv.dot i.pos))).sum,
            (spc.p.map (fun i => i.charge * M.sin (kv.dot i.pos))).sum⟩ := by
  obtain ⟨hs1, hs2, hs3⟩ := hsz
  have hfull : change.fullUpdate := by
    rcases hpath with h | h | h
    · exact Or.inl h
    · exact Or.inr (Or.inl h)
    · exact Or.inr (Or.inr (by omega))
  have hne : change.empty = false := by
    rcases hpath with h | h | h
    · simp [Change.empty, h]
    · simp [Change.empty, h]
    · cases hg : change.groups with
      | nil => simp [hg] at h
      | cons d ds => simp [Change.empty, hg]
  obtain ⟨Q, h1, h3, h4, _⟩ := updateComplex_loop_spec M spc (List.range e.data.kVectorsInUse)
    e.data (fun k hkm => by
      have := List.mem_range.mp hkm
      omega)
  have hAks : ({ e.data with Qion := Q } : EwaldData R).Qion.length ≤
      ({ e.data with Qion := Q } : EwaldData R).Aks.length := by
    show Q.length ≤ e.data.Aks.length
    rw [h3]
    exact hs3
  obtain ⟨v, hv⟩ := reciprocalEnergy_ok M spc { e.data with Qion := Q } hAks
  refine ⟨PolicyIonIon.selfEnergy M spc { e.data with Qion := Q } +
    PolicyIonIon.surfaceEnergy M spc { e.data with Qion := Q } + v,
    { e with data := { e.data with Qion := Q } }, ?_, rfl, rfl, h3, ?_⟩
  · simp only [Ewald.energy, hne, hkey, refresh_full M mem spc change e hfull,
      PolicyIonIon.updateComplex, h1, hv, Except.bind, Except.map, Bool.false_eq_true, if_false,
      if_true]
  · intro k kv hk hkv
    show Q[k]? = _
    rw [h4 k (List.mem_range.mpr hk) kv hkv, structureFactor_eq_sums]

/-- C28 at the term `qEwaldNew` on the state `qSpaceBoth` for the Change `all`. -/
theorem C28_full_update_recomputes_witness :
    ∃ u e1,
      Ewald.energy qNumerics qMem qSpaceBoth { dV := false, all := true, groups := [] }
        qEwaldNew = .ok (u, e1) ∧
      e1.data.kVectors = qEwaldNew.data.kVectors ∧
      e1.data.kVectorsInUse = qEwaldNew.data.kVectorsInUse ∧
      e1.data.Qion.length = qEwaldNew.data.Qion.length ∧
      ∀ k kv, k < qEwaldNew.data.kVectorsInUse → qEwaldNew.data.kVectors[k]? = some kv →
        e1.data.Qion[k]? =
          some ⟨(qSpaceBoth.p.map (fun i => i.charge * qNumerics.cos (kv.dot i.pos))).sum,
            (qSpaceBoth.p.map (fun i => i.charge * qNumerics.sin (kv.dot i.pos))).sum⟩ :=
  C28_full_update_recomputes qNumerics qMem qSpaceBoth { dV := false, all := true, groups := [] }
    qEwaldNew rfl (Or.inl rfl) (by simp [EwaldData.Sized, qEwaldNew, qEwaldDataOne])

/-- The whole-group call `updateComplex(data, g.begin(), g.end())` runs its loop
`i <= iend` over the offsets of the group and over the offset `g.end()` behind it. -/
theorem whole_group_range_visits_end (g : Group R) :
    List.range' g.first (g.first + g.size + 1 - g.first) =
      List.range' g.first g.size ++ [g.first + g.size] := by
  have e : g.first + g.size + 1 - g.first = g.size + 1 := by omega
  rw [e, List.range'_concat]
  simp

/-- C29, evaluated with the term `qEwaldNew`, whose reference state is `qSpace`: two
groups of one particle, at the offsets 0 and 1 of a particle vector of length 2.
For group 0 named as a whole on the state `qSpaceBoth`, in which both particles have
moved, the update over the range of the group alone turns the structure factor
`(9/2, -3)` into `(4, -2)`; the call leaves `(15/2, -3)`, the structure factor of the
whole trial state: the particle at offset 1, outside the group, has been read.  For
group 1, the last group, named as a whole on the state `qSpaceLast`, the loop reads the
offset 2 of the particle vectors of length 2. -/
theorem C29_whole_group_update_reads_the_offset_behind_the_group :
    qSpace.particles (qSpace.groupOr 0) = [⟨⟨0, 0, 0⟩, 1, 0⟩] ∧
    qEwaldNew.data.Qion = [⟨9 / 2, -3⟩] ∧
    PolicyIonIon.shift qNumerics qSpaceBoth qSpace ⟨1, 0, 0⟩ [0] ⟨9 / 2, -3⟩ = .ok ⟨4, -2⟩ ∧
    (Ewald.energy qNumerics qMem qSpaceBoth qChangeGroup0 qEwaldNew).map
      (fun r => r.2.data.Qion) = .ok [⟨15 / 2, -3⟩] ∧
    qSpaceLast.p.length = 2 ∧ (qMem 0).p.length = 2 ∧
    (qSpaceLast.groupOr 1).first + (qSpaceLast.groupOr 1).size = 2 ∧
    Ewald.energy qNumerics qMem qSpaceLast qChangeGroup1 qEwaldNew =
      .error Fault.undefined_read := by
  refine ⟨by decide!, ?_, ?_, ?_, rfl, rfl, rfl, ?_⟩
  · simp [qEwaldNew, qEwaldDataOne, PolicyIonIon.structureFactor, PolicyIonIon.phase,
      Tcomplex.add, Tcomplex.smul, Tcomplex.zero, qNumerics, Point.dot, qSpace]
    norm_num
  · simp [PolicyIonIon.shift, qSpaceBoth, qSpace, PolicyIonIon.phase, Tcomplex.add,
      Tcomplex.sub, Tcomplex.smul, qNumerics, Point.dot]
    norm_num
  · simp [Ewald.energy, Change.empty, qChangeGroup0, qEwaldNew, Ewald.refresh, Space.groupAt,
      qSpaceBoth, PolicyIonIon.updateComplexRange, qMem, qSpace,
      PolicyIonIon.updateComplexRangeAt, qEwaldDataOne, PolicyIonIon.shift, List.range'_succ,
      Except.bind, Except.map, List.range_succ, PolicyIonIon.reciprocalEnergy, List.enum,
      List.enumFrom, PolicyIonIon.structureFactor, PolicyIonIon.phase, Tcomplex.add,
      Tcomplex.sub, Tcomplex.smul, Tcomplex.zero, qNumerics, Point.dot, bind, pure, Except.pure]
    norm_num
  · simp [Ewald.energy, Change.empty, qChangeGroup1, qEwaldNew, Ewald.refresh, Space.groupAt,
      qSpaceLast, PolicyIonIon.updateComplexRange, qMem, qSpace,
      PolicyIonIon.updateComplexRangeAt, qEwaldDataOne, PolicyIonIon.shift, List.range'_succ,
      Except.bind, Except.map, bind, List.range_succ]

end EwaldBranchTheorems


section RefinementTheorems

variable {R : Type} [LinearOrderedCommRing R]

theorem Agree.bind {σ τ σ2 τ2 : Type} (rel : σ → τ → Prop) (rel2 : σ2 → τ2 → Prop)
    (A : Except Fault (R × σ)) (B : Except Fault (R × τ))
    (F : R × σ → Except Fault (R × σ2)) (G : R × τ → Except Fault (R × τ2))
    (hAB : Agree rel A B)
    (hFG : ∀ a b, a.1 = b.1 → rel a.2 b.2 → Agree rel2 (F a) (G b)) :
    Agree rel2 (A.bind F) (B.bind G) := by
  cases A with
  | error e =>
    cases B with
    | error f => exact hAB
    | ok b => exact absurd hAB (by simp [Agree])
  | ok a =>
    cases B with
    | error f => exact absurd hAB (by simp [Agree])
    | ok b => exact hFG a b hAB.1 hAB.2

theorem Agree.ok {σ τ : Type} (rel : σ → τ → Prop) (a : R × σ) (b : R × τ)
    (h1 : a.1 = b.1) (h2 : rel a.2 b.2) :
    Agree rel (Except.ok a : Except Fault (R × σ)) (Except.ok b) :=
  ⟨h1, h2⟩

/-- Results that agree hold the same energy, or the same fault. -/
theorem Agree.map_fst {σ τ : Type} (rel : σ → τ → Prop) (A : Except Fault (R × σ))
    (B : Except Fault (R × τ)) (h : Agree rel A B) : A.map Prod.fst = B.map Prod.fst := by
  cases A with
  | error e =>
    cases B with
    | error f =>
      have : e = f := h
      rw [this]
      rfl
    | ok b => exact absurd h (by simp [Agree])
  | ok a =>
    cases B with
    | error f => exact absurd h (by simp [Agree])
    | ok b =>
      have h1 : a.1 = b.1 := h.1
      simp only [Except.map, h1]

theorem foldlM_agree {σ τ α : Type} (rel : σ → τ → Prop)
    (stepA : R × σ → α → Except Fault (R × σ)) (stepB : R × τ → α → Except Fault (R × τ))
    (hstep : ∀ a b x, a.1 = b.1 → rel a.2 b.2 → Agree rel (stepA a x) (stepB b x))
    (xs : List α) (a : R × σ) (b : R × τ) (h1 : a.1 = b.1) (h2 : rel a.2 b.2) :
    Agree rel (xs.foldlM stepA a) (xs.foldlM stepB b) := by
  induction xs generalizing a b with
  | nil => exact ⟨h1, h2⟩
  | cons x xs ih =>
    simp only [List.foldlM_cons]
    exact Agree.bind rel rel _ _ _ _ (hstep a b x h1 h2) (fun a1 b1 e1 e2 => ih a1 b1 e1 e2)

theorem sumOverM_agree {σ τ α : Type} (rel : σ → τ → Prop)
    (f : α → σ → Except Fault (R × σ)) (g : α → τ → Except Fault (R × τ))
    (hfg : ∀ x s t, rel s t → Agree rel (f x s) (g x t))
    (xs : List α) (a : R × σ) (b : R × τ) (h1 : a.1 = b.1) (h2 : rel a.2 b.2) :
    Agree rel (sumOverM f xs a) (sumOverM g xs b) := by
  unfold sumOverM
  apply foldlM_agree rel _ _ _ xs a b h1 h2
  intro a1 b1 x e1 e2
  have h := hfg x a1.2 b1.2 e2
  cases hA : f x a1.2 with
  | error e =>
    cases hB : g x b1.2 with
    | error f2 =>
      rw [hA, hB] at h
      exact h
    | ok rb =>
      rw [hA, hB] at h
      exact absurd h (by simp [Agree])
  | ok ra =>
    cases hB : g x b1.2 with
    | error f2 =>
      rw [hA, hB] at h
      exact absurd h (by simp [Agree])
    | ok rb =>
      rw [hA, hB] at h
      have h3 : ra.1 = rb.1 := h.1
      exact ⟨by simp only [e1, h3], h.2⟩

theorem sumOver_agree {σ τ α : Type} (rel : σ → τ → Prop) (f : α → σ → R × σ)
    (g : α → τ → R × τ)
    (hfg : ∀ x s t, rel s t → (f x s).1 = (g x t).1 ∧ rel (f x s).2 (g x t).2)
    (xs : List α) (a : R × σ) (b : R × τ) (h1 : a.1 = b.1) (h2 : rel a.2 b.2) :
    (sumOver f xs a).1 = (sumOver g xs b).1 ∧ rel (sumOver f xs a).2 (sumOver g xs b).2 := by
  induction xs generalizing a b with
  | nil => exact ⟨h1, h2⟩
  | cons x xs ih =>
    simp only [sumOver, List.foldl_cons]
    have h := hfg x a.2 b.2 h2
    exact ih _ _ (by simp only [h1, h.1]) h.2

theorem allLoop_agree {σ τ : Type} (rel : σ → τ → Prop) (spc : Space R)
    (pairpot : Particle R → Particle R → Point R → R)
    (gA : GroupRef R → GroupRef R → σ → R × σ) (gB : GroupRef R → GroupRef R → τ → R × τ)
    (hg : ∀ x y s t, rel s t → (gA x y s).1 = (gB x y t).1 ∧ rel (gA x y s).2 (gB x y t).2)
    (internal : Group R → Bool) (gs : List (GroupRef R)) (a : R × σ) (b : R × τ)
    (h1 : a.1 = b.1) (h2 : rel a.2 b.2) :
    (Nonbonded.allLoop spc pairpot gA internal gs a).1 =
        (Nonbonded.allLoop spc pairpot gB internal gs b).1 ∧
      rel (Nonbonded.allLoop spc pairpot gA internal gs a).2
        (Nonbonded.allLoop spc pairpot gB internal gs b).2 := by
  induction gs generalizing a b with
  | nil => exact ⟨h1, h2⟩
  | cons i rest ih =>
    simp only [Nonbonded.allLoop]
    have h := sumOver_agree rel (fun j => gA i j) (fun j => gB i j)
      (fun x s t hst => hg i x s t hst) rest a b h1 h2
    by_cases hi : internal i.2 = true
    · simp only [hi, if_true]
      exact ih _ _ (by simp only [h.1]) h.2
    · simp only [hi, if_false, Bool.false_eq_true]
      exact ih _ _ h.1 h.2

theorem g2gAt_agree {σ τ : Type} (rel : σ → τ → Prop) (spc : Space R)
    (gA : GroupRef R → GroupRef R → σ → R × σ) (gB : GroupRef R → GroupRef R → τ → R × τ)
    (hg : ∀ x y s t, rel s t → (gA x y s).1 = (gB x y t).1 ∧ rel (gA x y s).2 (gB x y t).2)
    (i j : Nat) (s : σ) (t : τ) (hst : rel s t) :
    Agree rel (Nonbonded.g2gAt spc gA i j s) (Nonbonded.g2gAt spc gB i j t) := by
  unfold Nonbonded.g2gAt
  cases spc.groupAt i with
  | error e => exact rfl
  | ok gi =>
    cases spc.groupAt j with
    | error e => exact rfl
    | ok gj => exact hg gi gj s t hst

theorem movedMoved_agree {σ τ : Type} (rel : σ → τ → Prop) (spc : Space R)
    (gA : GroupRef R → GroupRef R → σ → R × σ) (gB : GroupRef R → GroupRef R → τ → R × τ)
    (hg : ∀ x y s t, rel s t → (gA x y s).1 = (gB x y t).1 ∧ rel (gA x y s).2 (gB x y t).2)
    (moved : List Nat) (a : R × σ) (b : R × τ) (h1 : a.1 = b.1) (h2 : rel a.2 b.2) :
    Agree rel (Nonbonded.movedMoved spc gA moved a) (Nonbonded.movedMoved spc gB moved b) := by
  induction moved generalizing a b with
  | nil => exact ⟨h1, h2⟩
  | cons i rest ih =>
    simp only [Nonbonded.movedMoved]
    exact Agree.bind rel rel _ _ _ _
      (sumOverM_agree rel _ _ (fun j s t hst => g2gAt_agree rel spc gA gB hg i j s t hst)
        rest a b h1 h2)
      (fun a1 b1 e1 e2 => ih a1 b1 e1 e2)

theorem general_agree {σ τ : Type} (rel : σ → τ → Prop) (spc : Space R)
    (gA : GroupRef R → GroupRef R → σ → R × σ) (gB : GroupRef R → GroupRef R → τ → R × τ)
    (hg : ∀ x y s t, rel s t → (gA x y s).1 = (gB x y t).1 ∧ rel (gA x y s).2 (gB x y t).2)
    (change : Change) (s : σ) (t : τ) (hst : rel s t) :
    Agree rel (Nonbonded.general spc gA change s) (Nonbonded.general spc gB change t) := by
  unfold Nonbonded.general
  apply Agree.bind rel rel _ _ _ _
    (movedMoved_agree rel spc gA gB hg change.touchedGroupIndex (0, s) (0, t) rfl hst)
  intro a1 b1 e1 e2
  apply foldlM_agree rel _ _ _ _ a1 b1 e1 e2
  intro a2 b2 i e3 e4
  exact sumOverM_agree rel _ _ (fun j s t hst => g2gAt_agree rel spc gA gB hg i j s t hst)
    _ a2 b2 e3 e4

/-- The body of `Nonbonded::energy` returns the same energy for two versions of the
virtual `g2g` that return the same values. -/
theorem energyWith_agree {σ τ : Type} (rel : σ → τ → Prop) (spc : Space R)
    (pairpot : Particle R → Particle R → Point R → R)
    (gA : GroupRef R → GroupRef R → σ → R × σ) (gB : GroupRef R → GroupRef R → τ → R × τ)
    (hg : ∀ x y s t, rel s t → (gA x y s).1 = (gB x y t).1 ∧ rel (gA x y s).2 (gB x y t).2)
    (change : Change) (s : σ) (t : τ) (hst : rel s t) :
    Agree rel (Nonbonded.energyWith spc pairpot gA change s)
      (Nonbonded.energyWith spc pairpot gB change t) := by
  unfold Nonbonded.energyWith
  by_cases he : change.empty = true
  · simp only [he, if_true]
    exact ⟨rfl, hst⟩
  simp only [he, if_false, Bool.false_eq_true]
  by_cases hv : change.dV = true
  · simp only [hv, if_true]
    exact allLoop_agree rel spc pairpot gA gB hg _ _ (0, s) (0, t) rfl hst
  simp only [hv, if_false, Bool.false_eq_true]
  by_cases ha : change.all = true
  · simp only [ha, if_true]
    exact allLoop_agree rel spc pairpot gA gB hg _ _ (0, s) (0, t) rfl hst
  simp only [ha, if_false, Bool.false_eq_true]
  cases hgs : change.groups with
  | nil => exact general_agree rel spc gA gB hg change s t hst
  | cons d ds =>
    cases ds with
    | cons d2 ds2 => exact general_agree rel spc gA gB hg change s t hst
    | nil =>
      simp only
      by_cases h1 : d.atoms.length = 1
      · simp only [h1, if_true]
        cases Nonbonded.oneAtom spc pairpot d with
        | error e => exact rfl
        | ok v => exact ⟨rfl, hst⟩
      · simp only [h1, if_false]
        by_cases h3 : d.all = true
        · simp only [h3, if_true]
          unfold Nonbonded.oneGroup
          cases spc.groupAt d.index with
          | error e => exact rfl
          | ok g =>
            have h := sumOver_agree rel (fun i => gA i g) (fun i => gB i g)
              (fun x s t hst => hg x g s t hst)
              (spc.groupRefs.filter (fun i => i.1 ≠ d.index)) (0, s) (0, t) rfl hst
            exact ⟨by simp only [h.1], h.2⟩
        · simp only [h3, if_false, Bool.false_eq_true]
          exact general_agree rel spc gA gB hg change s t hst

theorem g2g_key (spc : Space R) (g1 g2 : Group R) (nb : Nonbonded R) :
    (Nonbonded.g2g spc g1 g2 nb).2.key = nb.key := by
  unfold Nonbonded.g2g Nonbonded.cut
  by_cases h : ((spc.geo.sqdist g1.cm g2.cm : R) : WithTop R) < nb.Rc2_g2g
  · simp [h]
  · simp [h]

/-- C30: with the key `NEW`, `NonbondedCached::energy` returns the energy that the
uncached `Nonbonded::energy` returns for the same pair potential and cutoff on the same
state, for every Change and whatever the energy matrix holds; where the one ends in a
fault, the other ends in the same fault. -/
theorem C30_cached_refines_uncached (spc : Space R) (change : Change)
    (nc : NonbondedCached R) (nb : Nonbonded R) (hkey : nc.key = keys.NEW)
    (hRc : nc.Rc2_g2g = nb.Rc2_g2g) (hpot : nc.pairpot = nb.pairpot) :
    (NonbondedCached.energy spc change nc).map Prod.fst =
      (Nonbonded.energy spc change nb).map Prod.fst := by
  apply Agree.map_fst
    (fun (s : NonbondedCached R) (t : Nonbonded R) =>
      s.key = keys.NEW ∧ s.Rc2_g2g = t.Rc2_g2g ∧ s.pairpot = t.pairpot)
  unfold NonbondedCached.energy Nonbonded.energy
  rw [hpot]
  apply energyWith_agree _ spc nb.pairpot _ _ _ change nc nb ⟨hkey, hRc, hpot⟩
  intro x y s t hst
  obtain ⟨hk, h1, h2⟩ := hst
  have hs := g2g_snd spc x.2 y.2 s.toNonbonded
  have ht := g2g_snd spc x.2 y.2 t
  have hv : (Nonbonded.g2g spc x.2 y.2 s.toNonbonded).1 = (Nonbonded.g2g spc x.2 y.2 t).1 := by
    rw [g2g_fst, g2g_fst, h1, h2]
  refine ⟨?_, ?_, ?_, ?_⟩
  · simp only [NonbondedCached.g2g, hk, if_true, PairMatrix.get, PairMatrix.set, and_self,
      true_or]
    exact hv
  · simp only [NonbondedCached.g2g, hk, if_true]
    exact (g2g_key spc x.2 y.2 s.toNonbonded).trans hk
  · simp only [NonbondedCached.g2g, hk, if_true]
    exact hs.1.trans (h1.trans ht.1.symm)
  · simp only [NonbondedCached.g2g, hk, if_true]
    exact hs.2.trans (h2.trans ht.2.symm)

/-- C30 at the term `qCachedNew`, whose energy matrix is zero, against `qNonbonded` on
`qSpace` for the Change that names both groups. -/
theorem C30_cached_refines_uncached_witness :
    (NonbondedCached.energy qSpace qChangeBoth qCachedNew).map Prod.fst =
      (Nonbonded.energy qSpace qChangeBoth qNonbonded).map Prod.fst :=
  C30_cached_refines_uncached qSpace qChangeBoth qCachedNew qNonbonded rfl rfl rfl

end RefinementTheorems


section KVectorTheorems

variable {R : Type} [LinearOrderedField R]

theorem foldl_flatMap {α β γ : Type} (f : γ → β → γ) (g : α → List β) (l : List α) (init : γ) :
    (l.flatMap g).foldl f init = l.foldl (fun acc a => (g a).foldl f acc) init := by
  induction l generalizing init with
  | nil => rfl
  | cons a l ih => simp [List.flatMap_cons, List.foldl_append, ih]

/-- The body of the innermost loop of `update` stores the entry of the triple if the
two tests keep it. -/
theorem visit_eq (M : Numerics R) (d : EwaldData R) (kx ky kz : Int) (w : EwaldData.Sweep R) :
    EwaldData.visit M d kx ky kz w =
      if EwaldData.keeps M d (kx, ky, kz) then
        { w with
          kVectors := w.kVectors.set w.kVectorsInUse (EwaldData.entryOf M d w.factor (kx, ky, kz)).1
          Aks := w.Aks.set w.kVectorsInUse (EwaldData.entryOf M d w.factor (kx, ky, kz)).2
          kVectorsInUse := w.kVectorsInUse + 1 }
      else w := by
  unfold EwaldData.visit EwaldData.keeps EwaldData.entryOf EwaldData.kVectorOf
  simp only
  by_cases h1 : (Point.smul (2 * M.pi) ⟨(kx : R) / d.L.x, (ky : R) / d.L.y, (kz : R) / d.L.z⟩).dot
      (Point.smul (2 * M.pi) ⟨(kx : R) / d.L.x, (ky : R) / d.L.y, (kz : R) / d.L.z⟩) <
      d.check_k2_zero
  · simp [h1]
  · by_cases h2 : (d.spherical_sum && decide (((kx * kx : Int) : R) / d.kc2 +
        ((ky * ky : Int) : R) / d.kc2 + ((kz * kz : Int) : R) / d.kc2 > 1)) = true
    · simp only [h1, h2, if_false, if_true, decide_False, Bool.not_false, Bool.not_true,
        Bool.and_false, Bool.false_eq_true]
    · simp only [h1, h2, if_false, decide_False, Bool.not_false, Bool.and_self, if_true,
        Bool.false_eq_true]

theorem set_append_replicate {α : Type} (S : List α) (k : Nat) (z v : α) :
    (S ++ List.replicate (k + 1) z).set S.length v = (S ++ [v]) ++ List.replicate k z := by
  rw [List.set_append]
  simp [List.replicate_succ]

theorem holds_store (N : Nat) (S : List (Point R × R)) (w : EwaldData.Sweep R)
    (e : Point R × R) (h : EwaldData.Holds N S w) (hlt : S.length < N) :
    EwaldData.Holds N (S ++ [e])
      { w with
        kVectors := w.kVectors.set w.kVectorsInUse e.1
        Aks := w.Aks.set w.kVectorsInUse e.2
        kVectorsInUse := w.kVectorsInUse + 1 } := by
  obtain ⟨h1, h2, h3⟩ := h
  have hN : N - S.length = (N - (S ++ [e]).length) + 1 := by
    simp
    omega
  refine ⟨?_, ?_, ?_⟩
  · show w.kVectors.set w.kVectorsInUse e.1 = _
    rw [h1, h3, hN]
    have := set_append_replicate (S.map Prod.fst) (N - (S ++ [e]).length) Point.zero e.1
    rw [List.length_map] at this
    rw [this]
    simp
  · show w.Aks.set w.kVectorsInUse e.2 = _
    rw [h2, h3, hN]
    have := set_append_replicate (S.map Prod.snd) (N - (S ++ [e]).length) (0 : R) e.2
    rw [List.length_map] at this
    rw [this]
    simp
  · show w.kVectorsInUse + 1 = _
    rw [h3]
    simp

/-- A run of the innermost loop body over the triples `ts`, with room for all of
them: the entries of the triples that the tests keep are stored behind those stored
before, in the order of `ts`. -/
theorem sweep_fold (M : Numerics R) (d : EwaldData R) (N : Nat)
    (ts : List (Int × Int × Int)) (w : EwaldData.Sweep R) (S : List (Point R × R))
    (h : EwaldData.Holds N S w) (hlen : S.length + ts.length ≤ N) :
    EwaldData.Holds N (S ++ (ts.filter (EwaldData.keeps M d)).map (EwaldData.entryOf M d w.factor))
        (ts.foldl (fun w3 t => EwaldData.visit M d t.1 t.2.1 t.2.2 w3) w) ∧
      (ts.foldl (fun w3 t => EwaldData.visit M d t.1 t.2.1 t.2.2 w3) w).factor = w.factor := by
  induction ts generalizing w S with
  | nil => simpa using h
  | cons t ts ih =>
    simp only [List.foldl_cons, List.length_cons] at hlen ⊢
    rw [visit_eq]
    by_cases hk : EwaldData.keeps M d (t.1, t.2.1, t.2.2) = true
    · have hk2 : EwaldData.keeps M d t = true := hk
      simp only [hk, if_true, List.filter_cons, hk2, List.map_cons]
      have hs := holds_store N S w (EwaldData.entryOf M d w.factor (t.1, t.2.1, t.2.2)) h
        (by omega)
      have := ih _ (S ++ [EwaldData.entryOf M d w.factor (t.1, t.2.1, t.2.2)]) hs
        (by simp; omega)
      simpa using this
    · have hk2 : EwaldData.keeps M d t = false := by simpa using hk
      simp only [hk, if_false, List.filter_cons, hk2, Bool.false_eq_true]
      exact ih w S h (by omega)

theorem intsFromTo_eq (lo hi : Int) :
    intsFromTo lo hi = (List.range (hi + 1 - lo).toNat).map (fun n : Nat => lo + (n : Int)) := by
  unfold intsFromTo
  induction (List.range (hi + 1 - lo).toNat) with
  | nil => rfl
  | cons a l ih =>
    simp only [List.map_cons]
    rw [← ih]
    rfl

theorem mem_intsFromTo (lo hi k : Int) : k ∈ intsFromTo lo hi ↔ lo ≤ k ∧ k ≤ hi := by
  simp only [intsFromTo_eq, List.mem_map, List.mem_range]
  constructor
  · rintro ⟨n, hn, rfl⟩
    omega
  · intro h
    exact ⟨(k - lo).toNat, by omega, by omega⟩

theorem length_intsFromTo (lo hi : Int) : (intsFromTo lo hi).length = (hi + 1 - lo).toNat := by
  simp [intsFromTo_eq]

theorem nodup_intsFromTo (lo hi : Int) : (intsFromTo lo hi).Nodup := by
  rw [intsFromTo_eq]
  apply List.Nodup.map _ (List.nodup_range _)
  intro a b h
  simp only at h
  omega

theorem intsFromTo_zero (kcc : Int) (h : 0 ≤ kcc) :
    intsFromTo 0 kcc = 0 :: intsFromTo 1 kcc := by
  have e1 : (kcc + 1 - 0).toNat = (kcc + 1 - 1).toNat + 1 := by omega
  simp only [intsFromTo_eq, e1, List.range_succ_eq_map, List.map_cons, List.map_map]
  refine congrArg₂ List.cons (by simp) ?_
  apply List.map_congr_left
  intro n _
  simp only [Function.comp, Nat.succ_eq_add_one]
  push_cast
  ring

theorem length_plane (kcc kx : Int) :
    (EwaldData.plane kcc kx).length = (kcc + 1 - -kcc).toNat * (kcc + 1 - -kcc).toNat := by
  unfold EwaldData.plane
  rw [List.length_flatMap]
  have e : (List.length ∘ fun (ky : Int) =>
      (intsFromTo (-kcc) kcc).map fun (kz : Int) => (kx, ky, kz)) =
      fun _ => (kcc + 1 - -kcc).toNat := by
    funext ky
    simp [length_intsFromTo]
  rw [e, List.map_const', List.sum_replicate, length_intsFromTo]
  simp

/-- The two inner loops of `update` for one `kx` are a run over the triples of
the plane of `kx`. -/
theorem plane_fold (M : Numerics R) (d : EwaldData R) (kcc kx : Int) (w : EwaldData.Sweep R) :
    (intsFromTo (-kcc) kcc).foldl
        (fun w2 ky => (intsFromTo (-kcc) kcc).foldl (fun w3 kz => EwaldData.visit M d kx ky kz w3) w2)
        w =
      (EwaldData.plane kcc kx).foldl (fun w3 t => EwaldData.visit M d t.1 t.2.1 t.2.2 w3) w := by
  unfold EwaldData.plane
  rw [foldl_flatMap]
  congr 1
  funext w2 ky
  rw [List.foldl_map]

theorem holds_factor (N : Nat) (S : List (Point R × R)) (w : EwaldData.Sweep R) (f : R)
    (h : EwaldData.Holds N S w) : EwaldData.Holds N S { w with factor := f } := h

/-- The rounds of the outer loop of `update` for positive `kx`: the entries are
stored with the factor 2. -/
theorem rounds_pos (M : Numerics R) (d : EwaldData R) (kcc : Int) (N : Nat) (xs : List Int)
    (hpos : ∀ kx ∈ xs, kx > 0) (w : EwaldData.Sweep R) (S : List (Point R × R))
    (h : EwaldData.Holds N S w)
    (hlen : S.length + xs.length * ((kcc + 1 - -kcc).toNat * (kcc + 1 - -kcc).toNat) ≤ N) :
    EwaldData.Holds N
      (S ++ ((xs.flatMap (EwaldData.plane kcc)).filter (EwaldData.keeps M d)).map
        (EwaldData.entryOf M d 2))
      (xs.foldl
        (fun w kx =>
          let w1 : EwaldData.Sweep R := if kx > 0 then { w with factor := 2 } else w
          (intsFromTo (-kcc) kcc).foldl
            (fun w2 ky =>
              (intsFromTo (-kcc) kcc).foldl (fun w3 kz => EwaldData.visit M d kx ky kz w3) w2) w1)
        w) := by
  induction xs generalizing w S with
  | nil => simpa using h
  | cons kx xs ih =>
    have hkx : kx > 0 := hpos kx (List.mem_cons_self kx xs)
    simp only [List.foldl_cons, hkx, if_true, plane_fold, List.flatMap_cons, List.filter_append,
      List.map_append]
    simp only [List.length_cons, Nat.succ_mul, Nat.add_mul, Nat.one_mul] at hlen
    obtain ⟨h1, h2⟩ := sweep_fold M d N (EwaldData.plane kcc kx) { w with factor := 2 } S
      (holds_factor N S w 2 h) (by rw [length_plane]; omega)
    have h3 := ih (fun k hk => hpos k (List.mem_cons_of_mem kx hk)) _ _ h1 (by
      simp only [List.length_append, List.length_map]
      have := List.length_filter_le (EwaldData.keeps M d) (EwaldData.plane kcc kx)
      rw [length_plane] at this
      omega)
    simp only [plane_fold] at h3
    rw [← List.append_assoc]
    exact h3

end KVectorTheorems


section KVectorTestTheorems

variable {R : Type} [LinearOrderedField R]

theorem one_le_int_sq (k : Int) (hk : k ≠ 0) : (1 : R) ≤ (k : R) ^ 2 := by
  have h : (1 : Int) ≤ k ^ 2 := by
    rcases lt_or_gt_of_ne hk with h | h
    · nlinarith
    · nlinarith
  exact_mod_cast h

theorem term_ge (A Lm L : R) (k : Int) (hA : 0 < A) (hL : 0 < L) (hle : L ≤ Lm) (hk : k ≠ 0) :
    (A / Lm) ^ 2 ≤ A * ((k : R) / L) * (A * ((k : R) / L)) := by
  have hLm : 0 < Lm := lt_of_lt_of_le hL hle
  have h1 : A / Lm ≤ A / L := div_le_div_of_nonneg_left (le_of_lt hA) hL hle
  have h2 : 0 ≤ A / Lm := le_of_lt (div_pos hA hLm)
  have h3 : (A / Lm) ^ 2 ≤ (A / L) ^ 2 := pow_le_pow_left₀ h2 h1 2
  have h4 : A * ((k : R) / L) * (A * ((k : R) / L)) = (A / L) ^ 2 * (k : R) ^ 2 := by ring
  rw [h4]
  exact le_trans h3 (le_mul_of_one_le_right (sq_nonneg _) (one_le_int_sq k hk))

/-- The zero test of `update` removes the zero triple and no other. -/
theorem zero_test_iff (M : Numerics R) (box : Point R) (t : Int × Int × Int)
    (hpi : 0 < M.pi) (hx : 0 < box.x) (hy : 0 < box.y) (hz : 0 < box.z) :
    (EwaldData.kVectorOf M box t).dot (EwaldData.kVectorOf M box t) <
        (1 / 10) * (2 * M.pi / box.maxCoeff) ^ 2 ↔ t = (0, 0, 0) := by
  obtain ⟨kx, ky, kz⟩ := t
  have hA : 0 < 2 * M.pi := by linarith
  have hxm : box.x ≤ box.maxCoeff := le_trans (le_max_left _ _) (le_max_left _ _)
  have hym : box.y ≤ box.maxCoeff := le_trans (le_max_right _ _) (le_max_left _ _)
  have hzm : box.z ≤ box.maxCoeff := le_max_right _ _
  have hLm : 0 < box.maxCoeff := lt_of_lt_of_le hx hxm
  have hX : 0 < (2 * M.pi / box.maxCoeff) ^ 2 := pow_pos (div_pos hA hLm) 2
  simp only [EwaldData.kVectorOf, Point.dot, Point.smul]
  constructor
  · intro h
    by_contra hne
    have hne3 : kx ≠ 0 ∨ ky ≠ 0 ∨ kz ≠ 0 := by
      by_contra hcon
      push_neg at hcon
      apply hne
      rw [hcon.1, hcon.2.1, hcon.2.2]
    have n1 := mul_self_nonneg (2 * M.pi * ((kx : R) / box.x))
    have n2 := mul_self_nonneg (2 * M.pi * ((ky : R) / box.y))
    have n3 := mul_self_nonneg (2 * M.pi * ((kz : R) / box.z))
    rcases hne3 with h0 | h0 | h0
    · have := term_ge (2 * M.pi) box.maxCoeff box.x kx hA hx hxm h0
      linarith
    · have := term_ge (2 * M.pi) box.maxCoeff box.y ky hA hy hym h0
      linarith
    · have := term_ge (2 * M.pi) box.maxCoeff box.z kz hA hz hzm h0
      linarith
  · intro h
    simp only [Prod.mk.injEq] at h
    obtain ⟨h1, h2, h3⟩ := h
    subst h1; subst h2; subst h3
    simp only [Int.cast_zero, zero_div, mul_zero, add_zero]
    linarith

/-- The test of `update` for a spherical sum skips the triples outside the sphere. -/
theorem sphere_test_iff (kc2 kc : R) (t : Int × Int × Int) (hkc : 0 < kc) (hkc2 : kc2 = kc * kc) :
    ((t.1 * t.1 : Int) : R) / kc2 + ((t.2.1 * t.2.1 : Int) : R) / kc2 +
        ((t.2.2 * t.2.2 : Int) : R) / kc2 > 1 ↔
      ¬ ((t.1 ^ 2 + t.2.1 ^ 2 + t.2.2 ^ 2 : Int) : R) ≤ kc ^ 2 := by
  have hpos : 0 < kc2 := by rw [hkc2]; exact mul_pos hkc hkc
  have e : ((t.1 * t.1 : Int) : R) / kc2 + ((t.2.1 * t.2.1 : Int) : R) / kc2 +
      ((t.2.2 * t.2.2 : Int) : R) / kc2 =
      ((t.1 ^ 2 + t.2.1 ^ 2 + t.2.2 ^ 2 : Int) : R) / kc2 := by
    push_cast
    ring
  rw [e, gt_iff_lt, one_lt_div hpos, not_le, hkc2]
  have : kc * kc = kc ^ 2 := by ring
  rw [this]

/-- The two tests of the innermost loop keep exactly the triples other than zero
that, for a spherical sum, lie in the sphere. -/
theorem keeps_iff (M : Numerics R) (box : Point R) (d0 : EwaldData R) (t : Int × Int × Int)
    (hpi : 0 < M.pi) (hx : 0 < box.x) (hy : 0 < box.y) (hz : 0 < box.z) (hkc : 0 < d0.kc)
    (hkc2 : d0.kc2 = d0.kc * d0.kc) :
    EwaldData.keeps M (EwaldData.boxed M box d0) t = true ↔
      t ≠ (0, 0, 0) ∧
        (d0.spherical_sum = true →
          ((t.1 ^ 2 + t.2.1 ^ 2 + t.2.2 ^ 2 : Int) : R) ≤ d0.kc ^ 2) := by
  have hz0 := zero_test_iff M box t hpi hx hy hz
  have hs := sphere_test_iff d0.kc2 d0.kc t hkc hkc2
  simp only [EwaldData.keeps, EwaldData.boxed, Bool.and_eq_true, Bool.not_eq_true',
    decide_eq_false_iff_not, Bool.and_eq_false_iff, decide_eq_true_eq, hz0, ne_eq]
  constructor
  · rintro ⟨h1, h2⟩
    refine ⟨h1, fun hsph => ?_⟩
    rcases h2 with h2 | h2
    · rw [hsph] at h2
      exact absurd h2 (by simp)
    · by_contra hcon
      exact h2 (hs.mpr hcon)
  · rintro ⟨h1, h2⟩
    refine ⟨h1, ?_⟩
    by_cases hsph : d0.spherical_sum = true
    · right
      intro hgt
      exact (hs.mp hgt) (h2 hsph)
    · left
      simpa using hsph

theorem mem_plane (kcc kx : Int) (t : Int × Int × Int) :
    t ∈ EwaldData.plane kcc kx ↔
      t.1 = kx ∧ (-kcc ≤ t.2.1 ∧ t.2.1 ≤ kcc) ∧ (-kcc ≤ t.2.2 ∧ t.2.2 ≤ kcc) := by
  obtain ⟨a, b, c⟩ := t
  simp only [EwaldData.plane, List.mem_flatMap, List.mem_map, mem_intsFromTo, Prod.mk.injEq]
  constructor
  · rintro ⟨ky, hky, kz, hkz, h1, h2, h3⟩
    subst h1; subst h2; subst h3
    exact ⟨rfl, hky, hkz⟩
  · rintro ⟨h1, h2, h3⟩
    exact ⟨b, h2, c, h3, h1.symm, rfl, rfl⟩

theorem mem_triples (kcc : Int) (t : Int × Int × Int) :
    t ∈ EwaldData.triples kcc ↔
      (0 ≤ t.1 ∧ t.1 ≤ kcc) ∧ (-kcc ≤ t.2.1 ∧ t.2.1 ≤ kcc) ∧ (-kcc ≤ t.2.2 ∧ t.2.2 ≤ kcc) := by
  simp only [EwaldData.triples, List.mem_flatMap, mem_intsFromTo, mem_plane]
  constructor
  · rintro ⟨kx, hkx, h1, h2, h3⟩
    rw [h1]
    exact ⟨hkx, h2, h3⟩
  · rintro ⟨h1, h2, h3⟩
    exact ⟨t.1, h1, rfl, h2, h3⟩

theorem nodup_plane (kcc kx : Int) : (EwaldData.plane kcc kx).Nodup := by
  unfold EwaldData.plane
  rw [List.nodup_flatMap]
  constructor
  · intro ky _
    apply List.Nodup.map _ (nodup_intsFromTo _ _)
    intro a b h
    simp only [Prod.mk.injEq, true_and] at h
    exact h
  · apply List.Pairwise.imp_of_mem _ (nodup_intsFromTo (-kcc) kcc)
    intro a b _ _ hab
    simp only [Function.onFun]
    intro t h1 h2
    simp only [List.mem_map] at h1 h2
    obtain ⟨_, _, e1⟩ := h1
    obtain ⟨_, _, e2⟩ := h2
    rw [← e2] at e1
    simp only [Prod.mk.injEq, true_and] at e1
    exact hab e1.1

/-- The loops of `update` visit every triple once. -/
theorem nodup_triples (kcc : Int) : (EwaldData.triples kcc).Nodup := by
  unfold EwaldData.triples
  rw [List.nodup_flatMap]
  constructor
  · intro kx _
    exact nodup_plane kcc kx
  · apply List.Pairwise.imp_of_mem _ (nodup_intsFromTo 0 kcc)
    intro a b _ _ hab
    simp only [Function.onFun]
    intro t h1 h2
    rw [mem_plane] at h1 h2
    exact hab (h1.1.symm.trans h2.1)

end KVectorTestTheorems


section KVectorAssembly

variable {R : Type} [LinearOrderedField R]

/-- An `int` expression whose value is in the range of `int` has that value. -/
theorem int32_of_range (x : Int) (h1 : -2 ^ 31 ≤ x) (h2 : x < 2 ^ 31) : int32 x = x := by
  unfold int32
  rw [Int.emod_eq_of_lt (by omega) (by omega)]
  omega

/-- Up to `kcc = 644` the length `(2 kcc + 1)^3 - 1` is in the range of `int`. -/
theorem kVectorsLength_fits (kcc : Int) (h1 : 1 ≤ kcc) (h2 : kcc ≤ 644) :
    int32 ((2 * kcc + 1) * (2 * kcc + 1) * (2 * kcc + 1) - 1) =
      (2 * kcc + 1) * (2 * kcc + 1) * (2 * kcc + 1) - 1 := by
  have ha : 0 < 2 * kcc + 1 := by omega
  have hb : 2 * kcc + 1 ≤ 1289 := by omega
  have h3 : (2 * kcc + 1) * (2 * kcc + 1) ≤ 1289 * 1289 := by nlinarith
  have h4 : 0 < (2 * kcc + 1) * (2 * kcc + 1) := by positivity
  have h5 : (2 * kcc + 1) * (2 * kcc + 1) * (2 * kcc + 1) ≤ 1289 * 1289 * 1289 := by nlinarith
  have h6 : 0 < (2 * kcc + 1) * (2 * kcc + 1) * (2 * kcc + 1) := by positivity
  exact int32_of_range _ (by omega) (by omega)

theorem kVectorsLength_room (kcc : Int) (h : 1 ≤ kcc) :
    (kcc + 1 - -kcc).toNat * (kcc + 1 - -kcc).toNat +
        (kcc + 1 - 1).toNat * ((kcc + 1 - -kcc).toNat * (kcc + 1 - -kcc).toNat) ≤
      ((2 * kcc + 1) * (2 * kcc + 1) * (2 * kcc + 1) - 1).toNat := by
  obtain ⟨n, rfl⟩ := Int.eq_ofNat_of_zero_le (by omega : 0 ≤ kcc)
  have hn : 1 ≤ n := by omega
  have e1 : ((n : Int) + 1 - -(n : Int)).toNat = 2 * n + 1 := by omega
  have e2 : ((n : Int) + 1 - 1).toNat = n := by omega
  have e3 : ((2 * (n : Int) + 1) * (2 * n + 1) * (2 * n + 1) - 1).toNat =
      (2 * n + 1) * (2 * n + 1) * (2 * n + 1) - 1 := by
    have : (2 * (n : Int) + 1) * (2 * n + 1) * (2 * n + 1) - 1 =
        (((2 * n + 1) * (2 * n + 1) * (2 * n + 1) - 1 : Nat) : Int) := by
      have h1 : 1 ≤ (2 * n + 1) * (2 * n + 1) * (2 * n + 1) := Nat.one_le_iff_ne_zero.mpr (by positivity)
      push_cast [Nat.cast_sub h1]
      ring
    rw [this, Int.toNat_natCast]
  rw [e1, e2, e3]
  have h2 : 1 ≤ n * ((2 * n + 1) * (2 * n + 1)) := Nat.one_le_iff_ne_zero.mpr (by positivity)
  have h3 : (2 * n + 1) * (2 * n + 1) * (2 * n + 1) =
      (2 * n + 1) * (2 * n + 1) + n * ((2 * n + 1) * (2 * n + 1)) +
        n * ((2 * n + 1) * (2 * n + 1)) := by ring
  omega

theorem kVectorsLength_pos (kcc : Int) (h : 1 ≤ kcc) :
    0 < (2 * kcc + 1) * (2 * kcc + 1) * (2 * kcc + 1) - 1 := by
  have h1 : 0 < 2 * kcc + 1 := by omega
  have h2 : 9 ≤ (2 * kcc + 1) * (2 * kcc + 1) := by nlinarith
  nlinarith

/-- The outcome of `update` for a cutoff from 1 to 644 and `ipbc` off: the loops
have stored, in the order of the visit, the entries of the triples that pass the
two tests, with the factor 1 in the plane `kx = 0` and 2 in the others. -/
theorem update_sweep (M : Numerics R) (box : Point R) (d0 : EwaldData R)
    (hkcc : 1 ≤ d0.kcc) (hfit : d0.kcc ≤ 644) (hipbc : d0.ipbc = false) :
    ∃ w : EwaldData.Sweep R,
      EwaldData.update M box d0 = .ok { EwaldData.boxed M box d0 with
          kVectors := w.kVectors
          Aks := w.Aks
          kVectorsInUse := w.kVectorsInUse
          Qion := resize Tcomplex.zero w.kVectorsInUse d0.Qion
          Qdip := resize Tcomplex.zero w.kVectorsInUse d0.Qdip } ∧
        EwaldData.Holds ((2 * d0.kcc + 1) * (2 * d0.kcc + 1) * (2 * d0.kcc + 1) - 1).toNat
          (((EwaldData.plane d0.kcc 0).filter
                (EwaldData.keeps M (EwaldData.boxed M box d0))).map
              (EwaldData.entryOf M (EwaldData.boxed M box d0) 1) ++
            (((intsFromTo 1 d0.kcc).flatMap (EwaldData.plane d0.kcc)).filter
                (EwaldData.keeps M (EwaldData.boxed M box d0))).map
              (EwaldData.entryOf M (EwaldData.boxed M box d0) 2)) w := by
  have hpos := kVectorsLength_pos d0.kcc hkcc
  have hroom := kVectorsLength_room d0.kcc hkcc
  have hne : ¬ (2 * d0.kcc + 1) * (2 * d0.kcc + 1) * (2 * d0.kcc + 1) - 1 = 0 := by omega
  have hnl : ¬ (2 * d0.kcc + 1) * (2 * d0.kcc + 1) * (2 * d0.kcc + 1) - 1 < 0 := by omega
  have hw0 : EwaldData.Holds ((2 * d0.kcc + 1) * (2 * d0.kcc + 1) * (2 * d0.kcc + 1) - 1).toNat
      ([] : List (Point R × R))
      { kVectors := List.replicate
          ((2 * d0.kcc + 1) * (2 * d0.kcc + 1) * (2 * d0.kcc + 1) - 1).toNat Point.zero
        Aks := List.replicate
          ((2 * d0.kcc + 1) * (2 * d0.kcc + 1) * (2 * d0.kcc + 1) - 1).toNat 0
        kVectorsInUse := 0
        factor := 1 } := by
    refine ⟨?_, ?_, ?_⟩ <;> simp
  obtain ⟨h1, h2⟩ := sweep_fold M (EwaldData.boxed M box d0) _ (EwaldData.plane d0.kcc 0) _ _ hw0
    (by rw [length_plane]; simp only [List.length_nil]; omega)
  have h3 := rounds_pos M (EwaldData.boxed M box d0) d0.kcc _ (intsFromTo 1 d0.kcc)
    (fun kx hkx => by rw [mem_intsFromTo] at hkx; omega) _ _ h1 (by
      simp only [List.nil_append, List.length_map, length_intsFromTo]
      have := List.length_filter_le (EwaldData.keeps M (EwaldData.boxed M box d0))
        (EwaldData.plane d0.kcc 0)
      rw [length_plane] at this
      omega)
  have e : -d0.kcc * (1 - if d0.ipbc = true then 1 else 0) = -d0.kcc := by
    rw [hipbc]
    simp
  refine ⟨_, ?_, h3⟩
  unfold EwaldData.update
  simp only [kVectorsLength_fits d0.kcc hkcc hfit, hne, hnl, if_false]
  rw [intsFromTo_zero d0.kcc (by omega)]
  simp only [List.foldl_cons, lt_self_iff_false, gt_iff_lt, if_false]
  simp only [e]
  rw [plane_fold M _ d0.kcc 0]
  rfl

end KVectorAssembly


section KVectorClaim

variable {R : Type} [LinearOrderedField R]

theorem triples_split (kcc : Int) (h : 0 ≤ kcc) :
    EwaldData.triples kcc =
      EwaldData.plane kcc 0 ++ (intsFromTo 1 kcc).flatMap (EwaldData.plane kcc) := by
  unfold EwaldData.triples
  rw [intsFromTo_zero kcc h, List.flatMap_cons]

theorem entryOf_fst (M : Numerics R) (box : Point R) (d0 : EwaldData R) (f : R)
    (t : Int × Int × Int) :
    (EwaldData.entryOf M (EwaldData.boxed M box d0) f t).1 = EwaldData.kVectorOf M box t := rfl

theorem entryOf_snd (M : Numerics R) (box : Point R) (d0 : EwaldData R) (f : R)
    (t : Int × Int × Int) (halpha2 : d0.alpha2 = d0.alpha * d0.alpha)
    (hf : f = if t.1 > 0 then 2 else 1) :
    (EwaldData.entryOf M (EwaldData.boxed M box d0) f t).2 =
      EwaldData.weightOf M d0.alpha box t := by
  simp only [EwaldData.entryOf, EwaldData.weightOf, EwaldData.boxed, Point.squaredNorm, halpha2,
    hf, pow_two]

/-- The vector of a triple other than zero has a positive squared length. -/
theorem squaredNorm_pos (M : Numerics R) (box : Point R) (t : Int × Int × Int)
    (hpi : 0 < M.pi) (hx : 0 < box.x) (hy : 0 < box.y) (hz : 0 < box.z) (hne : t ≠ (0, 0, 0)) :
    0 < (EwaldData.kVectorOf M box t).squaredNorm := by
  have h1 := (zero_test_iff M box t hpi hx hy hz).not.mpr hne
  have hxm : box.x ≤ box.maxCoeff := le_trans (le_max_left _ _) (le_max_left _ _)
  have hX : 0 < (2 * M.pi / box.maxCoeff) ^ 2 :=
    pow_pos (div_pos (by linarith) (lt_of_lt_of_le hx hxm)) 2
  have h2 : 0 < (1 / 10) * (2 * M.pi / box.maxCoeff) ^ 2 := mul_pos (by norm_num) hX
  exact lt_of_lt_of_le h2 (not_lt.mp h1)

/-- The entries that the loops store are, triple by triple, the vector and the
weight of the statement. -/
theorem entries_eq (M : Numerics R) (box : Point R) (d0 : EwaldData R) (kcc : Int)
    (h : 0 ≤ kcc) (halpha2 : d0.alpha2 = d0.alpha * d0.alpha) (p : Int × Int × Int → Bool) :
    (((EwaldData.plane kcc 0).filter p).map (EwaldData.entryOf M (EwaldData.boxed M box d0) 1) ++
        (((intsFromTo 1 kcc).flatMap (EwaldData.plane kcc)).filter p).map
          (EwaldData.entryOf M (EwaldData.boxed M box d0) 2)).map Prod.fst =
        ((EwaldData.triples kcc).filter p).map (EwaldData.kVectorOf M box) ∧
      (((EwaldData.plane kcc 0).filter p).map (EwaldData.entryOf M (EwaldData.boxed M box d0) 1) ++
        (((intsFromTo 1 kcc).flatMap (EwaldData.plane kcc)).filter p).map
          (EwaldData.entryOf M (EwaldData.boxed M box d0) 2)).map Prod.snd =
        ((EwaldData.triples kcc).filter p).map (EwaldData.weightOf M d0.alpha box) ∧
      (((EwaldData.plane kcc 0).filter p).map (EwaldData.entryOf M (EwaldData.boxed M box d0) 1) ++
        (((intsFromTo 1 kcc).flatMap (EwaldData.plane kcc)).filter p).map
          (EwaldData.entryOf M (EwaldData.boxed M box d0) 2)).length =
        ((EwaldData.triples kcc).filter p).length := by
  rw [triples_split kcc h]
  simp only [List.filter_append, List.map_append, List.map_map, List.length_append,
    List.length_map]
  refine ⟨?_, ?_, trivial⟩
  · rfl
  · congr 1
    · apply List.map_congr_left
      intro t ht
      have h0 : t.1 = 0 := ((mem_plane kcc 0 t).mp (List.mem_filter.mp ht).1).1
      exact entryOf_snd M box d0 1 t halpha2 (by rw [h0]; simp)
    · apply List.map_congr_left
      intro t ht
      have hm := (List.mem_filter.mp ht).1
      rw [List.mem_flatMap] at hm
      obtain ⟨kx, hkx, hp⟩ := hm
      have h0 : t.1 = kx := ((mem_plane kcc kx t).mp hp).1
      have h1 : 1 ≤ kx := ((mem_intsFromTo 1 kcc kx).mp hkx).1
      have h2 : t.1 > 0 := by omega
      exact entryOf_snd M box d0 2 t halpha2 (by rw [if_pos h2])

/-- C27 (the claim fails from `kcc = 645`): the data `qEwaldDataWide` have `alpha = 1`,
`kc = 645 = kcc` and `ipbc` off.  The length `(2 kcc + 1)^3 - 1 = 2151685170` is
beyond the range `< 2^31` of the `int` `kVectorsLength`, which overflows to a negative
number: `update` stores no k-vector set, the `resize` of the matrix is refused. -/
theorem C27_length_overflows_from_kcc_645 :
    qEwaldDataWide.alpha ≠ 0 ∧ 1 ≤ qEwaldDataWide.kcc ∧
    ((qEwaldDataWide.kcc : ℚ) - 1 < qEwaldDataWide.kc ∧
      qEwaldDataWide.kc ≤ qEwaldDataWide.kcc) ∧
    qEwaldDataWide.ipbc = false ∧
    (2 * qEwaldDataWide.kcc + 1) ^ 3 - 1 = 2151685170 ∧ (2 : Int) ^ 31 ≤ 2151685170 ∧
    int32 2151685170 = -2143282126 ∧
    EwaldData.update qNumerics ⟨10, 10, 10⟩ qEwaldDataWide = .error Fault.assertion := by
  refine ⟨?_, ?_, ⟨?_, ?_⟩, rfl, ?_, ?_, ?_, ?_⟩
  · norm_num [qEwaldDataWide, qEwaldData]
  · norm_num [qEwaldDataWide]
  · norm_num [qEwaldDataWide]
  · norm_num [qEwaldDataWide]
  · norm_num [qEwaldDataWide]
  · norm_num
  · norm_num [int32]
  · simp [EwaldData.update, int32, qEwaldDataWide]

/-- C27 (amended): for a box with positive sides, `alpha` other than zero, a cutoff
`kc` with `kcc = ceil(kc) >= 1` (of which the lower bound `kcc - 1 < kc` is what
matters) and `kcc <= 644`, so that the `int` `kVectorsLength` does not overflow,
and `ipbc` off, and the squares `alpha2` and `kc2` as stored by `from_json`,
`update` returns, and what it stores is a list `T` of integer triples without
repetition that holds exactly the admitted triples (`0 <= kx <= kcc`,
`-kcc <= ky, kz <= kcc`, not the zero triple, within the sphere of radius `kc`
when `spherical_sum` is set): `kVectorsInUse` is their number, the vectors in use
are `2*pi*(kx/Lx, ky/Ly, kz/Lz)` for the triples of `T` and the rest of the matrix
is the zero filling, and the weights are `f*exp(-k^2/(4*alpha^2))/k^2` with `f = 1`
for `kx = 0` and `f = 2` for `kx > 0`, neither division being one by zero. -/
theorem C27_update_stores_admitted_vectors (M : Numerics R) (box : Point R) (d : EwaldData R)
    (hpi : 0 < M.pi) (hbox : 0 < box.x ∧ 0 < box.y ∧ 0 < box.z) (halpha : d.alpha ≠ 0)
    (halpha2 : d.alpha2 = d.alpha * d.alpha) (hkcc : 1 ≤ d.kcc) (hfit : d.kcc ≤ 644)
    (hceil : (d.kcc : R) - 1 < d.kc) (hkc2 : d.kc2 = d.kc * d.kc) (hipbc : d.ipbc = false) :
    ∃ (d1 : EwaldData R) (T : List (Int × Int × Int)),
      EwaldData.update M box d = .ok d1 ∧ T.Nodup ∧ (∀ t, t ∈ T ↔ d.Admitted t) ∧
      d1.kVectorsInUse = T.length ∧
      d1.kVectors = T.map (EwaldData.kVectorOf M box) ++
        List.replicate
          (((2 * d.kcc + 1) * (2 * d.kcc + 1) * (2 * d.kcc + 1) - 1).toNat - T.length)
          Point.zero ∧
      d1.Aks = T.map (EwaldData.weightOf M d.alpha box) ++
        List.replicate
          (((2 * d.kcc + 1) * (2 * d.kcc + 1) * (2 * d.kcc + 1) - 1).toNat - T.length) 0 ∧
      d1.Qion.length = T.length ∧ d1.Qdip.length = T.length ∧ d1.L = box ∧
      4 * d.alpha ^ 2 ≠ 0 ∧ ∀ t ∈ T, (EwaldData.kVectorOf M box t).squaredNorm ≠ 0 := by
  obtain ⟨w, hup, hk, ha, hn⟩ := update_sweep M box d hkcc hfit hipbc
  obtain ⟨e1, e2, e3⟩ := entries_eq M box d d.kcc (by omega) halpha2
    (EwaldData.keeps M (EwaldData.boxed M box d))
  have hkc : 0 < d.kc := by
    have : (1 : R) ≤ (d.kcc : R) := by exact_mod_cast hkcc
    linarith
  rw [e1, e3] at hk
  rw [e2, e3] at ha
  rw [e3] at hn
  refine ⟨_, (EwaldData.triples d.kcc).filter (EwaldData.keeps M (EwaldData.boxed M box d)),
    hup, (nodup_triples d.kcc).filter _, ?_, hn, hk, ha, ?_, ?_, rfl,
    mul_ne_zero (by norm_num) (pow_ne_zero 2 halpha), ?_⟩
  · intro t
    rw [List.mem_filter, mem_triples,
      keeps_iff M box d t hpi hbox.1 hbox.2.1 hbox.2.2 hkc hkc2]
    unfold EwaldData.Admitted
    tauto
  · show (resize Tcomplex.zero w.kVectorsInUse d.Qion).length = _
    rw [hn]
    simp only [resize, List.length_append, List.length_take, List.length_replicate]
    omega
  · show (resize Tcomplex.zero w.kVectorsInUse d.Qdip).length = _
    rw [hn]
    simp only [resize, List.length_append, List.length_take, List.length_replicate]
    omega
  · intro t ht
    have hne : t ≠ (0, 0, 0) :=
      ((keeps_iff M box d t hpi hbox.1 hbox.2.1 hbox.2.2 hkc hkc2).mp (List.mem_filter.mp ht).2).1
    exact ne_of_gt (squaredNorm_pos M box t hpi hbox.1 hbox.2.1 hbox.2.2 hne)

/-- C27 (amended) for the data `qEwaldData` (cutoff 1, spherical sum) on a box of
side 10. -/
theorem C27_update_stores_admitted_vectors_witness :
    ∃ (d1 : EwaldData ℚ) (T : List (Int × Int × Int)),
      EwaldData.update qNumerics ⟨10, 10, 10⟩ qEwaldData = .ok d1 ∧ T.Nodup ∧
      (∀ t, t ∈ T ↔ qEwaldData.Admitted t) ∧
      d1.kVectorsInUse = T.length ∧
      d1.kVectors = T.map (EwaldData.kVectorOf qNumerics ⟨10, 10, 10⟩) ++
        List.replicate
          (((2 * qEwaldData.kcc + 1) * (2 * qEwaldData.kcc + 1) * (2 * qEwaldData.kcc + 1) -
            1).toNat - T.length)
          Point.zero ∧
      d1.Aks = T.map (EwaldData.weightOf qNumerics qEwaldData.alpha ⟨10, 10, 10⟩) ++
        List.replicate
          (((2 * qEwaldData.kcc + 1) * (2 * qEwaldData.kcc + 1) * (2 * qEwaldData.kcc + 1) -
            1).toNat - T.length) 0 ∧
      d1.Qion.length = T.length ∧ d1.Qdip.length = T.length ∧ d1.L = ⟨10, 10, 10⟩ ∧
      4 * qEwaldData.alpha ^ 2 ≠ 0 ∧
      ∀ t ∈ T, (EwaldData.kVectorOf qNumerics ⟨10, 10, 10⟩ t).squaredNorm ≠ 0 :=
  C27_update_stores_admitted_vectors qNumerics ⟨10, 10, 10⟩ qEwaldData
    (by norm_num [qNumerics]) ⟨by norm_num, by norm_num, by norm_num⟩
    (by norm_num [qEwaldData]) (by norm_num [qEwaldData]) (by decide) (by decide)
    (by norm_num [qEwaldData]) (by norm_num [qEwaldData]) rfl

end KVectorClaim


section IsobaricTheorems

variable {R : Type} [LinearOrderedField R]

theorem isobaric_loop (gs : List (Group R)) (n : Nat) :
    gs.foldl (fun N g => if g.size ≠ 0 then (if g.atomic then N + g.size else N + 1) else N) n =
      n + (gs.map Isobaric.count).sum := by
  induction gs generalizing n with
  | nil => simp
  | cons g gs ih =>
    simp only [List.foldl_cons, List.map_cons, List.sum_cons, ih, Isobaric.count]
    by_cases h0 : g.size = 0
    · simp [h0]
    · by_cases ha : g.atomic = true
      · simp [h0, ha]; omega
      · simp [h0, ha]; omega

/-- C33: `Isobaric::energy` of a Change with `dV` or `all` set is
`P*V - (N+1)*log(V)`, where `V` is the volume of the state and `N` the sum over the
groups of 0 for an empty group, the size for an atomic group that is not empty and 1
for a molecular group that is not empty; of any other Change it is 0.  The equation
holds for every volume, hence for every `V > 0`. -/
theorem C33_isobaric_energy (M : Numerics R) (spc : Space R) (change : Change)
    (t : Isobaric R) :
    Isobaric.energy M spc change t =
      if change.dV = true ∨ change.all = true then
        t.P * spc.geo.getVolume -
          (((spc.groups.map Isobaric.count).sum : Nat) + 1) * M.log spc.geo.getVolume
      else 0 := by
  simp only [Isobaric.energy, isobaric_loop, Nat.zero_add, Bool.or_eq_true]

end IsobaricTheorems


section EwaldFrameTheorems

variable {R : Type} [LinearOrderedField R]

/-- C32: `Ewald::energy` evaluated with key `OLD` or `NONE`, for any Change and any
state, yields its energy (zero for the empty Change, else self, surface and reciprocal
energy of the data as they are) together with the term exactly as it was: box,
k-vectors, weights and structure factors are untouched, also if the evaluation fails;
for data whose weights cover the structure factors it returns.  With any key the
empty Change leaves the term as it was.  So of the member functions only `energy` with
key `NEW` on a Change that is not empty, `sync` and the constructor assign to the data. -/
theorem C32_energy_leaves_data_unless_new (M : Numerics R) (mem : SpaceRef → Space R)
    (spc : Space R) (change : Change) (e : Ewald R)
    (hk : e.key = keys.OLD ∨ e.key = keys.NONE) :
    Ewald.energy M mem spc change e =
        (if change.empty then (.ok 0 : Except Fault R)
          else (PolicyIonIon.reciprocalEnergy M spc e.data).map fun rec =>
            PolicyIonIon.selfEnergy M spc e.data + PolicyIonIon.surfaceEnergy M spc e.data +
              rec).map (fun u => (u, e)) ∧
      (e.data.Qion.length ≤ e.data.Aks.length →
        ∃ u, Ewald.energy M mem spc change e = .ok (u, e)) ∧
      ∀ e1 : Ewald R, change.empty = true → Ewald.energy M mem spc change e1 = .ok (0, e1) := by
  have hk1 : e.key ≠ keys.NEW := by
    rcases hk with hk | hk <;> rw [hk] <;> decide
  have h1 : Ewald.energy M mem spc change e =
      (if change.empty then (.ok 0 : Except Fault R)
        else (PolicyIonIon.reciprocalEnergy M spc e.data).map fun rec =>
          PolicyIonIon.selfEnergy M spc e.data + PolicyIonIon.surfaceEnergy M spc e.data +
            rec).map (fun u => (u, e)) := by
    unfold Ewald.energy
    by_cases hc : change.empty = true
    · simp only [hc, if_true]
      rfl
    · simp only [hc, hk1, if_false, Bool.false_eq_true]
      cases hr : PolicyIonIon.reciprocalEnergy M spc e.data <;>
        simp [Except.bind, Except.map, hr]
  refine ⟨h1, ?_, ?_⟩
  · intro hs
    rw [h1]
    by_cases hc : change.empty = true
    · exact ⟨0, by simp only [hc, if_true]; rfl⟩
    · obtain ⟨v, hv⟩ := reciprocalEnergy_ok M spc e.data hs
      exact ⟨_, by simp only [hc, if_false, Bool.false_eq_true, hv]; rfl⟩
  · intro e1 hc
    simp only [Ewald.energy, hc, if_true]

/-- C32 for the reference term `qEwaldOld` on the moved state, for a full evaluation. -/
theorem C32_energy_leaves_data_unless_new_witness :
    (qEwaldOld.key = keys.OLD ∨ qEwaldOld.key = keys.NONE) ∧
    ∃ u, Ewald.energy qNumerics qMem qSpaceMoved { dV := false, all := true, groups := [] }
      qEwaldOld = .ok (u, qEwaldOld) :=
  ⟨Or.inl rfl,
    (C32_energy_leaves_data_unless_new qNumerics qMem qSpaceMoved
      { dV := false, all := true, groups := [] } qEwaldOld (Or.inl rfl)).2.1
      (by simp [qEwaldOld, qEwaldDataOne])⟩

end EwaldFrameTheorems


section ConfineTheorems

variable {R : Type} [LinearOrderedField R]

theorem bind_eq_ok {α β : Type} (x : Except Fault α) (f : α → Except Fault β) (b : β)
    (h : x.bind f = .ok b) : ∃ a, x = .ok a ∧ f a = .ok b := by
  cases x with
  | error e => exact absurd h (by simp [Except.bind])
  | ok a => exact ⟨a, rfl, h⟩

theorem map_eq_ok {α β : Type} (x : Except Fault α) (f : α → β) (b : β)
    (h : x.map f = .ok b) : ∃ a, x = .ok a ∧ f a = b := by
  cases x with
  | error e => exact absurd h (by simp [Except.map])
  | ok a => exact ⟨a, rfl, Except.ok.inj h⟩

/-- What the constructor of `Confine` leaves in `type` and `dir`. -/
theorem construct_shape (S : Setup R) (j : Json R) (ref : SpaceRef) (c : Confine R)
    (hc : Confine.construct S j ref = .ok c) :
    (c.type = Variant.sphere ∧ c.dir = ⟨1, 1, 1⟩) ∨
      (c.type = Variant.cylinder ∧ c.dir = ⟨1, 1, 0⟩) ∨ c.type = Variant.cuboid := by
  unfold Confine.construct at hc
  obtain ⟨base, -, hc⟩ := bind_eq_ok _ _ _ hc
  obtain ⟨k0, -, hc⟩ := bind_eq_ok _ _ _ hc
  obtain ⟨type, ht, hc⟩ := bind_eq_ok _ _ _ hc
  obtain ⟨name, -, hv⟩ := bind_eq_ok _ _ _ ht
  cases type with
  | sphere =>
    simp only at hc
    obtain ⟨radius, -, hc⟩ := bind_eq_ok _ _ _ hc
    obtain ⟨origo, -, hc⟩ := bind_eq_ok _ _ _ hc
    obtain ⟨scale, -, hc⟩ := map_eq_ok _ _ _ hc
    subst hc
    exact Or.inl ⟨rfl, rfl⟩
  | cylinder =>
    simp only at hc
    obtain ⟨radius, -, hc⟩ := bind_eq_ok _ _ _ hc
    obtain ⟨origo, -, hc⟩ := bind_eq_ok _ _ _ hc
    obtain ⟨scale, -, hc⟩ := map_eq_ok _ _ _ hc
    subst hc
    exact Or.inr (Or.inl ⟨rfl, rfl⟩)
  | cuboid =>
    simp only at hc
    obtain ⟨low, -, hc⟩ := bind_eq_ok _ _ _ hc
    obtain ⟨high, -, hc⟩ := map_eq_ok _ _ _ hc
    subst hc
    exact Or.inr (Or.inr rfl)
  | none =>
    exfalso
    unfold Confine.variantOf at hv
    split at hv
    · exact absurd (Except.ok.inj hv) (by decide)
    · split at hv
      · exact absurd (Except.ok.inj hv) (by decide)
      · split at hv
        · exact absurd (Except.ok.inj hv) (by decide)
        · exact absurd hv (by simp)

theorem side_eq (u x : R) : (if x > 0 then u + x * x else u) = u + (max 0 x) ^ 2 := by
  by_cases h : x > 0
  · rw [if_pos h, max_eq_right (le_of_lt h)]
    ring
  · rw [if_neg h, max_eq_left (not_lt.mp h)]
    ring

/-- The closure installed by the constructor computes the energy of the statement. -/
theorem func_eq_formula (c : Confine R)
    (h : (c.type = Variant.sphere ∧ c.dir = ⟨1, 1, 1⟩) ∨
      (c.type = Variant.cylinder ∧ c.dir = ⟨1, 1, 0⟩) ∨ c.type = Variant.cuboid) :
    c.func = some (fun a => c.formula a.pos) := by
  rcases h with ⟨ht, hd⟩ | ⟨ht, hd⟩ | ht
  · simp only [Confine.func, ht, Confine.formula, Confine.dist2, hd, Option.some.injEq]
    funext a
    have e : ((c.origo.sub a.pos).cwiseProduct ⟨1, 1, 1⟩).squaredNorm - c.radius * c.radius =
        (c.origo.x - a.pos.x) ^ 2 + (c.origo.y - a.pos.y) ^ 2 + (c.origo.z - a.pos.z) ^ 2 -
          c.radius ^ 2 := by
      simp only [Point.sub, Point.cwiseProduct, Point.squaredNorm, Point.dot]
      ring
    simp only [e, gt_iff_lt, sub_pos]
    split <;> ring
  · simp only [Confine.func, ht, Confine.formula, Confine.dist2, hd, Option.some.injEq]
    funext a
    have e : ((c.origo.sub a.pos).cwiseProduct ⟨1, 1, 0⟩).squaredNorm - c.radius * c.radius =
        (c.origo.x - a.pos.x) ^ 2 + (c.origo.y - a.pos.y) ^ 2 - c.radius ^ 2 := by
      simp only [Point.sub, Point.cwiseProduct, Point.squaredNorm, Point.dot]
      ring
    simp only [e, gt_iff_lt, sub_pos]
    split <;> ring
  · simp only [Confine.func, ht, Confine.formula, Option.some.injEq]
    funext a
    simp only [side_eq, Point.sub]
    ring

/-- Inside or on the boundary of the region the energy of the statement is zero. -/
theorem formula_inside (c : Confine R) (p : Point R) (h : c.Inside p) : c.formula p = 0 := by
  unfold Confine.Inside at h
  unfold Confine.formula
  split at h
  · simp only [if_neg (not_lt.mpr h), gt_iff_lt]
  · simp only [if_neg (not_lt.mpr h), gt_iff_lt]
  · obtain ⟨⟨h1, h2⟩, ⟨h3, h4⟩, h5, h6⟩ := h
    rw [max_eq_left (sub_nonpos.mpr h1), max_eq_left (sub_nonpos.mpr h2),
      max_eq_left (sub_nonpos.mpr h3), max_eq_left (sub_nonpos.mpr h4),
      max_eq_left (sub_nonpos.mpr h5), max_eq_left (sub_nonpos.mpr h6)]
    ring
  · exact absurd h id

/-- With a spring constant that is not negative the energy of the statement is not
negative. -/
theorem formula_nonneg (c : Confine R) (p : Point R) (hk : 0 ≤ c.k) : 0 ≤ c.formula p := by
  have hk2 : 0 ≤ c.k / 2 := div_nonneg hk (by norm_num)
  unfold Confine.formula
  split
  · split
    · rename_i h
      exact mul_nonneg hk2 (le_of_lt (sub_pos.mpr h))
    · exact le_refl 0
  · split
    · rename_i h
      exact mul_nonneg hk2 (le_of_lt (sub_pos.mpr h))
    · exact le_refl 0
  · exact mul_nonneg hk2 (by positivity)
  · exact le_refl 0

/-- C35: the single-particle energy `func` that the constructor of `Confine` installs
is, for every particle: for the sphere `k/2 (|origo - p|^2 - radius^2)` where
`|origo - p|^2 > radius^2` and 0 otherwise, for the cylinder the same without the z
component, for the cuboid `k/2` times the sum over the axes of
`max(0, low - p)^2 + max(0, p - high)^2`.  It is 0 for a particle inside or on the
boundary of the region, and not negative when `k >= 0`. -/
theorem C35_confine_single_particle_energy (S : Setup R) (j : Json R) (ref : SpaceRef)
    (c : Confine R) (hc : Confine.construct S j ref = .ok c) :
    ∃ f : Particle R → R, c.func = some f ∧
      ∀ a : Particle R, f a = c.formula a.pos ∧ (c.Inside a.pos → f a = 0) ∧
        (0 ≤ c.k → 0 ≤ f a) :=
  ⟨fun a => c.formula a.pos, func_eq_formula c (construct_shape S j ref c hc), fun a =>
    ⟨rfl, formula_inside c a.pos, formula_nonneg c a.pos⟩⟩

/-- C35 for the cylinder that the constructor builds from `qConfineConfig`. -/
theorem C35_confine_single_particle_energy_witness :
    Confine.construct qSetup qConfineConfig 0 = .ok qConfineRead ∧
    ∃ f : Particle ℚ → ℚ, qConfineRead.func = some f ∧
      ∀ a : Particle ℚ, f a = qConfineRead.formula a.pos ∧
        (qConfineRead.Inside a.pos → f a = 0) ∧ (0 ≤ qConfineRead.k → 0 ≤ f a) :=
  have h : Confine.construct qSetup qConfineConfig 0 = .ok qConfineRead := by
    simp [Confine.construct, ExternalPotential.construct, qConfineConfig, qSetup, Json.atKey,
      Json.lookup, Json.getVector, Json.getString, Json.getNumber, Json.value,
      Confine.variantOf, Except.bind, Except.map, qConfineRead, List.mapM.loop, pure,
      Except.pure, bind]
  ⟨h, C35_confine_single_particle_energy qSetup qConfineConfig 0 qConfineRead h⟩

end ConfineTheorems


section BondedTheorems

variable {R : Type} [LinearOrderedField R]

theorem bonded_sum_loop (spc : Space R) (v : List (BondData R)) (u : R) :
    v.foldl (fun u b => u + b.energy spc.p spc.geo) u =
      u + (v.map fun b => b.energy spc.p spc.geo).sum := by
  induction v generalizing u with
  | nil => simp
  | cons b v ih =>
    simp only [List.foldl_cons, ih, List.map_cons, List.sum_cons]
    ring

theorem bonded_sum_eq (spc : Space R) (v : List (BondData R)) :
    Bonded.sum spc v = (v.map fun b => b.energy spc.p spc.geo).sum := by
  rw [Bonded.sum, bonded_sum_loop, zero_add]

theorem bonded_all_loop (spc : Space R) (m : List (Nat × List (BondData R))) (u : R) :
    m.foldl (fun u i => u + Bonded.sum spc i.2) u =
      u + (m.map fun e => Bonded.sum spc e.2).sum := by
  induction m generalizing u with
  | nil => simp
  | cons e m ih =>
    simp only [List.foldl_cons, ih, List.map_cons, List.sum_cons]
    ring

theorem bondsAt_cons (e : Nat × List (BondData R)) (m : List (Nat × List (BondData R)))
    (i : Nat) : Bonded.bondsAt (e :: m) i = if e.1 = i then e.2 else Bonded.bondsAt m i := by
  unfold Bonded.bondsAt
  simp only [List.find?_cons]
  by_cases he : e.1 = i
  · simp [he]
  · simp [he]

theorem bondsAt_nil (i : Nat) : Bonded.bondsAt ([] : List (Nat × List (BondData R))) i = [] :=
  rfl

theorem bondsAt_of_lt (m : List (Nat × List (BondData R))) (i : Nat)
    (h : ∀ k ∈ m.map Prod.fst, i < k) : Bonded.bondsAt m i = [] := by
  induction m with
  | nil => rfl
  | cons e m ih =>
    have h1 : i < e.1 := h e.1 (by simp)
    rw [bondsAt_cons, if_neg (by omega)]
    exact ih (fun k hk => h k (by simp only [List.map_cons, List.mem_cons]; exact Or.inr hk))

/-- The access `intra[i]` yields the value stored under `i`. -/
theorem intraAt_fst (m : List (Nat × List (BondData R))) (i : Nat)
    (hs : (m.map Prod.fst).Pairwise (fun a b => a < b)) :
    (Bonded.intraAt i m).1 = Bonded.bondsAt m i := by
  induction m with
  | nil => rfl
  | cons e m ih =>
    simp only [List.map_cons, List.pairwise_cons] at hs
    rw [bondsAt_cons]
    unfold Bonded.intraAt
    by_cases he : e.1 = i
    · simp only [he, if_true]
    · simp only [he, if_false]
      by_cases hl : i < e.1
      · simp only [hl, if_true]
        exact (bondsAt_of_lt m i (fun k hk => lt_trans hl (hs.1 k hk))).symm
      · simp only [hl, if_false]
        exact ih hs.2

theorem mem_keys_intraAt (m : List (Nat × List (BondData R))) (i k : Nat)
    (h : k ∈ (Bonded.intraAt i m).2.map Prod.fst) : k = i ∨ k ∈ m.map Prod.fst := by
  induction m with
  | nil =>
    simp only [Bonded.intraAt, List.map_cons, List.map_nil, List.mem_singleton] at h
    exact Or.inl h
  | cons e m ih =>
    unfold Bonded.intraAt at h
    by_cases he : e.1 = i
    · simp only [he, if_true] at h
      right
      simpa [he] using h
    · simp only [he, if_false] at h
      by_cases hl : i < e.1
      · simp only [hl, if_true, List.map_cons, List.mem_cons] at h
        rcases h with h | h | h
        · exact Or.inl h
        · exact Or.inr (by simp [h])
        · exact Or.inr (by simp only [List.map_cons, List.mem_cons]; exact Or.inr h)
      · simp only [hl, if_false, List.map_cons, List.mem_cons] at h
        rcases h with h | h
        · exact Or.inr (by simp [h])
        · rcases ih h with h1 | h1
          · exact Or.inl h1
          · exact Or.inr (by simp only [List.map_cons, List.mem_cons]; exact Or.inr h1)

/-- The access `intra[i]` keeps the keys of the map in ascending order. -/
theorem intraAt_keyed (m : List (Nat × List (BondData R))) (i : Nat)
    (hs : (m.map Prod.fst).Pairwise (fun a b => a < b)) :
    ((Bonded.intraAt i m).2.map Prod.fst).Pairwise (fun a b => a < b) := by
  induction m with
  | nil => simp [Bonded.intraAt]
  | cons e m ih =>
    have hs0 := hs
    simp only [List.map_cons, List.pairwise_cons] at hs
    unfold Bonded.intraAt
    by_cases he : e.1 = i
    · simp only [he, if_true]
      simpa [he] using hs0
    · simp only [he, if_false]
      by_cases hl : i < e.1
      · simp only [hl, if_true, List.map_cons, List.pairwise_cons]
        refine ⟨?_, hs⟩
        intro k hk
        simp only [List.mem_cons] at hk
        rcases hk with hk | hk
        · rw [hk]; exact hl
        · exact lt_trans hl (hs.1 k hk)
      · simp only [hl, if_false, List.map_cons, List.pairwise_cons]
        refine ⟨?_, ih hs.2⟩
        intro k hk
        rcases mem_keys_intraAt m i k hk with h1 | h1
        · omega
        · exact hs.1 k h1

/-- The access `intra[i]` changes no value of the map: the entry it may add is empty. -/
theorem bondsAt_intraAt (m : List (Nat × List (BondData R))) (i j : Nat)
    (hs : (m.map Prod.fst).Pairwise (fun a b => a < b)) :
    Bonded.bondsAt (Bonded.intraAt i m).2 j = Bonded.bondsAt m j := by
  induction m with
  | nil =>
    simp only [Bonded.intraAt, bondsAt_cons, bondsAt_nil]
    split <;> rfl
  | cons e m ih =>
    have hs0 := hs
    simp only [List.map_cons, List.pairwise_cons] at hs
    unfold Bonded.intraAt
    by_cases he : e.1 = i
    · simp only [he, if_true]
    · simp only [he, if_false]
      by_cases hl : i < e.1
      · simp only [hl, if_true]
        rw [bondsAt_cons (i, [])]
        by_cases hij : i = j
        · simp only [hij, if_true]
          subst hij
          exact (bondsAt_of_lt (e :: m) i (fun k hk => by
            simp only [List.map_cons, List.mem_cons] at hk
            rcases hk with hk | hk
            · rw [hk]; exact hl
            · exact lt_trans hl (hs.1 k hk))).symm
        · simp only [hij, if_false]
      · simp only [hl, if_false]
        rw [bondsAt_cons, bondsAt_cons, ih hs.2]

/-- The loop of `Bonded::energy` over the groups named by the Change. -/
theorem bonded_named_loop (spc : Space R) (m : List (Nat × List (BondData R)))
    (ds : List Change.data) (u : R) (t : Bonded R)
    (hs : (t.intra.map Prod.fst).Pairwise (fun a b => a < b))
    (hm : ∀ j, Bonded.bondsAt t.intra j = Bonded.bondsAt m j) :
    (ds.foldl
      (fun (a : R × Bonded R) d =>
        (a.1 + Bonded.sum spc (Bonded.intraAt d.index a.2.intra).1,
          { a.2 with intra := (Bonded.intraAt d.index a.2.intra).2 })) (u, t)).1 =
      u + (ds.map fun d => Bonded.sum spc (Bonded.bondsAt m d.index)).sum := by
  induction ds generalizing u t with
  | nil => simp
  | cons d ds ih =>
    simp only [List.foldl_cons, List.map_cons, List.sum_cons]
    rw [ih _ _ (intraAt_keyed t.intra d.index hs)
      (fun j => by
        show Bonded.bondsAt (Bonded.intraAt d.index t.intra).2 j = _
        rw [bondsAt_intraAt t.intra d.index j hs, hm j]),
      intraAt_fst t.intra d.index hs, hm d.index]
    ring

/-- Summing the values under the keys of a map is summing over its entries. -/
theorem sum_over_keys (spc : Space R) (m : List (Nat × List (BondData R)))
    (hs : (m.map Prod.fst).Pairwise (fun a b => a < b)) :
    ((m.map Prod.fst).map fun i => Bonded.sum spc (Bonded.bondsAt m i)).sum =
      (m.map fun e => Bonded.sum spc e.2).sum := by
  induction m with
  | nil => rfl
  | cons e m ih =>
    simp only [List.map_cons, List.pairwise_cons] at hs
    simp only [List.map_cons, List.sum_cons, bondsAt_cons, if_true]
    rw [← ih hs.2]
    congr 2
    apply List.map_congr_left
    intro k hk
    have := hs.1 k hk
    rw [if_neg (by omega)]

/-- The value of `Bonded::energy` for a Change that is not empty. -/
theorem bonded_energy_value (spc : Space R) (c : Change) (t : Bonded R)
    (hne : c.empty = false) (hk : t.Keyed) :
    (Bonded.energy spc c t).1 =
      Bonded.sum spc t.inter +
        (if c.all = true ∨ c.dV = true then (t.intra.map fun e => Bonded.sum spc e.2).sum
          else (c.groups.map fun d => Bonded.sum spc (t.intraOf d.index)).sum) := by
  unfold Bonded.energy
  simp only [hne, Bool.false_eq_true, if_false, Bool.or_eq_true]
  by_cases h : c.all = true ∨ c.dV = true
  · simp only [h, if_true, bonded_all_loop]
  · simp only [h, if_false]
    exact bonded_named_loop spc t.intra c.groups _ t hk (fun _ => rfl)

/-- The map that `Bonded::update` builds has one entry for every group, under the
index of the group. -/
theorem update_keys (S : Setup R) (gs : List (Nat × Group R))
    (m : List (Nat × List (BondData R)))
    (h : gs.mapM (fun ig => (S.bonds ig.2.id).map fun bs =>
      (ig.1, bs.map (BondData.shift ig.2.first))) = .ok m) :
    m.map Prod.fst = gs.map Prod.fst := by
  induction gs generalizing m with
  | nil =>
    simp only [List.mapM_nil, pure, Except.pure, Except.ok.injEq] at h
    subst h
    rfl
  | cons g gs ih =>
    rw [List.mapM_cons] at h
    obtain ⟨a, ha, h⟩ := bind_eq_ok _ _ _ h
    obtain ⟨r, hr, h⟩ := bind_eq_ok _ _ _ h
    obtain ⟨bs, -, hb⟩ := map_eq_ok _ _ _ ha
    simp only [pure, Except.pure, Except.ok.injEq] at h
    subst h
    subst hb
    simp only [List.map_cons, ih r hr]

/-- The constructor of `Bonded` leaves a map with the keys `0 .. groups.size()-1`, in
ascending order. -/
theorem construct_keyed (S : Setup R) (j : Json R) (ref : SpaceRef) (spc : Space R)
    (t : Bonded R) (h : Bonded.construct S j ref spc = .ok t) :
    t.intra.map Prod.fst = List.range spc.groups.length ∧ t.Keyed := by
  unfold Bonded.construct at h
  obtain ⟨m, hm, h⟩ := bind_eq_ok _ _ _ h
  obtain ⟨inter, -, h⟩ := map_eq_ok _ _ _ h
  subst h
  have hkeys : m.map Prod.fst = List.range spc.groups.length := by
    rw [update_keys S spc.groups.enum m hm, List.enum_map_fst]
  refine ⟨hkeys, ?_⟩
  show (m.map Prod.fst).Pairwise (fun a b => a < b)
  rw [hkeys]
  exact List.pairwise_lt_range _

/-- C34: for a Change that is not empty and whose group list is free of duplicate
indices (the invariant of a Change), and the map `intra` with its keys in ascending
order (one entry per group, as the constructor leaves it), the energy of
`Bonded::energy` is the sum of the energies of all inter-molecular bonds plus, when
`all` or `dV` is set, the intra-molecular bond energies of every entry of the map, and
otherwise the intra-molecular bond energies of exactly the groups named in the Change,
each named group once.  Hence for a Change that names every group of the map the
energy is that of the Change `all`. -/
theorem C34_bonded_energy (spc : Space R) (c : Change) (t : Bonded R)
    (hne : c.empty = false) (hnd : c.touchedGroupIndex.Nodup) (hk : t.Keyed) :
    (Bonded.energy spc c t).1 =
        Bonded.sum spc t.inter +
          (if c.all = true ∨ c.dV = true then (t.intra.map fun e => Bonded.sum spc e.2).sum
            else (c.touchedGroupIndex.dedup.map fun i => Bonded.sum spc (t.intraOf i)).sum) ∧
      (∀ v : List (BondData R),
        Bonded.sum spc v = (v.map fun b => b.energy spc.p spc.geo).sum) ∧
      ((∀ i, i ∈ c.touchedGroupIndex ↔ i ∈ t.intra.map Prod.fst) →
        (Bonded.energy spc c t).1 =
          (Bonded.energy spc { dV := false, all := true, groups := [] } t).1) := by
  have e : (c.groups.map fun d => Bonded.sum spc (t.intraOf d.index)) =
      c.touchedGroupIndex.map fun i => Bonded.sum spc (Bonded.bondsAt t.intra i) := by
    simp only [Change.touchedGroupIndex, List.map_map]
    rfl
  refine ⟨?_, bonded_sum_eq spc, fun hall => ?_⟩
  · rw [bonded_energy_value spc c t hne hk, hnd.dedup, e]
    rfl
  · have hkn : (t.intra.map Prod.fst).Nodup := List.Pairwise.imp (fun h => ne_of_lt h) hk
    have hp : c.touchedGroupIndex.Perm (t.intra.map Prod.fst) :=
      (List.perm_ext_iff_of_nodup hnd hkn).mpr hall
    rw [bonded_energy_value spc c t hne hk,
      bonded_energy_value spc { dV := false, all := true, groups := [] } t rfl hk]
    simp only [true_or, if_true]
    congr 1
    by_cases h : c.all = true ∨ c.dV = true
    · simp only [h, if_true]
    · simp only [h, if_false]
      rw [← sum_over_keys spc t.intra hk, e]
      exact (hp.map _).sum_eq

/-- C34 for the term `qBondedOne` and the Change that names group 1 and group 0, each
once: the energy of the Change `all`. -/
theorem C34_bonded_energy_witness :
    qChangeEach.empty = false ∧ qChangeEach.touchedGroupIndex.Nodup ∧ qBondedOne.Keyed ∧
    (Bonded.energy qSpace qChangeEach qBondedOne).1 =
      (Bonded.energy qSpace { dV := false, all := true, groups := [] } qBondedOne).1 :=
  ⟨rfl, by decide, by simp [Bonded.Keyed, qBondedOne],
    (C34_bonded_energy qSpace qChangeEach qBondedOne rfl (by decide)
      (by simp [Bonded.Keyed, qBondedOne])).2.2
      (by simp [qChangeEach, Change.touchedGroupIndex, qBondedOne]; omega)⟩

end BondedTheorems

section KVectorAllocationTheorems

variable {R : Type} [LinearOrderedField R]

theorem length_planeFrom (lo hi kx : Int) :
    (EwaldData.planeFrom lo hi kx).length = (hi + 1 - lo).toNat * (hi + 1 - lo).toNat := by
  unfold EwaldData.planeFrom
  rw [List.length_flatMap]
  have e : (List.length ∘ fun (ky : Int) =>
      (intsFromTo lo hi).map fun (kz : Int) => (kx, ky, kz)) =
      fun _ => (hi + 1 - lo).toNat := by
    funext ky
    simp [length_intsFromTo]
  rw [e, List.map_const', List.sum_replicate, length_intsFromTo]
  simp

/-- The two inner loops of `update` for one `kx` are a run over the triples of the
plane of `kx`. -/
theorem planeFrom_fold (M : Numerics R) (d : EwaldData R) (lo hi kx : Int)
    (w : EwaldData.Sweep R) :
    (intsFromTo lo hi).foldl
        (fun w2 ky => (intsFromTo lo hi).foldl (fun w3 kz => EwaldData.visit M d kx ky kz w3) w2)
        w =
      (EwaldData.planeFrom lo hi kx).foldl
        (fun w3 t => EwaldData.visit M d t.1 t.2.1 t.2.2 w3) w := by
  unfold EwaldData.planeFrom
  rw [foldl_flatMap]
  congr 1
  funext w2 ky
  rw [List.foldl_map]

theorem mem_planeFrom (lo hi kx : Int) (t : Int × Int × Int) :
    t ∈ EwaldData.planeFrom lo hi kx ↔
      t.1 = kx ∧ (lo ≤ t.2.1 ∧ t.2.1 ≤ hi) ∧ (lo ≤ t.2.2 ∧ t.2.2 ≤ hi) := by
  obtain ⟨a, b, c⟩ := t
  simp only [EwaldData.planeFrom, List.mem_flatMap, List.mem_map, mem_intsFromTo,
    Prod.mk.injEq]
  constructor
  · rintro ⟨ky, hky, kz, hkz, h1, h2, h3⟩
    subst h1; subst h2; subst h3
    exact ⟨rfl, hky, hkz⟩
  · rintro ⟨h1, h2, h3⟩
    exact ⟨b, h2, c, h3, h1.symm, rfl, rfl⟩

/-- The rounds of the outer loop of `update` for positive values `xs` of `kx`, with
room for every triple visited: the entries of the triples that the tests keep are
stored with the factor 2 behind those stored before, in the order of the visit. -/
theorem rounds_pos_from (M : Numerics R) (d : EwaldData R) (lo hi : Int) (N : Nat)
    (xs : List Int) (hpos : ∀ kx ∈ xs, kx > 0) (w : EwaldData.Sweep R)
    (S : List (Point R × R)) (h : EwaldData.Holds N S w)
    (hlen : S.length + xs.length * ((hi + 1 - lo).toNat * (hi + 1 - lo).toNat) ≤ N) :
    EwaldData.Holds N
      (S ++ ((xs.flatMap (EwaldData.planeFrom lo hi)).filter (EwaldData.keeps M d)).map
        (EwaldData.entryOf M d 2))
      (xs.foldl
        (fun w kx =>
          let w1 : EwaldData.Sweep R := if kx > 0 then { w with factor := 2 } else w
          (intsFromTo lo hi).foldl
            (fun w2 ky =>
              (intsFromTo lo hi).foldl (fun w3 kz => EwaldData.visit M d kx ky kz w3) w2) w1)
        w) := by
  induction xs generalizing w S with
  | nil => simpa using h
  | cons kx xs ih =>
    have hkx : kx > 0 := hpos kx (List.mem_cons_self kx xs)
    simp only [List.foldl_cons, hkx, if_true, planeFrom_fold, List.flatMap_cons,
      List.filter_append, List.map_append]
    simp only [List.length_cons, Nat.succ_mul, Nat.add_mul, Nat.one_mul] at hlen
    obtain ⟨h1, h2⟩ := sweep_fold M d N (EwaldData.planeFrom lo hi kx) { w with factor := 2 } S
      (holds_factor N S w 2 h) (by rw [length_planeFrom]; omega)
    have h3 := ih (fun k hk => hpos k (List.mem_cons_of_mem kx hk)) _ _ h1 (by
      simp only [List.length_append, List.length_map]
      have := List.length_filter_le (EwaldData.keeps M d) (EwaldData.planeFrom lo hi kx)
      rw [length_planeFrom] at this
      omega)
    simp only [planeFrom_fold] at h3
    rw [← List.append_assoc]
    exact h3

theorem room_from (kcc lo : Int) (h : 1 ≤ kcc) (hlo : -kcc ≤ lo) :
    (kcc + 1 - 0).toNat * ((kcc + 1 - lo).toNat * (kcc + 1 - lo).toNat) ≤
      ((2 * kcc + 1) * (2 * kcc + 1) * (2 * kcc + 1) - 1).toNat := by
  have h0 := kVectorsLength_room kcc h
  have e1 : (kcc + 1 - 0).toNat = (kcc + 1 - 1).toNat + 1 := by omega
  have e2 : (kcc + 1 - lo).toNat ≤ (kcc + 1 - -kcc).toNat := by omega
  have e3 := Nat.mul_le_mul e2 e2
  have e4 := Nat.mul_le_mul_left ((kcc + 1 - 1).toNat + 1) e3
  rw [e1]
  calc ((kcc + 1 - 1).toNat + 1) * ((kcc + 1 - lo).toNat * (kcc + 1 - lo).toNat)
      ≤ ((kcc + 1 - 1).toNat + 1) * ((kcc + 1 - -kcc).toNat * (kcc + 1 - -kcc).toNat) := e4
    _ = (kcc + 1 - -kcc).toNat * (kcc + 1 - -kcc).toNat +
          (kcc + 1 - 1).toNat * ((kcc + 1 - -kcc).toNat * (kcc + 1 - -kcc).toNat) := by ring
    _ ≤ _ := h0

theorem startValue_bound (d : EwaldData R) (h : 1 ≤ d.kcc) : -d.kcc ≤ -d.kcc * d.startValue ∧
    -d.kcc * d.startValue ≤ 0 := by
  unfold EwaldData.startValue
  cases d.ipbc
  · simp only [Bool.false_eq_true, if_false, sub_zero, mul_one]
    omega
  · simp only [if_true, sub_self, mul_zero]
    omega

theorem visited_split (d : EwaldData R) (h : 0 ≤ d.kcc) :
    EwaldData.visited d =
      EwaldData.planeFrom (-d.kcc * d.startValue) d.kcc 0 ++
        (intsFromTo 1 d.kcc).flatMap (EwaldData.planeFrom (-d.kcc * d.startValue) d.kcc) := by
  unfold EwaldData.visited
  rw [intsFromTo_zero d.kcc h, List.flatMap_cons]

/-- The outcome of `update` for a cutoff from 1 to 644, whatever `ipbc` and
`spherical_sum`: every triple that the tests keep has its vector and its weight (with
the factor 1 for `kx = 0` and 2 for `kx > 0`) in the arrays, in the order of the
visit, and their number does not exceed the allocated length. -/
theorem update_within (M : Numerics R) (box : Point R) (d0 : EwaldData R)
    (hkcc : 1 ≤ d0.kcc) (hfit : d0.kcc ≤ 644) :
    ∃ w : EwaldData.Sweep R,
      EwaldData.update M box d0 = .ok { EwaldData.boxed M box d0 with
          kVectors := w.kVectors
          Aks := w.Aks
          kVectorsInUse := w.kVectorsInUse
          Qion := resize Tcomplex.zero w.kVectorsInUse d0.Qion
          Qdip := resize Tcomplex.zero w.kVectorsInUse d0.Qdip } ∧
        EwaldData.Holds d0.kVectorsLength.toNat
          ((EwaldData.stored M (EwaldData.boxed M box d0)).map fun t =>
            EwaldData.entryOf M (EwaldData.boxed M box d0) (if t.1 > 0 then 2 else 1) t) w ∧
        (EwaldData.stored M (EwaldData.boxed M box d0)).length ≤ d0.kVectorsLength.toNat := by
  have hpos := kVectorsLength_pos d0.kcc hkcc
  have hlo := startValue_bound d0 hkcc
  have hroom := room_from d0.kcc (-d0.kcc * d0.startValue) hkcc hlo.1
  have hNdef : d0.kVectorsLength =
      (2 * d0.kcc + 1) * (2 * d0.kcc + 1) * (2 * d0.kcc + 1) - 1 := rfl
  have e1 : (d0.kcc + 1 - 0).toNat = (d0.kcc + 1 - 1).toNat + 1 := by omega
  rw [e1, Nat.succ_mul] at hroom
  have hne : ¬ (2 * d0.kcc + 1) * (2 * d0.kcc + 1) * (2 * d0.kcc + 1) - 1 = 0 := by omega
  have hnl : ¬ (2 * d0.kcc + 1) * (2 * d0.kcc + 1) * (2 * d0.kcc + 1) - 1 < 0 := by omega
  have hw0 : EwaldData.Holds d0.kVectorsLength.toNat ([] : List (Point R × R))
      { kVectors := List.replicate d0.kVectorsLength.toNat Point.zero
        Aks := List.replicate d0.kVectorsLength.toNat 0
        kVectorsInUse := 0
        factor := 1 } := by
    refine ⟨?_, ?_, ?_⟩ <;> simp
  have hfl := List.length_filter_le (EwaldData.keeps M (EwaldData.boxed M box d0))
    (EwaldData.planeFrom (-d0.kcc * d0.startValue) d0.kcc 0)
  rw [length_planeFrom] at hfl
  obtain ⟨h1, -⟩ := sweep_fold M (EwaldData.boxed M box d0) _
    (EwaldData.planeFrom (-d0.kcc * d0.startValue) d0.kcc 0) _ _ hw0
    (by rw [length_planeFrom]; simp only [List.length_nil]; omega)
  have h3 := rounds_pos_from M (EwaldData.boxed M box d0) (-d0.kcc * d0.startValue) d0.kcc _
    (intsFromTo 1 d0.kcc) (fun kx hkx => by rw [mem_intsFromTo] at hkx; omega) _ _ h1 (by
      simp only [List.nil_append, List.length_map, length_intsFromTo]
      omega)
  have hS : ((EwaldData.stored M (EwaldData.boxed M box d0)).map fun t =>
      EwaldData.entryOf M (EwaldData.boxed M box d0) (if t.1 > 0 then 2 else 1) t) =
      [] ++ ((EwaldData.planeFrom (-d0.kcc * d0.startValue) d0.kcc 0).filter
          (EwaldData.keeps M (EwaldData.boxed M box d0))).map
        (EwaldData.entryOf M (EwaldData.boxed M box d0) 1) ++
      (((intsFromTo 1 d0.kcc).flatMap
          (EwaldData.planeFrom (-d0.kcc * d0.startValue) d0.kcc)).filter
          (EwaldData.keeps M (EwaldData.boxed M box d0))).map
        (EwaldData.entryOf M (EwaldData.boxed M box d0) 2) := by
    unfold EwaldData.stored
    have hv : EwaldData.visited (EwaldData.boxed M box d0) =
        EwaldData.planeFrom (-d0.kcc * d0.startValue) d0.kcc 0 ++
          (intsFromTo 1 d0.kcc).flatMap
            (EwaldData.planeFrom (-d0.kcc * d0.startValue) d0.kcc) :=
      visited_split (EwaldData.boxed M box d0) (by show (0 : Int) ≤ d0.kcc; omega)
    rw [hv, List.filter_append, List.map_append, List.nil_append]
    congr 1
    · apply List.map_congr_left
      intro t ht
      have h0 : t.1 = 0 := ((mem_planeFrom _ _ 0 t).mp (List.mem_filter.mp ht).1).1
      rw [h0]
      simp
    · apply List.map_congr_left
      intro t ht
      have hm := (List.mem_filter.mp ht).1
      rw [List.mem_flatMap] at hm
      obtain ⟨kx, hkx, hp⟩ := hm
      have h0 : t.1 = kx := ((mem_planeFrom _ _ kx t).mp hp).1
      have h1 : 1 ≤ kx := ((mem_intsFromTo 1 d0.kcc kx).mp hkx).1
      have h2 : t.1 > 0 := by omega
      rw [if_pos h2]
  refine ⟨_, ?_, by rw [hS]; exact h3, ?_⟩
  · unfold EwaldData.update
    simp only [kVectorsLength_fits d0.kcc hkcc hfit, hne, hnl, if_false]
    rw [intsFromTo_zero d0.kcc (by omega)]
    simp only [List.foldl_cons, lt_self_iff_false, gt_iff_lt, if_false]
    rw [planeFrom_fold M _ _ d0.kcc 0]
    rfl
  · have hl := congrArg List.length hS
    simp only [List.length_map, List.length_append, List.length_nil, Nat.zero_add] at hl
    have hfl2 := List.length_filter_le (EwaldData.keeps M (EwaldData.boxed M box d0))
      ((intsFromTo 1 d0.kcc).flatMap (EwaldData.planeFrom (-d0.kcc * d0.startValue) d0.kcc))
    have hlen2 : ((intsFromTo 1 d0.kcc).flatMap
        (EwaldData.planeFrom (-d0.kcc * d0.startValue) d0.kcc)).length =
        (d0.kcc + 1 - 1).toNat *
          ((d0.kcc + 1 - -d0.kcc * d0.startValue).toNat *
            (d0.kcc + 1 - -d0.kcc * d0.startValue).toNat) := by
      rw [List.length_flatMap]
      have e : (List.length ∘ EwaldData.planeFrom (-d0.kcc * d0.startValue) d0.kcc) =
          fun _ => (d0.kcc + 1 - -d0.kcc * d0.startValue).toNat *
            (d0.kcc + 1 - -d0.kcc * d0.startValue).toNat := by
        funext kx
        simp [length_planeFrom]
      rw [e, List.map_const', List.sum_replicate, length_intsFromTo]
      simp
    show (EwaldData.stored M (EwaldData.boxed M box d0)).length ≤
      ((2 * d0.kcc + 1) * (2 * d0.kcc + 1) * (2 * d0.kcc + 1) - 1).toNat
    omega

theorem mem_visited (d : EwaldData R) (t : Int × Int × Int) :
    t ∈ EwaldData.visited d ↔
      (0 ≤ t.1 ∧ t.1 ≤ d.kcc) ∧
        (-d.kcc * d.startValue ≤ t.2.1 ∧ t.2.1 ≤ d.kcc) ∧
        (-d.kcc * d.startValue ≤ t.2.2 ∧ t.2.2 ≤ d.kcc) := by
  simp only [EwaldData.visited, List.mem_flatMap, mem_intsFromTo, mem_planeFrom]
  constructor
  · rintro ⟨kx, hkx, h1, h2, h3⟩
    rw [h1]
    exact ⟨hkx, h2, h3⟩
  · rintro ⟨h1, h2, h3⟩
    exact ⟨t.1, h1, rfl, h2, h3⟩

/-- The vector of the triple `(1, 0, 0)` is stored unless the sum is spherical with
`kc2 < 1`. -/
theorem unit_vector_stored (M : Numerics R) (box : Point R) (d0 : EwaldData R)
    (hpi : 0 < M.pi) (hbox : 0 < box.x ∧ 0 < box.y ∧ 0 < box.z) (hkcc : 1 ≤ d0.kcc)
    (hs : d0.spherical_sum = false ∨ 1 ≤ d0.kc2) :
    (1, 0, 0) ∈ EwaldData.stored M (EwaldData.boxed M box d0) := by
  have hlo := startValue_bound d0 hkcc
  unfold EwaldData.stored
  rw [List.mem_filter, mem_visited]
  refine ⟨⟨⟨by norm_num, hkcc⟩, ⟨hlo.2, by show (0 : Int) ≤ d0.kcc; omega⟩,
    ⟨hlo.2, by show (0 : Int) ≤ d0.kcc; omega⟩⟩, ?_⟩
  have hz := (zero_test_iff M box (1, 0, 0) hpi hbox.1 hbox.2.1 hbox.2.2).not.mpr (by decide)
  simp only [EwaldData.keeps, EwaldData.boxed, Bool.and_eq_true, Bool.not_eq_true',
    decide_eq_false_iff_not, Bool.and_eq_false_iff, decide_eq_true_eq]
  refine ⟨hz, ?_⟩
  rcases hs with hs | hs
  · exact Or.inl hs
  · right
    have hpos : (0 : R) < d0.kc2 := lt_of_lt_of_le one_pos hs
    have h1 : (1 : R) / d0.kc2 ≤ 1 := (div_le_one hpos).mpr hs
    simp only [mul_one, mul_zero, Int.cast_one, Int.cast_zero, zero_div, add_zero, gt_iff_lt,
      not_lt]
    exact h1

/-- C31 (the claim fails for a spherical sum with a cutoff below one): the
configuration `qEwaldConfigHalf` with `cutoffK = 1/2` is read as `kcc = 1`, and on the
box of side 10 `update` stores no vector: `kVectorsInUse` is 0.  And for `kcc = 645`
(the data `qEwaldDataWide`) the allocated length is not `(2 kcc + 1)^3 - 1`: the `int`
`kVectorsLength` overflows to a negative number and the `resize` is refused. -/
theorem C31_no_vector_stored_for_cutoff_below_one :
    EwaldData.from_json qSetup qEwaldConfigHalf EwaldData.fresh = .ok qEwaldReadHalf ∧
    qEwaldReadHalf.kcc = 1 ∧
    (EwaldData.update qNumerics ⟨10, 10, 10⟩ qEwaldReadHalf).map
      (fun d => d.kVectorsInUse) = .ok 0 ∧
    qEwaldDataWide.kcc = 645 ∧
    EwaldData.update qNumerics ⟨10, 10, 10⟩ qEwaldDataWide = .error Fault.assertion := by
  have hceil : ⌈(2⁻¹ : ℚ)⌉ = 1 := Int.ceil_eq_iff.mpr ⟨by norm_num, by norm_num⟩
  refine ⟨?_, rfl, ?_, rfl, by simp [EwaldData.update, int32, qEwaldDataWide]⟩
  · simp [EwaldData.from_json, qEwaldConfigHalf, Json.atKey, Json.lookup, Json.getNumber,
      Json.value, Except.bind, Except.map, qEwaldReadHalf, qSetup, hceil]
  · simp [EwaldData.update, int32, qNumerics, qEwaldReadHalf, EwaldData.fresh, intsFromTo,
      List.range,
      List.range.loop, EwaldData.visit, Point.maxCoeff, Point.smul, Point.dot, resize,
      Point.zero, Except.map]
    norm_num

/-- C31 (amended): for `1 <= kcc <= 644`, so that the `int` `kVectorsLength` does not
overflow, either value of `spherical_sum` and of `ipbc` and a box with positive
sides, `update` returns; the matrix of vectors and the vector of
weights have the allocated length `(2 kcc + 1)^3 - 1`; every triple that the tests
keep has its vector in the matrix and its weight in the vector of weights, at the
place of its rank among the kept triples, so that no store went beyond the
allocation; `kVectorsInUse` is the number of these triples and does not exceed the
allocated length; `Qion` and `Qdip` have the length `kVectorsInUse`; `updateComplex`
and `reciprocalEnergy` run on the result without leaving the arrays.
`kVectorsInUse >= 1` holds when `spherical_sum` is off or `kc2 >= 1`. -/
theorem C31_update_stays_within_allocation (M : Numerics R) (box : Point R) (d : EwaldData R)
    (hpi : 0 < M.pi) (hbox : 0 < box.x ∧ 0 < box.y ∧ 0 < box.z) (hkcc : 1 ≤ d.kcc)
    (hfit : d.kcc ≤ 644) :
    ∃ d1 : EwaldData R, EwaldData.update M box d = .ok d1 ∧
      (d1.kVectors.length : Int) = (2 * d.kcc + 1) ^ 3 - 1 ∧
      (d1.Aks.length : Int) = (2 * d.kcc + 1) ^ 3 - 1 ∧
      d1.kVectorsInUse = (EwaldData.stored M (EwaldData.boxed M box d)).length ∧
      d1.kVectors.take d1.kVectorsInUse =
        (EwaldData.stored M (EwaldData.boxed M box d)).map (EwaldData.kVectorOf M box) ∧
      d1.Aks.take d1.kVectorsInUse =
        ((EwaldData.stored M (EwaldData.boxed M box d)).map fun t =>
          (EwaldData.entryOf M (EwaldData.boxed M box d) (if t.1 > 0 then 2 else 1) t).2) ∧
      (d1.kVectorsInUse : Int) ≤ (2 * d.kcc + 1) ^ 3 - 1 ∧
      d1.Qion.length = d1.kVectorsInUse ∧ d1.Qdip.length = d1.kVectorsInUse ∧
      (∀ spc : Space R, (∃ d2, PolicyIonIon.updateComplex M spc d1 = .ok d2) ∧
        ∃ v, PolicyIonIon.reciprocalEnergy M spc d1 = .ok v) ∧
      (d.spherical_sum = false ∨ 1 ≤ d.kc2 → 1 ≤ d1.kVectorsInUse) := by
  obtain ⟨w, hup, ⟨hk, ha, hn⟩, hle⟩ := update_within M box d hkcc hfit
  simp only [List.map_map, List.length_map] at hk ha hn
  have hpos := kVectorsLength_pos d.kcc hkcc
  have hN : (d.kVectorsLength.toNat : Int) = (2 * d.kcc + 1) ^ 3 - 1 := by
    have hp : 0 ≤ d.kVectorsLength := le_of_lt hpos
    rw [Int.toNat_of_nonneg hp]
    unfold EwaldData.kVectorsLength
    ring
  have hkl : w.kVectors.length = d.kVectorsLength.toNat := by
    rw [hk]
    simp only [List.length_append, List.length_map, List.length_replicate]
    omega
  have hal : w.Aks.length = d.kVectorsLength.toNat := by
    rw [ha]
    simp only [List.length_append, List.length_map, List.length_replicate]
    omega
  have hq : (resize Tcomplex.zero w.kVectorsInUse d.Qion).length = w.kVectorsInUse := by
    simp only [resize, List.length_append, List.length_take, List.length_replicate]
    omega
  have hqd : (resize Tcomplex.zero w.kVectorsInUse d.Qdip).length = w.kVectorsInUse := by
    simp only [resize, List.length_append, List.length_take, List.length_replicate]
    omega
  refine ⟨_, hup, ?_, ?_, ?_, ?_, ?_, ?_, hq, hqd, ?_, ?_⟩
  · show (w.kVectors.length : Int) = _
    rw [hkl, hN]
  · show (w.Aks.length : Int) = _
    rw [hal, hN]
  · exact hn
  · show w.kVectors.take w.kVectorsInUse = _
    rw [hk, hn]
    have e : (Prod.fst ∘ fun t =>
        EwaldData.entryOf M (EwaldData.boxed M box d) (if t.1 > 0 then 2 else 1) t) =
        EwaldData.kVectorOf M box := rfl
    rw [e]
    have : ((EwaldData.stored M (EwaldData.boxed M box d)).map
        (EwaldData.kVectorOf M box)).length =
        (EwaldData.stored M (EwaldData.boxed M box d)).length := List.length_map _ _
    rw [← this, List.take_left]
  · show w.Aks.take w.kVectorsInUse = _
    rw [ha, hn]
    have e : (Prod.snd ∘ fun t =>
        EwaldData.entryOf M (EwaldData.boxed M box d) (if t.1 > 0 then 2 else 1) t) =
        fun t => (EwaldData.entryOf M (EwaldData.boxed M box d) (if t.1 > 0 then 2 else 1) t).2 :=
      rfl
    rw [e]
    have : ((EwaldData.stored M (EwaldData.boxed M box d)).map fun t =>
        (EwaldData.entryOf M (EwaldData.boxed M box d) (if t.1 > 0 then 2 else 1) t).2).length =
        (EwaldData.stored M (EwaldData.boxed M box d)).length := List.length_map _ _
    rw [← this, List.take_left]
  · show (w.kVectorsInUse : Int) ≤ _
    rw [← hN, hn]
    exact_mod_cast hle
  · intro spc
    constructor
    · obtain ⟨Q, hQ, -⟩ := updateComplex_loop_spec M spc (List.range w.kVectorsInUse)
        { EwaldData.boxed M box d with
          kVectors := w.kVectors
          Aks := w.Aks
          kVectorsInUse := w.kVectorsInUse
          Qion := resize Tcomplex.zero w.kVectorsInUse d.Qion
          Qdip := resize Tcomplex.zero w.kVectorsInUse d.Qdip }
        (fun k hk1 => by
          rw [List.mem_range] at hk1
          constructor
          · show k < w.kVectors.length
            rw [hkl]
            omega
          · show k < (resize Tcomplex.zero w.kVectorsInUse d.Qion).length
            rw [hq]
            exact hk1)
      exact ⟨_, hQ⟩
    · apply reciprocalEnergy_ok
      show (resize Tcomplex.zero w.kVectorsInUse d.Qion).length ≤ w.Aks.length
      rw [hq, hal]
      omega
  · intro hs
    show 1 ≤ w.kVectorsInUse
    rw [hn]
    exact List.length_pos_of_mem (unit_vector_stored M box d hpi hbox hkcc hs)

/-- C31 (amended) for the data `qEwaldDataIpbc` (cutoff 1, `ipbc` set, no spherical
sum) on a box of side 10. -/
theorem C31_update_stays_within_allocation_witness :
    ∃ d1 : EwaldData ℚ, EwaldData.update qNumerics ⟨10, 10, 10⟩ qEwaldDataIpbc = .ok d1 ∧
      (d1.kVectors.length : Int) = (2 * qEwaldDataIpbc.kcc + 1) ^ 3 - 1 ∧
      (d1.Aks.length : Int) = (2 * qEwaldDataIpbc.kcc + 1) ^ 3 - 1 ∧
      d1.kVectorsInUse =
        (EwaldData.stored qNumerics
          (EwaldData.boxed qNumerics ⟨10, 10, 10⟩ qEwaldDataIpbc)).length ∧
      d1.kVectors.take d1.kVectorsInUse =
        (EwaldData.stored qNumerics (EwaldData.boxed qNumerics ⟨10, 10, 10⟩ qEwaldDataIpbc)).map
          (EwaldData.kVectorOf qNumerics ⟨10, 10, 10⟩) ∧
      d1.Aks.take d1.kVectorsInUse =
        ((EwaldData.stored qNumerics
          (EwaldData.boxed qNumerics ⟨10, 10, 10⟩ qEwaldDataIpbc)).map fun t =>
          (EwaldData.entryOf qNumerics (EwaldData.boxed qNumerics ⟨10, 10, 10⟩ qEwaldDataIpbc)
            (if t.1 > 0 then 2 else 1) t).2) ∧
      (d1.kVectorsInUse : Int) ≤ (2 * qEwaldDataIpbc.kcc + 1) ^ 3 - 1 ∧
      d1.Qion.length = d1.kVectorsInUse ∧ d1.Qdip.length = d1.kVectorsInUse ∧
      (∀ spc : Space ℚ, (∃ d2, PolicyIonIon.updateComplex qNumerics spc d1 = .ok d2) ∧
        ∃ v, PolicyIonIon.reciprocalEnergy qNumerics spc d1 = .ok v) ∧
      (qEwaldDataIpbc.spherical_sum = false ∨ 1 ≤ qEwaldDataIpbc.kc2 → 1 ≤ d1.kVectorsInUse) :=
  C31_update_stays_within_allocation qNumerics ⟨10, 10, 10⟩ qEwaldDataIpbc
    (by norm_num [qNumerics]) ⟨by norm_num, by norm_num, by norm_num⟩ (by decide) (by decide)

end KVectorAllocationTheorems


end Faunus
